import Mathlib

/-!
# jingo: plan compiler and plan interpreter

A shallow embedding of `ptrconvert.go` and `structencoder.go`.

* Go `string` and `[]byte` are lists of bytes.
* `unsafe.Pointer` arithmetic `p + offset` is the selection of a field of a
  struct value; the offset of a field is its index in the struct.
* Closures stored in an instruction are kept as data (which function was
  captured, over which variables) and are run by the interpreter.
* A Go panic is an error result; functions that may recurse without bound take
  a fuel argument.
* The sink `Buffer` (`buffer.go` is absent) is modelled from the spec as the bytes
  written so far: `Write`, `WriteByte` and `WriteString` append to them.
* The slice encoder (`sliceencoder.go` is absent) is modelled from the spec; its
  definitions say so.
-/

namespace Jingo

/-! ## Bytes and the sink -/

/-- Contents of a Go `string` or `[]byte`. -/
abbrev Bytes := List UInt8

/-- Bytes of an ASCII string literal. -/
def bs (s : String) : Bytes := s.data.map (fun c => c.toNat.toUInt8)

/-! ## ptrconvert.go: the string escaper -/

/-- Go slice expression `s[lo:hi]`. -/
def slice (s : Bytes) (lo hi : Nat) : Bytes := (s.take hi).drop lo

/-- Body of the `for` loop of `ptrEscapeStringToBuf` at index `i`; the state is
the cursor `pos` and the sink. -/
def escapeStep (s : Bytes) (st : Nat × Bytes) (i : Nat) : Nat × Bytes :=
  let pos := st.1
  let w := st.2
  let c := s.getD i 0
  if c = 92 ∨ c = 34 then
    let w := if pos < i then w ++ slice s pos i else w
    (i + 1, (w ++ [92]) ++ [c])
  else if c = 10 then
    let w := if pos < i then w ++ slice s pos i else w
    (i + 1, w ++ [92, 110])
  else if c = 13 then
    let w := if pos < i then w ++ slice s pos i else w
    (i + 1, w ++ [92, 114])
  else if c = 9 then
    let w := if pos < i then w ++ slice s pos i else w
    (i + 1, w ++ [92, 116])
  else (pos, w)

/-- The function `ptrEscapeStringToBuf`: the string read through the pointer is `s`,
the sink holds `w`. -/
def ptrEscapeStringToBuf (s : Bytes) (w : Bytes) : Bytes :=
  let st := (List.range s.length).foldl (escapeStep s) (0, w)
  if st.1 < s.length then st.2 ++ s.drop st.1 else st.2

/-- The escape of one byte: two bytes for the five special bytes, the byte itself
otherwise. -/
def escapeByte (c : UInt8) : Bytes :=
  if c = 92 then [92, 92]
  else if c = 34 then [92, 34]
  else if c = 10 then [92, 110]
  else if c = 13 then [92, 114]
  else if c = 9 then [92, 116]
  else [c]

/-- JSON string un-escaping of the contents of a string, restricted to the five
escapes the escaper emits: a byte stands for itself, except that an unescaped
control byte or double quote, any other escape, and a backslash at the end are
rejected. -/
def jsonUnescape : Bytes → Option Bytes
  | [] => some []
  | 92 :: c :: rest =>
    if c = 92 then (jsonUnescape rest).map (92 :: ·)
    else if c = 34 then (jsonUnescape rest).map (34 :: ·)
    else if c = 110 then (jsonUnescape rest).map (10 :: ·)
    else if c = 114 then (jsonUnescape rest).map (13 :: ·)
    else if c = 116 then (jsonUnescape rest).map (9 :: ·)
    else none
  | [92] => none
  | c :: rest => if c.toNat < 32 ∨ c = 34 then none else (jsonUnescape rest).map (c :: ·)


/-! ## The sink and strconv -/

/-- The four bytes `null`. -/
def null : Bytes := bs "null"

def btrue : Bytes := bs "true"

def bfalse : Bytes := bs "false"

/-- Decimal digits of `n`, most significant first, pushed in front of `acc`; `fuel`
bounds the number of digits. -/
def digitsAux : Nat → Nat → Bytes → Bytes
  | 0, _, acc => acc
  | fuel + 1, n, acc =>
    let acc := (48 + n % 10).toUInt8 :: acc
    if n / 10 = 0 then acc else digitsAux fuel (n / 10) acc

/-- The call `strconv.AppendUint(dst, n, 10)`. -/
def AppendUint (dst : Bytes) (n : Nat) : Bytes := dst ++ digitsAux (n + 1) n []

/-- The call `strconv.AppendInt(dst, i, 10)`. -/
def AppendInt (dst : Bytes) (i : Int) : Bytes :=
  if i < 0 then AppendUint (dst ++ [45]) i.natAbs else AppendUint dst i.toNat

/-! ## structencoder.go: tags -/

/-- The call `strings.Index(s, ",")`, with `-1` when there is no comma. -/
def indexComma (s : Bytes) : Int := if (44 : UInt8) ∈ s then (s.indexOf (44 : UInt8) : Nat) else -1

/-- The string following a comma in a field's json tag. -/
abbrev tagOptions := Bytes

/-- The function `parseTag`. -/
def parseTag (tag : Bytes) : Bytes × tagOptions :=
  let idx := indexComma tag
  if idx ≠ -1 then (tag.take idx.toNat, tag.drop (idx.toNat + 1)) else (tag, [])

/-- The `for s != ""` loop of `tagOptions.Contains`; `none` when the fuel runs out. -/
def containsLoop : Nat → Bytes → Bytes → Option Bool
  | 0, _, _ => none
  | fuel + 1, s, optionName =>
    if s = [] then some false
    else
      let i := indexComma s
      let s1 := if i ≥ 0 then s.take i.toNat else s
      let next : Bytes := if i ≥ 0 then s.drop (i.toNat + 1) else []
      if s1 = optionName then some true else containsLoop fuel next optionName

/-- The method `tagOptions.Contains`. -/
def tagOptions.Contains (o : tagOptions) (optionName : Bytes) : Bool :=
  if o.length = 0 then false else containsLoop (o.length + 1) o optionName == some true

/-! ## Types and values (package reflect) -/

/-- The type `reflect.Kind`. -/
inductive Kind where
  | Invalid | Bool | Int | Int8 | Int16 | Int32 | Int64
  | Uint | Uint8 | Uint16 | Uint32 | Uint64 | Uintptr
  | Float32 | Float64 | Complex64 | Complex128
  | Array | Chan | Func | Interface | Map | Ptr | Slice | String | Struct | UnsafePointer
  deriving DecidableEq, Repr

/-- A Go type as `reflect.Type` shows it. `basic k` is a type of a kind without
element types of interest (bool, the numeric kinds, string, and the kinds jingo
rejects); struct types are declared in a type environment and named by number, so
that a struct can refer to itself through a pointer. -/
inductive GoType where
  | basic (k : Kind)
  | ptr (elem : GoType)
  | slice (elem : GoType)
  | array (len : Nat) (elem : GoType)
  | struct (id : Nat)
  | time
  | escapeString
  deriving DecidableEq, Repr

/-- The method `Type.Kind`. -/
def GoType.Kind : GoType → Kind
  | .basic k => k
  | .ptr _ => .Ptr
  | .slice _ => .Slice
  | .array _ _ => .Array
  | .struct _ => .Struct
  | .time => .Struct
  | .escapeString => .String

/-- A value in memory. Floats and times carry the text that strconv and
`time.AppendFormat` produce for them, and whether they compare equal to zero. -/
inductive Value where
  | bool (b : Bool)
  | int (i : Int)
  | uint (n : Nat)
  | float (zero : Bool) (text : Bytes)
  | str (s : Bytes)
  | time (zero : Bool) (text : Bytes)
  | ptr (p : Option Value)
  | slice (xs : List Value)
  | array (xs : List Value)
  | struct (fs : List Value)
  | other (zero : Bool)

/-- Method set of a field's type, as far as the compiler and its closures ask. -/
structure Methods where
  /-- `reflect.ValueOf(t).Field(i).MethodByName("String")` is valid. -/
  hasString : Bool
  /-- `PtrTo(base).MethodByName("EncodeJSON")` finds a method. -/
  hasEncodeJSON : Bool
  /-- The assertion to `fmt.Stringer` on a pointer to the base type, and the text. -/
  asStringer : Option (Value → Bytes)
  /-- The assertion to `JSONEncoder`, and what `JSONEncode` writes. -/
  asJSONEncoder : Option (Value → Bytes)
  /-- The assertion to `JSONMarshaler`, and what `EncodeJSON` writes. -/
  asJSONMarshaler : Option (Value → Bytes)

/-- A type without methods. -/
def Methods.none : Methods := ⟨false, false, Option.none, Option.none, Option.none⟩

/-- The type `reflect.StructField`; `Tag` is `Tag.Get("json")` and the offset of a
field is its index. -/
structure StructField where
  Name : Bytes
  exported : Bool
  Typ : GoType
  Tag : Bytes
  methods : Methods

instance : Inhabited StructField := ⟨⟨[], true, .basic .Invalid, [], Methods.none⟩⟩

/-- Declared struct types. -/
abbrev TypeEnv := Nat → List StructField

/-- Fields of `time.Time`, none of them tagged. -/
def timeFields : List StructField :=
  [⟨bs "wall", false, .basic .Uint64, [], Methods.none⟩,
   ⟨bs "ext", false, .basic .Int64, [], Methods.none⟩,
   ⟨bs "loc", false, .ptr (.basic .Struct), [], Methods.none⟩]

/-- A Go panic, or fuel exhausted. -/
inductive Err where
  | panic (msg : Bytes)
  | timeout

abbrev Res := Except Err

/-- The fields `Type.NumField` and `Type.Field` range over; they panic on a type
that is not a struct. -/
def structFields (env : TypeEnv) : GoType → Res (List StructField)
  | .struct id => pure (env id)
  | .time => pure timeFields
  | _ => throw (.panic (bs "reflect: NumField of non-struct type"))

/-- The method `Type.Elem`. -/
def GoType.Elem : GoType → Res GoType
  | .ptr t => pure t
  | .slice t => pure t
  | .array _ t => pure t
  | _ => throw (.panic (bs "reflect: Elem of invalid type"))

/-- Whether values of a type can be compared with `==`. -/
def comparable (env : TypeEnv) : Nat → GoType → Option Bool
  | 0, _ => none
  | _ + 1, .basic k => some (k ≠ .Map ∧ k ≠ .Func ∧ k ≠ .Slice)
  | _ + 1, .ptr _ => some true
  | _ + 1, .slice _ => some false
  | n + 1, .array _ elem => comparable env n elem
  | n + 1, .struct id => (env id).allM (fun f => comparable env n f.Typ)
  | _ + 1, .time => some true
  | _ + 1, .escapeString => some true

mutual
/-- The value equals the zero value of its type under `==`. -/
def Value.eqZero : Value → Bool
  | .bool b => !b
  | .int i => i == 0
  | .uint n => n == 0
  | .float z _ => z
  | .str s => s.isEmpty
  | .time z _ => z
  | .ptr p => p.isNone
  | .slice xs => xs.isEmpty
  | .array xs => Value.allEqZero xs
  | .struct fs => Value.allEqZero fs
  | .other z => z
/-- All values of a list equal their zero value. -/
def Value.allEqZero : List Value → Bool
  | [] => true
  | v :: vs => v.eqZero && Value.allEqZero vs
end

/-- The interface value handed to `NewStructEncoder`, apart from its type: the
zero value `T{}`, or a given value. -/
inductive ShapeVal where
  | zero
  | val (v : Value)

/-- The call `reflect.ValueOf(t).Field(i)`. -/
def ShapeVal.Field : ShapeVal → Nat → Res ShapeVal
  | .zero, _ => pure .zero
  | .val (.struct fs), i =>
    match fs[i]? with
    | some v => pure (.val v)
    | Option.none => throw (.panic (bs "reflect: Field index out of range"))
  | .val _, _ => throw (.panic (bs "reflect: call of reflect.Value.Field on non-struct Value"))

def ShapeVal.eqZero : ShapeVal → Bool
  | .zero => true
  | .val v => v.eqZero

/-- The comparison `e.t == inf` of two interface values, `inf` being the zero value
of type `elem`. -/
def ifaceEqZero (env : TypeEnv) (fuel : Nat) (tt : GoType) (tv : ShapeVal) (elem : GoType) :
    Res Bool :=
  if tt ≠ elem then pure false
  else match comparable env fuel elem with
    | Option.none => throw .timeout
    | some false => throw (.panic (bs "runtime error: comparing uncomparable type"))
    | some true => pure tv.eqZero

/-! ## Instructions -/

/-- The functions of `ptrconvert.go` and the `conv` closures of `structencoder.go`
that an instruction can hold. The closures of `optInstrStringer`, `optInstrEncoder`
and `optInstrEncoderWriter` capture the base type `t`, that is the outcome of their
type assertion. -/
inductive Conv where
  | ptrBoolToBuf | ptrIntToBuf | ptrInt8ToBuf | ptrInt16ToBuf | ptrInt32ToBuf | ptrInt64ToBuf
  | ptrUintToBuf | ptrUint8ToBuf | ptrUint16ToBuf | ptrUint32ToBuf | ptrUint64ToBuf
  | ptrFloat32ToBuf | ptrFloat64ToBuf | ptrStringToBuf | ptrTimeToBuf | ptrEscapeStringToBuf
  | stringer (m : Option (Value → Bytes))
  | encoder (m : Option (Value → Bytes))
  | encoderWriter (m : Option (Value → Bytes))
  | raw

/-- The map `typeconv`. -/
def typeconv : Kind → Option Conv
  | .Bool => some .ptrBoolToBuf
  | .Int => some .ptrIntToBuf
  | .Int8 => some .ptrInt8ToBuf
  | .Int16 => some .ptrInt16ToBuf
  | .Int32 => some .ptrInt32ToBuf
  | .Int64 => some .ptrInt64ToBuf
  | .Uint => some .ptrUintToBuf
  | .Uint8 => some .ptrUint8ToBuf
  | .Uint16 => some .ptrUint16ToBuf
  | .Uint32 => some .ptrUint32ToBuf
  | .Uint64 => some .ptrUint64ToBuf
  | .Float32 => some .ptrFloat32ToBuf
  | .Float64 => some .ptrFloat64ToBuf
  | .String => some .ptrStringToBuf
  | _ => none

/-- Modelled from the spec: the plan of a sequence (`sliceencoder.go` is absent), by
the way one element is written. "Primitive elements use converters inline;
optional-reference elements null-check before dispatch; aggregate-shaped elements
compile one shared element sub-plan, reused for every element." -/
inductive ElemPlan (I : Type) where
  | conv (c : Conv) (quoted : Bool)
  | ptr (inner : ElemPlan I)
  | struct (plan : List I)
  | slice (elem : ElemPlan I)

/-- The closures that `structencoder.go` stores in the field `fun`, with the
variables they capture. In `ptrStruct`, `none` stands for `enc = e`: the encoder
under construction. -/
inductive Fun (I : Type) where
  | ptrval (conv : Conv) (offset : Nat)
  | ptrstringval (conv : Conv) (offset : Nat)
  | escapeSlice (enc : ElemPlan I) (offset : Nat)
  | arrayElem (conv : Conv) (offset : Nat) (i : Nat)
  | sliceField (enc : ElemPlan I) (offset : Nat)
  | ptrStruct (enc : Option (List I)) (offset : Nat)
  | structField (enc : List I) (offset : Nat)
  | trimComma

/-- The struct `instruction`. -/
inductive instruction where
  | mk (static : Bytes) (sub : List instruction) (kind : Nat) (offset : Nat)
      (leapFun : Option Conv) (fn : Option (Fun instruction))
      (isZero : Option (Value → Option Bool))

def instruction.static : instruction → Bytes
  | .mk s _ _ _ _ _ _ => s

def instruction.sub : instruction → List instruction
  | .mk _ s _ _ _ _ _ => s

def instruction.kind : instruction → Nat
  | .mk _ _ k _ _ _ _ => k

def instruction.offset : instruction → Nat
  | .mk _ _ _ o _ _ _ => o

def instruction.leapFun : instruction → Option Conv
  | .mk _ _ _ _ l _ _ => l

def instruction.fn : instruction → Option (Fun instruction)
  | .mk _ _ _ _ _ f _ => f

def instruction.isZero : instruction → Option (Value → Option Bool)
  | .mk _ _ _ _ _ _ z => z

def kindNormal : Nat := 0

def kindStringField : Nat := 1

def kindStatic : Nat := 2

def kindInt : Nat := 3

def KindOmit : Nat := 4

/-- The map `getIsZeroFunc`; a predicate reads the memory of the field as a value of
its kind. -/
def getIsZeroFunc : Kind → Option (Value → Option Bool)
  | .Ptr => some (fun v => match v with | .ptr p => some p.isNone | _ => none)
  | .Slice => some (fun v => match v with | .slice xs => some (xs.length == 0) | _ => none)
  | .Bool => some (fun v => match v with | .bool b => some (!b) | _ => none)
  | .String => some (fun v => match v with | .str s => some (s == []) | _ => none)
  | .Int | .Int8 | .Int16 | .Int32 | .Int64 =>
    some (fun v => match v with | .int i => some (i == 0) | _ => none)
  | .Uint | .Uint8 | .Uint16 | .Uint32 | .Uint64 =>
    some (fun v => match v with | .uint n => some (n == 0) | _ => none)
  | .Float32 | .Float64 | .Complex64 | .Complex128 =>
    some (fun v => match v with | .float z _ => some z | _ => none)
  | _ => none

/-! ## The interpreter -/

/-- The string a pointer to a string header or to a byte-slice header reads. -/
def Value.asString : Value → Option Bytes
  | .str s => some s
  | .slice xs => xs.mapM (fun x => match x with | .uint n => some n.toUInt8 | _ => none)
  | _ => none

/-- A converter run on the value its pointer refers to; `none` when the memory
does not hold a value of the type the converter reads. -/
def Conv.run : Conv → Value → Bytes → Option Bytes
  | .ptrBoolToBuf, .bool r, b => some (if r then b ++ btrue else b ++ bfalse)
  | .ptrIntToBuf, .int i, b => some (AppendInt b i)
  | .ptrInt8ToBuf, .int i, b => some (AppendInt b i)
  | .ptrInt16ToBuf, .int i, b => some (AppendInt b i)
  | .ptrInt32ToBuf, .int i, b => some (AppendInt b i)
  | .ptrInt64ToBuf, .int i, b => some (AppendInt b i)
  | .ptrUintToBuf, .uint n, b => some (AppendUint b n)
  | .ptrUint8ToBuf, .uint n, b => some (AppendUint b n)
  | .ptrUint16ToBuf, .uint n, b => some (AppendUint b n)
  | .ptrUint32ToBuf, .uint n, b => some (AppendUint b n)
  | .ptrUint64ToBuf, .uint n, b => some (AppendUint b n)
  | .ptrFloat32ToBuf, .float _ text, b => some (b ++ text)
  | .ptrFloat64ToBuf, .float _ text, b => some (b ++ text)
  | .ptrStringToBuf, .str s, b => some (b ++ s)
  | .ptrTimeToBuf, .time _ text, b => some (b ++ text)
  | .ptrEscapeStringToBuf, .str s, w => some (Jingo.ptrEscapeStringToBuf s w)
  | .stringer m, v, w =>
    match m with
    | none => some w
    | some f => some (w ++ f v)
  | .encoder m, v, w =>
    match m with
    | none => some (w ++ null)
    | some f => some (w ++ f v)
  | .encoderWriter m, v, w =>
    match m with
    | none => some (w ++ null)
    | some f => some (w ++ f v)
  | .raw, v, w =>
    match v.asString with
    | none => none
    | some s => if s.length = 0 then some (w ++ null) else some (w ++ s)
  | _, _, _ => none

/-- The address `p + offset`: the field of the struct at `p`. -/
def leap (p : Value) (offset : Nat) : Option Value :=
  match p with
  | .struct fs => fs[offset]?
  | _ => none

/-- Modelled from the spec: the loop of `SliceEncoder.Marshal` (`sliceencoder.go` is
absent) over the elements of a sequence, written one after the other with `,` in
between. -/
def runElems (f : Value → Bytes → Option Bytes) : List Value → Bool → Bytes → Option Bytes
  | [], _, w => some w
  | x :: xs, first, w =>
    match f x (if first then w else w ++ [44]) with
    | none => none
    | some w => runElems f xs false w

/-- Modelled from the spec: `SliceEncoder.Marshal` (`sliceencoder.go` is absent).
"Emits `[`, one element per iteration separated by `,`, then `]`. A nil/empty
sequence emits `[]`." The argument `rec` is `StructEncoder.Marshal`. -/
def ElemPlan.run {I : Type} (rec : List I → Value → Bytes → Option Bytes) :
    ElemPlan I → Value → Bytes → Option Bytes
  | .conv c quoted, v, w =>
    if quoted then (c.run v (w ++ [34])).map (· ++ [34]) else c.run v w
  | .ptr inner, v, w =>
    match v with
    | .ptr none => some (w ++ null)
    | .ptr (some x) => ElemPlan.run rec inner x w
    | _ => none
  | .struct plan, v, w => rec plan v w
  | .slice elem, v, w =>
    match v with
    | .slice xs => (runElems (fun x w => ElemPlan.run rec elem x w) xs true (w ++ [91])).map (· ++ [93])
    | _ => none

/-- A closure of the field `fun` called as `fun(p, w)`; `rec` is
`StructEncoder.Marshal` and `self` the instructions of the encoder the closure was
built in. -/
def Fun.run {I : Type} (rec : List I → Value → Bytes → Option Bytes) (self : List I) :
    Fun I → Value → Bytes → Option Bytes
  | .ptrval conv offset, v, w =>
    match leap v offset with
    | some (.ptr none) => some (w ++ null)
    | some (.ptr (some x)) => conv.run x w
    | _ => none
  | .ptrstringval conv offset, v, w =>
    match leap v offset with
    | some (.ptr none) => some (w ++ null)
    | some (.ptr (some x)) => (conv.run x (w ++ [34])).map (· ++ [34])
    | _ => none
  | .escapeSlice enc offset, v, w =>
    match leap v offset with
    | some x => enc.run rec x w
    | none => none
  | .arrayElem conv offset i, v, w =>
    match leap v offset with
    | some (.array xs) =>
      match xs[i]? with
      | some x => conv.run x w
      | none => none
    | _ => none
  | .sliceField enc offset, v, w =>
    match leap v offset with
    | some x => enc.run rec x w
    | none => none
  | .ptrStruct enc offset, v, w =>
    match leap v offset with
    | some (.ptr none) => some (w ++ null)
    | some (.ptr (some x)) => rec (enc.getD self) x w
    | _ => none
  | .structField enc offset, v, w =>
    match leap v offset with
    | some x => rec enc x w
    | none => none
  | .trimComma, _, w =>
    match w.getLast? with
    | none => none
    | some c => if c = 44 then some w.dropLast else some w

/-- Body of the inner loop of `Marshal`, over the instructions of an omit group. -/
def execSub (rec : List instruction → Value → Bytes → Option Bytes) (self : List instruction)
    (p : Value) (w : Bytes) (ins : instruction) : Option Bytes :=
  if ins.kind = kindStatic then some (w ++ ins.static)
  else if ins.kind = kindStringField then (leap p ins.offset).bind (Conv.ptrStringToBuf.run · w)
  else if ins.kind = kindInt then (leap p ins.offset).bind (Conv.ptrIntToBuf.run · w)
  else match ins.leapFun with
    | some conv => (leap p ins.offset).bind (conv.run · w)
    | none =>
      match ins.fn with
      | some f => f.run rec self p w
      | none => none

/-- Body of the outer loop of `Marshal`. -/
def exec (rec : List instruction → Value → Bytes → Option Bytes) (self : List instruction)
    (p : Value) (w : Bytes) (ins : instruction) : Option Bytes :=
  if ins.kind = kindStatic then some (w ++ ins.static)
  else if ins.kind = kindStringField then (leap p ins.offset).bind (Conv.ptrStringToBuf.run · w)
  else if ins.kind = kindInt then (leap p ins.offset).bind (Conv.ptrIntToBuf.run · w)
  else match ins.leapFun with
    | some conv => (leap p ins.offset).bind (conv.run · w)
    | none =>
      if ins.kind = KindOmit then
        let w := w ++ ins.static
        match ins.isZero with
        | none => none
        | some isZero =>
          match (leap p ins.offset).bind isZero with
          | none => none
          | some true =>
            match ins.fn with
            | some f => f.run rec self p w
            | none => some w
          | some false => ins.sub.foldlM (execSub rec self p) w
      else
        match ins.fn with
        | some f => f.run rec self p w
        | none => none

/-- The method `StructEncoder.Marshal` on the instructions of an encoder: `p` is the
struct the interface value points to, `w` the contents of the sink. The fuel bounds
the depth of nested `Marshal` calls. -/
def Marshal : Nat → List instruction → Value → Bytes → Option Bytes
  | 0, _, _, _ => none
  | fuel + 1, instructions, p, w => instructions.foldlM (exec (Marshal fuel) instructions p) w

/-! ## The compiler -/

/-- The struct `StructEncoder`; `tt` and `tv` are the type and the value of the
interface value `t`, the side buffer `cb` is its bytes. -/
structure StructEncoder where
  instructions : List instruction
  f : StructField
  tt : GoType
  tv : ShapeVal
  i : Nat
  cb : Bytes
  cpos : Nat
  o : Bool

/-- The method `chunk`. -/
def StructEncoder.chunk (e : StructEncoder) (b : Bytes) : StructEncoder :=
  { e with cb := e.cb ++ b }

/-- Assignment through the pointer `&xs[len(xs)-1]`; the list is never empty where the
source takes this pointer. -/
def modifyLast {α : Type} (g : α → α) : List α → List α
  | [] => []
  | [a] => [g a]
  | a :: b :: rest => a :: modifyLast g (b :: rest)

/-- The method `appendInstruction`. -/
def StructEncoder.appendInstruction (e : StructEncoder) (instr : instruction) : StructEncoder :=
  if e.o then
    { e with instructions := modifyLast (fun omitInstr =>
        let isZero := if instr.kind ≠ kindStatic then getIsZeroFunc e.f.Typ.Kind
          else omitInstr.isZero
        let offset := if instr.kind ≠ kindStatic then instr.offset else omitInstr.offset
        instruction.mk omitInstr.static (omitInstr.sub ++ [instr]) omitInstr.kind offset
          omitInstr.leapFun omitInstr.fn isZero) e.instructions }
  else { e with instructions := e.instructions ++ [instr] }

/-- The method `appendInstructionFun`. -/
def StructEncoder.appendInstructionFun (e : StructEncoder) (fn : Fun instruction) (offset : Nat) :
    StructEncoder :=
  e.appendInstruction (.mk [] [] kindNormal offset none (some fn) none)

/-- The method `flunk`. -/
def StructEncoder.flunk (e : StructEncoder) : StructEncoder :=
  let b := e.cb
  let bs := b.drop e.cpos
  let e := { e with cpos := b.length }
  if bs.length = 0 then e
  else e.appendInstruction (.mk bs [] kindStatic 0 none none none)

/-- The method `omitFlunk`. -/
def StructEncoder.omitFlunk (e : StructEncoder) : StructEncoder :=
  let b := e.cb
  let bs := b.drop e.cpos
  let e := { e with cpos := b.length }
  if bs.length = 0 then
    { e with instructions := e.instructions ++ [.mk [] [] KindOmit 0 none none none] }
  else { e with instructions := e.instructions ++ [.mk bs [] KindOmit 0 none none none] }

/-- The method `val`. -/
def StructEncoder.val (e : StructEncoder) (conv : Conv) : StructEncoder :=
  let e := e.flunk
  e.appendInstruction (.mk [] [] kindNormal e.i (some conv) none none)

/-- The method `ptrval`. -/
def StructEncoder.ptrval (e : StructEncoder) (conv : Conv) : StructEncoder :=
  let e := e.flunk
  e.appendInstructionFun (.ptrval conv e.i) e.i

/-- The method `ptrstringval`. -/
def StructEncoder.ptrstringval (e : StructEncoder) (conv : Conv) : StructEncoder :=
  let e := e.flunk
  e.appendInstructionFun (.ptrstringval conv e.i) e.i

/-- The method `optInstrStringer`. -/
def StructEncoder.optInstrStringer (e : StructEncoder) : StructEncoder :=
  let e := e.chunk (bs "\"")
  let conv := Conv.stringer e.f.methods.asStringer
  let e := if e.f.Typ.Kind = .Ptr then e.ptrval conv else e.val conv
  e.chunk (bs "\"")

/-- The method `optInstrEncoder`. -/
def StructEncoder.optInstrEncoder (e : StructEncoder) : StructEncoder :=
  let conv := Conv.encoder e.f.methods.asJSONEncoder
  if e.f.Typ.Kind = .Ptr then e.ptrval conv else e.val conv

/-- The method `optInstrEncoderWriter`. -/
def StructEncoder.optInstrEncoderWriter (e : StructEncoder) : StructEncoder :=
  let conv := Conv.encoderWriter e.f.methods.asJSONMarshaler
  if e.f.Typ.Kind = .Ptr then e.ptrval conv else e.val conv

/-- The method `optInstrRaw`. -/
def StructEncoder.optInstrRaw (e : StructEncoder) : StructEncoder :=
  if e.f.Typ.Kind = .Ptr then e.ptrval .raw else e.val .raw

/-- Modelled from the spec: the element plan that `NewSliceEncoder` compiles
(`sliceencoder.go` is absent); `newEnc` is `NewStructEncoder` on the zero value of a
struct type. Element kinds the spec does not name are rejected. -/
def elemPlan (newEnc : GoType → Res (List instruction)) : GoType → Res (ElemPlan instruction)
  | .basic k =>
    match typeconv k with
    | some c => pure (.conv c (k == .String))
    | none => throw (.panic (bs "unsupported type"))
  | .time => pure (.conv .ptrTimeToBuf true)
  | .escapeString => pure (.conv .ptrEscapeStringToBuf true)
  | .ptr t => do
    let inner ← elemPlan newEnc t
    pure (.ptr inner)
  | .struct id => do
    let plan ← newEnc (.struct id)
    pure (.struct plan)
  | .slice t => do
    let elem ← elemPlan newEnc t
    pure (.slice elem)
  | .array _ _ => throw (.panic (bs "unsupported type"))

/-- Modelled from the spec: `NewSliceEncoder` (`sliceencoder.go` is absent), on the
type of the sequence handed to it. -/
def NewSliceEncoder (newEnc : GoType → Res (List instruction)) : GoType →
    Res (ElemPlan instruction)
  | .slice t => do
    let elem ← elemPlan newEnc t
    pure (.slice elem)
  | _ => throw (.panic (bs "unsupported type"))

/-- The method `optInstrEscape`. -/
def StructEncoder.optInstrEscape (e : StructEncoder)
    (newEnc : GoType → Res (List instruction)) : Res StructEncoder :=
  if e.f.Typ.Kind = .Slice then do
    let e := e.flunk
    let enc ← NewSliceEncoder newEnc (.slice .escapeString)
    pure (e.appendInstructionFun (.escapeSlice enc e.i) e.i)
  else if e.f.Typ.Kind = .Ptr then pure (e.ptrstringval .ptrEscapeStringToBuf)
  else
    let e := e.chunk (bs "\"")
    let e := e.val .ptrEscapeStringToBuf
    pure (e.chunk (bs "\""))

/-- The text `Kind.String()` of a kind. -/
def Kind.name : Kind → Bytes
  | .Invalid => bs "invalid" | .Bool => bs "bool" | .Int => bs "int" | .Int8 => bs "int8"
  | .Int16 => bs "int16" | .Int32 => bs "int32" | .Int64 => bs "int64" | .Uint => bs "uint"
  | .Uint8 => bs "uint8" | .Uint16 => bs "uint16" | .Uint32 => bs "uint32"
  | .Uint64 => bs "uint64" | .Uintptr => bs "uintptr" | .Float32 => bs "float32"
  | .Float64 => bs "float64" | .Complex64 => bs "complex64" | .Complex128 => bs "complex128"
  | .Array => bs "array" | .Chan => bs "chan" | .Func => bs "func"
  | .Interface => bs "interface" | .Map => bs "map" | .Ptr => bs "ptr" | .Slice => bs "slice"
  | .String => bs "string" | .Struct => bs "struct" | .UnsafePointer => bs "unsafe.Pointer"

/-- The loop over the elements of an array in `valueInst`. -/
def StructEncoder.arrayLoop (conv : Conv) : Nat → Nat → StructEncoder → StructEncoder
  | 0, _, e => e
  | n + 1, i, e =>
    let e := if i > 0 then e.chunk (bs ", ") else e
    let e := e.flunk
    let e := e.appendInstructionFun (.arrayElem conv e.i i) e.i
    StructEncoder.arrayLoop conv n (i + 1) e

/-- The call `Value.Interface()` on a field: it panics on an unexported field. -/
def StructEncoder.fieldInterface (e : StructEncoder) : Res ShapeVal :=
  if e.f.exported then e.tv.Field e.i
  else throw (.panic (bs "reflect.Value.Interface: cannot return value obtained from unexported field or method"))

/-- The method `valueInst`; `instr` is the method value `e.val` or `e.ptrval`,
`newEnc` is `NewStructEncoder` and `fuel` bounds the comparison `e.t == inf`. -/
def StructEncoder.valueInst (env : TypeEnv) (fuel : Nat)
    (newEnc : GoType → ShapeVal → Res (List instruction))
    (e : StructEncoder) (k : Kind) (instr : StructEncoder → Conv → StructEncoder) :
    Res StructEncoder :=
  match k with
  | .Int =>
    if e.f.Typ.Kind = .Ptr then pure (instr e .ptrIntToBuf)
    else
      let e := e.flunk
      pure (e.appendInstruction (.mk [] [] kindInt e.i none none none))
  | .Bool | .Int8 | .Int16 | .Int32 | .Int64 | .Uint | .Uint8 | .Uint16 | .Uint32 | .Uint64
  | .Float32 | .Float64 =>
    match typeconv k with
    | none => pure e
    | some conv => pure (instr e conv)
  | .Array => do
    let e := e.chunk (bs "[")
    let elem ← e.f.Typ.Elem
    match typeconv elem.Kind with
    | none => pure e
    | some conv =>
      match e.f.Typ with
      | .array len _ =>
        let e := StructEncoder.arrayLoop conv len 0 e
        pure (e.chunk (bs "]"))
      | _ => throw (.panic (bs "reflect: Len of non-array type"))
  | .Slice => do
    let e := e.flunk
    let _ ← e.fieldInterface
    let enc ← NewSliceEncoder (fun t => newEnc t .zero) e.f.Typ
    pure (e.appendInstructionFun (.sliceField enc e.i) e.i)
  | .String =>
    if e.f.Typ.Kind = .Ptr then pure (e.ptrstringval .ptrStringToBuf)
    else
      let e := e.chunk (bs "\"")
      let e := e.flunk
      let e := e.appendInstruction (.mk [] [] kindStringField e.i none none none)
      pure (e.chunk (bs "\""))
  | .Struct => do
    let e := e.flunk
    if e.f.Typ.Kind = .Ptr then
      let elem ← e.f.Typ.Elem
      let same ← ifaceEqZero env fuel e.tt e.tv elem
      if same then
        pure (e.appendInstructionFun (.ptrStruct none e.i) e.i)
      else do
        let enc ← newEnc elem .zero
        pure (e.appendInstructionFun (.ptrStruct (some enc) e.i) e.i)
    else do
      let inf ← e.fieldInterface
      let enc ← newEnc e.f.Typ inf
      pure (e.appendInstructionFun (.structField enc e.i) e.i)
  | .Invalid | .Map | .Interface | .Complex64 | .Complex128 | .Chan | .Func | .Uintptr
  | .UnsafePointer =>
    throw (.panic (bs "unsupported type " ++ e.f.Typ.Kind.name ++ e.f.Name))
  | .Ptr => pure e

/-- The `switch` of `NewStructEncoder` that compiles the value of the current field;
`opts` are the options of its tag. -/
def StructEncoder.fieldValue (env : TypeEnv) (fuel : Nat)
    (newEnc : GoType → ShapeVal → Res (List instruction)) (e : StructEncoder)
    (opts : tagOptions) : Res StructEncoder :=
  if opts.Contains (bs "stringer") && e.f.methods.hasString then
    pure e.optInstrStringer
  else if opts.Contains (bs "encoder") then
    if e.f.methods.hasEncodeJSON then pure e.optInstrEncoderWriter
    else pure e.optInstrEncoder
  else if opts.Contains (bs "raw") then pure e.optInstrRaw
  else if opts.Contains (bs "escape") then e.optInstrEscape (fun t => newEnc t .zero)
  else if e.f.Typ = .time then
    let e := e.chunk (bs "\"")
    let e := e.val .ptrTimeToBuf
    pure (e.chunk (bs "\""))
  else if e.f.Typ = .ptr .time then pure (e.ptrstringval .ptrTimeToBuf)
  else if e.f.Typ.Kind = .Ptr then do
    let elem ← e.f.Typ.Elem
    e.valueInst env fuel newEnc elem.Kind StructEncoder.ptrval
  else e.valueInst env fuel newEnc e.f.Typ.Kind StructEncoder.val

/-- Body of the loop over the fields in `NewStructEncoder`, with `e.i` and `e.f`
set. -/
def StructEncoder.field (env : TypeEnv) (fuel : Nat)
    (newEnc : GoType → ShapeVal → Res (List instruction)) (e : StructEncoder) :
    Res StructEncoder :=
  let tag := (parseTag e.f.Tag).1
  let opts : tagOptions := (parseTag e.f.Tag).2
  if tag = [] then pure e
  else do
    let e := { e with o := false }
    let e := { e with o := opts.Contains (bs "omitempty") && e.f.Typ.Kind != .Struct }
    let e := if e.o then e.omitFlunk else e
    let e := e.chunk (bs "\"" ++ tag ++ bs "\":")
    let e ← e.fieldValue env fuel newEnc opts
    let e := e.chunk (bs ",")
    pure (if e.o then e.flunk else e)

/-- The loop `for e.i = 0; e.i < tt.NumField(); e.i++` of `NewStructEncoder` from
index `i` on, over the fields that remain. -/
def StructEncoder.fieldLoop (env : TypeEnv) (fuel : Nat)
    (newEnc : GoType → ShapeVal → Res (List instruction)) :
    List StructField → Nat → StructEncoder → Res StructEncoder
  | [], i, e => pure { e with i := i }
  | f :: fs, i, e => do
    let e ← StructEncoder.field env fuel newEnc { e with i := i, f := f }
    StructEncoder.fieldLoop env fuel newEnc fs (i + 1) e

/-- The method `setupLastField`. -/
def StructEncoder.setupLastField (e : StructEncoder) : Res StructEncoder :=
  if e.o then
    match e.instructions.getLast? with
    | none => throw (.panic (bs "index out of range"))
    | some instr =>
      match instr.sub.getLast? with
      | none => throw (.panic (bs "index out of range"))
      | some subInstr =>
        if subInstr.static.length = 0 then throw (.panic (bs "slice bounds out of range"))
        else
          pure { e with
            instructions := modifyLast (fun instr =>
              instruction.mk instr.static
                (modifyLast (fun subInstr =>
                  instruction.mk subInstr.static.dropLast subInstr.sub subInstr.kind
                    subInstr.offset subInstr.leapFun subInstr.fn subInstr.isZero) instr.sub)
                instr.kind instr.offset instr.leapFun (some .trimComma) instr.isZero)
              e.instructions
            o := false }
  else
    match e.cb.getLast? with
    | none => throw (.panic (bs "index out of range"))
    | some c => if c = 44 then pure { e with cb := e.cb.dropLast } else pure e

/-- The function `NewStructEncoder` on an interface value of type `tt` and value
`tv`. The fuel bounds the depth of nested calls. -/
def NewStructEncoder (env : TypeEnv) : Nat → GoType → ShapeVal → Res StructEncoder
  | 0, _, _ => throw .timeout
  | fuel + 1, tt, tv => do
    let e : StructEncoder := ⟨[], default, tt, tv, 0, [], 0, false⟩
    let fields ← structFields env tt
    let e := e.chunk (bs "\x7b")
    let e ← StructEncoder.fieldLoop env fuel
      (fun t v => (NewStructEncoder env fuel t v).map (·.instructions)) fields 0 e
    let e ← e.setupLastField
    let e := e.chunk (bs "\x7d")
    pure e.flunk

/-- Compile the plan of the struct type `tt` from its zero value and run it on the
instance `p` with an empty sink. -/
def marshalShape (env : TypeEnv) (fuel : Nat) (tt : GoType) (p : Value) : Option Bytes :=
  match NewStructEncoder env fuel tt .zero with
  | .ok e => Marshal fuel e.instructions p []
  | .error _ => none

/-! ## A functional description of the plan

For a keyed field whose value is compiled into one instruction between two runs of
static text, `Seg` records what the compiler emits; `planOf` assembles the plan of a
shape from its segments. The theorems below show that `NewStructEncoder` builds
exactly this plan and what `Marshal` writes when it runs it. -/

/-- The static instruction `instruction{static: b, kind: kindStatic}`. -/
def staticInstr (b : Bytes) : instruction := .mk b [] kindStatic 0 none none none

/-- What is emitted for one keyed field: whether it is an omit group, the kind that
selects the zero test, the static text before the value instruction (key, colon,
opening quote), the value instruction, and the static text after it, without the
comma. -/
structure Seg where
  omitempty : Bool
  kind : Kind
  pre : Bytes
  ins : instruction
  post : Bytes

/-- State of the compiler between two fields, without the bookkeeping of the side
buffer: the instructions, the static text not yet flushed, and the flag `o`. -/
structure Core where
  instructions : List instruction
  pending : Bytes
  o : Bool

/-- The omit group of a segment; `stat` is the static text flushed by `omitFlunk`. -/
def Seg.group (s : Seg) (stat : Bytes) (tail : Bytes) (fn : Option (Fun instruction)) :
    instruction :=
  .mk stat [staticInstr s.pre, s.ins, staticInstr tail] KindOmit s.ins.offset none fn
    (getIsZeroFunc s.kind)

/-- The state after the field of segment `s`. -/
def Core.step (c : Core) (s : Seg) : Core :=
  if s.omitempty then
    ⟨c.instructions ++ [s.group c.pending (s.post ++ [44]) none], [], true⟩
  else
    ⟨c.instructions ++ [staticInstr (c.pending ++ s.pre), s.ins], s.post ++ [44], false⟩

/-- The state before the first field. -/
def Core.init : Core := ⟨[], [123], false⟩

/-- The plan of a shape with the segments `segs`: the fields in order, then what
`setupLastField` and the closing brace make of the last one. -/
def planOf (segs : List Seg) : List instruction :=
  match segs.getLast? with
  | none => [staticInstr [123, 125]]
  | some s =>
    let c := segs.dropLast.foldl Core.step Core.init
    if s.omitempty then
      c.instructions ++ [s.group c.pending s.post (some .trimComma), staticInstr [125]]
    else
      c.instructions ++ [staticInstr (c.pending ++ s.pre), s.ins, staticInstr (s.post ++ [125])]

/-- The value instruction of a field compiled through `val` or, for a pointer field,
through `ptrval`. -/
def convInstr (f : StructField) (i : Nat) (conv : Conv) : instruction :=
  if f.Typ.Kind = .Ptr then .mk [] [] kindNormal i none (some (.ptrval conv i)) none
  else .mk [] [] kindNormal i (some conv) none none

/-- An instruction holding a closure. -/
def funInstr (i : Nat) (fn : Fun instruction) : instruction :=
  .mk [] [] kindNormal i none (some fn) none

/-- The value of field `i` as the compiler emits it: static text, one instruction,
static text. `none` for the fields that are not compiled to this form (arrays,
pointers to arrays, to slices and to pointers). -/
def valueSeg (env : TypeEnv) (fuel : Nat) (newEnc : GoType → ShapeVal → Res (List instruction))
    (tt : GoType) (tv : ShapeVal) (i : Nat) (f : StructField) (opts : tagOptions) :
    Res (Option (Bytes × instruction × Bytes)) :=
  if opts.Contains (bs "stringer") && f.methods.hasString then
    pure (some ([34], convInstr f i (.stringer f.methods.asStringer), [34]))
  else if opts.Contains (bs "encoder") then
    if f.methods.hasEncodeJSON then
      pure (some ([], convInstr f i (.encoderWriter f.methods.asJSONMarshaler), []))
    else pure (some ([], convInstr f i (.encoder f.methods.asJSONEncoder), []))
  else if opts.Contains (bs "raw") then pure (some ([], convInstr f i .raw, []))
  else if opts.Contains (bs "escape") then
    if f.Typ.Kind = .Slice then
      pure (some ([], funInstr i (.escapeSlice (.slice (.conv .ptrEscapeStringToBuf true)) i), []))
    else if f.Typ.Kind = .Ptr then
      pure (some ([], funInstr i (.ptrstringval .ptrEscapeStringToBuf i), []))
    else pure (some ([34], .mk [] [] kindNormal i (some .ptrEscapeStringToBuf) none none, [34]))
  else
    match f.Typ with
    | .time => pure (some ([34], .mk [] [] kindNormal i (some .ptrTimeToBuf) none none, [34]))
    | .ptr .time => pure (some ([], funInstr i (.ptrstringval .ptrTimeToBuf i), []))
    | .ptr (.struct id) => do
      let same ← ifaceEqZero env fuel tt tv (.struct id)
      if same then pure (some ([], funInstr i (.ptrStruct none i), []))
      else do
        let enc ← newEnc (.struct id) .zero
        pure (some ([], funInstr i (.ptrStruct (some enc) i), []))
    | .ptr (.basic k) =>
      match k with
      | .String => pure (some ([], funInstr i (.ptrstringval .ptrStringToBuf i), []))
      | .Struct => pure none
      | _ =>
        match typeconv k with
        | some conv => pure (some ([], funInstr i (.ptrval conv i), []))
        | none => pure none
    | .ptr .escapeString => pure (some ([], funInstr i (.ptrstringval .ptrStringToBuf i), []))
    | .ptr _ => pure none
    | .struct id => do
      let inf ← if f.exported then tv.Field i
        else throw (.panic (bs "reflect.Value.Interface: cannot return value obtained from unexported field or method"))
      let enc ← newEnc (.struct id) inf
      pure (some ([], funInstr i (.structField enc i), []))
    | .slice t => do
      let _ ← if f.exported then tv.Field i
        else throw (.panic (bs "reflect.Value.Interface: cannot return value obtained from unexported field or method"))
      let elem ← elemPlan (fun t => newEnc t .zero) t
      pure (some ([], funInstr i (.sliceField (.slice elem) i), []))
    | .array _ _ => pure none
    | .escapeString =>
      pure (some ([34], .mk [] [] kindStringField i none none none, [34]))
    | .basic k =>
      match k with
      | .Int => pure (some ([], .mk [] [] kindInt i none none none, []))
      | .String => pure (some ([34], .mk [] [] kindStringField i none none none, [34]))
      | .Struct => pure none
      | _ =>
        match typeconv k with
        | some conv => pure (some ([], .mk [] [] kindNormal i (some conv) none none, []))
        | none => pure none

/-- The segment of field `i`; `none` inside `some` for a field without output key. -/
def fieldSeg (env : TypeEnv) (fuel : Nat) (newEnc : GoType → ShapeVal → Res (List instruction))
    (tt : GoType) (tv : ShapeVal) (i : Nat) (f : StructField) : Res (Option (Option Seg)) :=
  let tag := (parseTag f.Tag).1
  let opts : tagOptions := (parseTag f.Tag).2
  if tag = [] then pure (some none)
  else do
    let v ← valueSeg env fuel newEnc tt tv i f opts
    match v with
    | none => pure none
    | some (pre, ins, post) =>
      pure (some (some ⟨opts.Contains (bs "omitempty") && f.Typ.Kind != .Struct, f.Typ.Kind,
        ([34] ++ tag ++ [34, 58]) ++ pre, ins, post⟩))

/-- The segments of the keyed fields of a shape, from index `i` on; `none` when a
keyed field is not compiled to the form of a segment. -/
def shapeSegs (env : TypeEnv) (fuel : Nat) (newEnc : GoType → ShapeVal → Res (List instruction))
    (tt : GoType) (tv : ShapeVal) : List StructField → Nat → Res (Option (List Seg))
  | [], _ => pure (some [])
  | f :: fs, i => do
    let s ← fieldSeg env fuel newEnc tt tv i f
    match s with
    | none => pure none
    | some s => do
      let rest ← shapeSegs env fuel newEnc tt tv fs (i + 1)
      match rest with
      | none => pure none
      | some rest => pure (some (s.toList ++ rest))

/-- The zero test of an omit group on the instance `p`; `some false` for a field
that is not an omit group. -/
def Seg.zero (s : Seg) (p : Value) : Option Bool :=
  if s.omitempty then
    match getIsZeroFunc s.kind with
    | none => none
    | some isZero => (leap p s.ins.offset).bind isZero
  else some false

/-- The entry `"key":value` that a segment contributes to the output for the instance
`p`, if it is not omitted; the value is what its instruction writes into an empty
sink. -/
def Seg.entry (rec : List instruction → Value → Bytes → Option Bytes) (self : List instruction)
    (p : Value) (s : Seg) : Option Bytes :=
  match s.zero p with
  | some false =>
    match execSub rec self p [] s.ins with
    | some v => some (s.pre ++ v ++ s.post)
    | none => none
  | _ => none

/-- The instruction of a segment runs on the instance `p`: the zero test is defined
and, unless the field is omitted, the instruction appends its bytes to the sink. -/
def Seg.Runs (rec : List instruction → Value → Bytes → Option Bytes) (self : List instruction)
    (p : Value) (s : Seg) : Prop :=
  s.ins.kind ≠ kindStatic ∧ s.ins.kind ≠ KindOmit ∧
  ∃ z, s.zero p = some z ∧
    (z = false → ∃ v, ∀ w, execSub rec self p w s.ins = some (w ++ v))

/-- The output for a list of entries: an object with the entries separated by commas. -/
def object (entries : List Bytes) : Bytes :=
  [123] ++ List.intercalate [44] entries ++ [125]

/-! ## Auxiliary definitions of the proofs -/

/-- Entries, each followed by a comma. -/
def joinTrail (es : List Bytes) : Bytes := es.flatMap (· ++ [44])

/-- What the instructions compiled so far write, followed by the pending text. -/
def Core.emit (rec : List instruction → Value → Bytes → Option Bytes) (self : List instruction)
    (p : Value) (w : Bytes) (c : Core) : Option Bytes :=
  (c.instructions.foldlM (exec rec self p) w).map (· ++ c.pending)

/-- The state of the compiler stands for the state `c` of the functional description. -/
def Rep (e : StructEncoder) (c : Core) : Prop :=
  e.instructions = c.instructions ∧ e.cpos ≤ e.cb.length ∧ e.cb.drop e.cpos = c.pending ∧
    e.o = c.o ∧ (c.o = false → c.pending ≠ [])


/-! ## The JSON text of a value

The text that the README and the tests give for a value of a type: the description
the theorems compare `Marshal` with. -/

/-- The kinds with a converter of their own: booleans, integers, floats, strings. -/
def isPrimKind (k : Kind) : Bool :=
  k ∈ [Kind.Bool, .Int, .Int8, .Int16, .Int32, .Int64, .Uint, .Uint8, .Uint16, .Uint32, .Uint64,
    .Float32, .Float64, .String]

/-- The text of a value of a primitive kind: `true` or `false`, the base-10 digits,
the text of a float, the bytes of a string between two double quotes. -/
def primText : Kind → Value → Option Bytes
  | .Bool, .bool b => some (if b then btrue else bfalse)
  | .Int, .int i | .Int8, .int i | .Int16, .int i | .Int32, .int i | .Int64, .int i =>
    some (AppendInt [] i)
  | .Uint, .uint n | .Uint8, .uint n | .Uint16, .uint n | .Uint32, .uint n | .Uint64, .uint n =>
    some (AppendUint [] n)
  | .Float32, .float _ t | .Float64, .float _ t => some t
  | .String, .str s => some ([34] ++ s ++ [34])
  | _, _ => none

/-- The value is the zero value of its kind: `false`, `0`, the empty string, a slice
of length 0, a nil pointer. -/
def Value.isZeroValue : Value → Bool
  | .bool b => !b
  | .int i => i == 0
  | .uint n => n == 0
  | .float z _ => z
  | .str s => s == []
  | .slice xs => xs.length == 0
  | .ptr p => p.isNone
  | _ => false

/-- The value has the representation of the kind. -/
def Value.hasKind : Value → Kind → Bool
  | .bool _, .Bool => true
  | .int _, k => k ∈ [Kind.Int, .Int8, .Int16, .Int32, .Int64]
  | .uint _, k => k ∈ [Kind.Uint, .Uint8, .Uint16, .Uint32, .Uint64]
  | .float _ _, k => k ∈ [Kind.Float32, .Float64]
  | .str _, .String => true
  | .slice _, .Slice => true
  | .ptr _, .Ptr => true
  | .struct _, .Struct => true
  | _, _ => false

/-- The options of the tag of a field. -/
def StructField.opts (f : StructField) : tagOptions := (parseTag f.Tag).2

/-- The output key of a field. -/
def StructField.key (f : StructField) : Bytes := (parseTag f.Tag).1

/-- The field is left out of the output for the value `v`: it is tagged `omitempty`,
is not an inline struct, and `v` is the zero value of its kind. -/
def StructField.omitted (f : StructField) (v : Value) : Bool :=
  f.opts.Contains (bs "omitempty") && f.Typ.Kind != .Struct && v.isZeroValue

/-- The bytes a field tagged `raw` stands for: the bytes it holds, or `null` when it
holds none. -/
def rawText (v : Value) : Option Bytes :=
  v.asString.map (fun s => if s = [] then null else s)

mutual
/-- The JSON text of the value `v` of type `t`; `none` when `v` is not a value of
the type. -/
def valueText (env : TypeEnv) : GoType → Value → Option Bytes
  | .basic k, v => primText k v
  | .ptr _, .ptr none => some null
  | .ptr t, .ptr (some x) => valueText env t x
  | .slice t, .slice xs =>
    (elemsText env t xs).map (fun ts => [91] ++ List.intercalate [44] ts ++ [93])
  | .struct id, .struct vs => (entriesText env (env id) vs).map object
  | _, _ => none
/-- The texts of the elements of a sequence. -/
def elemsText (env : TypeEnv) (t : GoType) : List Value → Option (List Bytes)
  | [] => some []
  | x :: xs =>
    match valueText env t x, elemsText env t xs with
    | some a, some r => some (a :: r)
    | _, _ => none
/-- The entries `"key":value` of the keyed fields that are not left out, in the
order of declaration. -/
def entriesText (env : TypeEnv) : List StructField → List Value → Option (List Bytes)
  | [], [] => some []
  | f :: fs, v :: vs =>
    if f.key = [] then entriesText env fs vs
    else if !v.hasKind f.Typ.Kind then none
    else if f.omitted v then entriesText env fs vs
    else
      match (if f.opts.Contains (bs "raw") then rawText v else valueText env f.Typ v),
        entriesText env fs vs with
      | some a, some r => some (([34] ++ f.key ++ [34, 58] ++ a) :: r)
      | _, _ => none
  | _, _ => none
end

/-- The value text of a field: the bytes it stands for when tagged `raw`, its JSON
text otherwise. -/
def fieldText (env : TypeEnv) (f : StructField) (v : Value) : Option Bytes :=
  if f.opts.Contains (bs "raw") then rawText v else valueText env f.Typ v

mutual
/-- The depth of nested structs in a value. -/
def Value.depth : Value → Nat
  | .ptr (some x) => x.depth
  | .slice xs => Value.maxDepth xs
  | .array xs => Value.maxDepth xs
  | .struct vs => Value.maxDepth vs + 1
  | _ => 0
def Value.maxDepth : List Value → Nat
  | [] => 0
  | x :: xs => max x.depth (Value.maxDepth xs)
end

/-! ## The shapes the description covers -/

/-- The struct types a type mentions. -/
def GoType.structIds : GoType → List Nat
  | .struct id => [id]
  | .ptr t => t.structIds
  | .slice t => t.structIds
  | .array _ t => t.structIds
  | _ => []

/-- Element types of a sequence with a JSON text: primitive kinds, pointers,
sequences and structs. -/
def elemSupported : GoType → Bool
  | .basic k => isPrimKind k
  | .ptr t => elemSupported t
  | .slice t => elemSupported t
  | .struct _ => true
  | _ => false

/-- The fields with a JSON text: fields without key; fields tagged `raw` of type
string or `[]byte`; and, without the directives `stringer`, `encoder`, `raw` and
`escape`, fields of a primitive kind, pointers to a primitive kind or to a struct,
inline structs and sequences. -/
def StructField.supported (f : StructField) : Bool :=
  f.key == [] ||
  (!(f.opts.Contains (bs "stringer") && f.methods.hasString)
    && !f.opts.Contains (bs "encoder")
    && (if f.opts.Contains (bs "raw") then
        decide (f.Typ = .basic .String) || decide (f.Typ = .slice (.basic .Uint8))
      else !f.opts.Contains (bs "escape") &&
        match f.Typ with
        | .basic k => isPrimKind k
        | .ptr (.basic k) => isPrimKind k
        | .ptr (.struct _) => true
        | .struct _ => true
        | .slice t => elemSupported t
        | _ => false))

/-- The fields whose value needs no nested plan: fields without key, fields tagged
`raw`, and fields of a basic type or of a pointer to one. -/
def StructField.flat (f : StructField) : Bool :=
  f.key == [] || f.opts.Contains (bs "raw") ||
    match f.Typ with
    | .basic _ => true
    | .ptr (.basic _) => true
    | _ => false

/-- Running `plan` on a struct of type `id` of depth at most `M` appends the object
of its entries. -/
def PlanOK (env : TypeEnv) (rec : List instruction → Value → Bytes → Option Bytes) (M : Nat)
    (id : Nat) (plan : List instruction) : Prop :=
  ∀ xs ents w, (Value.struct xs).depth ≤ M → entriesText env (env id) xs = some ents →
    rec plan (.struct xs) w = some (w ++ object ents)

/-! ## The shapes of the contract -/

/-- The field carries none of the directives `omitempty`, `stringer`, `encoder`, `raw`
and `escape`. -/
def StructField.noDirective (f : StructField) : Bool :=
  !f.opts.Contains (bs "omitempty") && !f.opts.Contains (bs "stringer") &&
    !f.opts.Contains (bs "encoder") && !f.opts.Contains (bs "raw") &&
    !f.opts.Contains (bs "escape")

/-- The boolean kind and the signed and unsigned integer kinds with a converter. -/
def isBoolIntKind (k : Kind) : Bool :=
  k ∈ [Kind.Bool, .Int, .Int8, .Int16, .Int32, .Int64, .Uint, .Uint8, .Uint16, .Uint32, .Uint64]

/-- A field without key, or a field of boolean, integer or string kind without
directive. -/
def StructField.plain (f : StructField) : Bool :=
  f.key == [] ||
    (f.noDirective &&
      match f.Typ with
      | .basic k => isBoolIntKind k || k == .String
      | _ => false)

/-- The value of an entry: `true` or `false`, the base-10 digits, the bytes of the
string between two double quotes. -/
def plainValue : Value → Bytes
  | .bool b => if b then bs "true" else bs "false"
  | .int i => AppendInt [] i
  | .uint n => AppendUint [] n
  | .str s => [34] ++ s ++ [34]
  | _ => []

/-- The entries `"key":value` of the keyed fields, in the order of declaration. -/
def plainEntries : List StructField → List Value → List Bytes
  | f :: fs, v :: vs =>
    if f.key = [] then plainEntries fs vs
    else ([34] ++ f.key ++ [34, 58] ++ plainValue v) :: plainEntries fs vs
  | _, _ => []

/-- The instance has, for each keyed field of the shape, a value of the kind of the
field. -/
def WellTyped (fs : List StructField) (vs : List Value) : Prop :=
  List.Forall₂ (fun f v => f.key = [] ∨ v.hasKind f.Typ.Kind = true) fs vs

/-- A field without key, or a field of boolean or integer kind that carries no
directive other than `omitempty`. -/
def StructField.boolInt (f : StructField) : Bool :=
  f.key == [] ||
    (!f.opts.Contains (bs "stringer") && !f.opts.Contains (bs "encoder") &&
      !f.opts.Contains (bs "raw") && !f.opts.Contains (bs "escape") &&
      match f.Typ with
      | .basic k => isBoolIntKind k
      | _ => false)

/-- The entries `"key":value` of the emitted fields: the keyed fields that are not
left out, in the order of declaration. -/
def emittedEntries : List StructField → List Value → List Bytes
  | f :: fs, v :: vs =>
    if f.key = [] ∨ f.omitted v = true then emittedEntries fs vs
    else ([34] ++ f.key ++ [34, 58] ++ plainValue v) :: emittedEntries fs vs
  | _, _ => []

/-- Two adjacent bytes are not `,}`, `{,` or `,,`. -/
def SepOK (a b : UInt8) : Prop :=
  ¬(a = 44 ∧ b = 125) ∧ ¬(a = 123 ∧ b = 44) ∧ ¬(a = 44 ∧ b = 44)

/-- An entry opens with a double quote, holds no comma, and ends with a byte that is
not an opening brace. -/
def EntryOK (x : Bytes) : Prop :=
  ∃ body l, x = 34 :: (body ++ [l]) ∧ (44 : UInt8) ∉ body ∧ l ≠ 44 ∧ l ≠ 123

/-- The fields `f` and `g` differ at most in the directive `omitempty` on an inline
struct: they are equal, or they are of struct kind and agree on name, type, methods,
output key and on the directives `stringer`, `encoder`, `raw` and `escape`. -/
def SameButOmitempty (f g : StructField) : Prop :=
  f = g ∨
    (f.Typ.Kind = .Struct ∧ g.Name = f.Name ∧ g.exported = f.exported ∧ g.Typ = f.Typ ∧
      g.methods = f.methods ∧ g.key = f.key ∧
      ∀ d ∈ [bs "stringer", bs "encoder", bs "raw", bs "escape"],
        g.opts.Contains d = f.opts.Contains d)

/-! ## Shapes of the tests -/

/-- The message of the panic a result stands for. -/
def panicOf {α : Type} : Res α → Option Bytes
  | .error (.panic msg) => some msg
  | _ => none

/-- An exported field without methods. -/
def mkField (name : String) (t : GoType) (tag : String) : StructField :=
  ⟨bs name, true, t, bs tag, Methods.none⟩

/-- The shape `struct { V *T "v,stringer" }` where `T` has a method `String`
returning `text`. -/
def envStringerPtr (text : Bytes) : TypeEnv := fun id =>
  match id with
  | 0 => [⟨bs "V", true, .ptr (.struct 1), bs "v,stringer",
      ⟨true, false, some (fun _ => text), none, none⟩⟩]
  | _ => []

/-- The shape `type Node struct { Tags []string "tags"; Next *Node "next" }`. -/
def envTaggedNode : TypeEnv := fun _ =>
  [mkField "Tags" (.slice (.basic .String)) "tags", mkField "Next" (.ptr (.struct 0)) "next"]

/-- The shape `type Node struct { Name string "name"; Child *Node "child" }` of
`Test_StructWithRecursion`, declared as struct type 0. -/
def nameField : StructField := mkField "Name" (.basic .String) "name"

def childField : StructField := mkField "Child" (.ptr (.struct 0)) "child"

def envNode : TypeEnv := fun _ => [nameField, childField]

/-- The pointer to a chain of nodes with the given names, the last one with a nil
child; the nil pointer for no names. -/
def chain : List Bytes → Value
  | [] => .ptr none
  | n :: rest => .ptr (some (.struct [.str n, chain rest]))

/-- The text of a chain of nodes. -/
def chainText : List Bytes → Bytes
  | [] => null
  | n :: rest =>
    bs "\x7b\"name\":\"" ++ n ++ bs "\",\"child\":" ++ chainText rest ++ bs "\x7d"

/-- The encoder a successful call returned. -/
def compiled (r : Res StructEncoder) : StructEncoder :=
  match r with
  | .ok e => e
  | .error _ => ⟨[], default, .basic .Invalid, .zero, 0, [], 0, false⟩

/-- The shape `struct { A int "a"; P *Inner "p,omitempty"; B bool "b,omitempty" }` with
`type Inner struct { X int "x,omitempty" }`, declared as the struct types 0 and 1. -/
def envOmitPtr : TypeEnv := fun id =>
  match id with
  | 0 => [mkField "A" (.basic .Int) "a", mkField "P" (.ptr (.struct 1)) "p,omitempty",
      mkField "B" (.basic .Bool) "b,omitempty"]
  | 1 => [mkField "X" (.basic .Int) "x,omitempty"]
  | _ => []

/-- A value of type `[]byte`. -/
def bytesVal (s : String) : Value := .slice ((bs s).map (fun c => .uint c.toNat))

/-- The shape `testStruct2` of `Example_testStruct2`. -/
def envRaw : TypeEnv := fun id =>
  match id with
  | 0 => [mkField "Raw" (.slice (.basic .Uint8)) "raw,raw",
      mkField "Raw2" (.slice (.basic .Uint8)) "b,raw"]
  | _ => []

/-- The shape `struct { S Inner "propStruct,omitempty" }` with
`type Inner struct { X int "x,omitempty"; Y string "y,omitempty" }`. -/
def envInline : TypeEnv := fun id =>
  match id with
  | 0 => [mkField "S" (.struct 1) "propStruct,omitempty"]
  | 1 => [mkField "X" (.basic .Int) "x,omitempty", mkField "Y" (.basic .String) "y,omitempty"]
  | _ => []

/-- The shape of `envInline` without `omitempty` on the inline struct. -/
def envInlinePlain : TypeEnv := fun id =>
  match id with
  | 0 => [mkField "S" (.struct 1) "propStruct"]
  | 1 => [mkField "X" (.basic .Int) "x,omitempty", mkField "Y" (.basic .String) "y,omitempty"]
  | _ => []

/-- The shape `struct { A bool "a,omitempty"; B int "b"; C uint8 "c,omitempty";
hidden int }`. -/
def envBoolInt : TypeEnv := fun _ =>
  [mkField "A" (.basic .Bool) "a,omitempty", mkField "B" (.basic .Int) "b",
    mkField "C" (.basic .Uint8) "c,omitempty", mkField "hidden" (.basic .Int) ""]

/-- The shape `struct { Name string "name"; Age int "age"; Ok bool "ok"; N uint8 "n";
hidden string }`. -/
def envPlain : TypeEnv := fun _ =>
  [mkField "Name" (.basic .String) "name", mkField "Age" (.basic .Int) "age",
    mkField "Ok" (.basic .Bool) "ok", mkField "N" (.basic .Uint8) "n",
    mkField "hidden" (.basic .String) ""]

/-! ## Decimal text -/

/-- The number a string of decimal digits stands for. -/
def decimalValue (ds : Bytes) : Nat := ds.foldl (fun a c => 10 * a + (c.toNat - 48)) 0

/-- The signed integer converters of `ptrconvert.go`. -/
def signedConvs : List Conv :=
  [.ptrIntToBuf, .ptrInt8ToBuf, .ptrInt16ToBuf, .ptrInt32ToBuf, .ptrInt64ToBuf]

/-- The unsigned integer converters of `ptrconvert.go`. -/
def unsignedConvs : List Conv :=
  [.ptrUintToBuf, .ptrUint8ToBuf, .ptrUint16ToBuf, .ptrUint32ToBuf, .ptrUint64ToBuf]

/-! ## Rejected kinds -/

/-- The kinds map, interface, complex64, complex128, chan and func. -/
def isRejectedKind (k : Kind) : Bool :=
  k ∈ [Kind.Map, .Interface, .Complex64, .Complex128, .Chan, .Func]

/-- A keyed field to which none of the directives `stringer`, `encoder`, `raw` and
`escape` applies and whose kind, or whose pointee's kind for a pointer field, is one
of the rejected kinds. -/
def StructField.rejected (f : StructField) : Bool :=
  f.key != [] &&
    !(f.opts.Contains (bs "stringer") && f.methods.hasString) &&
    !f.opts.Contains (bs "encoder") && !f.opts.Contains (bs "raw") &&
    !f.opts.Contains (bs "escape") &&
    match f.Typ with
    | .basic k => isRejectedKind k
    | .ptr (.basic k) => isRejectedKind k
    | _ => false

/-- The state of `NewStructEncoder` before the loop over the fields. -/
def StructEncoder.start (tt : GoType) (tv : ShapeVal) : StructEncoder :=
  (⟨[], default, tt, tv, 0, [], 0, false⟩ : StructEncoder).chunk (bs "\x7b")

/-- The shape `struct { A int "a"; PropMap map[string]int "m"; B bool "b" }`. -/
def envMap : TypeEnv := fun _ =>
  [mkField "A" (.basic .Int) "a", mkField "PropMap" (.basic .Map) "m",
    mkField "B" (.basic .Bool) "b"]

/-! ## Encoder fields -/

/-- The methods of a type with both `JSONEncode(*Buffer)`, which writes `A`, and
`EncodeJSON(io.Writer)`, which writes `B`. -/
def bothMethods : Methods := ⟨false, true, none, some (fun _ => bs "A"), some (fun _ => bs "B")⟩

/-- The shape `struct { V T "v,encoder" }` for a struct type `T` with the methods
`m`. -/
def envEncoder (m : Methods) : TypeEnv := fun id =>
  match id with
  | 0 => [⟨bs "V", true, .struct 1, bs "v,encoder", m⟩]
  | _ => []

/-- The state of the compiler at the field `V` of `envEncoder m`, after the key. -/
def atEncoderField (m : Methods) : StructEncoder :=
  { (StructEncoder.start (.struct 0) .zero).chunk (bs "\"v\":") with
    f := ⟨bs "V", true, .struct 1, bs "v,encoder", m⟩ }

/-! ## JSON strings -/

/-- The string a JSON string literal stands for: the text between the two double
quotes, un-escaped. -/
def jsonParseString (v : Bytes) : Option Bytes :=
  match v with
  | 34 :: rest => if rest.getLast? = some 34 then jsonUnescape rest.dropLast else none
  | _ => none

/-- The shape `struct { Name string "name" }`. -/
def envName : TypeEnv := fun _ => [mkField "Name" (.basic .String) "name"]

/-! ## Invariants of the compiler state -/

/-- No two adjacent instructions of the list are both of kind `kindStatic`. -/
def NoAdj (l : List instruction) : Prop :=
  List.Chain' (fun a b => ¬(a.kind = kindStatic ∧ b.kind = kindStatic)) l

/-- The last instruction of the list, if there is one, is not of kind `kindStatic`. -/
def LastDyn (l : List instruction) : Prop := ∀ x ∈ l.getLast?, x.kind ≠ kindStatic

/-- The property `P` of the static bytes, the kind and the `leapFun` of the first
instruction; as long as there is no instruction, the side buffer has not been flushed,
begins with `{`, and `P` holds of whatever static or omit instruction begins with `{`
and has no `leapFun`. -/
def HeadOK (P : Bytes → Nat → Option Conv → Prop) (e : StructEncoder) : Prop :=
  match e.instructions with
  | [] => e.cpos = 0 ∧ (∃ rest, e.cb = 123 :: rest) ∧
      ∀ b k, (k = kindStatic ∨ k = KindOmit) → P (123 :: b) k none
  | h :: _ => P h.static h.kind h.leapFun

/-- The state of the compiler while it compiles a field: static instructions are
never adjacent, the list the next instruction goes to does not end with a static
instruction, and the flushed part of the side buffer lies within it. -/
def Within (P : Bytes → Nat → Option Conv → Prop) (e : StructEncoder) : Prop :=
  NoAdj e.instructions ∧ (∀ g ∈ e.instructions, NoAdj g.sub) ∧ LastDyn e.instructions ∧
    e.cpos ≤ e.cb.length ∧ HeadOK P e ∧
    (e.o = true → ∃ init g, e.instructions = init ++ [g] ∧ LastDyn g.sub)

/-- The state of the compiler between two fields. -/
def Between (P : Bytes → Nat → Option Conv → Prop) (e : StructEncoder) : Prop :=
  NoAdj e.instructions ∧ (∀ g ∈ e.instructions, NoAdj g.sub) ∧ LastDyn e.instructions ∧
    e.cpos ≤ e.cb.length ∧ HeadOK P e ∧ (e.o = false → e.cpos < e.cb.length)

/-- The static bytes begin with `{`, the kind is `kindStatic` or `KindOmit`, and there is
no `leapFun`. -/
def OpensObject (s : Bytes) (k : Nat) (leapFun : Option Conv) : Prop :=
  s.head? = some 123 ∧ (k = kindStatic ∨ k = KindOmit) ∧ leapFun = none

/-- The state of the compiler after a flush: as `Within`, but the list the next
instruction goes to may end with a static instruction. -/
def Flushed (P : Bytes → Nat → Option Conv → Prop) (e : StructEncoder) : Prop :=
  NoAdj e.instructions ∧ (∀ g ∈ e.instructions, NoAdj g.sub) ∧
    e.cpos ≤ e.cb.length ∧ HeadOK P e ∧
    (e.o = true → ∃ init g, e.instructions = init ++ [g] ∧ g.kind ≠ kindStatic)

/-- The shape `struct { A bool "a,omitempty" }`. -/
def envOmitFirst : TypeEnv := fun _ => [mkField "A" (.basic .Bool) "a,omitempty"]

/-- The kind and the static bytes of each instruction of a plan. -/
def planOutline (plan : List instruction) : List (Nat × Bytes) :=
  plan.map (fun x => (x.kind, x.static))

/-- The shape `struct { X int; A int "a"; Y string ",omitempty"; B bool "b"; Z []int }`,
declared as the struct type 0; the same shape without the fields `X`, `Y` and `Z`,
which have no output key, declared as the struct type 1; and the same shape without
the field `Y`, declared as the struct type 2. -/
def envUnkeyed : TypeEnv := fun id =>
  match id with
  | 0 => [mkField "X" (.basic .Int) "", mkField "A" (.basic .Int) "a",
      mkField "Y" (.basic .String) ",omitempty", mkField "B" (.basic .Bool) "b",
      mkField "Z" (.slice (.basic .Int)) ""]
  | 1 => [mkField "A" (.basic .Int) "a", mkField "B" (.basic .Bool) "b"]
  | 2 => [mkField "X" (.basic .Int) "", mkField "A" (.basic .Int) "a",
      mkField "B" (.basic .Bool) "b", mkField "Z" (.slice (.basic .Int)) ""]
  | _ => []

/-! ## Tag options -/

/-- The comma-separated tokens of an options string: the texts between the commas. -/
def commaTokens : Bytes → List Bytes
  | [] => [[]]
  | c :: rest =>
    if c = 44 then [] :: commaTokens rest
    else
      match commaTokens rest with
      | t :: ts => (c :: t) :: ts
      | [] => [[c]]

/-! ## Shapes of one field -/

/-- The shape `struct { V T "tag" }`, declared as the struct type 0, for a field type
`T` with the methods `m`. -/
def envTagged (t : GoType) (tag : String) (m : Methods) : TypeEnv := fun id =>
  match id with
  | 0 => [⟨bs "V", true, t, bs tag, m⟩]
  | _ => []

/-- The methods of a type with `String`, which returns `S`, and `JSONEncode(*Buffer)`,
which writes `A`. -/
def stringerEncoder : Methods :=
  ⟨true, false, some (fun _ => bs "S"), some (fun _ => bs "A"), none⟩

/-- The methods of a type with `JSONEncode(*Buffer)`, which writes `A`, and no method
`String`. -/
def encoderOnly : Methods := ⟨false, false, none, some (fun _ => bs "A"), none⟩

/-- The shape `struct { a int; B string; C []int ",omitempty" }`, none of whose
fields has an output key, declared as the struct type 0; the struct type 1 has no
fields. -/
def envNoKeys : TypeEnv := fun id =>
  match id with
  | 0 => [⟨bs "a", false, .basic .Int, [], Methods.none⟩, mkField "B" (.basic .String) "",
      mkField "C" (.slice (.basic .Int)) ",omitempty"]
  | _ => []

/-! ## Sequences -/

/-- The shape `struct { A []int "a"; B []string "b"; P []*string "p" }`. -/
def envSlices : TypeEnv := fun id =>
  match id with
  | 0 => [mkField "A" (.slice (.basic .Int)) "a", mkField "B" (.slice (.basic .String)) "b",
      mkField "P" (.slice (.ptr (.basic .String))) "p"]
  | _ => []

/-- A value of type `[]*string`: a nil pointer for `none`, a pointer to the string for
`some`. -/
def ptrStrings (os : List (Option Bytes)) : Value :=
  .slice (os.map (fun o => .ptr (o.map Value.str)))

/-- The text of an optional string: `null` when absent, the string between double
quotes when present. -/
def optStringText (o : Option Bytes) : Bytes :=
  match o with
  | none => bs "null"
  | some s => [34] ++ s ++ [34]

/-! ## Pointers to primitive kinds -/

/-- The shape `struct { A *int "a"; S *string "s"; B *bool "b,omitempty" }`, declared as
the struct type 0, and the same shape with the field `S` inline, of type `string`,
declared as the struct type 1. -/
def envPtrPrim : TypeEnv := fun id =>
  match id with
  | 0 => [mkField "A" (.ptr (.basic .Int)) "a", mkField "S" (.ptr (.basic .String)) "s",
      mkField "B" (.ptr (.basic .Bool)) "b,omitempty"]
  | 1 => [mkField "A" (.ptr (.basic .Int)) "a", mkField "S" (.basic .String) "s",
      mkField "B" (.ptr (.basic .Bool)) "b,omitempty"]
  | _ => []

/-! ## Arrays -/

/-- The shape `struct { A [2]int "a" }`. -/
def envArray : TypeEnv := fun id =>
  match id with
  | 0 => [mkField "A" (.array 2 (.basic .Int)) "a"]
  | _ => []

/-- The shape `struct { A [2]int "a,omitempty" }`. -/
def envArrayOmit : TypeEnv := fun id =>
  match id with
  | 0 => [mkField "A" (.array 2 (.basic .Int)) "a,omitempty"]
  | _ => []

/-- The byte is not a space, a tab or a newline. -/
def notBlank (c : UInt8) : Prop := c ≠ 32 ∧ c ≠ 9 ∧ c ≠ 10

/-! ## The sink before a call -/

/-- The bytes begin with a byte that is not a comma. -/
def Guarded (t : Bytes) : Prop := ∃ c t', t = c :: t' ∧ c ≠ 44

/-! ## Reading an escaped string -/

/-- A unit of an escaped string read from left to right: a backslash with the byte
after it, a byte that is not a backslash, or a backslash at the end with no byte
after it. -/
inductive EscUnit where
  | pair (c : UInt8)
  | plain (c : UInt8)
  | dangling
  deriving DecidableEq, Repr

/-- The units of a string, read from left to right. -/
def readUnits : Bytes → List EscUnit
  | [] => []
  | 92 :: c :: rest => .pair c :: readUnits rest
  | [92] => [.dangling]
  | c :: rest => .plain c :: readUnits rest

/-- The unit the escaper writes for one byte. -/
def escapeUnit (c : UInt8) : EscUnit :=
  if c = 92 then .pair 92
  else if c = 34 then .pair 34
  else if c = 10 then .pair 110
  else if c = 13 then .pair 114
  else if c = 9 then .pair 116
  else .plain c

/-! ## Arrays of strings, pointers to pointers, shapes that refer to each other -/

/-- The shape `struct { A [2]string "a" }`, declared as the struct type 0, and the
shape `struct { S string "s" }`, declared as the struct type 1. -/
def envArrayStr : TypeEnv := fun id =>
  match id with
  | 0 => [mkField "A" (.array 2 (.basic .String)) "a"]
  | 1 => [mkField "S" (.basic .String) "s"]
  | _ => []

/-- The shape `struct { P **int "p"; B int "b" }`, declared as the struct type 0, the
shape `struct { A [2]Inner "a" }`, declared as the struct type 1, and
`type Inner struct { X int "x" }`, declared as the struct type 2. -/
def envPtrPtr : TypeEnv := fun id =>
  match id with
  | 0 => [mkField "P" (.ptr (.ptr (.basic .Int))) "p", mkField "B" (.basic .Int) "b"]
  | 1 => [mkField "A" (.array 2 (.struct 2)) "a"]
  | 2 => [mkField "X" (.basic .Int) "x"]
  | _ => []

/-- The shapes `type A struct { B *B "b" }` and `type B struct { A *A "a" }`, declared
as the struct types 0 and 1, and the shape `type N struct { Next *N "next" }`,
declared as the struct type 2. -/
def envMutual : TypeEnv := fun id =>
  match id with
  | 0 => [mkField "B" (.ptr (.struct 1)) "b"]
  | 1 => [mkField "A" (.ptr (.struct 0)) "a"]
  | 2 => [mkField "Next" (.ptr (.struct 2)) "next"]
  | _ => []

/-- The shape `struct { A int "a"; D int "-" }`. -/
def envDash : TypeEnv := fun id =>
  match id with
  | 0 => [mkField "A" (.basic .Int) "a", mkField "D" (.basic .Int) "-"]
  | _ => []

/-! ## A shape without the directive omitempty -/

/-- The json tag without the directive `omitempty`: its comma-separated parts, the
first of which is the output key, without the options that read `omitempty`. -/
def dropOmitempty (tag : Bytes) : Bytes :=
  match commaTokens tag with
  | [] => tag
  | key :: opts => List.intercalate [44] (key :: opts.filter (fun t => t ≠ bs "omitempty"))

/-- The field with the directive `omitempty` removed from its tag. -/
def StructField.withoutOmitempty (f : StructField) : StructField :=
  { f with Tag := dropOmitempty f.Tag }

/-- The declared struct types with the directive `omitempty` removed from every
field. -/
def withoutOmitempty (env : TypeEnv) : TypeEnv := fun id =>
  (env id).map StructField.withoutOmitempty

mutual
/-- Every keyed field tagged `omitempty` in the value `v` of type `t`, at any depth,
holds a value that is not the zero value of its kind. -/
def omitemptySet (env : TypeEnv) : GoType → Value → Bool
  | .ptr t, .ptr (some x) => omitemptySet env t x
  | .slice t, .slice xs => omitemptySetElems env t xs
  | .struct id, .struct vs => omitemptySetFields env (env id) vs
  | _, _ => true
/-- The elements of a sequence hold no zero value in a field tagged `omitempty`. -/
def omitemptySetElems (env : TypeEnv) (t : GoType) : List Value → Bool
  | [] => true
  | x :: xs => omitemptySet env t x && omitemptySetElems env t xs
/-- The fields of a struct hold no zero value in a field tagged `omitempty`. -/
def omitemptySetFields (env : TypeEnv) : List StructField → List Value → Bool
  | f :: fs, v :: vs =>
    (f.key == [] ||
      ((!f.opts.Contains (bs "omitempty") || !v.isZeroValue) && omitemptySet env f.Typ v))
      && omitemptySetFields env fs vs
  | _, _ => true
end

/-- The shape `struct { A int "a,omitempty"; S string "s,omitempty"; P *Inner
"p,omitempty"; N Inner "n,omitempty" }` with `type Inner struct { X int "x,omitempty" }`,
declared as the struct types 0 and 1. -/
def envOmitAll : TypeEnv := fun id =>
  match id with
  | 0 => [mkField "A" (.basic .Int) "a,omitempty", mkField "S" (.basic .String) "s,omitempty",
      mkField "P" (.ptr (.struct 1)) "p,omitempty", mkField "N" (.struct 1) "n,omitempty"]
  | 1 => [mkField "X" (.basic .Int) "x,omitempty"]
  | _ => []

/-! ## Omit groups -/

/-- An instruction the inner loop of `Marshal` handles as the outer loop does: it is no
omit group, has no sub-instructions, and is static, a string or an int fast path, or
holds a `leapFun` or a `fun`. -/
def Leaf (b : instruction) : Prop :=
  b.kind ≠ KindOmit ∧ b.sub = [] ∧
    (b.kind = kindStatic ∨ b.kind = kindStringField ∨ b.kind = kindInt ∨ b.leapFun ≠ none ∨
      b.fn ≠ none)

/-- The list ends with an instruction of kind `kindStatic`. -/
def EndsStatic (l : List instruction) : Prop := ∃ body x, l = body ++ [x] ∧ x.kind = kindStatic

/-- The omit group `g` guards the field at offset `k`: every instruction of its body
that is not static reads at offset `k`, and with such an instruction in the body the
offset of the group is `k`; a group whose body holds static instructions only has the
offset 0 and no zero test. -/
def Guards (g : instruction) (k : Nat) : Prop :=
  (∀ b ∈ g.sub, b.kind ≠ kindStatic → b.offset = k ∧ g.offset = k) ∧
    ((∀ b ∈ g.sub, b.kind = kindStatic) → g.offset = 0 ∧ g.isZero = none)

/-- The omit groups of a plan, in order. -/
def omitGroups (plan : List instruction) : List instruction :=
  plan.filter (fun g => g.kind == KindOmit)

/-- The offsets of the fields for which the loop of `NewStructEncoder` sets `e.o`: the
fields with an output key that are tagged `omitempty` and are not of the kind struct;
`i` is the offset of the first field of the list. -/
def omitFields : List StructField → Nat → List Nat
  | [], _ => []
  | f :: fs, i =>
    if (parseTag f.Tag).1 ≠ [] ∧
        ((parseTag f.Tag).2.Contains (bs "omitempty") && f.Typ.Kind != .Struct) = true then
      i :: omitFields fs (i + 1)
    else omitFields fs (i + 1)

/-- No omit group stands below the top level, and every instruction of a body is one
the inner loop handles. -/
def LeafOK (ins : List instruction) : Prop :=
  (∀ g ∈ ins, g.kind ≠ KindOmit → Leaf g) ∧ (∀ g ∈ ins, g.kind = KindOmit → ∀ b ∈ g.sub, Leaf b)

/-- The state of the compiler while it compiles the value of a field: with `e.o` set,
the last instruction is the omit group of the field `e.i`. -/
def GroupOpen (e : StructEncoder) (ks : List Nat) : Prop :=
  e.cpos ≤ e.cb.length ∧ LeafOK e.instructions ∧
    (e.o = true → ∃ init g ks0, e.instructions = init ++ [g] ∧ g.kind = KindOmit ∧
      ks = ks0 ++ [e.i] ∧ List.Forall₂ Guards (omitGroups init) ks0 ∧ Guards g e.i ∧
      ∀ x ∈ init, x.kind = KindOmit → EndsStatic x.sub) ∧
    (e.o = false → List.Forall₂ Guards (omitGroups e.instructions) ks ∧
      ∀ x ∈ e.instructions, x.kind = KindOmit → EndsStatic x.sub)

/-- The state of the compiler between two fields: the omit groups guard the fields
`ks`, and the body of each ends with a static instruction. -/
def GroupClosed (e : StructEncoder) (ks : List Nat) : Prop :=
  e.cpos ≤ e.cb.length ∧ LeafOK e.instructions ∧
    List.Forall₂ Guards (omitGroups e.instructions) ks ∧
    (∀ x ∈ e.instructions, x.kind = KindOmit → EndsStatic x.sub) ∧
    (e.o = true → ∃ init g, e.instructions = init ++ [g] ∧ g.kind = KindOmit)

/-- The shape `struct { A int "a"; P **int "p,omitempty" }`, declared as the struct
type 0, and the shape `struct { A int "a"; B bool "b,omitempty"; S string "s,omitempty" }`,
declared as the struct type 1. -/
def envGroups : TypeEnv := fun id =>
  match id with
  | 0 => [mkField "A" (.basic .Int) "a", mkField "P" (.ptr (.ptr (.basic .Int))) "p,omitempty"]
  | 1 => [mkField "A" (.basic .Int) "a", mkField "B" (.basic .Bool) "b,omitempty",
      mkField "S" (.basic .String) "s,omitempty"]
  | _ => []

/-! ## Marshal with the plan in the state

`Marshal` has a pointer receiver, and the closures of a plan hold pointers to
encoders: the encoder they were built in and the encoders of nested structs. Here the
interpreter is written with that memory in the state: every step takes the
instructions as the call before it left them and returns them next to the sink, the
loops read `e.instructions[i]` and `e.instructions[i].sub[si]` from the current state
in every round, and a nested call of `Marshal` returns the instructions of the encoder
it ran on. An encoder other than the receiver is referred to by one closure only, so
its instructions are kept in that closure. The number of rounds and of nested calls is
bounded by the fuel. -/

/-- The memory after the call of the closure `plan[i].fun`: the instruction holds the
closure with the encoders it refers to as the call left them. -/
def setFn (plan : List instruction) (i : Nat) (f : Fun instruction) : List instruction :=
  match plan[i]? with
  | none => plan
  | some ins =>
    plan.set i (.mk ins.static ins.sub ins.kind ins.offset ins.leapFun (some f) ins.isZero)

/-- The memory after the call of the closure `plan[i].sub[si].fun`. -/
def setSubFn (plan : List instruction) (i si : Nat) (f : Fun instruction) : List instruction :=
  match plan[i]? with
  | none => plan
  | some ins =>
    plan.set i (.mk ins.static (setFn ins.sub si f) ins.kind ins.offset ins.leapFun ins.fn
      ins.isZero)

/-- A closure of the field `fun` called as `fun(p, w)`, with the memory in the state:
the closure, the instructions of the encoder it was built in and the sink after the
call. `marshal` is `StructEncoder.Marshal`, `elem` is `SliceEncoder.Marshal`. The
closures of `ptrval`, `ptrstringval`, of the array loop and of `setupLastField` refer
to no encoder: they read the instance and write to the sink. -/
def Fun.runState (marshal : List instruction → Value → Bytes → Option (List instruction × Bytes))
    (elem : ElemPlan instruction → Value → Bytes → Option (ElemPlan instruction × Bytes))
    (self : List instruction) :
    Fun instruction → Value → Bytes → Option (Fun instruction × List instruction × Bytes)
  | .escapeSlice enc offset, v, w =>
    match leap v offset with
    | some x => (elem enc x w).map (fun r => (.escapeSlice r.1 offset, self, r.2))
    | none => none
  | .sliceField enc offset, v, w =>
    match leap v offset with
    | some x => (elem enc x w).map (fun r => (.sliceField r.1 offset, self, r.2))
    | none => none
  | .ptrStruct none offset, v, w =>
    match leap v offset with
    | some (.ptr none) => some (.ptrStruct none offset, self, w ++ null)
    | some (.ptr (some x)) => (marshal self x w).map (fun r => (.ptrStruct none offset, r.1, r.2))
    | _ => none
  | .ptrStruct (some enc) offset, v, w =>
    match leap v offset with
    | some (.ptr none) => some (.ptrStruct (some enc) offset, self, w ++ null)
    | some (.ptr (some x)) =>
      (marshal enc x w).map (fun r => (.ptrStruct (some r.1) offset, self, r.2))
    | _ => none
  | .structField enc offset, v, w =>
    match leap v offset with
    | some x => (marshal enc x w).map (fun r => (.structField r.1 offset, self, r.2))
    | none => none
  | f, v, w => (f.run (fun _ _ _ => none) self v w).map (fun out => (f, self, out))

/-- The interpreter with a bound on the rounds and nested calls left: `marshal` is
`StructEncoder.Marshal`, `loop` its outer loop from the index `i` on, `subLoop` its
inner loop over `e.instructions[i].sub` from the index `si` on, `elem` is
`SliceEncoder.Marshal` and `elems` its loop over the elements. -/
structure Interp where
  marshal : List instruction → Value → Bytes → Option (List instruction × Bytes)
  loop : List instruction → Nat → Value → Bytes → Option (List instruction × Bytes)
  subLoop : List instruction → Nat → Nat → Value → Bytes → Option (List instruction × Bytes)
  elem : ElemPlan instruction → Value → Bytes → Option (ElemPlan instruction × Bytes)
  elems : ElemPlan instruction → List Value → Bool → Bytes →
    Option (ElemPlan instruction × Bytes)

/-- Body of the inner loop of `Marshal` at `e.instructions[i].sub[si]`. -/
def Interp.subAt (I : Interp) (plan : List instruction) (i si : Nat) (p : Value) (w : Bytes) :
    Option (List instruction × Bytes) :=
  match plan[i]? with
  | none => none
  | some g =>
    match g.sub[si]? with
    | none => none
    | some ins =>
      if ins.kind = kindStatic then some (plan, w ++ ins.static)
      else if ins.kind = kindStringField then
        ((leap p ins.offset).bind (Conv.ptrStringToBuf.run · w)).map (fun out => (plan, out))
      else if ins.kind = kindInt then
        ((leap p ins.offset).bind (Conv.ptrIntToBuf.run · w)).map (fun out => (plan, out))
      else match ins.leapFun with
        | some conv => ((leap p ins.offset).bind (conv.run · w)).map (fun out => (plan, out))
        | none =>
          match ins.fn with
          | some f =>
            (f.runState I.marshal I.elem plan p w).map
              (fun r => (setSubFn r.2.1 i si r.1, r.2.2))
          | none => none

/-- Body of the outer loop of `Marshal` at `e.instructions[i]`. -/
def Interp.execAt (I : Interp) (plan : List instruction) (i : Nat) (p : Value) (w : Bytes) :
    Option (List instruction × Bytes) :=
  match plan[i]? with
  | none => none
  | some ins =>
    if ins.kind = kindStatic then some (plan, w ++ ins.static)
    else if ins.kind = kindStringField then
      ((leap p ins.offset).bind (Conv.ptrStringToBuf.run · w)).map (fun out => (plan, out))
    else if ins.kind = kindInt then
      ((leap p ins.offset).bind (Conv.ptrIntToBuf.run · w)).map (fun out => (plan, out))
    else match ins.leapFun with
      | some conv => ((leap p ins.offset).bind (conv.run · w)).map (fun out => (plan, out))
      | none =>
        if ins.kind = KindOmit then
          let w := w ++ ins.static
          match ins.isZero with
          | none => none
          | some isZero =>
            match (leap p ins.offset).bind isZero with
            | none => none
            | some true =>
              match ins.fn with
              | some f =>
                (f.runState I.marshal I.elem plan p w).map
                  (fun r => (setFn r.2.1 i r.1, r.2.2))
              | none => some (plan, w)
            | some false => I.subLoop plan i 0 p w
        else
          match ins.fn with
          | some f =>
            (f.runState I.marshal I.elem plan p w).map (fun r => (setFn r.2.1 i r.1, r.2.2))
          | none => none

/-- Modelled from the spec: `SliceEncoder.Marshal` (`sliceencoder.go` is absent) with
the element plan in the state. -/
def Interp.elemAt (I : Interp) : ElemPlan instruction → Value → Bytes →
    Option (ElemPlan instruction × Bytes)
  | .conv c quoted, v, w =>
    ((ElemPlan.conv c quoted : ElemPlan instruction).run (fun _ _ _ => none) v w).map
      (fun out => (.conv c quoted, out))
  | .ptr inner, v, w =>
    match v with
    | .ptr none => some (.ptr inner, w ++ null)
    | .ptr (some x) => (I.elem inner x w).map (fun r => (.ptr r.1, r.2))
    | _ => none
  | .struct plan, v, w => (I.marshal plan v w).map (fun r => (.struct r.1, r.2))
  | .slice el, v, w =>
    match v with
    | .slice xs => (I.elems el xs true (w ++ [91])).map (fun r => (.slice r.1, r.2 ++ [93]))
    | _ => none

/-- The interpreter with one more round or nested call. -/
def Interp.next (I : Interp) : Interp where
  marshal := fun plan p w => I.loop plan 0 p w
  loop := fun plan i p w =>
    if i < plan.length then
      match I.execAt plan i p w with
      | none => none
      | some (plan1, w1) => I.loop plan1 (i + 1) p w1
    else some (plan, w)
  subLoop := fun plan i si p w =>
    match plan[i]? with
    | none => none
    | some g =>
      if si < g.sub.length then
        match I.subAt plan i si p w with
        | none => none
        | some (plan1, w1) => I.subLoop plan1 i (si + 1) p w1
      else some (plan, w)
  elem := I.elemAt
  elems := fun el xs first w =>
    match xs with
    | [] => some (el, w)
    | x :: rest =>
      match I.elem el x (if first then w else w ++ [44]) with
      | none => none
      | some (el1, w1) => I.elems el1 rest false w1

/-- The interpreter out of fuel. -/
def Interp.stop : Interp where
  marshal := fun _ _ _ => none
  loop := fun _ _ _ _ => none
  subLoop := fun _ _ _ _ _ => none
  elem := fun _ _ _ => none
  elems := fun _ _ _ _ => none

/-- The interpreter with `fuel` rounds and nested calls. -/
def runState : Nat → Interp
  | 0 => Interp.stop
  | fuel + 1 => (runState fuel).next

/-! ## Calls of Marshal one after the other -/

/-- The method `StructEncoder.Marshal` called on the encoder `e`: the encoder and the
sink after the call. -/
def StructEncoder.marshalCall (e : StructEncoder) (fuel : Nat) (p : Value) (w : Bytes) :
    Option (StructEncoder × Bytes) :=
  ((runState fuel).marshal e.instructions p w).map
    (fun r => ({ e with instructions := r.1 }, r.2))

/-- Calls of `Marshal`, `n` of them one after the other, on the same instance, each
into an empty sink and each on the encoder as the call before it left it: the encoder
after the calls and the bytes of each call. -/
def marshalTimes (fuel : Nat) (p : Value) : Nat → StructEncoder →
    Option (StructEncoder × List Bytes)
  | 0, e => some (e, [])
  | n + 1, e =>
    match e.marshalCall fuel p [] with
    | none => none
    | some (e1, out) =>
      match marshalTimes fuel p n e1 with
      | none => none
      | some (e2, outs) => some (e2, out :: outs)
/-! ## The escaper -/

theorem slice_self (s : Bytes) (n : Nat) : slice s n n = [] := by
  simp [slice, List.drop_take]

theorem slice_succ (s : Bytes) (pos n : Nat) (hp : pos ≤ n) (hn : n < s.length) :
    slice s pos (n + 1) = slice s pos n ++ [s[n]] := by
  unfold slice
  rw [List.take_succ, List.getElem?_eq_getElem hn]
  simp only [Option.toList]
  rw [List.drop_append_of_le_length]
  simp [List.length_take]; omega

theorem escapeStep_inv (s : Bytes) (w : Bytes) (n : Nat) (hn : n < s.length) (st : Nat × Bytes)
    (hpos : st.1 ≤ n) (hw : st.2 ++ slice s st.1 n = w ++ (s.take n).flatMap escapeByte) :
    (escapeStep s st n).1 ≤ n + 1 ∧
    (escapeStep s st n).2 ++ slice s (escapeStep s st n).1 (n + 1)
      = w ++ (s.take (n + 1)).flatMap escapeByte := by
  have hflush : (if st.1 < n then st.2 ++ slice s st.1 n else st.2)
      = w ++ (s.take n).flatMap escapeByte := by
    split
    · exact hw
    · have : st.1 = n := by omega
      rw [← hw, this, slice_self]; simp
  have htake : (s.take (n + 1)).flatMap escapeByte
      = (s.take n).flatMap escapeByte ++ escapeByte s[n] := by
    rw [List.take_succ, List.getElem?_eq_getElem hn, List.flatMap_append]
    simp [Option.toList]
  have hc : s.getD n 0 = s[n] := List.getD_eq_getElem s 0 hn
  unfold escapeStep
  simp only [hc]
  by_cases h1 : s[n] = 92 ∨ s[n] = 34
  · rw [if_pos h1]
    refine ⟨le_refl _, ?_⟩
    simp only [hflush, slice_self, htake]
    rcases h1 with h | h <;> simp [escapeByte, h]
  · rw [if_neg h1]
    push_neg at h1
    by_cases h2 : s[n] = 10
    · rw [if_pos h2]
      refine ⟨le_refl _, ?_⟩
      simp only [hflush, slice_self, htake]
      simp [escapeByte, h2]
    · rw [if_neg h2]
      by_cases h3 : s[n] = 13
      · rw [if_pos h3]
        refine ⟨le_refl _, ?_⟩
        simp only [hflush, slice_self, htake]
        simp [escapeByte, h3]
      · rw [if_neg h3]
        by_cases h4 : s[n] = 9
        · rw [if_pos h4]
          refine ⟨le_refl _, ?_⟩
          simp only [hflush, slice_self, htake]
          simp [escapeByte, h4]
        · rw [if_neg h4]
          refine ⟨by omega, ?_⟩
          rw [slice_succ s st.1 n hpos hn, htake, ← List.append_assoc, hw]
          simp [escapeByte, h1.1, h1.2, h2, h3, h4]

theorem escapeLoop_inv (s : Bytes) (w : Bytes) (n : Nat) (hn : n ≤ s.length) :
    ((List.range n).foldl (escapeStep s) (0, w)).1 ≤ n ∧
    ((List.range n).foldl (escapeStep s) (0, w)).2
        ++ slice s ((List.range n).foldl (escapeStep s) (0, w)).1 n
      = w ++ (s.take n).flatMap escapeByte := by
  induction n with
  | zero => simp [slice]
  | succ k ih =>
    have hk := ih (by omega)
    rw [List.range_succ, List.foldl_append]
    simp only [List.foldl_cons, List.foldl_nil]
    exact escapeStep_inv s w k (by omega) _ hk.1 hk.2

theorem ptrEscapeStringToBuf_eq (s w : Bytes) :
    ptrEscapeStringToBuf s w = w ++ s.flatMap escapeByte := by
  have h := escapeLoop_inv s w s.length (le_refl _)
  unfold ptrEscapeStringToBuf
  simp only
  have hsl : ∀ p, slice s p s.length = s.drop p := by
    intro p; simp [slice]
  rw [hsl] at h
  rw [List.take_length] at h
  split
  · exact h.2
  · have : ((List.range s.length).foldl (escapeStep s) (0, w)).1 = s.length := by omega
    rw [this] at h
    simpa using h.2

theorem jsonUnescape_escapeByte (c : UInt8) (rest : Bytes)
    (hc : 32 ≤ c.toNat ∨ c = 10 ∨ c = 13 ∨ c = 9) :
    jsonUnescape (escapeByte c ++ rest) = (jsonUnescape rest).map (c :: ·) := by
  unfold escapeByte
  by_cases h1 : c = 92
  · subst h1; simp [jsonUnescape]
  · by_cases h2 : c = 34
    · subst h2; simp [jsonUnescape]
    · by_cases h3 : c = 10
      · subst h3; simp [jsonUnescape]
      · by_cases h4 : c = 13
        · subst h4; simp [jsonUnescape]
        · by_cases h5 : c = 9
          · subst h5; simp [jsonUnescape]
          · simp only [h1, h2, h3, h4, h5, if_false, List.singleton_append]
            have h32 : ¬ c.toNat < 32 := by
              rcases hc with h | h | h | h
              · omega
              · exact absurd h h3
              · exact absurd h h4
              · exact absurd h h5
            rw [jsonUnescape]
            · simp [h32, h2]
            · intro c' r' hh
              exact absurd hh h1
            · intro hh
              exact absurd hh h1

theorem jsonUnescape_escape_append (s rest : Bytes) (r : Bytes)
    (hs : ∀ c ∈ s, 32 ≤ c.toNat ∨ c = 10 ∨ c = 13 ∨ c = 9)
    (hr : jsonUnescape rest = some r) :
    jsonUnescape (s.flatMap escapeByte ++ rest) = some (s ++ r) := by
  induction s with
  | nil => simpa using hr
  | cons c t ih =>
    rw [List.flatMap_cons, List.append_assoc,
      jsonUnescape_escapeByte c _ (hs c (List.mem_cons_self _ _)),
      ih (fun c hc => hs c (List.mem_cons_of_mem _ hc))]
    simp

/-! ## Running a plan -/

@[simp] theorem instruction.static_mk (s : Bytes) (sub : List instruction) (k o : Nat)
    (l : Option Conv) (f : Option (Fun instruction)) (z : Option (Value → Option Bool)) :
    (instruction.mk s sub k o l f z).static = s := rfl

@[simp] theorem instruction.sub_mk (s : Bytes) (sub : List instruction) (k o : Nat)
    (l : Option Conv) (f : Option (Fun instruction)) (z : Option (Value → Option Bool)) :
    (instruction.mk s sub k o l f z).sub = sub := rfl

@[simp] theorem instruction.kind_mk (s : Bytes) (sub : List instruction) (k o : Nat)
    (l : Option Conv) (f : Option (Fun instruction)) (z : Option (Value → Option Bool)) :
    (instruction.mk s sub k o l f z).kind = k := rfl

@[simp] theorem instruction.offset_mk (s : Bytes) (sub : List instruction) (k o : Nat)
    (l : Option Conv) (f : Option (Fun instruction)) (z : Option (Value → Option Bool)) :
    (instruction.mk s sub k o l f z).offset = o := rfl

@[simp] theorem instruction.leapFun_mk (s : Bytes) (sub : List instruction) (k o : Nat)
    (l : Option Conv) (f : Option (Fun instruction)) (z : Option (Value → Option Bool)) :
    (instruction.mk s sub k o l f z).leapFun = l := rfl

@[simp] theorem instruction.fn_mk (s : Bytes) (sub : List instruction) (k o : Nat)
    (l : Option Conv) (f : Option (Fun instruction)) (z : Option (Value → Option Bool)) :
    (instruction.mk s sub k o l f z).fn = f := rfl

@[simp] theorem instruction.isZero_mk (s : Bytes) (sub : List instruction) (k o : Nat)
    (l : Option Conv) (f : Option (Fun instruction)) (z : Option (Value → Option Bool)) :
    (instruction.mk s sub k o l f z).isZero = z := rfl

theorem instruction.eta (a : instruction) :
    instruction.mk a.static a.sub a.kind a.offset a.leapFun a.fn a.isZero = a := by
  cases a; rfl

theorem exec_static (rec : List instruction → Value → Bytes → Option Bytes)
    (self : List instruction) (p : Value) (w b : Bytes) :
    exec rec self p w (staticInstr b) = some (w ++ b) := by
  simp [exec, staticInstr]

theorem execSub_static (rec : List instruction → Value → Bytes → Option Bytes)
    (self : List instruction) (p : Value) (w b : Bytes) :
    execSub rec self p w (staticInstr b) = some (w ++ b) := by
  simp [execSub, staticInstr]

theorem exec_eq_execSub (rec : List instruction → Value → Bytes → Option Bytes)
    (self : List instruction) (p : Value) (w : Bytes) (ins : instruction)
    (h : ins.kind ≠ KindOmit) : exec rec self p w ins = execSub rec self p w ins := by
  unfold exec execSub
  simp only [h, if_false]

theorem joinTrail_append (a b : List Bytes) : joinTrail (a ++ b) = joinTrail a ++ joinTrail b := by
  simp [joinTrail, List.flatMap_append]

theorem intercalate_concat (es : List Bytes) (x : Bytes) :
    List.intercalate [44] (es ++ [x]) = joinTrail es ++ x := by
  induction es with
  | nil => simp [joinTrail, List.intercalate]
  | cons a t ih =>
    cases t with
    | nil => simp [joinTrail, List.intercalate, List.intersperse]
    | cons b t' =>
      have : List.intercalate [44] (a :: ((b :: t') ++ [x]))
          = a ++ [44] ++ List.intercalate [44] ((b :: t') ++ [x]) := by
        simp [List.intercalate, List.intersperse]
      rw [List.cons_append, this, ih]
      simp [joinTrail]

theorem joinTrail_eq (es : List Bytes) (h : es ≠ []) :
    joinTrail es = List.intercalate [44] es ++ [44] := by
  rcases List.eq_nil_or_concat es with h0 | ⟨init, x, rfl⟩
  · exact absurd h0 h
  · rw [List.concat_eq_append, intercalate_concat, joinTrail_append]
    simp [joinTrail]

theorem exec_group (rec : List instruction → Value → Bytes → Option Bytes)
    (self : List instruction) (p : Value) (w : Bytes) (s : Seg) (stat tail : Bytes)
    (fn : Option (Fun instruction)) (z : Bool) (ho : s.omitempty = true) (hz : s.zero p = some z)
    (_hk : s.ins.kind ≠ kindStatic)
    (hv : z = false → ∃ v, ∀ w, execSub rec self p w s.ins = some (w ++ v)) :
    exec rec self p w (s.group stat tail fn) =
      if z then
        (match fn with
          | some f => f.run rec self p (w ++ stat)
          | none => some (w ++ stat))
      else (execSub rec self p [] s.ins).map (fun v => w ++ stat ++ s.pre ++ v ++ tail) := by
  unfold Seg.zero at hz
  rw [if_pos ho] at hz
  cases hg : getIsZeroFunc s.kind with
  | none => simp [hg] at hz
  | some isZ =>
    simp only [hg] at hz
    unfold exec Seg.group
    simp only [instruction.kind_mk, instruction.static_mk, instruction.leapFun_mk,
      instruction.isZero_mk, instruction.offset_mk, instruction.fn_mk, instruction.sub_mk, hg, hz]
    have h1 : KindOmit ≠ kindStatic := by decide
    have h2 : KindOmit ≠ kindStringField := by decide
    have h3 : KindOmit ≠ kindInt := by decide
    simp only [h1, h2, h3, if_false, if_true]
    cases z with
    | true => simp
    | false =>
      obtain ⟨v, hv⟩ := hv rfl
      simp [List.foldlM, execSub_static, hv]

theorem Seg.entry_eq (rec : List instruction → Value → Bytes → Option Bytes)
    (self : List instruction) (p : Value) (s : Seg) (z : Bool) (hz : s.zero p = some z) :
    s.entry rec self p =
      if z then none else (execSub rec self p [] s.ins).map (fun v => s.pre ++ v ++ s.post) := by
  unfold Seg.entry
  rw [hz]
  cases z with
  | true => simp
  | false =>
    cases execSub rec self p [] s.ins <;> simp

theorem Core.emit_step (rec : List instruction → Value → Bytes → Option Bytes)
    (self : List instruction) (p : Value) (w : Bytes) (c : Core) (s : Seg)
    (hs : s.Runs rec self p) :
    (c.step s).emit rec self p w =
      (c.emit rec self p w).map (· ++ joinTrail (s.entry rec self p).toList) := by
  obtain ⟨hk, hk2, z, hz, hv⟩ := hs
  unfold Core.emit Core.step
  by_cases ho : s.omitempty = true
  · simp only [ho, if_true]
    rw [List.foldlM_append]
    cases hrun : List.foldlM (exec rec self p) w c.instructions with
    | none => simp
    | some w1 =>
      simp only [Option.bind_eq_bind, Option.some_bind, List.foldlM_cons, List.foldlM_nil,
        Option.map_some']
      rw [exec_group rec self p w1 s c.pending (s.post ++ [44]) none z ho hz hk hv,
        Seg.entry_eq rec self p s z hz]
      cases z with
      | true => simp [joinTrail]
      | false =>
        obtain ⟨v, hv⟩ := hv rfl
        have := hv []
        simp at this
        simp [this, joinTrail]
  · have ho' : s.omitempty = false := by simpa using ho
    have hz' : z = false := by
      unfold Seg.zero at hz
      simp [ho'] at hz
      exact hz
    subst hz'
    obtain ⟨v, hv⟩ := hv rfl
    simp only [ho', Bool.false_eq_true, if_false]
    rw [List.foldlM_append]
    cases hrun : List.foldlM (exec rec self p) w c.instructions with
    | none => simp
    | some w1 =>
      simp only [Option.bind_eq_bind, Option.some_bind, List.foldlM_cons, List.foldlM_nil,
        Option.map_some', exec_static, exec_eq_execSub rec self p _ s.ins hk2, hv]
      rw [Seg.entry_eq rec self p s false hz]
      have := hv []
      simp at this
      simp [this, joinTrail]

theorem Core.emit_foldl (rec : List instruction → Value → Bytes → Option Bytes)
    (self : List instruction) (p : Value) (w : Bytes) (segs : List Seg) (c : Core)
    (hs : ∀ s ∈ segs, s.Runs rec self p) :
    (segs.foldl Core.step c).emit rec self p w =
      (c.emit rec self p w).map (· ++ joinTrail (segs.filterMap (Seg.entry rec self p))) := by
  induction segs generalizing c with
  | nil => simp [joinTrail]
  | cons s t ih =>
    rw [List.foldl_cons, ih (c.step s) (fun x hx => hs x (List.mem_cons_of_mem _ hx)),
      Core.emit_step rec self p w c s (hs s (List.mem_cons_self _ _))]
    cases hc : c.emit rec self p w with
    | none => simp
    | some x =>
      cases he : s.entry rec self p with
      | none => simp [List.filterMap_cons, he, joinTrail]
      | some e => simp [List.filterMap_cons, he, joinTrail]

theorem Core.emit_init (rec : List instruction → Value → Bytes → Option Bytes)
    (self : List instruction) (p : Value) (w : Bytes) :
    Core.init.emit rec self p w = some (w ++ [123]) := by
  simp [Core.emit, Core.init]

/-- Running the plan of a list of segments writes the object of the entries of the
segments that are not omitted. -/
theorem run_planOf (rec : List instruction → Value → Bytes → Option Bytes)
    (self : List instruction) (p : Value) (segs : List Seg)
    (hs : ∀ s ∈ segs, s.Runs rec self p) (w : Bytes) :
    (planOf segs).foldlM (exec rec self p) w
      = some (w ++ object (segs.filterMap (Seg.entry rec self p))) := by
  rcases List.eq_nil_or_concat segs with h0 | ⟨init, s, h1⟩
  · subst h0
    simp [planOf, object, exec_static, List.intercalate]
  · rw [List.concat_eq_append] at h1
    subst h1
    have hinit : ∀ x ∈ init, x.Runs rec self p :=
      fun x hx => hs x (List.mem_append_left _ hx)
    have hsr : s.Runs rec self p := hs s (by simp)
    have hemit := Core.emit_foldl rec self p w init Core.init hinit
    rw [Core.emit_init] at hemit
    simp only [Option.map_some'] at hemit
    obtain ⟨hk, hk2, z, hz, hv⟩ := hsr
    unfold planOf
    simp only [List.getLast?_append, List.getLast?_singleton, Option.or_some,
      List.dropLast_concat]
    unfold Core.emit at hemit
    cases hrun : List.foldlM (exec rec self p) w (init.foldl Core.step Core.init).instructions with
    | none => simp [hrun] at hemit
    | some w1 =>
      rw [hrun] at hemit
      simp only [Option.map_some', Option.some.injEq] at hemit
      rw [List.filterMap_append]
      simp only [List.filterMap_cons, List.filterMap_nil]
      by_cases ho : s.omitempty = true
      · simp only [ho, if_true]
        rw [List.foldlM_append, hrun]
        simp only [Option.bind_eq_bind, Option.some_bind, List.foldlM_cons, List.foldlM_nil]
        rw [exec_group rec self p w1 s _ s.post (some .trimComma) z ho hz hk hv,
          Seg.entry_eq rec self p s z hz, hemit]
        cases z with
        | true =>
          simp only [if_true, List.append_nil]
          by_cases hne : init.filterMap (Seg.entry rec self p) = []
          · simp [hne, joinTrail, Fun.run, exec_static, object, List.intercalate]
          · rw [joinTrail_eq _ hne]
            simp [Fun.run, exec_static, object, ← List.append_assoc, List.getLast?_append]
            simp
        | false =>
          obtain ⟨v, hv⟩ := hv rfl
          have := hv []
          simp at this
          simp [this, exec_static, object, intercalate_concat]
      · have ho' : s.omitempty = false := by simpa using ho
        have hz' : z = false := by
          unfold Seg.zero at hz
          simp [ho'] at hz
          exact hz
        subst hz'
        obtain ⟨v, hv⟩ := hv rfl
        simp only [ho', Bool.false_eq_true, if_false]
        rw [List.foldlM_append, hrun]
        simp only [Option.bind_eq_bind, Option.some_bind, List.foldlM_cons, List.foldlM_nil,
          exec_static, exec_eq_execSub rec self p _ s.ins hk2, hv]
        rw [Seg.entry_eq rec self p s false hz]
        have := hv []
        simp at this
        have h2 : ∀ rest : Bytes, w1 ++ ((init.foldl Core.step Core.init).pending ++ rest)
            = w ++ 123 :: (joinTrail (init.filterMap (Seg.entry rec self p)) ++ rest) := by
          intro rest
          rw [← List.append_assoc, hemit]
          simp
        simp [this, object, intercalate_concat, h2]

/-! ## The compiler builds the plan of the segments -/

theorem StructEncoder.chunk_nil (e : StructEncoder) : e.chunk [] = e := by
  simp [StructEncoder.chunk]

theorem convInstr_facts (f : StructField) (i : Nat) (c : Conv) :
    (convInstr f i c).kind ≠ kindStatic ∧ (convInstr f i c).kind ≠ KindOmit ∧
      (convInstr f i c).offset = i := by
  unfold convInstr
  split <;> simp [kindNormal, kindStatic, KindOmit]

theorem valueSeg_ins (env : TypeEnv) (fuel : Nat)
    (newEnc : GoType → ShapeVal → Res (List instruction)) (tt : GoType) (tv : ShapeVal) (i : Nat)
    (f : StructField) (opts : tagOptions) (pre post : Bytes) (ins : instruction)
    (h : valueSeg env fuel newEnc tt tv i f opts = .ok (some (pre, ins, post))) :
    ins.kind ≠ kindStatic ∧ ins.kind ≠ KindOmit ∧ ins.offset = i := by
  unfold valueSeg at h
  simp only [bind, Except.bind, pure, Except.pure] at h
  repeat' split at h
  all_goals first
    | (simp only [Except.ok.injEq, Option.some.injEq, Prod.mk.injEq, reduceCtorEq] at h; done)
    | (simp only [Except.ok.injEq, Option.some.injEq, Prod.mk.injEq] at h
       obtain ⟨_, h2, _⟩ := h
       subst h2
       first
         | exact convInstr_facts _ _ _
         | simp [funInstr, kindNormal, kindStatic, KindOmit, kindInt, kindStringField])

@[simp] theorem StructEncoder.chunk_i (e : StructEncoder) (b : Bytes) : (e.chunk b).i = e.i := rfl

@[simp] theorem StructEncoder.chunk_f (e : StructEncoder) (b : Bytes) : (e.chunk b).f = e.f := rfl

@[simp] theorem StructEncoder.chunk_tt (e : StructEncoder) (b : Bytes) : (e.chunk b).tt = e.tt := rfl

@[simp] theorem StructEncoder.chunk_tv (e : StructEncoder) (b : Bytes) : (e.chunk b).tv = e.tv := rfl

@[simp] theorem StructEncoder.appendInstruction_i (e : StructEncoder) (a : instruction) :
    (e.appendInstruction a).i = e.i := by
  unfold StructEncoder.appendInstruction; split <;> rfl

@[simp] theorem StructEncoder.appendInstruction_f (e : StructEncoder) (a : instruction) :
    (e.appendInstruction a).f = e.f := by
  unfold StructEncoder.appendInstruction; split <;> rfl

@[simp] theorem StructEncoder.appendInstruction_tt (e : StructEncoder) (a : instruction) :
    (e.appendInstruction a).tt = e.tt := by
  unfold StructEncoder.appendInstruction; split <;> rfl

@[simp] theorem StructEncoder.appendInstruction_tv (e : StructEncoder) (a : instruction) :
    (e.appendInstruction a).tv = e.tv := by
  unfold StructEncoder.appendInstruction; split <;> rfl

@[simp] theorem StructEncoder.flunk_i (e : StructEncoder) : e.flunk.i = e.i := by
  unfold StructEncoder.flunk; simp only; split <;> simp

@[simp] theorem StructEncoder.flunk_f (e : StructEncoder) : e.flunk.f = e.f := by
  unfold StructEncoder.flunk; simp only; split <;> simp

@[simp] theorem StructEncoder.flunk_tt (e : StructEncoder) : e.flunk.tt = e.tt := by
  unfold StructEncoder.flunk; simp only; split <;> simp

@[simp] theorem StructEncoder.flunk_tv (e : StructEncoder) : e.flunk.tv = e.tv := by
  unfold StructEncoder.flunk; simp only; split <;> simp

theorem bs_quote : bs "\"" = [34] := by decide

/-- The `switch` of `NewStructEncoder` emits, for a field in the form of a segment,
the text before the value, a flush, the value instruction and the text after it. -/
theorem fieldValue_seg (env : TypeEnv) (fuel : Nat)
    (newEnc : GoType → ShapeVal → Res (List instruction)) (e : StructEncoder)
    (opts : tagOptions) (pre post : Bytes) (ins : instruction)
    (h : valueSeg env fuel newEnc e.tt e.tv e.i e.f opts = .ok (some (pre, ins, post))) :
    e.fieldValue env fuel newEnc opts
      = .ok ((((e.chunk pre).flunk).appendInstruction ins).chunk post) := by
  unfold valueSeg at h
  unfold StructEncoder.fieldValue
  simp only [bind, Except.bind, pure, Except.pure] at h ⊢
  repeat' split at h
  all_goals first
    | (simp only [Except.ok.injEq, Option.some.injEq, Prod.mk.injEq, reduceCtorEq] at h; done)
    | (simp only [Except.ok.injEq, Option.some.injEq, Prod.mk.injEq] at h
       obtain ⟨h1, h2, h3⟩ := h
       subst h1 h2 h3
       simp only [*, StructEncoder.optInstrStringer, StructEncoder.optInstrEncoder,
         StructEncoder.optInstrEncoderWriter, StructEncoder.optInstrRaw,
         StructEncoder.optInstrEscape, StructEncoder.val, StructEncoder.ptrval,
         StructEncoder.ptrstringval, StructEncoder.appendInstructionFun, convInstr, funInstr,
         StructEncoder.chunk_nil, bs_quote, NewSliceEncoder, elemPlan, bind, Except.bind, pure,
         Except.pure, if_true, if_false, StructEncoder.chunk_i, StructEncoder.chunk_f,
         StructEncoder.flunk_i, StructEncoder.flunk_f, StructEncoder.chunk_tt,
         StructEncoder.chunk_tv, StructEncoder.flunk_tt, StructEncoder.flunk_tv,
         not_true_eq_false, not_false_eq_true, Bool.false_eq_true]
       try first
         | rfl
         | (split <;> rfl)
         | (simp [*, GoType.Kind, GoType.Elem, StructEncoder.valueInst,
              StructEncoder.fieldInterface, typeconv, StructEncoder.val, StructEncoder.ptrval,
              StructEncoder.ptrstringval, StructEncoder.appendInstructionFun,
              StructEncoder.chunk_nil, bs_quote, NewSliceEncoder, bind, Except.bind, pure,
              Except.pure]; done))
  · rename_i k hT _ _ _ _ _ hk
    cases k <;> simp [typeconv] at hk <;>
      (subst hk
       simp_all [GoType.Kind, GoType.Elem, StructEncoder.valueInst, typeconv,
         StructEncoder.val, StructEncoder.ptrval, StructEncoder.appendInstructionFun,
         StructEncoder.chunk_nil, bind, Except.bind, pure, Except.pure])
  · rename_i k hT _ _ _ _ _ _ hk
    cases k <;> simp [typeconv] at hk <;>
      (subst hk
       simp_all [GoType.Kind, GoType.Elem, StructEncoder.valueInst, typeconv,
         StructEncoder.val, StructEncoder.ptrval, StructEncoder.appendInstructionFun,
         StructEncoder.chunk_nil, bind, Except.bind, pure, Except.pure])

@[simp] theorem StructEncoder.chunk_o (e : StructEncoder) (b : Bytes) : (e.chunk b).o = e.o := rfl

@[simp] theorem StructEncoder.chunk_cb (e : StructEncoder) (b : Bytes) :
    (e.chunk b).cb = e.cb ++ b := rfl

@[simp] theorem StructEncoder.chunk_cpos (e : StructEncoder) (b : Bytes) :
    (e.chunk b).cpos = e.cpos := rfl

@[simp] theorem StructEncoder.chunk_instructions (e : StructEncoder) (b : Bytes) :
    (e.chunk b).instructions = e.instructions := rfl

@[simp] theorem StructEncoder.appendInstruction_o (e : StructEncoder) (a : instruction) :
    (e.appendInstruction a).o = e.o := by
  unfold StructEncoder.appendInstruction; split <;> rfl

@[simp] theorem StructEncoder.appendInstruction_cb (e : StructEncoder) (a : instruction) :
    (e.appendInstruction a).cb = e.cb := by
  unfold StructEncoder.appendInstruction; split <;> rfl

@[simp] theorem StructEncoder.appendInstruction_cpos (e : StructEncoder) (a : instruction) :
    (e.appendInstruction a).cpos = e.cpos := by
  unfold StructEncoder.appendInstruction; split <;> rfl

@[simp] theorem StructEncoder.flunk_o (e : StructEncoder) : e.flunk.o = e.o := by
  unfold StructEncoder.flunk; simp only; split <;> simp

@[simp] theorem StructEncoder.flunk_cb (e : StructEncoder) : e.flunk.cb = e.cb := by
  unfold StructEncoder.flunk; simp only; split <;> simp

@[simp] theorem StructEncoder.flunk_cpos (e : StructEncoder) : e.flunk.cpos = e.cb.length := by
  unfold StructEncoder.flunk; simp only; split <;> simp

@[simp] theorem StructEncoder.omitFlunk_o (e : StructEncoder) : e.omitFlunk.o = e.o := by
  unfold StructEncoder.omitFlunk; simp only; split <;> rfl

@[simp] theorem StructEncoder.omitFlunk_cb (e : StructEncoder) : e.omitFlunk.cb = e.cb := by
  unfold StructEncoder.omitFlunk; simp only; split <;> rfl

@[simp] theorem StructEncoder.omitFlunk_cpos (e : StructEncoder) :
    e.omitFlunk.cpos = e.cb.length := by
  unfold StructEncoder.omitFlunk; simp only; split <;> rfl

@[simp] theorem StructEncoder.omitFlunk_i (e : StructEncoder) : e.omitFlunk.i = e.i := by
  unfold StructEncoder.omitFlunk; simp only; split <;> rfl

@[simp] theorem StructEncoder.omitFlunk_f (e : StructEncoder) : e.omitFlunk.f = e.f := by
  unfold StructEncoder.omitFlunk; simp only; split <;> rfl

@[simp] theorem StructEncoder.omitFlunk_tt (e : StructEncoder) : e.omitFlunk.tt = e.tt := by
  unfold StructEncoder.omitFlunk; simp only; split <;> rfl

@[simp] theorem StructEncoder.omitFlunk_tv (e : StructEncoder) : e.omitFlunk.tv = e.tv := by
  unfold StructEncoder.omitFlunk; simp only; split <;> rfl

theorem StructEncoder.omitFlunk_instructions (e : StructEncoder) :
    e.omitFlunk.instructions
      = e.instructions ++ [.mk (e.cb.drop e.cpos) [] KindOmit 0 none none none] := by
  unfold StructEncoder.omitFlunk
  simp only
  split
  · rename_i h
    have : e.cb.drop e.cpos = [] := List.length_eq_zero.mp h
    simp [this]
  · rfl

theorem modifyLast_concat {α : Type} (g : α → α) (l : List α) (a : α) :
    modifyLast g (l ++ [a]) = l ++ [g a] := by
  induction l with
  | nil => rfl
  | cons x t ih =>
    cases t with
    | nil => simp [modifyLast]
    | cons y t' =>
      simp only [List.cons_append] at ih ⊢
      rw [modifyLast, ih]

theorem StructEncoder.appendInstruction_top (e : StructEncoder) (a : instruction)
    (ho : e.o = false) : (e.appendInstruction a).instructions = e.instructions ++ [a] := by
  simp [StructEncoder.appendInstruction, ho]

theorem StructEncoder.appendInstruction_omit (e : StructEncoder) (a g : instruction)
    (l : List instruction) (ho : e.o = true) (hl : e.instructions = l ++ [g]) :
    (e.appendInstruction a).instructions = l ++ [instruction.mk g.static (g.sub ++ [a]) g.kind
      (if a.kind ≠ kindStatic then a.offset else g.offset) g.leapFun g.fn
      (if a.kind ≠ kindStatic then getIsZeroFunc e.f.Typ.Kind else g.isZero)] := by
  simp [StructEncoder.appendInstruction, ho, hl, modifyLast_concat]

theorem StructEncoder.flunk_instructions (e : StructEncoder) (h : e.cb.drop e.cpos ≠ []) :
    e.flunk.instructions
      = ({ e with cpos := e.cb.length }.appendInstruction
          (staticInstr (e.cb.drop e.cpos))).instructions := by
  unfold StructEncoder.flunk
  simp only
  rw [if_neg]
  · rfl
  · intro h0; exact h (List.length_eq_zero.mp h0)

theorem Seg.step_rep (e : StructEncoder) (c : Core) (s : Seg) (pre : Bytes) (key : Bytes)
    (hrep : Rep e c) (hkind : s.kind = e.f.Typ.Kind) (hpre : s.pre = key ++ pre)
    (hkey : key ≠ []) (hk : s.ins.kind ≠ kindStatic) :
    let eo : StructEncoder := { e with o := s.omitempty }
    let e2 := if eo.o then eo.omitFlunk else eo
    let r := (((((e2.chunk key).chunk pre).flunk).appendInstruction s.ins).chunk s.post).chunk [44]
    Rep (if r.o then r.flunk else r) (c.step s) := by
  obtain ⟨hi, hc, hp, ho, hne⟩ := hrep
  intro eo e2 r
  have hstat : kindStatic ≠ kindStatic ↔ False := by simp
  by_cases hom : s.omitempty = true
  · have hro : r.o = true := by simp [r, e2, eo, hom]
    have he2 : e2 = eo.omitFlunk := by simp [e2, eo, hom]
    have h1 : e2.instructions = e.instructions ++
        [.mk (e.cb.drop e.cpos) [] KindOmit 0 none none none] := by
      rw [he2, StructEncoder.omitFlunk_instructions]
    have hd1 : ((e2.chunk key).chunk pre).cb.drop ((e2.chunk key).chunk pre).cpos = key ++ pre := by
      simp [he2, eo, List.append_assoc]
    have h2 := StructEncoder.flunk_instructions ((e2.chunk key).chunk pre)
      (by rw [hd1]; simp [hkey])
    rw [StructEncoder.appendInstruction_omit _ _ _ _ (by simp [he2, eo, hom]) (by simpa using h1),
      hd1] at h2
    have h3 := StructEncoder.appendInstruction_omit (((e2.chunk key).chunk pre).flunk) s.ins _ _
      (by simp [he2, eo, hom]) h2
    have hd2 : r.cb.drop r.cpos = s.post ++ [44] := by
      simp [r, he2, eo, List.append_assoc]
    have h4 := StructEncoder.flunk_instructions r (by rw [hd2]; simp)
    rw [StructEncoder.appendInstruction_omit { r with cpos := r.cb.length } _ _ _ hro
      (by simpa [r] using h3), hd2] at h4
    simp only [hro, if_true]
    refine ⟨?_, by simp, by simp [Core.step, hom], by simp [Core.step, hom, hro],
      by simp [Core.step, hom]⟩
    rw [h4]
    simp [Core.step, hom, Seg.group, staticInstr, hk, hi, hp, hpre, hkind, he2, eo]
  · have hom' : s.omitempty = false := by simpa using hom
    have hro : r.o = false := by simp [r, e2, eo, hom']
    have he2 : e2 = eo := by simp [e2, eo, hom']
    have hd1 : ((e2.chunk key).chunk pre).cb.drop ((e2.chunk key).chunk pre).cpos
        = c.pending ++ key ++ pre := by
      simp only [StructEncoder.chunk_cb, StructEncoder.chunk_cpos, he2]
      show List.drop e.cpos (e.cb ++ key ++ pre) = _
      rw [List.append_assoc, List.drop_append_of_le_length hc, hp, List.append_assoc]
    have h2 := StructEncoder.flunk_instructions ((e2.chunk key).chunk pre)
      (by rw [hd1]; simp [hkey])
    rw [StructEncoder.appendInstruction_top _ _ (by simp [he2, eo, hom']), hd1] at h2
    have h3 := StructEncoder.appendInstruction_top (((e2.chunk key).chunk pre).flunk) s.ins
      (by simp [he2, eo, hom'])
    rw [h2] at h3
    simp only [hro, Bool.false_eq_true, if_false]
    refine ⟨?_, ?_, ?_, by simp [Core.step, hom', hro], by simp [Core.step, hom']⟩
    · simp only [r, StructEncoder.chunk_instructions, h3]
      simp [Core.step, hom', hi, hpre, he2, eo, List.append_assoc]
    · simp [r]
    · simp [r, Core.step, hom', List.append_assoc]

theorem bs_colon : bs "\":" = [34, 58] := by decide

theorem bs_comma : bs "," = [44] := by decide

theorem bs_open : bs "\x7b" = [123] := by decide

theorem bs_close : bs "\x7d" = [125] := by decide

/-- One pass of the loop body of `NewStructEncoder` is one step of the functional
description. -/
theorem field_sim (env : TypeEnv) (fuel : Nat)
    (newEnc : GoType → ShapeVal → Res (List instruction)) (e : StructEncoder) (c : Core)
    (r : Option Seg) (hrep : Rep e c)
    (h : fieldSeg env fuel newEnc e.tt e.tv e.i e.f = .ok (some r)) :
    ∃ e', StructEncoder.field env fuel newEnc e = .ok e' ∧
      Rep e' (r.toList.foldl Core.step c) ∧ e'.tt = e.tt ∧ e'.tv = e.tv := by
  unfold fieldSeg at h
  unfold StructEncoder.field
  simp only at h ⊢
  by_cases htag : (parseTag e.f.Tag).1 = []
  · simp only [htag, if_true, pure, Except.pure, Except.ok.injEq, Option.some.injEq] at h ⊢
    subst h
    exact ⟨e, rfl, by simpa using hrep, rfl, rfl⟩
  · simp only [htag, if_false, bind, Except.bind, pure, Except.pure] at h ⊢
    cases hv : valueSeg env fuel newEnc e.tt e.tv e.i e.f (parseTag e.f.Tag).2 with
    | error err => simp [hv] at h
    | ok v =>
      rw [hv] at h
      cases v with
      | none => simp at h
      | some t =>
        obtain ⟨pre, ins, post⟩ := t
        simp only [Except.ok.injEq, Option.some.injEq] at h
        subst h
        have hins := valueSeg_ins env fuel newEnc e.tt e.tv e.i e.f _ pre post ins hv
        have hfv := fieldValue_seg env fuel newEnc
          ((if ({ e with o := ((parseTag e.f.Tag).2.Contains (bs "omitempty") &&
              e.f.Typ.Kind != Kind.Struct) } : StructEncoder).o = true
            then ({ e with o := ((parseTag e.f.Tag).2.Contains (bs "omitempty") &&
              e.f.Typ.Kind != Kind.Struct) } : StructEncoder).omitFlunk
            else ({ e with o := ((parseTag e.f.Tag).2.Contains (bs "omitempty") &&
              e.f.Typ.Kind != Kind.Struct) } : StructEncoder)).chunk
              (bs "\"" ++ (parseTag e.f.Tag).1 ++ bs "\":"))
          (parseTag e.f.Tag).2 pre post ins
          (by
            have : ∀ x : StructEncoder, x.tt = e.tt → x.tv = e.tv → x.i = e.i → x.f = e.f →
                valueSeg env fuel newEnc x.tt x.tv x.i x.f (parseTag e.f.Tag).2
                  = .ok (some (pre, ins, post)) := by
              intro x h1 h2 h3 h4
              rw [h1, h2, h3, h4]; exact hv
            apply this <;> (simp only [StructEncoder.chunk_tt, StructEncoder.chunk_tv,
              StructEncoder.chunk_i, StructEncoder.chunk_f]; split <;> simp))
        simp only [Bool.false_eq_true] at hfv ⊢
        rw [hfv]
        simp only [bs_quote, bs_colon, bs_comma]
        refine ⟨_, rfl, ?_, ?_, ?_⟩
        · have hstep := Seg.step_rep e c
            ⟨(parseTag e.f.Tag).2.Contains (bs "omitempty") && e.f.Typ.Kind != Kind.Struct,
              e.f.Typ.Kind, ([34] ++ (parseTag e.f.Tag).1 ++ [34, 58]) ++ pre, ins, post⟩
            pre ([34] ++ (parseTag e.f.Tag).1 ++ [34, 58]) hrep rfl rfl (by simp) hins.1
          simpa using hstep
        · split <;> simp <;> split <;> simp
        · split <;> simp <;> split <;> simp

/-- The loop over the fields performs the steps of the segments of the shape. -/
theorem fieldLoop_sim (env : TypeEnv) (fuel : Nat)
    (newEnc : GoType → ShapeVal → Res (List instruction)) (tt : GoType) (tv : ShapeVal)
    (fields : List StructField) :
    ∀ (i : Nat) (e : StructEncoder) (c : Core) (segs : List Seg), Rep e c → e.tt = tt →
      e.tv = tv → shapeSegs env fuel newEnc tt tv fields i = .ok (some segs) →
      ∃ e', StructEncoder.fieldLoop env fuel newEnc fields i e = .ok e' ∧
        Rep e' (segs.foldl Core.step c) := by
  induction fields with
  | nil =>
    intro i e c segs hrep _ _ h
    simp only [shapeSegs, pure, Except.pure, Except.ok.injEq, Option.some.injEq] at h
    subst h
    exact ⟨{ e with i := i }, rfl, hrep⟩
  | cons f fs ih =>
    intro i e c segs hrep htt htv h
    simp only [shapeSegs, bind, Except.bind, pure, Except.pure] at h
    cases hf : fieldSeg env fuel newEnc tt tv i f with
    | error err => simp [hf] at h
    | ok r =>
      rw [hf] at h
      cases r with
      | none => simp at h
      | some r =>
        simp only at h
        cases hrest : shapeSegs env fuel newEnc tt tv fs (i + 1) with
        | error err => simp [hrest] at h
        | ok rest =>
          rw [hrest] at h
          cases rest with
          | none => simp at h
          | some rest =>
            simp only [Except.ok.injEq, Option.some.injEq] at h
            subst h
            have hrep' : Rep { e with i := i, f := f } c := hrep
            obtain ⟨e1, he1, hrep1, htt1, htv1⟩ := field_sim env fuel newEnc
              { e with i := i, f := f } c r hrep' (by simpa [htt, htv] using hf)
            obtain ⟨e2, he2, hrep2⟩ := ih (i + 1) e1 _ rest hrep1
              (by simpa [htt] using htt1) (by simpa [htv] using htv1) hrest
            refine ⟨e2, ?_, ?_⟩
            · simp only [StructEncoder.fieldLoop, bind, Except.bind, he1, he2]
            · simpa [List.foldl_append] using hrep2

theorem Rep.cb_split {e : StructEncoder} {c : Core} (h : Rep e c) :
    e.cb = e.cb.take e.cpos ++ c.pending := by
  rw [← h.2.2.1, List.take_append_drop]

/-- After the loop, `setupLastField`, the closing brace and the last flush leave the
plan of the segments. -/
theorem finish_sim (e : StructEncoder) (segs : List Seg)
    (hrep : Rep e (segs.foldl Core.step Core.init)) :
    ∃ e1, e.setupLastField = .ok e1 ∧
      ((e1.chunk (bs "\x7d")).flunk).instructions = planOf segs := by
  have hcb := hrep.cb_split
  obtain ⟨hi, hc, hp, ho, hne⟩ := hrep
  rcases List.eq_nil_or_concat segs with h0 | ⟨init, s, h1⟩
  · subst h0
    simp only [List.foldl_nil, Core.init] at hi hp ho hcb
    refine ⟨e, ?_, ?_⟩
    · unfold StructEncoder.setupLastField
      rw [ho, hcb]
      simp [pure, Except.pure]
    · have hd : (e.chunk (bs "\x7d")).cb.drop (e.chunk (bs "\x7d")).cpos = [123, 125] := by
        simp only [StructEncoder.chunk_cb, StructEncoder.chunk_cpos, bs_close]
        rw [List.drop_append_of_le_length hc, hp]; rfl
      rw [StructEncoder.flunk_instructions _ (by rw [hd]; simp), hd,
        StructEncoder.appendInstruction_top _ _ (by simpa using ho)]
      simp [planOf, hi]
  · rw [List.concat_eq_append] at h1
    subst h1
    rw [List.foldl_append] at hi hp ho hne hcb
    simp only [List.foldl_cons, List.foldl_nil] at hi hp ho hne hcb
    by_cases hom : s.omitempty = true
    · simp only [Core.step, hom, if_true] at hi hp ho hcb
      obtain ⟨e1, he1, h1cb, h1cpos, h1o, h1ins⟩ : ∃ e1, e.setupLastField = .ok e1 ∧
          e1.cb = e.cb ∧ e1.cpos = e.cpos ∧ e1.o = false ∧
          e1.instructions = (init.foldl Core.step Core.init).instructions ++
            [s.group (init.foldl Core.step Core.init).pending s.post (some .trimComma)] := by
        refine ⟨{ e with
          instructions := modifyLast (fun instr =>
            instruction.mk instr.static
              (modifyLast (fun subInstr =>
                instruction.mk subInstr.static.dropLast subInstr.sub subInstr.kind
                  subInstr.offset subInstr.leapFun subInstr.fn subInstr.isZero) instr.sub)
              instr.kind instr.offset instr.leapFun (some .trimComma) instr.isZero)
            e.instructions
          o := false }, ?_, ?_⟩
        · unfold StructEncoder.setupLastField
          rw [ho, hi]
          simp only [if_true, List.getLast?_append, List.getLast?_singleton, Option.or_some,
            Seg.group, instruction.sub_mk, List.getLast?_cons_cons, staticInstr,
            instruction.static_mk]
          rw [if_neg (by simp)]
          rfl
        · refine ⟨rfl, rfl, rfl, ?_⟩
          simp only [hi, modifyLast_concat]
          simp [Seg.group, staticInstr, modifyLast, List.dropLast_concat]
      refine ⟨e1, he1, ?_⟩
      have hd : (e1.chunk (bs "\x7d")).cb.drop (e1.chunk (bs "\x7d")).cpos = [125] := by
        simp only [StructEncoder.chunk_cb, StructEncoder.chunk_cpos, bs_close, h1cb, h1cpos]
        rw [List.drop_append_of_le_length hc, hp]; rfl
      rw [StructEncoder.flunk_instructions _ (by rw [hd]; simp), hd,
        StructEncoder.appendInstruction_top _ _ (by simpa using h1o)]
      simp [planOf, hom, h1ins, List.dropLast_concat]
    · have hom' : s.omitempty = false := by simpa using hom
      simp only [Core.step, hom', Bool.false_eq_true, if_false] at hi hp ho hcb
      have hlast : e.cb.getLast? = some 44 := by
        rw [hcb, ← List.append_assoc]; simp
      have hdl : e.cb.dropLast = e.cb.take e.cpos ++ s.post := by
        rw [hcb, ← List.append_assoc, List.dropLast_concat]
        simp [List.take_append_of_le_length, hc]
      refine ⟨{ e with cb := e.cb.dropLast }, ?_, ?_⟩
      · unfold StructEncoder.setupLastField
        rw [ho, hlast]
        simp [pure, Except.pure]
      · have hd' : (({ e with cb := e.cb.dropLast } : StructEncoder).chunk (bs "\x7d")).cb.drop
            (({ e with cb := e.cb.dropLast } : StructEncoder).chunk (bs "\x7d")).cpos
            = s.post ++ [125] := by
          simp only [StructEncoder.chunk_cb, StructEncoder.chunk_cpos, bs_close, hdl]
          rw [List.append_assoc, List.drop_append_of_le_length (by simp [hc])]
          simp [List.drop_take]
        rw [StructEncoder.flunk_instructions _ (by rw [hd']; simp), hd',
          StructEncoder.appendInstruction_top _ _ (by simpa using ho)]
        simp [planOf, hom', hi, List.dropLast_concat]

theorem Rep.init (tt : GoType) (tv : ShapeVal) :
    Rep ((⟨[], default, tt, tv, 0, [], 0, false⟩ : StructEncoder).chunk (bs "\x7b")) Core.init := by
  refine ⟨rfl, by simp, ?_, rfl, by simp [Core.init]⟩
  simp [StructEncoder.chunk, bs_open, Core.init]

/-- For a shape whose keyed fields have the form of segments, `NewStructEncoder`
returns the plan of the segments. -/
theorem NewStructEncoder_plan (env : TypeEnv) (fuel : Nat) (tt : GoType) (tv : ShapeVal)
    (fields : List StructField) (segs : List Seg)
    (hf : structFields env tt = .ok fields)
    (hs : shapeSegs env fuel (fun t v => (NewStructEncoder env fuel t v).map (·.instructions))
      tt tv fields 0 = .ok (some segs)) :
    ∃ e, NewStructEncoder env (fuel + 1) tt tv = .ok e ∧ e.instructions = planOf segs := by
  obtain ⟨e1, he1, hrep1⟩ := fieldLoop_sim env fuel _ tt tv fields 0 _ Core.init segs
    (Rep.init tt tv) rfl rfl hs
  obtain ⟨e2, he2, hplan⟩ := finish_sim e1 segs hrep1
  refine ⟨(e2.chunk (bs "\x7d")).flunk, ?_, hplan⟩
  simp only [NewStructEncoder, bind, Except.bind, hf, he1, he2, pure, Except.pure]

/-- Running the plan of a list of segments with `Marshal`. -/
theorem Marshal_planOf (fuel : Nat) (segs : List Seg) (p : Value) (w : Bytes)
    (hs : ∀ s ∈ segs, s.Runs (Marshal fuel) (planOf segs) p) :
    Marshal (fuel + 1) (planOf segs) p w
      = some (w ++ object (segs.filterMap (Seg.entry (Marshal fuel) (planOf segs) p))) := by
  rw [Marshal]
  exact run_planOf (Marshal fuel) (planOf segs) p segs hs w

/-! ## Failure of the compiler -/

/-- Where the description of a field's value fails, the `switch` of
`NewStructEncoder` fails the same way. -/
theorem fieldValue_err (env : TypeEnv) (fuel : Nat)
    (newEnc : GoType → ShapeVal → Res (List instruction)) (e : StructEncoder)
    (opts : tagOptions) (err : Err)
    (h : valueSeg env fuel newEnc e.tt e.tv e.i e.f opts = .error err) :
    e.fieldValue env fuel newEnc opts = .error err := by
  unfold valueSeg at h
  unfold StructEncoder.fieldValue
  simp only [bind, Except.bind, pure, Except.pure] at h ⊢
  repeat' split at h
  all_goals first
    | (simp only [reduceCtorEq] at h)
    | (simp only [Except.error.injEq] at h
       subst h
       simp_all [GoType.Kind, GoType.Elem, StructEncoder.valueInst,
         StructEncoder.fieldInterface, typeconv, StructEncoder.val, StructEncoder.ptrval,
         StructEncoder.ptrstringval, StructEncoder.appendInstructionFun,
         StructEncoder.chunk_nil, bs_quote, NewSliceEncoder, bind, Except.bind, pure,
         Except.pure, throw, throwThe, MonadExceptOf.throw])

theorem field_err (env : TypeEnv) (fuel : Nat)
    (newEnc : GoType → ShapeVal → Res (List instruction)) (e : StructEncoder) (err : Err)
    (h : fieldSeg env fuel newEnc e.tt e.tv e.i e.f = .error err) :
    StructEncoder.field env fuel newEnc e = .error err := by
  unfold fieldSeg at h
  unfold StructEncoder.field
  simp only at h ⊢
  by_cases htag : (parseTag e.f.Tag).1 = []
  · simp [htag, pure, Except.pure] at h
  · simp only [htag, if_false, bind, Except.bind, pure, Except.pure] at h ⊢
    cases hv : valueSeg env fuel newEnc e.tt e.tv e.i e.f (parseTag e.f.Tag).2 with
    | ok v =>
      rw [hv] at h
      cases v with
      | none => simp at h
      | some t => simp at h
    | error err1 =>
      rw [hv] at h
      simp only [Except.error.injEq] at h
      subst h
      have hfv := fieldValue_err env fuel newEnc
          ((if ({ e with o := ((parseTag e.f.Tag).2.Contains (bs "omitempty") &&
              e.f.Typ.Kind != Kind.Struct) } : StructEncoder).o = true
            then ({ e with o := ((parseTag e.f.Tag).2.Contains (bs "omitempty") &&
              e.f.Typ.Kind != Kind.Struct) } : StructEncoder).omitFlunk
            else ({ e with o := ((parseTag e.f.Tag).2.Contains (bs "omitempty") &&
              e.f.Typ.Kind != Kind.Struct) } : StructEncoder)).chunk
              (bs "\"" ++ (parseTag e.f.Tag).1 ++ bs "\":"))
          (parseTag e.f.Tag).2 err1
          (by
            have : ∀ x : StructEncoder, x.tt = e.tt → x.tv = e.tv → x.i = e.i → x.f = e.f →
                valueSeg env fuel newEnc x.tt x.tv x.i x.f (parseTag e.f.Tag).2
                  = .error err1 := by
              intro x h1 h2 h3 h4
              rw [h1, h2, h3, h4]; exact hv
            apply this <;> (simp only [StructEncoder.chunk_tt, StructEncoder.chunk_tv,
              StructEncoder.chunk_i, StructEncoder.chunk_f]; split <;> simp))
      simp only [Bool.false_eq_true] at hfv ⊢
      rw [hfv]

/-- Where the description of a shape fails, the loop over the fields fails the same
way. -/
theorem fieldLoop_err (env : TypeEnv) (fuel : Nat)
    (newEnc : GoType → ShapeVal → Res (List instruction)) (tt : GoType) (tv : ShapeVal)
    (fields : List StructField) :
    ∀ (i : Nat) (e : StructEncoder) (c : Core) (err : Err), Rep e c → e.tt = tt →
      e.tv = tv → shapeSegs env fuel newEnc tt tv fields i = .error err →
      StructEncoder.fieldLoop env fuel newEnc fields i e = .error err := by
  induction fields with
  | nil =>
    intro i e c err _ _ _ h
    simp [shapeSegs, pure, Except.pure] at h
  | cons f fs ih =>
    intro i e c err hrep htt htv h
    simp only [shapeSegs, bind, Except.bind, pure, Except.pure] at h
    cases hf : fieldSeg env fuel newEnc tt tv i f with
    | error err1 =>
      rw [hf] at h
      simp only [Except.error.injEq] at h
      subst h
      have := field_err env fuel newEnc { e with i := i, f := f } err1
        (by simpa [htt, htv] using hf)
      simp only [StructEncoder.fieldLoop, bind, Except.bind, this]
    | ok r =>
      rw [hf] at h
      cases r with
      | none => simp at h
      | some r =>
        simp only at h
        cases hrest : shapeSegs env fuel newEnc tt tv fs (i + 1) with
        | ok rest =>
          rw [hrest] at h
          cases rest <;> simp at h
        | error err1 =>
          rw [hrest] at h
          simp only [Except.error.injEq] at h
          subst h
          have hrep' : Rep { e with i := i, f := f } c := hrep
          obtain ⟨e1, he1, hrep1, htt1, htv1⟩ := field_sim env fuel newEnc
            { e with i := i, f := f } c r hrep' (by simpa [htt, htv] using hf)
          have := ih (i + 1) e1 _ err1 hrep1
            (by simpa [htt] using htt1) (by simpa [htv] using htv1) hrest
          simp only [StructEncoder.fieldLoop, bind, Except.bind, he1, this]

/-- Where the description of a shape fails, `NewStructEncoder` fails the same way. -/
theorem NewStructEncoder_err (env : TypeEnv) (fuel : Nat) (tt : GoType) (tv : ShapeVal)
    (fields : List StructField) (err : Err)
    (hf : structFields env tt = .ok fields)
    (hs : shapeSegs env fuel (fun t v => (NewStructEncoder env fuel t v).map (·.instructions))
      tt tv fields 0 = .error err) :
    NewStructEncoder env (fuel + 1) tt tv = .error err := by
  have h1 := fieldLoop_err env fuel _ tt tv fields 0 _ Core.init err
    (Rep.init tt tv) rfl rfl hs
  simp only [NewStructEncoder, bind, Except.bind, hf, h1]

/-! ## What the value instructions write -/

theorem AppendUint_eq (w : Bytes) (n : Nat) : AppendUint w n = w ++ AppendUint [] n := by
  simp [AppendUint]

theorem AppendInt_eq (w : Bytes) (i : Int) : AppendInt w i = w ++ AppendInt [] i := by
  unfold AppendInt
  split
  · rw [AppendUint_eq (w ++ [45]), AppendUint_eq ([] ++ [45])]; simp
  · rw [AppendUint_eq w]

/-- The zero test of a segment is the zero test of the description. -/
theorem Seg.zero_eq (f : StructField) (p v : Value) (pre post : Bytes) (ins : instruction)
    (hleap : leap p ins.offset = some v) (hkind : v.hasKind f.Typ.Kind = true) :
    (Seg.mk (f.opts.Contains (bs "omitempty") && f.Typ.Kind != .Struct) f.Typ.Kind pre ins
      post).zero p = some (f.omitted v) := by
  unfold Seg.zero StructField.omitted
  simp only [hleap]
  cases ho : f.opts.Contains (bs "omitempty")
  · simp
  · cases v <;> cases hk : f.Typ.Kind <;>
      simp_all [Value.hasKind, getIsZeroFunc, Value.isZeroValue]

theorem intercalate_cons_flatMap (a : Bytes) (ts : List Bytes) :
    List.intercalate [44] (a :: ts) = a ++ ts.flatMap ([44] ++ ·) := by
  induction ts generalizing a with
  | nil => simp [List.intercalate]
  | cons b t ih =>
    have h : List.intercalate [44] (a :: b :: t) = a ++ [44] ++ List.intercalate [44] (b :: t) := by
      simp [List.intercalate, List.intersperse]
    rw [h, ih b]
    simp

theorem runElems_false (f : Value → Bytes → Option Bytes) (xs : List Value) (ts : List Bytes)
    (h : List.Forall₂ (fun x a => ∀ w, f x w = some (w ++ a)) xs ts) (w : Bytes) :
    runElems f xs false w = some (w ++ ts.flatMap ([44] ++ ·)) := by
  induction h generalizing w with
  | nil => simp [runElems]
  | cons hx _ ih =>
    simp only [runElems, Bool.false_eq_true, if_false, hx]
    rw [ih]
    simp

theorem runElems_true (f : Value → Bytes → Option Bytes) (xs : List Value) (ts : List Bytes)
    (h : List.Forall₂ (fun x a => ∀ w, f x w = some (w ++ a)) xs ts) (w : Bytes) :
    runElems f xs true w = some (w ++ List.intercalate [44] ts) := by
  cases h with
  | nil => simp [runElems, List.intercalate]
  | cons hx hrest =>
    simp only [runElems, if_true, hx]
    rw [runElems_false f _ _ hrest, intercalate_cons_flatMap]
    simp

theorem elemsText_forall (env : TypeEnv) (t : GoType) (P : Value → Bytes → Prop) :
    ∀ (xs : List Value) (ts : List Bytes), elemsText env t xs = some ts →
      (∀ x ∈ xs, ∀ a, valueText env t x = some a → P x a) → List.Forall₂ P xs ts := by
  intro xs
  induction xs with
  | nil =>
    intro ts h _
    simp only [elemsText, Option.some.injEq] at h
    subst h
    exact List.Forall₂.nil
  | cons x xs ih =>
    intro ts h hP
    rw [elemsText] at h
    cases hx : valueText env t x with
    | none => simp [hx] at h
    | some a =>
      cases hr : elemsText env t xs with
      | none => simp [hx, hr] at h
      | some r =>
        simp only [hx, hr, Option.some.injEq] at h
        subst h
        exact List.Forall₂.cons (hP x (List.mem_cons_self _ _) a hx)
          (ih r hr (fun y hy => hP y (List.mem_cons_of_mem _ hy)))

theorem Value.depth_le_maxDepth (xs : List Value) : ∀ x ∈ xs, x.depth ≤ Value.maxDepth xs := by
  induction xs with
  | nil => intro x hx; cases hx
  | cons y ys ih =>
    intro x hx
    rw [Value.maxDepth]
    rcases List.mem_cons.mp hx with h | h
    · subst h; exact le_max_left _ _
    · exact le_trans (ih x h) (le_max_right _ _)

/-- A converter of a primitive kind appends the text of the value. -/
theorem typeconv_run (k : Kind) (c : Conv) (x : Value) (a : Bytes) (w : Bytes)
    (hc : typeconv k = some c) (ha : primText k x = some a) :
    (if k = .String then (c.run x (w ++ [34])).map (· ++ [34]) else c.run x w)
      = some (w ++ a) := by
  cases k <;> simp [typeconv] at hc <;> subst hc <;> cases x <;>
    simp [primText] at ha <;> subst ha <;>
    simp [Conv.run, AppendInt_eq w, AppendUint_eq w]
  split <;> simp

/-- Modelled from the spec: the plan of the elements of a sequence appends the text of
an element. -/
theorem elemPlan_run (env : TypeEnv) (newEnc : GoType → Res (List instruction))
    (rec : List instruction → Value → Bytes → Option Bytes) (M : Nat) (t : GoType) :
    ∀ ep, elemSupported t = true →
      (∀ id ∈ t.structIds, ∀ plan, newEnc (.struct id) = .ok plan → PlanOK env rec M id plan) →
      elemPlan newEnc t = .ok ep →
      ∀ x a w, x.depth ≤ M → valueText env t x = some a → ep.run rec x w = some (w ++ a) := by
  induction t with
  | basic k =>
    intro ep _ _ hep x a w _ ha
    simp only [valueText] at ha
    simp only [elemPlan] at hep
    cases hc : typeconv k with
    | none => simp [hc, throw, throwThe, MonadExceptOf.throw] at hep
    | some c =>
      simp only [hc, pure, Except.pure, Except.ok.injEq] at hep
      subst hep
      have := typeconv_run k c x a w hc ha
      simp only [ElemPlan.run, beq_iff_eq]
      exact this
  | ptr t ih =>
    intro ep hsup hnew hep x a w hd ha
    simp only [elemPlan, bind, Except.bind] at hep
    cases hin : elemPlan newEnc t with
    | error err => simp [hin] at hep
    | ok inner =>
      simp only [hin, pure, Except.pure, Except.ok.injEq] at hep
      subst hep
      cases x with
      | ptr p =>
        cases p with
        | none =>
          simp only [valueText, Option.some.injEq] at ha
          subst ha
          simp [ElemPlan.run]
        | some y =>
          simp only [valueText] at ha
          simp only [ElemPlan.run]
          exact ih inner (by simpa [elemSupported] using hsup)
            (by simpa [GoType.structIds] using hnew) hin y a w
            (by simpa [Value.depth] using hd) ha
      | _ => simp [valueText] at ha
  | slice t ih =>
    intro ep hsup hnew hep x a w hd ha
    simp only [elemPlan, bind, Except.bind] at hep
    cases hin : elemPlan newEnc t with
    | error err => simp [hin] at hep
    | ok elem =>
      simp only [hin, pure, Except.pure, Except.ok.injEq] at hep
      subst hep
      cases x with
      | slice xs =>
        simp only [valueText] at ha
        cases hts : elemsText env t xs with
        | none => simp [hts] at ha
        | some ts =>
          simp only [hts, Option.map_some', Option.some.injEq] at ha
          subst ha
          have hd' : Value.maxDepth xs ≤ M := by simpa [Value.depth] using hd
          have hall := elemsText_forall env t
            (fun x a => ∀ w, ElemPlan.run rec elem x w = some (w ++ a)) xs ts hts
            (fun y hy b hb w => ih elem (by simpa [elemSupported] using hsup)
              (by simpa [GoType.structIds] using hnew) hin y b w
              (le_trans (Value.depth_le_maxDepth xs y hy) hd') hb)
          simp only [ElemPlan.run]
          rw [runElems_true _ xs ts hall]
          simp
      | _ => simp [valueText] at ha
  | struct id =>
    intro ep _ hnew hep x a w hd ha
    simp only [elemPlan, bind, Except.bind] at hep
    cases hp : newEnc (.struct id) with
    | error err => simp [hp] at hep
    | ok plan =>
      simp only [hp, pure, Except.pure, Except.ok.injEq] at hep
      subst hep
      cases x with
      | struct xs =>
        simp only [valueText] at ha
        cases hen : entriesText env (env id) xs with
        | none => simp [hen] at ha
        | some ents =>
          simp only [hen, Option.map_some', Option.some.injEq] at ha
          subst ha
          simp only [ElemPlan.run]
          exact hnew id (by simp [GoType.structIds]) plan hp xs ents w hd hen
      | _ => simp [valueText] at ha
  | array n t _ => intro ep hsup; simp [elemSupported] at hsup
  | time => intro ep hsup; simp [elemSupported] at hsup
  | escapeString => intro ep hsup; simp [elemSupported] at hsup

theorem ifaceEqZero_true (env : TypeEnv) (fuel : Nat) (tt : GoType) (tv : ShapeVal)
    (elem : GoType) (h : ifaceEqZero env fuel tt tv elem = .ok true) : tt = elem := by
  unfold ifaceEqZero at h
  by_contra hne
  simp [hne, pure, Except.pure] at h

theorem valueText_struct (env : TypeEnv) (id : Nat) (x : Value) (a : Bytes)
    (h : valueText env (.struct id) x = some a) :
    ∃ xs ents, x = .struct xs ∧ entriesText env (env id) xs = some ents ∧ a = object ents := by
  cases x with
  | struct xs =>
    simp only [valueText] at h
    cases hen : entriesText env (env id) xs with
    | none => simp [hen] at h
    | some ents =>
      simp only [hen, Option.map_some', Option.some.injEq] at h
      exact ⟨xs, ents, rfl, hen, h.symm⟩
  | _ => simp [valueText] at h

/-- The value instruction of a supported field appends what, between the static text
before and after it, makes the value text of the field. -/
theorem valueSeg_run (env : TypeEnv) (fuel : Nat)
    (newEnc : GoType → ShapeVal → Res (List instruction))
    (rec : List instruction → Value → Bytes → Option Bytes) (self : List instruction)
    (tt : GoType) (i : Nat) (f : StructField) (p v : Value) (M : Nat)
    (pre post : Bytes) (ins : instruction)
    (hsup : f.supported = true) (hkey : f.key ≠ [])
    (hseg : valueSeg env fuel newEnc tt .zero i f f.opts = .ok (some (pre, ins, post)))
    (hleap : leap p i = some v) (hdepth : v.depth ≤ M)
    (hself : ∀ id ∈ f.Typ.structIds, tt = .struct id → PlanOK env rec M id self)
    (hnew : ∀ id ∈ f.Typ.structIds, ∀ plan, newEnc (.struct id) .zero = .ok plan →
      PlanOK env rec M id plan)
    (a : Bytes) (ha : fieldText env f v = some a) :
    ∃ mid, (∀ w, execSub rec self p w ins = some (w ++ mid)) ∧ pre ++ mid ++ post = a := by
  unfold StructField.supported at hsup
  have hk0 : (f.key == []) = false := by simpa using hkey
  simp only [hk0, Bool.false_or, Bool.and_eq_true, Bool.not_eq_true'] at hsup
  obtain ⟨⟨hstr, henc⟩, hrest⟩ := hsup
  unfold valueSeg at hseg
  unfold fieldText at ha
  simp only [hstr, henc, Bool.false_eq_true, if_false] at hseg
  by_cases hraw : f.opts.Contains (bs "raw") = true
  · simp only [hraw, if_true, Bool.or_eq_true, decide_eq_true_eq] at hrest hseg ha
    have hk : f.Typ.Kind ≠ .Ptr := by
      rcases hrest with h | h <;> simp [h, GoType.Kind]
    simp only [convInstr, hk, if_false, pure, Except.pure, Except.ok.injEq, Option.some.injEq,
      Prod.mk.injEq] at hseg
    obtain ⟨h1, h2, h3⟩ := hseg
    subst h1 h2 h3
    unfold rawText at ha
    cases hs : v.asString with
    | none => simp [hs] at ha
    | some s =>
      simp only [hs, Option.map_some', Option.some.injEq] at ha
      refine ⟨a, ?_, by simp⟩
      intro w
      simp only [execSub, instruction.kind_mk, instruction.leapFun_mk, instruction.offset_mk,
        kindNormal, kindStatic, kindStringField, kindInt, hleap, Option.bind_some, Conv.run, hs]
      subst ha
      by_cases h0 : s = []
      · simp [hs, h0]
      · simp [hs, h0]
  · simp only [hraw, Bool.false_eq_true, if_false, Bool.and_eq_true, Bool.not_eq_true'] at hrest hseg ha
    obtain ⟨hesc, hT⟩ := hrest
    simp only [hesc, Bool.false_eq_true, if_false] at hseg
    cases hTy : f.Typ with
    | basic k =>
      rw [hTy] at hT hseg ha
      simp only [valueText] at ha
      simp only at hT
      by_cases hS : k = .String
      · subst hS
        simp only [pure, Except.pure, Except.ok.injEq, Option.some.injEq, Prod.mk.injEq] at hseg
        obtain ⟨h1, h2, h3⟩ := hseg
        subst h1 h2 h3
        cases v <;> simp [primText] at ha
        rename_i s
        subst ha
        exact ⟨s, fun w => by simp [execSub, kindStatic, kindStringField, hleap, Conv.run],
          by simp⟩
      · refine ⟨a, fun w => ?_, ?_⟩
        · cases k <;> simp [isPrimKind] at hT hS <;>
            simp [typeconv, pure, Except.pure] at hseg <;>
            obtain ⟨h1, h2, h3⟩ := hseg <;> subst h1 h2 h3 <;>
            cases v <;> simp [primText] at ha <;> subst ha <;>
            simp [execSub, kindStatic, kindStringField, kindInt, kindNormal, hleap, Conv.run,
              AppendInt_eq w, AppendUint_eq w]
          split <;> rfl
        · cases k <;> simp [isPrimKind] at hT hS <;>
            simp [typeconv, pure, Except.pure] at hseg <;>
            obtain ⟨h1, h2, h3⟩ := hseg <;> subst h1 h2 h3 <;> simp
    | ptr t =>
      rw [hTy] at hT hseg ha hself hnew
      cases t with
      | basic k =>
        simp only at hT
        cases v with
        | ptr q =>
          cases q with
          | none =>
            simp only [valueText, Option.some.injEq] at ha
            subst ha
            refine ⟨null, fun w => ?_, ?_⟩ <;>
              (cases k <;> simp [isPrimKind] at hT <;>
                simp [typeconv, pure, Except.pure, funInstr] at hseg <;>
                obtain ⟨h1, h2, h3⟩ := hseg <;> subst h1 h2 h3 <;>
                simp [execSub, kindStatic, kindStringField, kindInt, kindNormal, Fun.run, hleap])
          | some x =>
            simp only [valueText] at ha
            refine ⟨a, fun w => ?_, ?_⟩
            · cases k <;> simp [isPrimKind] at hT <;>
                simp [typeconv, pure, Except.pure, funInstr] at hseg <;>
                obtain ⟨h1, h2, h3⟩ := hseg <;> subst h1 h2 h3 <;>
                cases x <;> simp [primText] at ha <;> subst ha <;>
                simp [execSub, kindStatic, kindStringField, kindInt, kindNormal, Fun.run, hleap,
                  Conv.run, AppendInt_eq w, AppendUint_eq w]
              split <;> rfl
            · cases k <;> simp [isPrimKind] at hT <;>
                simp [typeconv, pure, Except.pure, funInstr] at hseg <;>
                obtain ⟨h1, h2, h3⟩ := hseg <;> subst h1 h2 h3 <;> simp
        | _ => simp [valueText] at ha
      | struct id =>
        simp only [bind, Except.bind, pure, Except.pure] at hseg
        have hrun : ∀ (enc : Option (List instruction)),
            PlanOK env rec M id (enc.getD self) →
            ∀ w, execSub rec self p w (funInstr i (.ptrStruct enc i)) = some (w ++ a) := by
          intro enc hok w
          simp only [execSub, funInstr, instruction.kind_mk, instruction.leapFun_mk,
            instruction.fn_mk, kindNormal, kindStatic, kindStringField, kindInt, Fun.run, hleap]
          cases v with
          | ptr q =>
            cases q with
            | none =>
              simp only [valueText, Option.some.injEq] at ha
              subst ha
              simp
            | some x =>
              simp only [valueText] at ha
              obtain ⟨xs, ents, hx, hen, hobj⟩ := valueText_struct env id x a ha
              subst hx hobj
              simpa using hok xs ents w (by simpa [Value.depth] using hdepth) hen
          | _ => simp [valueText] at ha
        cases hsame : ifaceEqZero env fuel tt .zero (.struct id) with
        | error err => simp [hsame] at hseg
        | ok same =>
          rw [hsame] at hseg
          cases same with
          | true =>
            simp only [if_true, Except.ok.injEq, Option.some.injEq, Prod.mk.injEq] at hseg
            obtain ⟨h1, h2, h3⟩ := hseg
            subst h1 h2 h3
            have htt := ifaceEqZero_true env fuel tt .zero _ hsame
            exact ⟨a, hrun none (hself id (by simp [GoType.structIds]) htt), by simp⟩
          | false =>
            simp only [Bool.false_eq_true, if_false] at hseg
            cases henc1 : newEnc (.struct id) .zero with
            | error err => simp [henc1] at hseg
            | ok enc =>
              simp only [henc1, Except.ok.injEq, Option.some.injEq, Prod.mk.injEq] at hseg
              obtain ⟨h1, h2, h3⟩ := hseg
              subst h1 h2 h3
              exact ⟨a, hrun (some enc) (hnew id (by simp [GoType.structIds]) enc henc1),
                by simp⟩
      | _ => simp at hT
    | struct id =>
      rw [hTy] at hT hseg ha hself hnew
      simp only [bind, Except.bind, pure, Except.pure, ShapeVal.Field] at hseg
      by_cases hexp : f.exported = true
      · simp only [hexp, if_true] at hseg
        cases henc1 : newEnc (.struct id) .zero with
        | error err => simp [henc1] at hseg
        | ok enc =>
          simp only [henc1, Except.ok.injEq, Option.some.injEq, Prod.mk.injEq] at hseg
          obtain ⟨h1, h2, h3⟩ := hseg
          subst h1 h2 h3
          obtain ⟨xs, ents, hx, hen, hobj⟩ := valueText_struct env id v a ha
          subst hx hobj
          refine ⟨object ents, fun w => ?_, by simp⟩
          simp only [execSub, funInstr, instruction.kind_mk, instruction.leapFun_mk,
            instruction.fn_mk, kindNormal, kindStatic, kindStringField, kindInt, Fun.run, hleap]
          simpa using hnew id (by simp [GoType.structIds]) enc henc1 xs ents w hdepth hen
      · simp [hexp, throw, throwThe, MonadExceptOf.throw] at hseg
    | slice t =>
      rw [hTy] at hT hseg ha hself hnew
      simp only [bind, Except.bind, pure, Except.pure, ShapeVal.Field] at hseg
      simp only at hT
      by_cases hexp : f.exported = true
      · simp only [hexp, if_true] at hseg
        cases hel : elemPlan (fun t => newEnc t .zero) t with
        | error err => simp [hel] at hseg
        | ok elem =>
          simp only [hel, Except.ok.injEq, Option.some.injEq, Prod.mk.injEq] at hseg
          obtain ⟨h1, h2, h3⟩ := hseg
          subst h1 h2 h3
          refine ⟨a, fun w => ?_, by simp⟩
          simp only [execSub, funInstr, instruction.kind_mk, instruction.leapFun_mk,
            instruction.fn_mk, kindNormal, kindStatic, kindStringField, kindInt, Fun.run, hleap]
          have := elemPlan_run env (fun t => newEnc t .zero) rec M (.slice t) (.slice elem)
            (by simpa [elemSupported] using hT) hnew
            (by simp [elemPlan, hel, bind, Except.bind, pure, Except.pure]) v a w hdepth ha
          simpa using this
      · simp [hexp, throw, throwThe, MonadExceptOf.throw] at hseg
    | array n t => rw [hTy] at hT; simp at hT
    | time => rw [hTy] at hT; simp at hT
    | escapeString => rw [hTy] at hT; simp at hT

/-- A supported field is compiled to the form of a segment. -/
theorem valueSeg_ne_none (env : TypeEnv) (fuel : Nat)
    (newEnc : GoType → ShapeVal → Res (List instruction)) (tt : GoType) (tv : ShapeVal)
    (i : Nat) (f : StructField) (hsup : f.supported = true) (hkey : f.key ≠ []) :
    valueSeg env fuel newEnc tt tv i f f.opts ≠ .ok none := by
  intro h
  unfold StructField.supported at hsup
  have hk0 : (f.key == []) = false := by simpa using hkey
  simp only [hk0, Bool.false_or, Bool.and_eq_true, Bool.not_eq_true'] at hsup
  obtain ⟨⟨hstr, henc⟩, hrest⟩ := hsup
  unfold valueSeg at h
  simp only [hstr, henc, Bool.false_eq_true, if_false] at h
  by_cases hraw : f.opts.Contains (bs "raw") = true
  · simp [hraw, pure, Except.pure] at h
  · simp only [hraw, Bool.false_eq_true, if_false, Bool.and_eq_true, Bool.not_eq_true'] at hrest h
    obtain ⟨hesc, hT⟩ := hrest
    simp only [hesc, Bool.false_eq_true, if_false] at h
    cases hTy : f.Typ with
    | basic k =>
      rw [hTy] at hT h
      cases k <;> simp [isPrimKind] at hT <;> simp [typeconv, pure, Except.pure] at h
    | ptr t =>
      rw [hTy] at hT h
      cases t with
      | basic k =>
        cases k <;> simp [isPrimKind] at hT <;> simp [typeconv, pure, Except.pure] at h
      | struct id =>
        simp only [bind, Except.bind, pure, Except.pure] at h
        repeat' split at h
        all_goals simp at h
      | _ => simp at hT
    | struct id =>
      rw [hTy] at h
      simp only [bind, Except.bind, pure, Except.pure] at h
      repeat' split at h
      all_goals simp at h
    | slice t =>
      rw [hTy] at h
      simp only [bind, Except.bind, pure, Except.pure] at h
      repeat' split at h
      all_goals simp at h
    | array n t => rw [hTy] at hT; simp at hT
    | time => rw [hTy] at hT; simp at hT
    | escapeString => rw [hTy] at hT; simp at hT

theorem shapeSegs_ne_none (env : TypeEnv) (fuel : Nat)
    (newEnc : GoType → ShapeVal → Res (List instruction)) (tt : GoType) (tv : ShapeVal) :
    ∀ (fs : List StructField) (i : Nat), (∀ f ∈ fs, f.supported = true) →
      shapeSegs env fuel newEnc tt tv fs i ≠ .ok none := by
  intro fs
  induction fs with
  | nil => intro i _ h; simp [shapeSegs, pure, Except.pure] at h
  | cons f fs ih =>
    intro i hsup h
    simp only [shapeSegs, bind, Except.bind, pure, Except.pure] at h
    cases hf : fieldSeg env fuel newEnc tt tv i f with
    | error err => simp [hf] at h
    | ok r =>
      rw [hf] at h
      cases r with
      | none =>
        unfold fieldSeg at hf
        simp only at hf
        by_cases htag : (parseTag f.Tag).1 = []
        · simp [htag, pure, Except.pure] at hf
        · simp only [htag, if_false, bind, Except.bind, pure, Except.pure] at hf
          cases hv : valueSeg env fuel newEnc tt tv i f (parseTag f.Tag).2 with
          | error err => simp [hv] at hf
          | ok v =>
            cases v with
            | none =>
              exact valueSeg_ne_none env fuel newEnc tt tv i f
                (hsup f (List.mem_cons_self _ _)) htag hv
            | some t => simp [hv] at hf
      | some r =>
        simp only at h
        cases hrest : shapeSegs env fuel newEnc tt tv fs (i + 1) with
        | error err => simp [hrest] at h
        | ok rest =>
          rw [hrest] at h
          cases rest with
          | none => exact ih (i + 1) (fun g hg => hsup g (List.mem_cons_of_mem _ hg)) hrest
          | some rest => simp at h

/-- The plan of a shape with supported fields, once compiled, is the plan of its
segments. -/
theorem NewStructEncoder_segs (env : TypeEnv) (fuel : Nat) (id : Nat) (tv : ShapeVal)
    (e : StructEncoder) (hsup : ∀ f ∈ env id, f.supported = true)
    (h : NewStructEncoder env (fuel + 1) (.struct id) tv = .ok e) :
    ∃ segs, shapeSegs env fuel (fun t v => (NewStructEncoder env fuel t v).map (·.instructions))
        (.struct id) tv (env id) 0 = .ok (some segs) ∧ e.instructions = planOf segs := by
  cases hs : shapeSegs env fuel (fun t v => (NewStructEncoder env fuel t v).map (·.instructions))
      (.struct id) tv (env id) 0 with
  | error err =>
    have := NewStructEncoder_err env fuel (.struct id) tv (env id) err rfl hs
    rw [this] at h
    cases h
  | ok r =>
    cases r with
    | none => exact absurd hs (shapeSegs_ne_none env fuel _ _ tv (env id) 0 hsup)
    | some segs =>
      obtain ⟨e', he', hplan⟩ := NewStructEncoder_plan env fuel (.struct id) tv (env id) segs rfl hs
      rw [he'] at h
      simp only [Except.ok.injEq] at h
      subst h
      exact ⟨segs, rfl, hplan⟩

theorem leap_append (done : List Value) (v : Value) (rest : List Value) :
    leap (.struct (done ++ v :: rest)) done.length = some v := by
  induction done with
  | nil => simp [leap]
  | cons d ds ih => simpa [leap] using ih

/-- The segments of a list of supported fields run on a well-typed instance, and
their entries are the entries of the description. -/
theorem shapeSegs_run (env : TypeEnv) (fuel : Nat)
    (newEnc : GoType → ShapeVal → Res (List instruction))
    (rec : List instruction → Value → Bytes → Option Bytes) (self : List instruction)
    (tt : GoType) (M : Nat) :
    ∀ (fs : List StructField) (i : Nat) (done vs : List Value) (segs : List Seg)
      (ents : List Bytes),
      done.length = i → (∀ f ∈ fs, f.supported = true) →
      shapeSegs env fuel newEnc tt .zero fs i = .ok (some segs) →
      entriesText env fs vs = some ents → Value.maxDepth vs ≤ M →
      (∀ f ∈ fs, f.key ≠ [] → ∀ id ∈ f.Typ.structIds, tt = .struct id →
        PlanOK env rec M id self) →
      (∀ f ∈ fs, f.key ≠ [] → ∀ id ∈ f.Typ.structIds, ∀ plan,
        newEnc (.struct id) .zero = .ok plan → PlanOK env rec M id plan) →
      (∀ s ∈ segs, s.Runs rec self (.struct (done ++ vs))) ∧
      segs.filterMap (Seg.entry rec self (.struct (done ++ vs))) = ents := by
  intro fs
  induction fs with
  | nil =>
    intro i done vs segs ents _ _ hseg hent _ _ _
    simp only [shapeSegs, pure, Except.pure, Except.ok.injEq, Option.some.injEq] at hseg
    subst hseg
    cases vs with
    | nil =>
      simp only [entriesText, Option.some.injEq] at hent
      subst hent
      simp
    | cons v vs => simp [entriesText] at hent
  | cons f fs ih =>
    intro i done vs segs ents hlen hsup hseg hent hdepth hself hnew
    cases vs with
    | nil => simp [entriesText] at hent
    | cons v vs =>
      have hsupf := hsup f (List.mem_cons_self _ _)
      have hdv : v.depth ≤ M := le_trans (le_max_left _ _) (by simpa [Value.maxDepth] using hdepth)
      have hdvs : Value.maxDepth vs ≤ M :=
        le_trans (le_max_right _ _) (by simpa [Value.maxDepth] using hdepth)
      simp only [shapeSegs, bind, Except.bind, pure, Except.pure] at hseg
      cases hf : fieldSeg env fuel newEnc tt .zero i f with
      | error err => simp [hf] at hseg
      | ok r0 =>
        rw [hf] at hseg
        cases r0 with
        | none => simp at hseg
        | some r =>
          simp only at hseg
          cases hrest : shapeSegs env fuel newEnc tt .zero fs (i + 1) with
          | error err => simp [hrest] at hseg
          | ok rest0 =>
            rw [hrest] at hseg
            cases rest0 with
            | none => simp at hseg
            | some rest =>
              simp only [Except.ok.injEq, Option.some.injEq] at hseg
              subst hseg
              have happ : done ++ v :: vs = (done ++ [v]) ++ vs := by simp
              have hih := fun ents' (he : entriesText env fs vs = some ents') =>
                ih (i + 1) (done ++ [v]) vs rest ents' (by simp [hlen])
                  (fun g hg => hsup g (List.mem_cons_of_mem _ hg)) hrest he hdvs
                  (fun g hg => hself g (List.mem_cons_of_mem _ hg))
                  (fun g hg => hnew g (List.mem_cons_of_mem _ hg))
              rw [← happ] at hih
              unfold fieldSeg at hf
              rw [entriesText] at hent
              by_cases htag : f.key = []
              · have htag' : (parseTag f.Tag).1 = [] := htag
                simp only [htag', if_true, pure, Except.pure, Except.ok.injEq,
                  Option.some.injEq] at hf
                subst hf
                simp only [htag, if_true] at hent
                simpa using hih ents hent
              · have htag' : ¬ (parseTag f.Tag).1 = [] := htag
                simp only [htag', if_false, bind, Except.bind, pure, Except.pure] at hf
                simp only [htag, if_false] at hent
                cases hv : valueSeg env fuel newEnc tt .zero i f (parseTag f.Tag).2 with
                | error err => simp [hv] at hf
                | ok v0 =>
                  rw [hv] at hf
                  cases v0 with
                  | none => simp at hf
                  | some t =>
                    obtain ⟨pre, ins, post⟩ := t
                    simp only [Except.ok.injEq, Option.some.injEq] at hf
                    subst hf
                    have hins := valueSeg_ins env fuel newEnc tt .zero i f _ pre post ins hv
                    have hleap : leap (.struct (done ++ v :: vs)) ins.offset = some v := by
                      rw [hins.2.2, ← hlen]; exact leap_append done v vs
                    by_cases hkind : v.hasKind f.Typ.Kind = true
                    · simp only [hkind, Bool.not_true, Bool.false_eq_true, if_false] at hent
                      have hzero := Seg.zero_eq f (.struct (done ++ v :: vs)) v
                        (([34] ++ (parseTag f.Tag).1 ++ [34, 58]) ++ pre) post ins hleap hkind
                      have hzero' : (Seg.mk ((parseTag f.Tag).2.Contains (bs "omitempty") &&
                          f.Typ.Kind != .Struct) f.Typ.Kind
                          (([34] ++ (parseTag f.Tag).1 ++ [34, 58]) ++ pre) ins post).zero
                          (.struct (done ++ v :: vs)) = some (f.omitted v) := hzero
                      by_cases hom : f.omitted v = true
                      · simp only [hom, if_true] at hent
                        obtain ⟨hruns, hents⟩ := hih ents hent
                        rw [hom] at hzero'
                        constructor
                        · intro s hs
                          simp only [Option.toList, List.singleton_append, List.mem_cons] at hs
                          rcases hs with hs | hs
                          · subst hs
                            exact ⟨hins.1, hins.2.1, true, hzero', by simp⟩
                          · exact hruns s hs
                        · have hentry := Seg.entry_eq rec self _ _ true hzero'
                          simp only [if_true] at hentry
                          change List.filterMap _ (_ :: rest) = _
                          rw [List.filterMap_cons, hentry]
                          exact hents
                      · have hom' : f.omitted v = false := by simpa using hom
                        simp only [hom', Bool.false_eq_true, if_false] at hent
                        rw [hom'] at hzero'
                        cases hft : (if f.opts.Contains (bs "raw") = true then rawText v
                            else valueText env f.Typ v) with
                        | none => simp [hft] at hent
                        | some a =>
                          cases her : entriesText env fs vs with
                          | none => simp [hft, her] at hent
                          | some r =>
                            simp only [hft, her, Option.some.injEq] at hent
                            subst hent
                            obtain ⟨hruns, hents⟩ := hih r her
                            obtain ⟨mid, hmid, hcat⟩ := valueSeg_run env fuel newEnc rec self tt i
                              f (.struct (done ++ v :: vs)) v M pre post ins hsupf htag hv
                              (by rw [← hins.2.2]; exact hleap) hdv
                              (hself f (List.mem_cons_self _ _) htag)
                              (hnew f (List.mem_cons_self _ _) htag) a hft
                            constructor
                            · intro s hs
                              simp only [Option.toList, List.singleton_append,
                                List.mem_cons] at hs
                              rcases hs with hs | hs
                              · subst hs
                                exact ⟨hins.1, hins.2.1, false, hzero', fun _ => ⟨mid, hmid⟩⟩
                              · exact hruns s hs
                            · have hentry := Seg.entry_eq rec self _ _ false hzero'
                              have h0 := hmid []
                              simp only [List.nil_append] at h0
                              simp only [Bool.false_eq_true, if_false, h0,
                                Option.map_some'] at hentry
                              change List.filterMap _ (_ :: rest) = _
                              rw [List.filterMap_cons, hentry, hents, ← hcat]
                              simp [StructField.key]
                    · simp [hkind] at hent

/-- Correctness of the compiler on supported shapes: the plan that `NewStructEncoder`
compiles for a struct type, run by `Marshal` on an instance with a JSON text, appends
the object of the entries of the instance, given fuel for the depth of the instance. -/
theorem Marshal_text (env : TypeEnv) (hok : ∀ id, ∀ f ∈ env id, f.supported = true) :
    ∀ (M F id : Nat) (e : StructEncoder), NewStructEncoder env F (.struct id) .zero = .ok e →
      PlanOK env (Marshal M) M id e.instructions := by
  intro M
  induction M with
  | zero =>
    intro F id e _ xs ents w hd _
    simp [Value.depth] at hd
  | succ M ih =>
    intro F id e h xs ents w hd hen
    cases F with
    | zero => simp [NewStructEncoder, throw, throwThe, MonadExceptOf.throw] at h
    | succ F =>
      obtain ⟨segs, hsegs, hplan⟩ := NewStructEncoder_segs env F id .zero e (hok id) h
      have hrun := shapeSegs_run env F
        (fun t v => (NewStructEncoder env F t v).map (·.instructions))
        (Marshal M) (planOf segs) (.struct id) M (env id) 0 [] xs segs ents rfl (hok id) hsegs
        hen (by simpa [Value.depth] using hd)
        (by
          intro f _ _ id' _ htt
          simp only [GoType.struct.injEq] at htt
          subst htt
          rw [← hplan]
          exact ih (F + 1) id e h)
        (by
          intro f _ _ id' _ plan hp
          cases hN : NewStructEncoder env F (.struct id') .zero with
          | error err => simp [hN, Except.map] at hp
          | ok e' =>
            simp only [hN, Except.map, Except.ok.injEq] at hp
            subst hp
            exact ih F id' e' hN)
      simp only [List.nil_append] at hrun
      rw [hplan, Marshal_planOf M segs _ w hrun.1, hrun.2]

/-! ## Shapes without nested plans -/

theorem StructField.flat_structIds (f : StructField) (hsup : f.supported = true)
    (hflat : f.flat = true) (hkey : f.key ≠ []) : f.Typ.structIds = [] := by
  unfold StructField.supported at hsup
  unfold StructField.flat at hflat
  have hk0 : (f.key == []) = false := by simpa using hkey
  simp only [hk0, Bool.false_or, Bool.and_eq_true, Bool.not_eq_true'] at hsup hflat
  obtain ⟨_, hrest⟩ := hsup
  by_cases hraw : f.opts.Contains (bs "raw") = true
  · simp only [hraw, if_true, Bool.or_eq_true, decide_eq_true_eq] at hrest
    rcases hrest with h | h <;> simp [h, GoType.structIds]
  · simp only [hraw, Bool.false_eq_true, Bool.false_or] at hflat
    cases hTy : f.Typ with
    | basic k => rfl
    | ptr t =>
      rw [hTy] at hflat
      cases t <;> simp at hflat
      rfl
    | struct id => rw [hTy] at hflat; simp at hflat
    | slice t => rw [hTy] at hflat; simp at hflat
    | array n t => rw [hTy] at hflat; simp at hflat
    | time => rw [hTy] at hflat; simp at hflat
    | escapeString => rw [hTy] at hflat; simp at hflat

/-- The value of a flat field compiles without failure. -/
theorem valueSeg_flat (env : TypeEnv) (fuel : Nat)
    (newEnc : GoType → ShapeVal → Res (List instruction)) (tt : GoType) (tv : ShapeVal)
    (i : Nat) (f : StructField) (hsup : f.supported = true) (hkey : f.key ≠ [])
    (hflat : f.flat = true) :
    ∃ r, valueSeg env fuel newEnc tt tv i f f.opts = .ok (some r) := by
  cases h : valueSeg env fuel newEnc tt tv i f f.opts with
  | ok r =>
    cases r with
    | none => exact absurd h (valueSeg_ne_none env fuel newEnc tt tv i f hsup hkey)
    | some r => exact ⟨r, rfl⟩
  | error err =>
    exfalso
    unfold StructField.supported at hsup
    unfold StructField.flat at hflat
    have hk0 : (f.key == []) = false := by simpa using hkey
    simp only [hk0, Bool.false_or, Bool.and_eq_true, Bool.not_eq_true'] at hsup hflat
    obtain ⟨⟨hstr, henc⟩, hrest⟩ := hsup
    unfold valueSeg at h
    simp only [hstr, henc, Bool.false_eq_true, if_false] at h
    by_cases hraw : f.opts.Contains (bs "raw") = true
    · simp [hraw, pure, Except.pure] at h
    · simp only [hraw, Bool.false_eq_true, if_false, Bool.and_eq_true, Bool.not_eq_true',
        Bool.false_or] at hrest h hflat
      obtain ⟨hesc, hT⟩ := hrest
      simp only [hesc, Bool.false_eq_true, if_false] at h
      cases hTy : f.Typ with
      | basic k =>
        rw [hTy] at hT h
        cases k <;> simp [isPrimKind] at hT <;> simp [typeconv, pure, Except.pure] at h
      | ptr t =>
        rw [hTy] at hT h hflat
        cases t with
        | basic k =>
          cases k <;> simp [isPrimKind] at hT <;> simp [typeconv, pure, Except.pure] at h
        | _ => simp at hflat
      | struct id => rw [hTy] at hflat; simp at hflat
      | slice t => rw [hTy] at hflat; simp at hflat
      | array n t => rw [hTy] at hT; simp at hT
      | time => rw [hTy] at hT; simp at hT
      | escapeString => rw [hTy] at hT; simp at hT

theorem shapeSegs_flat (env : TypeEnv) (fuel : Nat)
    (newEnc : GoType → ShapeVal → Res (List instruction)) (tt : GoType) (tv : ShapeVal) :
    ∀ (fs : List StructField) (i : Nat), (∀ f ∈ fs, f.supported = true) →
      (∀ f ∈ fs, f.flat = true) →
      ∃ segs, shapeSegs env fuel newEnc tt tv fs i = .ok (some segs) := by
  intro fs
  induction fs with
  | nil => intro i _ _; exact ⟨[], rfl⟩
  | cons f fs ih =>
    intro i hsup hflat
    obtain ⟨rest, hrest⟩ := ih (i + 1) (fun g hg => hsup g (List.mem_cons_of_mem _ hg))
      (fun g hg => hflat g (List.mem_cons_of_mem _ hg))
    have hf : ∃ s, fieldSeg env fuel newEnc tt tv i f = .ok (some s) := by
      unfold fieldSeg
      by_cases htag : (parseTag f.Tag).1 = []
      · exact ⟨none, by simp [htag, pure, Except.pure]⟩
      · obtain ⟨r, hr⟩ := valueSeg_flat env fuel newEnc tt tv i f
          (hsup f (List.mem_cons_self _ _)) htag (hflat f (List.mem_cons_self _ _))
        obtain ⟨pre, ins, post⟩ := r
        have hr' : valueSeg env fuel newEnc tt tv i f (parseTag f.Tag).2
            = .ok (some (pre, ins, post)) := hr
        exact ⟨_, by simp only [htag, if_false, bind, Except.bind, hr', pure, Except.pure]; rfl⟩
    obtain ⟨s, hs⟩ := hf
    exact ⟨s.toList ++ rest, by
      simp only [shapeSegs, bind, Except.bind, hs, hrest, pure, Except.pure]⟩

/-- A shape of flat supported fields compiles with one unit of fuel, and `Marshal`
appends the object of the entries of an instance with one unit of fuel. -/
theorem Marshal_flat (env : TypeEnv) (id : Nat) (F : Nat)
    (hsup : ∀ f ∈ env id, f.supported = true) (hflat : ∀ f ∈ env id, f.flat = true) :
    ∃ e, NewStructEncoder env (F + 1) (.struct id) .zero = .ok e ∧
      ∀ (M : Nat) (vs : List Value) (ents : List Bytes) (w : Bytes),
        entriesText env (env id) vs = some ents →
        Marshal (M + 1) e.instructions (.struct vs) w = some (w ++ object ents) := by
  obtain ⟨segs, hsegs⟩ := shapeSegs_flat env F
    (fun t v => (NewStructEncoder env F t v).map (·.instructions)) (.struct id) .zero
    (env id) 0 hsup hflat
  obtain ⟨e, he, hplan⟩ := NewStructEncoder_plan env F (.struct id) .zero (env id) segs rfl hsegs
  refine ⟨e, he, ?_⟩
  intro M vs ents w hen
  have hrun := shapeSegs_run env F
    (fun t v => (NewStructEncoder env F t v).map (·.instructions))
    (Marshal M) (planOf segs) (.struct id) (Value.maxDepth vs) (env id) 0 [] vs segs ents rfl
    hsup hsegs hen (le_refl _)
    (by
      intro f hf hkey id' hid
      rw [StructField.flat_structIds f (hsup f hf) (hflat f hf) hkey] at hid
      cases hid)
    (by
      intro f hf hkey id' hid
      rw [StructField.flat_structIds f (hsup f hf) (hflat f hf) hkey] at hid
      cases hid)
  simp only [List.nil_append] at hrun
  rw [hplan, Marshal_planOf M segs _ w hrun.1, hrun.2]

/-! ## One field of a shape -/

theorem entriesText_append (env : TypeEnv) :
    ∀ (fs1 : List StructField) (vs1 : List Value) (fs2 : List StructField) (vs2 : List Value)
      (ents1 ents2 : List Bytes), entriesText env fs1 vs1 = some ents1 →
      entriesText env fs2 vs2 = some ents2 →
      entriesText env (fs1 ++ fs2) (vs1 ++ vs2) = some (ents1 ++ ents2) := by
  intro fs1
  induction fs1 with
  | nil =>
    intro vs1 fs2 vs2 ents1 ents2 h1 h2
    cases vs1 with
    | nil =>
      simp only [entriesText, Option.some.injEq] at h1
      subst h1
      simpa using h2
    | cons v vs => simp [entriesText] at h1
  | cons f fs ih =>
    intro vs1 fs2 vs2 ents1 ents2 h1 h2
    cases vs1 with
    | nil => simp [entriesText] at h1
    | cons v vs =>
      rw [entriesText] at h1
      rw [List.cons_append, List.cons_append, entriesText]
      by_cases hk : f.key = []
      · simp only [hk, if_true] at h1 ⊢
        exact ih vs fs2 vs2 ents1 ents2 h1 h2
      · simp only [hk, if_false] at h1 ⊢
        by_cases hkind : v.hasKind f.Typ.Kind = true
        · simp only [hkind, Bool.not_true, Bool.false_eq_true, if_false] at h1 ⊢
          by_cases hom : f.omitted v = true
          · simp only [hom, if_true] at h1 ⊢
            exact ih vs fs2 vs2 ents1 ents2 h1 h2
          · simp only [hom, Bool.false_eq_true, if_false] at h1 ⊢
            cases hft : (if f.opts.Contains (bs "raw") = true then rawText v
                else valueText env f.Typ v) with
            | none => simp [hft] at h1
            | some a =>
              cases her : entriesText env fs vs with
              | none => simp [hft, her] at h1
              | some r =>
                simp only [hft, her, Option.some.injEq] at h1
                subst h1
                simp [ih vs fs2 vs2 r ents2 her h2]
        · simp [hkind] at h1

theorem entriesText_cons (env : TypeEnv) (f : StructField) (v : Value)
    (fs : List StructField) (vs : List Value) (ents : List Bytes) (r : List Bytes)
    (hkey : f.key ≠ []) (hv : v.hasKind f.Typ.Kind = true)
    (h : entriesText env fs vs = some ents)
    (hr : (f.omitted v = true ∧ r = []) ∨
      (f.omitted v = false ∧ ∃ a, fieldText env f v = some a ∧
        r = [[34] ++ f.key ++ [34, 58] ++ a])) :
    entriesText env (f :: fs) (v :: vs) = some (r ++ ents) := by
  rw [entriesText]
  simp only [hkey, if_false, hv, Bool.not_true, Bool.false_eq_true]
  rcases hr with ⟨hom, rfl⟩ | ⟨hom, a, ha, rfl⟩
  · simp [hom, h]
  · unfold fieldText at ha
    simp [hom, ha, h]

/-- The output for an instance, presented at one keyed field of the shape: the
entries of the fields before it, the entry of the field unless it is left out, the
entries of the fields after it. -/
theorem Marshal_at_field (env : TypeEnv) (hok : ∀ id, ∀ f ∈ env id, f.supported = true)
    (F M id : Nat) (e : StructEncoder)
    (hc : NewStructEncoder env F (.struct id) .zero = .ok e)
    (fs1 fs2 : List StructField) (f : StructField) (henv : env id = fs1 ++ f :: fs2)
    (vs1 vs2 : List Value) (v : Value) (ents1 ents2 r : List Bytes)
    (hkey : f.key ≠ []) (hv : v.hasKind f.Typ.Kind = true)
    (h1 : entriesText env fs1 vs1 = some ents1) (h2 : entriesText env fs2 vs2 = some ents2)
    (hr : (f.omitted v = true ∧ r = []) ∨
      (f.omitted v = false ∧ ∃ a, fieldText env f v = some a ∧
        r = [[34] ++ f.key ++ [34, 58] ++ a]))
    (hd : (Value.struct (vs1 ++ v :: vs2)).depth ≤ M) (w : Bytes) :
    Marshal M e.instructions (.struct (vs1 ++ v :: vs2)) w
      = some (w ++ object (ents1 ++ r ++ ents2)) := by
  have hent := entriesText_append env fs1 vs1 (f :: fs2) (v :: vs2) ents1 (r ++ ents2) h1
    (entriesText_cons env f v fs2 vs2 ents2 r hkey hv h2 hr)
  rw [← henv] at hent
  have := Marshal_text env hok M F id e hc (vs1 ++ v :: vs2) _ w hd hent
  rw [this, List.append_assoc]

/-! ## Separators -/

/-- A byte that is neither a comma nor an opening brace. -/
theorem digit_safe (n : Nat) : (48 + n % 10).toUInt8 ≠ 44 ∧ (48 + n % 10).toUInt8 ≠ 123 := by
  have h : n % 10 < 10 := Nat.mod_lt _ (by decide)
  generalize n % 10 = m at h
  interval_cases m <;> decide

theorem digitsAux_safe : ∀ (fuel n : Nat) (acc : Bytes),
    ∃ pre, digitsAux (fuel + 1) n acc = pre ++ acc ∧ pre ≠ [] ∧
      ∀ c ∈ pre, c ≠ 44 ∧ c ≠ 123 := by
  intro fuel
  induction fuel with
  | zero =>
    intro n acc
    refine ⟨[(48 + n % 10).toUInt8], ?_, by simp, ?_⟩
    · simp only [digitsAux]
      split <;> rfl
    · intro c hc
      simp only [List.mem_singleton] at hc
      subst hc
      exact digit_safe n
  | succ fuel ih =>
    intro n acc
    rw [digitsAux]
    by_cases h0 : n / 10 = 0
    · refine ⟨[(48 + n % 10).toUInt8], by simp [h0], by simp, ?_⟩
      intro c hc
      simp only [List.mem_singleton] at hc
      subst hc
      exact digit_safe n
    · obtain ⟨pre, hpre, hne, hsafe⟩ := ih (n / 10) ((48 + n % 10).toUInt8 :: acc)
      refine ⟨pre ++ [(48 + n % 10).toUInt8], by simp [h0, hpre], by simp, ?_⟩
      intro c hc
      rcases List.mem_append.mp hc with h | h
      · exact hsafe c h
      · simp only [List.mem_singleton] at h
        subst h
        exact digit_safe n

theorem AppendUint_safe (n : Nat) :
    AppendUint [] n ≠ [] ∧ ∀ c ∈ AppendUint [] n, c ≠ 44 ∧ c ≠ 123 := by
  obtain ⟨pre, hpre, hne, hsafe⟩ := digitsAux_safe n n []
  simp only [AppendUint, List.nil_append, hpre, List.append_nil]
  exact ⟨hne, hsafe⟩

theorem AppendInt_safe (i : Int) :
    AppendInt [] i ≠ [] ∧ ∀ c ∈ AppendInt [] i, c ≠ 44 ∧ c ≠ 123 := by
  unfold AppendInt
  split
  · rw [AppendUint_eq]
    refine ⟨by simp, ?_⟩
    intro c hc
    rcases List.mem_append.mp hc with h | h
    · simp only [List.nil_append, List.mem_singleton] at h
      subst h
      decide
    · exact (AppendUint_safe _).2 c h
  · exact AppendUint_safe _

theorem take_indexOf_not_mem (c : UInt8) : ∀ s : Bytes, c ∉ s.take (s.indexOf c) := by
  intro s
  induction s with
  | nil => simp
  | cons a t ih =>
    by_cases h : a = c
    · subst h; simp
    · rw [List.indexOf_cons_ne _ h, List.take_succ_cons]
      intro hc
      rcases List.mem_cons.mp hc with h1 | h1
      · exact h h1.symm
      · exact ih h1

/-- The output key of a field holds no comma. -/
theorem StructField.key_no_comma (f : StructField) : (44 : UInt8) ∉ f.key := by
  unfold StructField.key parseTag indexComma
  by_cases h : (44 : UInt8) ∈ f.Tag
  · simp only [h, if_true]
    have : ((List.indexOf (44 : UInt8) f.Tag : Nat) : Int) ≠ -1 := by omega
    simp only [this, ne_eq, not_false_eq_true, if_true, Int.toNat_ofNat]
    exact take_indexOf_not_mem 44 f.Tag
  · simp [h]

theorem chain_no_comma : ∀ (l : Bytes) (a : UInt8), (44 : UInt8) ∉ l → a ≠ 44 →
    List.Chain SepOK a l := by
  intro l
  induction l with
  | nil => intro a _ _; exact List.Chain.nil
  | cons b t ih =>
    intro a hl ha
    have hb : b ≠ 44 := fun h => hl (by simp [h])
    refine List.Chain.cons ?_ (ih b (fun h => hl (List.mem_cons_of_mem _ h)) hb)
    exact ⟨fun h => ha h.1, fun h => hb h.2, fun h => ha h.1⟩

theorem chain_tail : ∀ (ents : List Bytes), (∀ x ∈ ents, EntryOK x) → ∀ a : UInt8,
    a ≠ 44 → a ≠ 123 → List.Chain SepOK a (ents.flatMap ([44] ++ ·) ++ [125]) := by
  intro ents
  induction ents with
  | nil =>
    intro _ a ha _
    exact List.Chain.cons ⟨fun h => ha h.1, fun h => by simp at h, fun h => ha h.1⟩ List.Chain.nil
  | cons x rest ih =>
    intro hall a ha ha'
    obtain ⟨body, l, hx, hbody, hl, hl'⟩ := hall x (List.mem_cons_self _ _)
    subst hx
    have hrest := ih (fun y hy => hall y (List.mem_cons_of_mem _ hy)) l hl hl'
    have heq : ((34 :: (body ++ [l])) :: rest).flatMap ([44] ++ ·) ++ [125]
        = 44 :: 34 :: (body ++ l :: (rest.flatMap ([44] ++ ·) ++ [125])) := by
      simp
    rw [heq]
    refine List.Chain.cons ⟨fun h => ha h.1, fun h => ha' h.1, fun h => ha h.1⟩ ?_
    refine List.Chain.cons ⟨by decide, by decide, by decide⟩ ?_
    rw [List.chain_split]
    refine ⟨chain_no_comma _ 34 ?_ (by decide), hrest⟩
    intro h
    rcases List.mem_append.mp h with h1 | h1
    · exact hbody h1
    · simp only [List.mem_singleton] at h1
      exact hl h1.symm

/-- In an object of well-formed entries no two adjacent bytes are `,}`, `{,` or `,,`. -/
theorem object_chain (ents : List Bytes) (hall : ∀ x ∈ ents, EntryOK x) :
    List.Chain' SepOK (object ents) := by
  cases ents with
  | nil =>
    simp only [object, List.intercalate, List.intersperse, List.flatten, List.append_nil]
    exact List.Chain.cons ⟨by decide, by decide, by decide⟩ List.Chain.nil
  | cons x rest =>
    obtain ⟨body, l, hx, hbody, hl, hl'⟩ := hall x (List.mem_cons_self _ _)
    subst hx
    have hrest := chain_tail rest (fun y hy => hall y (List.mem_cons_of_mem _ hy)) l hl hl'
    have heq : object ((34 :: (body ++ [l])) :: rest)
        = 123 :: 34 :: (body ++ l :: (rest.flatMap ([44] ++ ·) ++ [125])) := by
      rw [object, intercalate_cons_flatMap]
      simp
    rw [heq]
    refine List.Chain.cons ⟨by decide, by decide, by decide⟩ ?_
    rw [List.chain_split]
    refine ⟨chain_no_comma _ 34 ?_ (by decide), hrest⟩
    intro h
    rcases List.mem_append.mp h with h1 | h1
    · exact hbody h1
    · simp only [List.mem_singleton] at h1
      exact hl h1.symm

theorem chain_no_infix (out : Bytes) (h : List.Chain' SepOK out) (a b : UInt8)
    (hab : ¬ SepOK a b) : ¬ [a, b] <:+: out := by
  intro hin
  have := h.infix hin
  simp only [List.chain'_cons, List.chain'_singleton, and_true] at this
  exact hab this

theorem entry_ok (key t : Bytes) (hk : (44 : UInt8) ∉ key) (hne : t ≠ [])
    (hsafe : ∀ c ∈ t, c ≠ 44 ∧ c ≠ 123) : EntryOK ([34] ++ key ++ [34, 58] ++ t) := by
  rcases List.eq_nil_or_concat t with h0 | ⟨init, l, rfl⟩
  · exact absurd h0 hne
  · rw [List.concat_eq_append] at hsafe ⊢
    refine ⟨key ++ [34, 58] ++ init, l, by simp, ?_, (hsafe l (by simp)).1, (hsafe l (by simp)).2⟩
    intro h
    rcases List.mem_append.mp h with h1 | h1
    · rcases List.mem_append.mp h1 with h2 | h2
      · exact hk h2
      · revert h2; decide
    · exact (hsafe 44 (List.mem_append_left _ h1)).1 rfl

theorem StructField.boolInt_supported (f : StructField) (h : f.boolInt = true) :
    f.supported = true ∧ f.flat = true := by
  unfold StructField.boolInt at h
  unfold StructField.supported StructField.flat
  by_cases hk : f.key = []
  · simp [hk]
  · have hk0 : (f.key == []) = false := by simpa using hk
    simp only [hk0, Bool.false_or, Bool.and_eq_true, Bool.not_eq_true'] at h ⊢
    obtain ⟨⟨⟨⟨h2, h3⟩, h4⟩, h5⟩, hT⟩ := h
    cases hTy : f.Typ with
    | basic k =>
      rw [hTy] at hT
      cases k <;> simp [isBoolIntKind] at hT <;> simp [h2, h3, h4, h5, isPrimKind]
    | _ => rw [hTy] at hT; simp at hT

theorem boolInt_entriesText (env : TypeEnv) (fs : List StructField) (vs : List Value)
    (hshape : ∀ f ∈ fs, f.boolInt = true) (hinst : WellTyped fs vs) :
    entriesText env fs vs = some (emittedEntries fs vs) ∧
      ∀ x ∈ emittedEntries fs vs, EntryOK x := by
  induction hinst with
  | nil => exact ⟨rfl, by simp [emittedEntries]⟩
  | @cons f v fs vs hfv _ ih =>
    obtain ⟨ih1, ih2⟩ := ih (fun g hg => hshape g (List.mem_cons_of_mem _ hg))
    rw [entriesText, emittedEntries]
    by_cases hk : f.key = []
    · simp only [hk, if_true, true_or]
      exact ⟨ih1, ih2⟩
    · have hp := hshape f (List.mem_cons_self _ _)
      have hkind : v.hasKind f.Typ.Kind = true := by
        rcases hfv with h | h
        · exact absurd h hk
        · exact h
      unfold StructField.boolInt at hp
      have hk0 : (f.key == []) = false := by simpa using hk
      simp only [hk0, Bool.false_or, Bool.and_eq_true, Bool.not_eq_true'] at hp
      obtain ⟨⟨⟨⟨_, _⟩, h4⟩, _⟩, hT⟩ := hp
      simp only [hk, if_false, hkind, Bool.not_true, Bool.false_eq_true, h4, false_or]
      by_cases hom : f.omitted v = true
      · simp only [hom, if_true]
        exact ⟨ih1, ih2⟩
      · simp only [hom, if_false, Bool.false_eq_true, ih1]
        cases hTy : f.Typ with
        | basic k =>
          rw [hTy] at hT hkind
          have hval : valueText env (.basic k) v = some (plainValue v) ∧ plainValue v ≠ [] ∧
              ∀ c ∈ plainValue v, c ≠ 44 ∧ c ≠ 123 := by
            cases k <;> simp [isBoolIntKind] at hT <;> cases v <;>
              simp [Value.hasKind, GoType.Kind] at hkind <;>
              simp only [valueText, primText, plainValue, btrue, bfalse, true_and] <;>
              first
                | exact AppendInt_safe _
                | exact AppendUint_safe _
                | (rename_i b; cases b <;> decide)
          refine ⟨by simp [hval.1], ?_⟩
          intro x hx
          rcases List.mem_cons.mp hx with h | h
          · subst h
            exact entry_ok f.key _ f.key_no_comma hval.2.1 hval.2.2
          · exact ih2 x h
        | _ => rw [hTy] at hT; simp at hT

theorem EntryOK.no_comma (x : Bytes) (h : EntryOK x) : (44 : UInt8) ∉ x := by
  obtain ⟨body, l, rfl, hbody, hl, _⟩ := h
  intro hc
  rcases List.mem_cons.mp hc with h1 | h1
  · revert h1; decide
  · rcases List.mem_append.mp h1 with h2 | h2
    · exact hbody h2
    · simp only [List.mem_singleton] at h2
      exact hl h2.symm

/-- C1 (separator law): for every struct shape whose keyed fields are of boolean or
integer kind, any of them tagged `omitempty`, and for every instance, `Marshal` writes
into the empty sink the object of the entries of the emitted fields: the entries hold
no comma, so exactly one comma stands between two consecutive entries, and the output
contains none of `,}`, `{,` and `,,`. -/
theorem separator_law (env : TypeEnv) (id F M : Nat) (vs : List Value)
    (hshape : ∀ f ∈ env id, f.boolInt = true) (hinst : WellTyped (env id) vs) :
    ∃ e out, NewStructEncoder env (F + 1) (.struct id) .zero = .ok e ∧
      Marshal (M + 1) e.instructions (.struct vs) [] = some out ∧
      out = [123] ++ List.intercalate [44] (emittedEntries (env id) vs) ++ [125] ∧
      (∀ x ∈ emittedEntries (env id) vs, (44 : UInt8) ∉ x) ∧
      ¬ [44, 125] <:+: out ∧ ¬ [123, 44] <:+: out ∧ ¬ [44, 44] <:+: out := by
  obtain ⟨e, he, hm⟩ := Marshal_flat env id F
    (fun f hf => (StructField.boolInt_supported f (hshape f hf)).1)
    (fun f hf => (StructField.boolInt_supported f (hshape f hf)).2)
  obtain ⟨hent, hok⟩ := boolInt_entriesText env (env id) vs hshape hinst
  have hchain := object_chain _ hok
  refine ⟨e, object (emittedEntries (env id) vs), he, ?_, rfl,
    fun x hx => EntryOK.no_comma x (hok x hx),
    chain_no_infix _ hchain 44 125 (fun h => h.1 ⟨rfl, rfl⟩),
    chain_no_infix _ hchain 123 44 (fun h => h.2.1 ⟨rfl, rfl⟩),
    chain_no_infix _ hchain 44 44 (fun h => h.2.2 ⟨rfl, rfl⟩)⟩
  simpa using hm M vs _ [] hent

theorem separator_law_witness :
    ∃ e out, NewStructEncoder envBoolInt 1 (.struct 0) .zero = .ok e ∧
      Marshal 1 e.instructions (.struct [.bool false, .int 0, .uint 7, .int 5]) []
        = some out ∧
      out = bs "\x7b\"b\":0,\"c\":7\x7d" ∧
      (∀ x ∈ [bs "\"b\":0", bs "\"c\":7"], (44 : UInt8) ∉ x) ∧
      ¬ [44, 125] <:+: out ∧ ¬ [123, 44] <:+: out ∧ ¬ [44, 44] <:+: out :=
  separator_law envBoolInt 0 0 0 [.bool false, .int 0, .uint 7, .int 5] (by decide)
    (List.Forall₂.cons (Or.inr rfl) (List.Forall₂.cons (Or.inr rfl)
      (List.Forall₂.cons (Or.inr rfl) (List.Forall₂.cons (Or.inl (by decide))
        List.Forall₂.nil))))

/-! ## Fields of primitive kind -/

theorem StructField.plain_supported (f : StructField) (h : f.plain = true) :
    f.supported = true ∧ f.flat = true := by
  unfold StructField.plain StructField.noDirective at h
  unfold StructField.supported StructField.flat
  by_cases hk : f.key = []
  · simp [hk]
  · have hk0 : (f.key == []) = false := by simpa using hk
    simp only [hk0, Bool.false_or, Bool.and_eq_true, Bool.not_eq_true'] at h ⊢
    obtain ⟨⟨⟨⟨⟨_, h2⟩, h3⟩, h4⟩, h5⟩, hT⟩ := h
    cases hTy : f.Typ with
    | basic k =>
      rw [hTy] at hT
      cases k <;> simp [isBoolIntKind] at hT <;> simp [h2, h3, h4, h5, isPrimKind]
    | _ => rw [hTy] at hT; simp at hT

theorem plain_entriesText (env : TypeEnv) (fs : List StructField) (vs : List Value)
    (hshape : ∀ f ∈ fs, f.plain = true) (hinst : WellTyped fs vs) :
    entriesText env fs vs = some (plainEntries fs vs) := by
  induction hinst with
  | nil => rfl
  | @cons f v fs vs hfv _ ih =>
    have ih' := ih (fun g hg => hshape g (List.mem_cons_of_mem _ hg))
    rw [entriesText, plainEntries]
    by_cases hk : f.key = []
    · simp [hk, ih']
    · have hp := hshape f (List.mem_cons_self _ _)
      have hkind : v.hasKind f.Typ.Kind = true := by
        rcases hfv with h | h
        · exact absurd h hk
        · exact h
      unfold StructField.plain StructField.noDirective at hp
      have hk0 : (f.key == []) = false := by simpa using hk
      simp only [hk0, Bool.false_or, Bool.and_eq_true, Bool.not_eq_true'] at hp
      obtain ⟨⟨⟨⟨⟨h1, _⟩, _⟩, h4⟩, _⟩, hT⟩ := hp
      have hom : f.omitted v = false := by simp [StructField.omitted, h1]
      simp only [hk, if_false, hkind, Bool.not_true, Bool.false_eq_true, hom, h4, ih']
      cases hTy : f.Typ with
      | basic k =>
        rw [hTy] at hT hkind
        cases k <;> simp [isBoolIntKind] at hT <;> cases v <;>
          simp [Value.hasKind, GoType.Kind] at hkind <;>
          simp [valueText, primText, plainValue, btrue, bfalse]
      | _ => rw [hTy] at hT; simp at hT

/-- C2: for every struct shape whose keyed fields are of boolean, signed or unsigned
integer or string kind without directive, and for every instance of it,
`NewStructEncoder` returns a plan and `Marshal` appends exactly `{`, the entries
`"key":value` of the keyed fields in the order of declaration joined by single commas,
and `}`; the value is `true` or `false`, the base-10 digits, or the bytes of the string
between two double quotes. -/
theorem plain_shape_output (env : TypeEnv) (id F M : Nat) (vs : List Value) (w : Bytes)
    (hshape : ∀ f ∈ env id, f.plain = true) (hinst : WellTyped (env id) vs) :
    ∃ e, NewStructEncoder env (F + 1) (.struct id) .zero = .ok e ∧
      Marshal (M + 1) e.instructions (.struct vs) w
        = some (w ++ ([123] ++ List.intercalate [44] (plainEntries (env id) vs) ++ [125])) := by
  obtain ⟨e, he, hm⟩ := Marshal_flat env id F
    (fun f hf => (StructField.plain_supported f (hshape f hf)).1)
    (fun f hf => (StructField.plain_supported f (hshape f hf)).2)
  exact ⟨e, he, hm M vs _ w (plain_entriesText env (env id) vs hshape hinst)⟩

theorem plain_shape_output_witness :
    ∃ e, NewStructEncoder envPlain 1 (.struct 0) .zero = .ok e ∧
      Marshal 1 e.instructions
          (.struct [.str (bs "Ann"), .int (-42), .bool true, .uint 255, .str (bs "x")]) []
        = some (bs "\x7b\"name\":\"Ann\",\"age\":-42,\"ok\":true,\"n\":255\x7d") :=
  plain_shape_output envPlain 0 0 0
    [.str (bs "Ann"), .int (-42), .bool true, .uint 255, .str (bs "x")] [] (by decide)
    (List.Forall₂.cons (Or.inr rfl) (List.Forall₂.cons (Or.inr rfl)
      (List.Forall₂.cons (Or.inr rfl) (List.Forall₂.cons (Or.inr rfl)
        (List.Forall₂.cons (Or.inl (by decide)) List.Forall₂.nil)))))

/-! ## Omission and raw fields -/

/-- C3 (omission law): in a compiled shape of supported fields, for a field tagged
`omitempty` whose own kind is boolean, integer, string, slice or pointer, and for
every instance, the entry of the field stands in the output, between the entries of
the fields before and after it, if and only if the value of the field is not the zero
value of the kind; a nil pointer is a zero value and a pointer to a struct is not,
whatever the struct holds. -/
theorem omission_law (env : TypeEnv) (hok : ∀ id, ∀ f ∈ env id, f.supported = true)
    (F M id : Nat) (e : StructEncoder)
    (hc : NewStructEncoder env F (.struct id) .zero = .ok e)
    (fs1 fs2 : List StructField) (f : StructField) (henv : env id = fs1 ++ f :: fs2)
    (vs1 vs2 : List Value) (v : Value) (ents1 ents2 : List Bytes) (a : Bytes)
    (hkey : f.key ≠ []) (hom : f.opts.Contains (bs "omitempty") = true)
    (hkind : f.Typ.Kind ∈ [Kind.Bool, .Int, .Int8, .Int16, .Int32, .Int64, .Uint, .Uint8,
      .Uint16, .Uint32, .Uint64, .String, .Slice, .Ptr])
    (hv : v.hasKind f.Typ.Kind = true)
    (h1 : entriesText env fs1 vs1 = some ents1) (h2 : entriesText env fs2 vs2 = some ents2)
    (ha : v.isZeroValue = false → fieldText env f v = some a)
    (hd : (Value.struct (vs1 ++ v :: vs2)).depth ≤ M) (w : Bytes) :
    Marshal M e.instructions (.struct (vs1 ++ v :: vs2)) w
        = some (w ++ object (ents1
            ++ (if v.isZeroValue = true then [] else [[34] ++ f.key ++ [34, 58] ++ a])
            ++ ents2))
      ∧ (Value.ptr none).isZeroValue = true
      ∧ ∀ xs, (Value.ptr (some (.struct xs))).isZeroValue = false := by
  refine ⟨?_, rfl, fun _ => rfl⟩
  have hns : f.Typ.Kind ≠ .Struct := by
    intro h
    rw [h] at hkind
    revert hkind
    decide
  have homit : f.omitted v = v.isZeroValue := by
    simp [StructField.omitted, hom, hns]
  apply Marshal_at_field env hok F M id e hc fs1 fs2 f henv vs1 vs2 v ents1 ents2 _ hkey hv h1 h2
    _ hd w
  cases hz : v.isZeroValue with
  | true => exact Or.inl ⟨by rw [homit, hz], by simp⟩
  | false => exact Or.inr ⟨by rw [homit, hz], a, ha hz, by simp⟩

theorem envOmitPtr_supported : ∀ id, ∀ f ∈ envOmitPtr id, f.supported = true := by
  intro id
  match id with
  | 0 => decide
  | 1 => decide
  | n + 2 => intro f hf; simp [envOmitPtr] at hf

theorem omission_law_witness :
    Marshal 2 (compiled (NewStructEncoder envOmitPtr 2 (.struct 0) .zero)).instructions
        (.struct ([.int 1] ++ .ptr (some (.struct [.int 0])) :: [.bool false])) []
      = some (bs "\x7b\"a\":1,\"p\":\x7b\x7d\x7d") :=
  ((omission_law envOmitPtr envOmitPtr_supported 2 2 0
    (compiled (NewStructEncoder envOmitPtr 2 (.struct 0) .zero)) rfl
    [mkField "A" (.basic .Int) "a"] [mkField "B" (.basic .Bool) "b,omitempty"]
    (mkField "P" (.ptr (.struct 1)) "p,omitempty") rfl
    [.int 1] [.bool false] (.ptr (some (.struct [.int 0]))) [bs "\"a\":1"] []
    (bs "\x7b\x7d") (by decide) (by decide) (by decide) (by decide) (by decide) (by decide)
    (fun _ => by decide) (by decide) []).1).trans (by decide)

/-- C7: in a compiled shape of supported fields, for a field tagged `raw` that holds
the byte or text content `c` and is not left out by `omitempty`, the value written
after the key is exactly `null` if `c` is empty, and exactly the bytes of `c`
otherwise. -/
theorem raw_field_value (env : TypeEnv) (hok : ∀ id, ∀ f ∈ env id, f.supported = true)
    (F M id : Nat) (e : StructEncoder)
    (hc : NewStructEncoder env F (.struct id) .zero = .ok e)
    (fs1 fs2 : List StructField) (f : StructField) (henv : env id = fs1 ++ f :: fs2)
    (vs1 vs2 : List Value) (v : Value) (ents1 ents2 : List Bytes) (c : Bytes)
    (hkey : f.key ≠ []) (hraw : f.opts.Contains (bs "raw") = true)
    (hv : v.hasKind f.Typ.Kind = true) (hcont : v.asString = some c)
    (hnot : f.omitted v = false)
    (h1 : entriesText env fs1 vs1 = some ents1) (h2 : entriesText env fs2 vs2 = some ents2)
    (hd : (Value.struct (vs1 ++ v :: vs2)).depth ≤ M) (w : Bytes) :
    Marshal M e.instructions (.struct (vs1 ++ v :: vs2)) w
      = some (w ++ object (ents1
          ++ [[34] ++ f.key ++ [34, 58] ++ (if c = [] then bs "null" else c)]
          ++ ents2)) := by
  apply Marshal_at_field env hok F M id e hc fs1 fs2 f henv vs1 vs2 v ents1 ents2 _ hkey hv h1 h2
    _ hd w
  refine Or.inr ⟨hnot, _, ?_, rfl⟩
  simp only [fieldText, hraw, if_true, rawText, hcont, Option.map_some', null]

theorem envRaw_supported : ∀ id, ∀ f ∈ envRaw id, f.supported = true := by
  intro id
  match id with
  | 0 => decide
  | n + 1 => intro f hf; simp [envRaw] at hf

theorem raw_field_value_witness :
    Marshal 1 (compiled (NewStructEncoder envRaw 1 (.struct 0) .zero)).instructions
        (.struct ([bytesVal "\x7b\"mapKey1\":1,\"mapKey2\":2\x7d"] ++ bytesVal "" :: [])) []
      = some (bs "\x7b\"raw\":\x7b\"mapKey1\":1,\"mapKey2\":2\x7d,\"b\":null\x7d") :=
  (raw_field_value envRaw envRaw_supported 1 1 0
    (compiled (NewStructEncoder envRaw 1 (.struct 0) .zero)) rfl
    [mkField "Raw" (.slice (.basic .Uint8)) "raw,raw"] []
    (mkField "Raw2" (.slice (.basic .Uint8)) "b,raw") rfl
    [bytesVal "\x7b\"mapKey1\":1,\"mapKey2\":2\x7d"] [] (bytesVal "")
    [bs "\"raw\":\x7b\"mapKey1\":1,\"mapKey2\":2\x7d"] [] [] (by decide) (by decide)
    (by decide) (by decide) (by decide) (by decide) (by decide) (by decide) []).trans
    (by decide)

/-! ## Inline structs tagged omitempty -/

theorem SameButOmitempty.typ {f g : StructField} (h : SameButOmitempty f g) :
    g.Typ = f.Typ := by
  rcases h with h | h
  · rw [h]
  · exact h.2.2.2.1

theorem allM_comparable_rel (c c' : GoType → Option Bool) (hc : ∀ t, c t = c' t) :
    ∀ (fs gs : List StructField), List.Forall₂ SameButOmitempty fs gs →
      fs.allM (fun f => c f.Typ) = gs.allM (fun g => c' g.Typ) := by
  intro fs gs h
  have hcc : c = c' := funext hc
  subst hcc
  induction h with
  | nil => rfl
  | @cons f g fs gs hfg _ ih =>
    simp only [List.allM, hfg.typ, ih]

theorem comparable_rel (env env' : TypeEnv)
    (hrel : ∀ id, List.Forall₂ SameButOmitempty (env id) (env' id)) :
    ∀ (fuel : Nat) (t : GoType), comparable env fuel t = comparable env' fuel t := by
  intro fuel
  induction fuel with
  | zero => intro t; rfl
  | succ n ih =>
    intro t
    cases t with
    | struct id =>
      simp only [comparable]
      exact allM_comparable_rel _ _ (ih) _ _ (hrel id)
    | array len elem => simp only [comparable, ih]
    | _ => rfl

theorem ifaceEqZero_rel (env env' : TypeEnv)
    (hrel : ∀ id, List.Forall₂ SameButOmitempty (env id) (env' id)) (fuel : Nat)
    (tt : GoType) (tv : ShapeVal) (elem : GoType) :
    ifaceEqZero env fuel tt tv elem = ifaceEqZero env' fuel tt tv elem := by
  unfold ifaceEqZero
  rw [comparable_rel env env' hrel]

theorem valueSeg_env (env env' : TypeEnv)
    (hrel : ∀ id, List.Forall₂ SameButOmitempty (env id) (env' id)) (fuel : Nat)
    (newEnc : GoType → ShapeVal → Res (List instruction)) (tt : GoType) (tv : ShapeVal)
    (i : Nat) (f : StructField) (opts : tagOptions) :
    valueSeg env fuel newEnc tt tv i f opts = valueSeg env' fuel newEnc tt tv i f opts := by
  unfold valueSeg
  simp only [ifaceEqZero_rel env env' hrel]

theorem valueSeg_rel (env : TypeEnv) (fuel : Nat)
    (newEnc : GoType → ShapeVal → Res (List instruction)) (tt : GoType) (tv : ShapeVal)
    (i : Nat) (f g : StructField) (h1 : g.exported = f.exported) (h2 : g.Typ = f.Typ)
    (h3 : g.methods = f.methods)
    (h4 : ∀ d ∈ [bs "stringer", bs "encoder", bs "raw", bs "escape"],
        g.opts.Contains d = f.opts.Contains d) :
    valueSeg env fuel newEnc tt tv i g g.opts = valueSeg env fuel newEnc tt tv i f f.opts := by
  have c1 := h4 (bs "stringer") (by simp)
  have c2 := h4 (bs "encoder") (by simp)
  have c3 := h4 (bs "raw") (by simp)
  have c4 := h4 (bs "escape") (by simp)
  unfold valueSeg convInstr
  simp only [h1, h2, h3, c1, c2, c3, c4]

theorem fieldSeg_rel (env env' : TypeEnv)
    (hrel : ∀ id, List.Forall₂ SameButOmitempty (env id) (env' id)) (fuel : Nat)
    (newEnc : GoType → ShapeVal → Res (List instruction)) (tt : GoType) (tv : ShapeVal)
    (i : Nat) (f g : StructField) (h : SameButOmitempty f g) :
    fieldSeg env fuel newEnc tt tv i f = fieldSeg env' fuel newEnc tt tv i g := by
  rcases h with h | ⟨hk, _, h1, h2, h3, hkey, h4⟩
  · subst h
    unfold fieldSeg
    simp only [valueSeg_env env env' hrel]
  · have hv := valueSeg_rel env' fuel newEnc tt tv i f g h1 h2 h3 h4
    have hkey' : (parseTag g.Tag).1 = (parseTag f.Tag).1 := hkey
    have hv' : valueSeg env' fuel newEnc tt tv i g (parseTag g.Tag).2
        = valueSeg env' fuel newEnc tt tv i f (parseTag f.Tag).2 := hv
    unfold fieldSeg
    simp only [valueSeg_env env env' hrel, hkey', hv', h2, hk]
    simp

theorem shapeSegs_rel (env env' : TypeEnv)
    (hrel : ∀ id, List.Forall₂ SameButOmitempty (env id) (env' id)) (fuel : Nat)
    (newEnc : GoType → ShapeVal → Res (List instruction)) (tt : GoType) (tv : ShapeVal) :
    ∀ (fs gs : List StructField), List.Forall₂ SameButOmitempty fs gs → ∀ i,
      shapeSegs env fuel newEnc tt tv fs i = shapeSegs env' fuel newEnc tt tv gs i := by
  intro fs gs h
  induction h with
  | nil => intro i; rfl
  | @cons f g fs gs hfg _ ih =>
    intro i
    simp only [shapeSegs, fieldSeg_rel env env' hrel fuel newEnc tt tv i f g hfg, ih]

theorem NewStructEncoder_rel_fields (env env' : TypeEnv)
    (hrel : ∀ id, List.Forall₂ SameButOmitempty (env id) (env' id)) (F : Nat)
    (ih : ∀ tt tv, (NewStructEncoder env F tt tv).map (·.instructions)
      = (NewStructEncoder env' F tt tv).map (·.instructions))
    (tt : GoType) (tv : ShapeVal) (fs gs : List StructField)
    (hf : structFields env tt = .ok fs) (hg : structFields env' tt = .ok gs)
    (hfg : List.Forall₂ SameButOmitempty fs gs) (hsup : ∀ f ∈ fs, f.supported = true) :
    (NewStructEncoder env (F + 1) tt tv).map (·.instructions)
      = (NewStructEncoder env' (F + 1) tt tv).map (·.instructions) := by
  have hnew : (fun t v => (NewStructEncoder env F t v).map (·.instructions))
      = (fun t v => (NewStructEncoder env' F t v).map (·.instructions)) :=
    funext fun t => funext fun v => ih t v
  have hseg := shapeSegs_rel env env' hrel F
    (fun t v => (NewStructEncoder env F t v).map (·.instructions)) tt tv fs gs hfg 0
  cases hs : shapeSegs env F (fun t v => (NewStructEncoder env F t v).map (·.instructions))
      tt tv fs 0 with
  | error err =>
    have hs' := hs
    rw [hseg, hnew] at hs'
    rw [NewStructEncoder_err env F tt tv fs err hf hs,
      NewStructEncoder_err env' F tt tv gs err hg hs']
  | ok r =>
    cases r with
    | none => exact absurd hs (shapeSegs_ne_none env F _ tt tv fs 0 hsup)
    | some segs =>
      have hs' := hs
      rw [hseg, hnew] at hs'
      obtain ⟨e, he, hp⟩ := NewStructEncoder_plan env F tt tv fs segs hf hs
      obtain ⟨e', he', hp'⟩ := NewStructEncoder_plan env' F tt tv gs segs hg hs'
      rw [he, he']
      simp [Except.map, hp, hp']

theorem forall₂_same (fs : List StructField) : List.Forall₂ SameButOmitempty fs fs := by
  induction fs with
  | nil => exact List.Forall₂.nil
  | cons f fs ih => exact List.Forall₂.cons (Or.inl rfl) ih

theorem NewStructEncoder_not_struct (env : TypeEnv) (F : Nat) (tt : GoType) (tv : ShapeVal)
    (err : Err) (h : structFields env tt = .error err) :
    NewStructEncoder env (F + 1) tt tv = .error err := by
  simp only [NewStructEncoder, bind, Except.bind, h]

theorem timeFields_supported : ∀ f ∈ timeFields, f.supported = true := by
  intro f hf
  simp only [timeFields, List.mem_cons, List.mem_singleton, List.not_mem_nil, or_false] at hf
  rcases hf with rfl | rfl | rfl <;> rfl

/-- The directive `omitempty` on inline struct fields does not change the plan. -/
theorem NewStructEncoder_rel (env env' : TypeEnv)
    (hok : ∀ id, ∀ f ∈ env id, f.supported = true)
    (hrel : ∀ id, List.Forall₂ SameButOmitempty (env id) (env' id)) :
    ∀ (F : Nat) (tt : GoType) (tv : ShapeVal),
      (NewStructEncoder env F tt tv).map (·.instructions)
        = (NewStructEncoder env' F tt tv).map (·.instructions) := by
  intro F
  induction F with
  | zero =>
    intro tt tv
    simp only [NewStructEncoder]
  | succ F ih =>
    intro tt tv
    cases tt with
    | struct id =>
      exact NewStructEncoder_rel_fields env env' hrel F ih _ tv (env id) (env' id) rfl rfl
        (hrel id) (hok id)
    | time =>
      exact NewStructEncoder_rel_fields env env' hrel F ih _ tv timeFields timeFields rfl rfl
        (forall₂_same _) timeFields_supported
    | basic k =>
      rw [NewStructEncoder_not_struct env F (.basic k) tv
          (.panic (bs "reflect: NumField of non-struct type")) rfl,
        NewStructEncoder_not_struct env' F (.basic k) tv
          (.panic (bs "reflect: NumField of non-struct type")) rfl]
    | ptr t =>
      rw [NewStructEncoder_not_struct env F (.ptr t) tv
          (.panic (bs "reflect: NumField of non-struct type")) rfl,
        NewStructEncoder_not_struct env' F (.ptr t) tv
          (.panic (bs "reflect: NumField of non-struct type")) rfl]
    | slice t =>
      rw [NewStructEncoder_not_struct env F (.slice t) tv
          (.panic (bs "reflect: NumField of non-struct type")) rfl,
        NewStructEncoder_not_struct env' F (.slice t) tv
          (.panic (bs "reflect: NumField of non-struct type")) rfl]
    | array n t =>
      rw [NewStructEncoder_not_struct env F (.array n t) tv
          (.panic (bs "reflect: NumField of non-struct type")) rfl,
        NewStructEncoder_not_struct env' F (.array n t) tv
          (.panic (bs "reflect: NumField of non-struct type")) rfl]
    | escapeString =>
      rw [NewStructEncoder_not_struct env F (.escapeString) tv
          (.panic (bs "reflect: NumField of non-struct type")) rfl,
        NewStructEncoder_not_struct env' F (.escapeString) tv
          (.panic (bs "reflect: NumField of non-struct type")) rfl]
theorem entriesText_all_omitted (env : TypeEnv) :
    ∀ (fs : List StructField) (xs : List Value) (nested : List Bytes),
      entriesText env fs xs = some nested →
      (∀ g ∈ fs, g.key ≠ [] →
        g.opts.Contains (bs "omitempty") = true ∧ g.Typ.Kind ≠ .Struct) →
      (∀ x ∈ xs, x.isZeroValue = true) → nested = [] := by
  intro fs
  induction fs with
  | nil =>
    intro xs nested h _ _
    cases xs with
    | nil => simpa [entriesText] using h.symm
    | cons x xs => simp [entriesText] at h
  | cons g fs ih =>
    intro xs nested h hg hz
    cases xs with
    | nil => simp [entriesText] at h
    | cons x xs =>
      have ih' := fun n hn => ih xs n hn (fun g' hg' => hg g' (List.mem_cons_of_mem _ hg'))
        (fun y hy => hz y (List.mem_cons_of_mem _ hy))
      rw [entriesText] at h
      by_cases hk : g.key = []
      · simp only [hk, if_true] at h
        exact ih' nested h
      · simp only [hk, if_false] at h
        obtain ⟨ho, hs⟩ := hg g (List.mem_cons_self _ _) hk
        have hom : g.omitted x = true := by
          simp [StructField.omitted, ho, hs, hz x (List.mem_cons_self _ _)]
        by_cases hkind : x.hasKind g.Typ.Kind = true
        · simp only [hkind, Bool.not_true, Bool.false_eq_true, if_false, hom, if_true] at h
          exact ih' nested h
        · simp [hkind] at h

theorem supported_struct_raw (f : StructField) (id : Nat) (hs : f.supported = true)
    (hkey : f.key ≠ []) (hT : f.Typ = .struct id) : f.opts.Contains (bs "raw") = false := by
  unfold StructField.supported at hs
  have hk0 : (f.key == []) = false := by simpa using hkey
  simp only [hk0, Bool.false_or, Bool.and_eq_true, Bool.not_eq_true'] at hs
  by_contra hraw
  simp only [Bool.not_eq_false] at hraw
  simp [hraw, hT] at hs

/-- C4: an inline struct field tagged `omitempty` is compiled as if `omitempty` were
absent: the shape that differs only in the directive `omitempty` on inline struct
fields compiles to the same instructions; for every instance the key of the field and
the object of the nested struct are written; and when every keyed field of the nested
struct is tagged `omitempty`, is not itself an inline struct, and holds its zero
value, the value written is exactly `{}`. -/
theorem inline_struct_omitempty (env env' : TypeEnv)
    (hok : ∀ id, ∀ f ∈ env id, f.supported = true)
    (hrel : ∀ id, List.Forall₂ SameButOmitempty (env id) (env' id))
    (F M id : Nat) (e : StructEncoder)
    (hc : NewStructEncoder env F (.struct id) .zero = .ok e)
    (fs1 fs2 : List StructField) (f : StructField) (henv : env id = fs1 ++ f :: fs2)
    (nid : Nat) (hT : f.Typ = .struct nid) (hkey : f.key ≠ [])
    (_hom : f.opts.Contains (bs "omitempty") = true)
    (vs1 vs2 xs : List Value) (ents1 ents2 nested : List Bytes)
    (h1 : entriesText env fs1 vs1 = some ents1) (h2 : entriesText env fs2 vs2 = some ents2)
    (hn : entriesText env (env nid) xs = some nested)
    (hd : (Value.struct (vs1 ++ .struct xs :: vs2)).depth ≤ M) (w : Bytes) :
    (∃ e', NewStructEncoder env' F (.struct id) .zero = .ok e' ∧
        e'.instructions = e.instructions) ∧
      Marshal M e.instructions (.struct (vs1 ++ .struct xs :: vs2)) w
        = some (w ++ object (ents1
            ++ [[34] ++ f.key ++ [34, 58] ++ ([123] ++ List.intercalate [44] nested ++ [125])]
            ++ ents2)) ∧
      ((∀ g ∈ env nid, g.key ≠ [] →
          g.opts.Contains (bs "omitempty") = true ∧ g.Typ.Kind ≠ .Struct) →
        (∀ x ∈ xs, x.isZeroValue = true) →
        [123] ++ List.intercalate [44] nested ++ [125] = bs "\x7b\x7d") := by
  refine ⟨?_, ?_, ?_⟩
  · have h := NewStructEncoder_rel env env' hok hrel F (.struct id) .zero
    rw [hc] at h
    cases h' : NewStructEncoder env' F (.struct id) .zero with
    | error err => simp [h', Except.map] at h
    | ok e' =>
      simp only [h', Except.map, Except.ok.injEq] at h
      exact ⟨e', rfl, h.symm⟩
  · have hf : f ∈ env id := by rw [henv]; simp
    have hraw := supported_struct_raw f nid (hok id f hf) hkey hT
    apply Marshal_at_field env hok F M id e hc fs1 fs2 f henv vs1 vs2 (.struct xs) ents1 ents2 _
      hkey (by rw [hT]; rfl) h1 h2 _ hd w
    refine Or.inr ⟨?_, _, ?_, rfl⟩
    · simp [StructField.omitted, hT, GoType.Kind]
    · simp only [fieldText, hraw, Bool.false_eq_true, if_false, hT, valueText, hn,
        Option.map_some', object]
  · intro hg hz
    rw [entriesText_all_omitted env (env nid) xs nested hn hg hz]
    decide

theorem envInline_supported : ∀ id, ∀ f ∈ envInline id, f.supported = true := by
  intro id
  match id with
  | 0 => decide
  | 1 => decide
  | n + 2 => intro f hf; simp [envInline] at hf

theorem envInline_rel : ∀ id, List.Forall₂ SameButOmitempty (envInline id) (envInlinePlain id) := by
  intro id
  match id with
  | 0 =>
    exact List.Forall₂.cons (Or.inr ⟨rfl, rfl, rfl, rfl, rfl, by decide, by decide⟩)
      List.Forall₂.nil
  | 1 => exact forall₂_same _
  | n + 2 => exact List.Forall₂.nil

theorem inline_struct_omitempty_witness :
    (∃ e', NewStructEncoder envInlinePlain 2 (.struct 0) .zero = .ok e' ∧
        e'.instructions
          = (compiled (NewStructEncoder envInline 2 (.struct 0) .zero)).instructions) ∧
      Marshal 2 (compiled (NewStructEncoder envInline 2 (.struct 0) .zero)).instructions
          (.struct ([] ++ .struct [.int 0, .str []] :: [])) []
        = some (bs "\x7b\"propStruct\":\x7b\x7d\x7d") := by
  have h := inline_struct_omitempty envInline envInlinePlain envInline_supported envInline_rel
    2 2 0 (compiled (NewStructEncoder envInline 2 (.struct 0) .zero)) rfl
    [] [] (mkField "S" (.struct 1) "propStruct,omitempty") rfl 1 rfl (by decide) (by decide)
    [] [] [.int 0, .str []] [] [] [] (by decide) (by decide) (by decide) (by decide) []
  exact ⟨h.1, h.2.1.trans (by decide)⟩

/-! ## The string escaper -/

/-- C6: for every byte string `s`, `ptrEscapeStringToBuf` appends to the sink exactly
the concatenation, over the bytes of `s` in order, of the escape of each byte: two
bytes for backslash, double quote, newline, carriage return and tab, the byte itself
for every other byte. -/
theorem escape_is_concat_of_escapes (s w : Bytes) :
    ptrEscapeStringToBuf s w = w ++ (s.map escapeByte).flatten
    ∧ escapeByte 92 = [92, 92] ∧ escapeByte 34 = [92, 34] ∧ escapeByte 10 = [92, 110]
    ∧ escapeByte 13 = [92, 114] ∧ escapeByte 9 = [92, 116]
    ∧ (∀ c : UInt8, c ≠ 92 → c ≠ 34 → c ≠ 10 → c ≠ 13 → c ≠ 9 → escapeByte c = [c])
    ∧ ((∀ c ∈ s, c ≠ 92 ∧ c ≠ 34 ∧ c ≠ 10 ∧ c ≠ 13 ∧ c ≠ 9) →
        ptrEscapeStringToBuf s w = w ++ s) := by
  refine ⟨?_, by decide, by decide, by decide, by decide, by decide, ?_, ?_⟩
  · rw [ptrEscapeStringToBuf_eq, List.flatMap_def]
  · intro c h1 h2 h3 h4 h5
    simp [escapeByte, h1, h2, h3, h4, h5]
  · intro h
    rw [ptrEscapeStringToBuf_eq]
    congr 1
    induction s with
    | nil => rfl
    | cons c t ih =>
      have hc := h c (List.mem_cons_self _ _)
      rw [List.flatMap_cons, ih (fun c hc => h c (List.mem_cons_of_mem _ hc))]
      simp [escapeByte, hc.1, hc.2.1, hc.2.2.1, hc.2.2.2.1, hc.2.2.2.2]

/-- C5: for every string `s` of ordinary bytes (no control byte) and any combination
of backslash, double quote, newline, carriage return and tab, un-escaping what
`ptrEscapeStringToBuf` writes into an empty sink gives back `s`. -/
theorem escape_round_trip (s : Bytes) (hs : ∀ c ∈ s, 32 ≤ c.toNat ∨ c = 10 ∨ c = 13 ∨ c = 9) :
    jsonUnescape (ptrEscapeStringToBuf s []) = some s := by
  rw [ptrEscapeStringToBuf_eq]
  have h := jsonUnescape_escape_append s [] [] hs rfl
  simpa using h

theorem escape_round_trip_witness :
    (∀ c ∈ bs "a\\b\"c\nd\re\tf", 32 ≤ c.toNat ∨ c = 10 ∨ c = 13 ∨ c = 9) ∧
    jsonUnescape (ptrEscapeStringToBuf (bs "a\\b\"c\nd\re\tf") []) = some (bs "a\\b\"c\nd\re\tf") :=
  ⟨by decide, escape_round_trip (bs "a\\b\"c\nd\re\tf") (by decide)⟩

/-! ## Absent references -/

/-- C8: for the shape `struct { V *T "v,stringer" }`, where `T` has a method
`String`, and the instance with `V` nil, `Marshal` writes `null` between two double
quotes: the quotes that `optInstrStringer` chunks around the instruction of `ptrval`
stay around the `null` that the instruction writes for a nil pointer. -/
theorem stringer_nil_pointer_is_quoted :
    marshalShape (envStringerPtr (bs "text")) 1 (.struct 0) (.struct [.ptr none])
      = some (bs "\x7b\"v\":\"null\"\x7d") := by
  decide

/-- C10: for the shape `type Node struct { Tags []string; Next *Node }`, which
contains an optional reference to itself, `NewStructEncoder` on the zero value ends
in the panic of the comparison `e.t == inf`, for every amount of fuel that lets the
comparison finish: the shape has a slice field, and its values cannot be compared. -/
theorem self_reference_uncomparable_panics (fuel : Nat) :
    panicOf (NewStructEncoder envTaggedNode (fuel + 3) (.struct 0) .zero)
      = some (bs "runtime error: comparing uncomparable type") := by
  rfl

/-! ## Recursion -/

theorem envNode_supported : ∀ id, ∀ f ∈ envNode id, f.supported = true := by
  intro id f hf
  simp only [envNode, List.mem_cons, List.mem_singleton, List.not_mem_nil, or_false] at hf
  rcases hf with rfl | rfl <;> decide

theorem chain_hasKind (names : List Bytes) : (chain names).hasKind .Ptr = true := by
  cases names <;> rfl

theorem chain_depth (names : List Bytes) : (chain names).depth = names.length := by
  induction names with
  | nil => rfl
  | cons n rest ih => simp [chain, Value.depth, Value.maxDepth, ih]

theorem node_entries (n : Bytes) (names : List Bytes) (t : Bytes)
    (h : valueText envNode (.ptr (.struct 0)) (chain names) = some t) :
    entriesText envNode (envNode 0) [.str n, chain names]
      = some [bs "\"name\":\"" ++ n ++ bs "\"", bs "\"child\":" ++ t] := by
  have k1 : nameField.key = bs "name" := by decide
  have k2 : childField.key = bs "child" := by decide
  have o1 : nameField.omitted (.str n) = false := by
    simp only [StructField.omitted]
    have : nameField.opts.Contains (bs "omitempty") = false := by decide
    simp [this]
  have o2 : childField.omitted (chain names) = false := by
    simp only [StructField.omitted]
    have : childField.opts.Contains (bs "omitempty") = false := by decide
    simp [this]
  have r1 : nameField.opts.Contains (bs "raw") = false := by decide
  have r2 : childField.opts.Contains (bs "raw") = false := by decide
  have t1 : nameField.Typ = .basic .String := rfl
  have t2 : childField.Typ = .ptr (.struct 0) := rfl
  have e1 : bs "name" ≠ [] := by decide
  have e2 : bs "child" ≠ [] := by decide
  have h1 : (Value.str n).hasKind (GoType.basic .String).Kind = true := rfl
  have h2 : (chain names).hasKind (GoType.ptr (.struct 0)).Kind = true := chain_hasKind names
  simp only [envNode, entriesText, h1, h2, k1, k2, e1, e2, o1, o2, r1, r2, t1, t2, if_false,
    Bool.not_true, Bool.false_eq_true, valueText, primText, h]
  rfl

theorem node_object (n t : Bytes) :
    object [bs "\"name\":\"" ++ n ++ bs "\"", bs "\"child\":" ++ t]
      = bs "\x7b\"name\":\"" ++ n ++ bs "\",\"child\":" ++ t ++ bs "\x7d" := by
  simp only [object, List.intercalate, List.intersperse, List.flatten, List.append_assoc,
    List.append_nil]
  rfl

theorem chain_text (names : List Bytes) :
    valueText envNode (.ptr (.struct 0)) (chain names) = some (chainText names) := by
  induction names with
  | nil => rfl
  | cons n rest ih =>
    simp only [chain, valueText, node_entries n rest _ ih, Option.map_some', chainText,
      Option.some.injEq]
    exact node_object n (chainText rest)

theorem chainText_closed (names : List Bytes) :
    chainText names
      = (names.map (fun n => bs "\x7b\"name\":\"" ++ n ++ bs "\",\"child\":")).flatten
        ++ bs "null" ++ List.replicate names.length 125 := by
  induction names with
  | nil => rfl
  | cons n rest ih =>
    rw [chainText, ih, List.length_cons, List.replicate_succ']
    have : bs "\x7d" = [125] := by decide
    simp [this]

/-- C9: the shape `{name string "name"; child *self "child"}` compiles with three
units of fuel or more, and for every chain of nodes with names `n0, rest...`, the last
one with a nil child, `Marshal` returns with fuel for the length of the chain and
appends `{"name":"n0","child":{ ... {"name":"nN","child":null} ... }}`: for each node
the text `{"name":"n","child":`, then `null`, then one closing brace per node; for
the names A, B, C this is the text of `Test_StructWithRecursion`. -/
theorem recursion_chain (F k : Nat) (n0 : Bytes) (rest : List Bytes) (w : Bytes) :
    ∃ e, NewStructEncoder envNode (F + 3) (.struct 0) .zero = .ok e ∧
      Marshal (rest.length + 1 + k) e.instructions (.struct [.str n0, chain rest]) w
        = some (w ++ chainText (n0 :: rest)) ∧
      chainText (n0 :: rest)
        = ((n0 :: rest).map (fun n => bs "\x7b\"name\":\"" ++ n ++ bs "\",\"child\":")).flatten
          ++ bs "null" ++ List.replicate (rest.length + 1) 125 ∧
      chainText [bs "A", bs "B", bs "C"] = bs
        "\x7b\"name\":\"A\",\"child\":\x7b\"name\":\"B\",\"child\":\x7b\"name\":\"C\",\"child\":null\x7d\x7d\x7d" := by
  have hc : ∃ e, NewStructEncoder envNode (F + 3) (.struct 0) .zero = .ok e := ⟨_, rfl⟩
  obtain ⟨e, he⟩ := hc
  refine ⟨e, he, ?_, chainText_closed (n0 :: rest), by decide⟩
  have hp := Marshal_text envNode envNode_supported (rest.length + 1 + k) (F + 3) 0 e he
  have hent := node_entries n0 rest _ (chain_text rest)
  have hd : (Value.struct [.str n0, chain rest]).depth ≤ rest.length + 1 + k := by
    simp [Value.depth, Value.maxDepth, chain_depth]
  rw [hp [.str n0, chain rest] _ w hd hent, node_object]
  rfl

/-! ## Tags -/

theorem take_indexOf_eq_takeWhile (c : UInt8) : ∀ s : Bytes,
    s.take (s.indexOf c) = s.takeWhile (fun x => decide (x ≠ c)) := by
  intro s
  induction s with
  | nil => rfl
  | cons a t ih =>
    by_cases h : a = c
    · subst h; simp
    · rw [List.indexOf_cons_ne _ h, List.take_succ_cons, ih, List.takeWhile_cons]
      simp [h]

theorem drop_indexOf_eq_dropWhile (c : UInt8) : ∀ s : Bytes,
    s.drop (s.indexOf c + 1) = (s.dropWhile (fun x => decide (x ≠ c))).drop 1 := by
  intro s
  induction s with
  | nil => rfl
  | cons a t ih =>
    by_cases h : a = c
    · subst h; simp
    · rw [List.indexOf_cons_ne _ h, List.drop_succ_cons, ih, List.dropWhile_cons]
      simp [h]

theorem take_indexOf_append (c : UInt8) : ∀ s : Bytes, c ∈ s →
    s.take (s.indexOf c) ++ [c] ++ s.drop (s.indexOf c + 1) = s := by
  intro s
  induction s with
  | nil => intro h; cases h
  | cons a t ih =>
    intro hm
    by_cases h : a = c
    · subst h; simp
    · have hm' : c ∈ t := by
        rcases List.mem_cons.mp hm with h1 | h1
        · exact absurd h1.symm h
        · exact h1
      rw [List.indexOf_cons_ne _ h, List.take_succ_cons, List.drop_succ_cons]
      simpa using ih hm'

theorem parseTag_comma (t : Bytes) (h : (44 : UInt8) ∈ t) :
    parseTag t = (t.take (t.indexOf (44 : UInt8)), t.drop (t.indexOf (44 : UInt8) + 1)) := by
  unfold parseTag indexComma
  simp only [h, if_true]
  have : ((List.indexOf (44 : UInt8) t : Nat) : Int) ≠ -1 := by omega
  simp only [this, ne_eq, not_false_eq_true, if_true, Int.toNat_ofNat]

theorem parseTag_no_comma (t : Bytes) (h : (44 : UInt8) ∉ t) : parseTag t = (t, []) := by
  unfold parseTag indexComma
  simp [h]

/-- C20: for every tag `t`, `parseTag` returns `(t, "")` if `t` holds no comma;
otherwise the name is the text before the first comma and the options are the text
after it; the name never holds a comma, and name, comma and options make `t`. -/
theorem parseTag_spec (t : Bytes) :
    ((44 : UInt8) ∉ t → parseTag t = (t, [])) ∧
    ((44 : UInt8) ∈ t →
      (parseTag t).1 = t.takeWhile (fun x => decide (x ≠ 44)) ∧
      (parseTag t).2 = (t.dropWhile (fun x => decide (x ≠ 44))).drop 1 ∧
      (parseTag t).1 ++ [44] ++ (parseTag t).2 = t) ∧
    (44 : UInt8) ∉ (parseTag t).1 := by
  refine ⟨parseTag_no_comma t, ?_, ?_⟩
  · intro h
    rw [parseTag_comma t h]
    exact ⟨take_indexOf_eq_takeWhile 44 t, drop_indexOf_eq_dropWhile 44 t,
      take_indexOf_append 44 t h⟩
  · by_cases h : (44 : UInt8) ∈ t
    · rw [parseTag_comma t h]
      exact take_indexOf_not_mem 44 t
    · rw [parseTag_no_comma t h]
      exact h

/-! ## Integers -/

theorem decimalValue_concat (ds : Bytes) (c : UInt8) :
    decimalValue (ds ++ [c]) = 10 * decimalValue ds + (c.toNat - 48) := by
  simp [decimalValue, List.foldl_append]

theorem digit_toNat (n : Nat) : ((48 + n % 10).toUInt8).toNat = 48 + n % 10 := by
  have h : n % 10 < 10 := Nat.mod_lt _ (by decide)
  generalize n % 10 = m at h
  interval_cases m <;> rfl

/-- The digits that `strconv` pushes in front of `acc` are the canonical decimal text
of `n`: digits only, of value `n`, without leading zero. -/
theorem digitsAux_decimal : ∀ (fuel n : Nat) (acc : Bytes), n ≤ fuel →
    ∃ ds, digitsAux (fuel + 1) n acc = ds ++ acc ∧ ds ≠ [] ∧
      (∀ c ∈ ds, 48 ≤ c.toNat ∧ c.toNat ≤ 57) ∧ decimalValue ds = n ∧
      (n ≠ 0 → ds.head? ≠ some 48) ∧ (n = 0 → ds = [48]) := by
  intro fuel
  induction fuel with
  | zero =>
    intro n acc hn
    have h0 : n = 0 := by omega
    subst h0
    exact ⟨[48], rfl, by simp, by decide, by decide, by simp, by simp⟩
  | succ fuel ih =>
    intro n acc hn
    rw [digitsAux]
    have hd := digit_toNat n
    have hm : n % 10 < 10 := Nat.mod_lt _ (by decide)
    by_cases h0 : n / 10 = 0
    · have hlt : n < 10 := by omega
      have hmod : n % 10 = n := Nat.mod_eq_of_lt hlt
      refine ⟨[(48 + n % 10).toUInt8], by simp [h0], by simp, ?_, ?_, ?_, ?_⟩
      · intro c hc
        simp only [List.mem_singleton] at hc
        subst hc
        rw [hd]; omega
      · simp only [decimalValue, List.foldl_cons, List.foldl_nil, hd]
        omega
      · intro hn0 hh
        simp only [List.head?_cons, Option.some.injEq] at hh
        have := congrArg UInt8.toNat hh
        rw [hd] at this
        have h48 : (48 : UInt8).toNat = 48 := rfl
        omega
      · intro hn0
        subst hn0
        rfl
    · obtain ⟨ds, hds, hne, hdig, hval, hlead, _⟩ :=
        ih (n / 10) ((48 + n % 10).toUInt8 :: acc) (by omega)
      refine ⟨ds ++ [(48 + n % 10).toUInt8], by simp [h0, hds], by simp, ?_, ?_, ?_, ?_⟩
      · intro c hc
        rcases List.mem_append.mp hc with h | h
        · exact hdig c h
        · simp only [List.mem_singleton] at h
          subst h
          rw [hd]; omega
      · rw [decimalValue_concat, hval, hd]
        omega
      · intro _
        cases ds with
        | nil => exact absurd rfl hne
        | cons a t => simpa using hlead h0
      · intro hn0
        subst hn0
        simp at h0

theorem AppendUint_decimal (b : Bytes) (n : Nat) :
    ∃ ds, AppendUint b n = b ++ ds ∧ ds ≠ [] ∧
      (∀ c ∈ ds, 48 ≤ c.toNat ∧ c.toNat ≤ 57) ∧ decimalValue ds = n ∧
      (n ≠ 0 → ds.head? ≠ some 48) ∧ (n = 0 → ds = [48]) := by
  obtain ⟨ds, hds, h⟩ := digitsAux_decimal n n [] (le_refl _)
  refine ⟨ds, ?_, h⟩
  simp [AppendUint, hds]

theorem AppendInt_decimal (b : Bytes) (i : Int) :
    ∃ ds, AppendInt b i = b ++ (if i < 0 then [45] else []) ++ ds ∧ ds ≠ [] ∧
      (∀ c ∈ ds, 48 ≤ c.toNat ∧ c.toNat ≤ 57) ∧ decimalValue ds = i.natAbs ∧
      (i ≠ 0 → ds.head? ≠ some 48) ∧ (i = 0 → ds = [48]) := by
  unfold AppendInt
  by_cases hi : i < 0
  · obtain ⟨ds, hds, hne, hdig, hval, hlead, _⟩ := AppendUint_decimal (b ++ [45]) i.natAbs
    refine ⟨ds, by simp [hi, hds], hne, hdig, hval, ?_, ?_⟩
    · intro _
      exact hlead (by omega)
    · intro h0
      omega
  · obtain ⟨ds, hds, hne, hdig, hval, hlead, hzero⟩ := AppendUint_decimal b i.toNat
    have hnat : i.toNat = i.natAbs := by omega
    refine ⟨ds, by simp [hi, hds], hne, hdig, by rw [hval, hnat], ?_, ?_⟩
    · intro h0
      exact hlead (by omega)
    · intro h0
      exact hzero (by omega)

/-- C14: every signed integer converter appends to the sink the canonical base-10
text of the value it reads, a `-` for a negative value and then the decimal digits of
its magnitude without leading zero, and every unsigned converter appends the decimal
digits of the value without leading zero; so it is at the least value of a width and
above `2^63 - 1`. -/
theorem integer_converters_decimal :
    (∀ c ∈ signedConvs, ∀ (i : Int) (b : Bytes),
      ∃ ds, c.run (.int i) b = some (b ++ (if i < 0 then [45] else []) ++ ds) ∧ ds ≠ [] ∧
        (∀ d ∈ ds, 48 ≤ d.toNat ∧ d.toNat ≤ 57) ∧ decimalValue ds = i.natAbs ∧
        (i ≠ 0 → ds.head? ≠ some 48) ∧ (i = 0 → ds = [48])) ∧
    (∀ c ∈ unsignedConvs, ∀ (n : Nat) (b : Bytes),
      ∃ ds, c.run (.uint n) b = some (b ++ ds) ∧ ds ≠ [] ∧
        (∀ d ∈ ds, 48 ≤ d.toNat ∧ d.toNat ≤ 57) ∧ decimalValue ds = n ∧
        (n ≠ 0 → ds.head? ≠ some 48) ∧ (n = 0 → ds = [48])) ∧
    Conv.ptrInt8ToBuf.run (.int (-128)) [] = some (bs "-128") ∧
    Conv.ptrInt64ToBuf.run (.int (-9223372036854775808)) [] = some (bs "-9223372036854775808") ∧
    Conv.ptrUint64ToBuf.run (.uint 12345678789101112139) [] = some (bs "12345678789101112139") ∧
    Conv.ptrUint64ToBuf.run (.uint 18446744073709551615) [] = some (bs "18446744073709551615") := by
  refine ⟨?_, ?_, by decide, by decide, by decide, by decide⟩
  · intro c hc i b
    simp only [signedConvs, List.mem_cons, List.mem_singleton, List.not_mem_nil, or_false] at hc
    rcases hc with rfl | rfl | rfl | rfl | rfl <;> exact (by
      simp only [Conv.run, Option.some.injEq]
      obtain ⟨ds, h⟩ := AppendInt_decimal b i
      exact ⟨ds, h⟩)
  · intro c hc n b
    simp only [unsignedConvs, List.mem_cons, List.mem_singleton, List.not_mem_nil,
      or_false] at hc
    rcases hc with rfl | rfl | rfl | rfl | rfl <;> exact (by
      simp only [Conv.run, Option.some.injEq]
      obtain ⟨ds, h⟩ := AppendUint_decimal b n
      exact ⟨ds, h⟩)

/-! ## Rejected kinds -/

theorem fieldLoop_append (env : TypeEnv) (fuel : Nat)
    (newEnc : GoType → ShapeVal → Res (List instruction)) :
    ∀ (fs1 fs2 : List StructField) (i : Nat) (e : StructEncoder),
      StructEncoder.fieldLoop env fuel newEnc (fs1 ++ fs2) i e
        = (StructEncoder.fieldLoop env fuel newEnc fs1 i e).bind
            (fun e1 => StructEncoder.fieldLoop env fuel newEnc fs2 (i + fs1.length) e1) := by
  intro fs1
  induction fs1 with
  | nil =>
    intro fs2 i e
    cases fs2 with
    | nil => rfl
    | cons g gs => rfl
  | cons f fs ih =>
    intro fs2 i e
    rw [List.cons_append, StructEncoder.fieldLoop, StructEncoder.fieldLoop]
    simp only [bind, Except.bind]
    cases hf : StructEncoder.field env fuel newEnc { e with i := i, f := f } with
    | error err => rfl
    | ok e1 =>
      simp only [List.length_cons]
      have h1 := ih fs2 (i + 1) e1
      have : i + 1 + fs.length = i + (fs.length + 1) := by omega
      rw [this] at h1
      simpa only [bind, Except.bind] using h1

/-- The `switch` of `NewStructEncoder` panics on a rejected field, with the kind of
the field and its name in the message. -/
theorem fieldValue_rejected (env : TypeEnv) (fuel : Nat)
    (newEnc : GoType → ShapeVal → Res (List instruction)) (e : StructEncoder)
    (h : e.f.rejected = true) :
    e.fieldValue env fuel newEnc e.f.opts
      = .error (.panic (bs "unsupported type " ++ e.f.Typ.Kind.name ++ e.f.Name)) := by
  unfold StructField.rejected at h
  simp only [Bool.and_eq_true, Bool.not_eq_true', bne_iff_ne, ne_eq] at h
  obtain ⟨⟨⟨⟨⟨_, h1⟩, h2⟩, h3⟩, h4⟩, hT⟩ := h
  unfold StructEncoder.fieldValue
  simp only [h1, h2, h3, h4, Bool.false_eq_true, if_false]
  cases hTy : e.f.Typ with
  | basic k =>
    rw [hTy] at hT
    cases k <;> simp [isRejectedKind] at hT <;>
      simp [GoType.Kind, StructEncoder.valueInst, hTy, throw, throwThe, MonadExceptOf.throw]
  | ptr t =>
    rw [hTy] at hT
    cases t with
    | basic k =>
      cases k <;> simp [isRejectedKind] at hT <;>
        simp [GoType.Kind, GoType.Elem, StructEncoder.valueInst, hTy, throw, throwThe,
          MonadExceptOf.throw, bind, Except.bind, pure, Except.pure]
    | _ => simp at hT
  | _ => rw [hTy] at hT; simp at hT

theorem field_rejected (env : TypeEnv) (fuel : Nat)
    (newEnc : GoType → ShapeVal → Res (List instruction)) (e : StructEncoder)
    (h : e.f.rejected = true) :
    StructEncoder.field env fuel newEnc e
      = .error (.panic (bs "unsupported type " ++ e.f.Typ.Kind.name ++ e.f.Name)) := by
  have hkey : ¬ (parseTag e.f.Tag).1 = [] := by
    unfold StructField.rejected at h
    simp only [Bool.and_eq_true, bne_iff_ne, ne_eq] at h
    exact h.1.1.1.1.1
  unfold StructEncoder.field
  simp only [hkey, if_false, bind, Except.bind]
  have hv := fieldValue_rejected env fuel newEnc
    ((if ({ e with o := ((parseTag e.f.Tag).2.Contains (bs "omitempty") &&
        e.f.Typ.Kind != Kind.Struct) } : StructEncoder).o = true
      then ({ e with o := ((parseTag e.f.Tag).2.Contains (bs "omitempty") &&
        e.f.Typ.Kind != Kind.Struct) } : StructEncoder).omitFlunk
      else ({ e with o := ((parseTag e.f.Tag).2.Contains (bs "omitempty") &&
        e.f.Typ.Kind != Kind.Struct) } : StructEncoder)).chunk
        (bs "\"" ++ (parseTag e.f.Tag).1 ++ bs "\":"))
    (by
      have : ∀ x : StructEncoder, x.f = e.f → x.f.rejected = true := by
        intro x hx; rw [hx]; exact h
      apply this
      simp only [StructEncoder.chunk_f]
      split <;> simp)
  have hf : ∀ x : StructEncoder, x.f = e.f →
      x.fieldValue env fuel newEnc x.f.opts
        = .error (.panic (bs "unsupported type " ++ x.f.Typ.Kind.name ++ x.f.Name)) →
      x.fieldValue env fuel newEnc (parseTag e.f.Tag).2
        = .error (.panic (bs "unsupported type " ++ e.f.Typ.Kind.name ++ e.f.Name)) := by
    intro x hx hxv
    rw [hx] at hxv
    exact hxv
  simp only [Bool.false_eq_true] at hv ⊢
  rw [hf _ (by simp only [StructEncoder.chunk_f]; split <;> simp) hv]

theorem NewStructEncoder_unfold (env : TypeEnv) (F id : Nat) (tv : ShapeVal) :
    NewStructEncoder env (F + 1) (.struct id) tv
      = (StructEncoder.fieldLoop env F
          (fun t v => (NewStructEncoder env F t v).map (·.instructions)) (env id) 0
          (StructEncoder.start (.struct id) tv)).bind
        (fun e => e.setupLastField.bind (fun e => .ok (e.chunk (bs "\x7d")).flunk)) := by
  simp only [NewStructEncoder, structFields, bind, Except.bind, pure, Except.pure,
    StructEncoder.start]

/-- C13: for every shape with a keyed field to which no value directive applies and
whose kind, or whose pointee's kind, is map, interface, complex64, complex128, chan or
func, `NewStructEncoder` returns no plan, whatever the fuel; and when the fields
before it compile, it ends in the panic `unsupported type`, with the kind of the field
and the name of the field in the message. -/
theorem rejected_kind_aborts (env : TypeEnv) (id F : Nat) (tv : ShapeVal)
    (fs1 fs2 : List StructField) (f : StructField) (henv : env id = fs1 ++ f :: fs2)
    (hf : f.rejected = true) :
    (∀ F0 e, NewStructEncoder env F0 (.struct id) tv ≠ .ok e) ∧
    (∀ e1, StructEncoder.fieldLoop env F
        (fun t v => (NewStructEncoder env F t v).map (·.instructions)) fs1 0
        (StructEncoder.start (.struct id) tv) = .ok e1 →
      NewStructEncoder env (F + 1) (.struct id) tv
        = .error (.panic (bs "unsupported type " ++ f.Typ.Kind.name ++ f.Name))) ∧
    f.Name <:+: (bs "unsupported type " ++ f.Typ.Kind.name ++ f.Name) := by
  have hloop : ∀ (G j : Nat) (e1 : StructEncoder),
      StructEncoder.fieldLoop env G
        (fun t v => (NewStructEncoder env G t v).map (·.instructions)) (f :: fs2) j e1
        = .error (.panic (bs "unsupported type " ++ f.Typ.Kind.name ++ f.Name)) := by
    intro G j e1
    rw [StructEncoder.fieldLoop]
    simp only [bind, Except.bind]
    rw [field_rejected env G _ { e1 with i := j, f := f } hf]
  refine ⟨?_, ?_, ?_⟩
  · intro F0 e
    cases F0 with
    | zero => simp [NewStructEncoder, throw, throwThe, MonadExceptOf.throw]
    | succ G =>
      rw [NewStructEncoder_unfold, henv, fieldLoop_append]
      cases h1 : StructEncoder.fieldLoop env G
          (fun t v => (NewStructEncoder env G t v).map (·.instructions)) fs1 0
          (StructEncoder.start (.struct id) tv) with
      | error err => simp [Except.bind]
      | ok e1 => simp [Except.bind, hloop G]
  · intro e1 h1
    rw [NewStructEncoder_unfold, henv, fieldLoop_append, h1]
    simp [Except.bind, hloop F]
  · exact ⟨bs "unsupported type " ++ f.Typ.Kind.name, [], by simp⟩

theorem rejected_kind_aborts_witness :
    (∀ F0 e, NewStructEncoder envMap F0 (.struct 0) .zero ≠ .ok e) ∧
    NewStructEncoder envMap 1 (.struct 0) .zero
      = .error (.panic (bs "unsupported type mapPropMap")) ∧
    bs "PropMap" <:+: bs "unsupported type mapPropMap" := by
  have h := rejected_kind_aborts envMap 0 0 .zero [mkField "A" (.basic .Int) "a"]
    [mkField "B" (.basic .Bool) "b"] (mkField "PropMap" (.basic .Map) "m") rfl (by decide)
  exact ⟨h.1, h.2.1 _ rfl, h.2.2⟩

/-! ## Encoder fields -/

/-- The converter that the `switch` of `NewStructEncoder` selects for an
encoder-directed field with the methods `m`. -/
theorem envEncoder_segs (m : Methods) (fuel : Nat)
    (newEnc : GoType → ShapeVal → Res (List instruction)) :
    shapeSegs (envEncoder m) fuel newEnc (.struct 0) .zero (envEncoder m 0) 0
      = .ok (some [⟨false, .Struct, bs "\"v\":",
          .mk [] [] kindNormal 0
            (some (if m.hasEncodeJSON = true then Conv.encoderWriter m.asJSONMarshaler
              else Conv.encoder m.asJSONEncoder)) none none, []⟩]) := by
  have hp : parseTag (bs "v,encoder") = (bs "v", bs "encoder") := by decide
  have h1 : tagOptions.Contains (bs "encoder") (bs "stringer") = false := by decide
  have h2 : tagOptions.Contains (bs "encoder") (bs "encoder") = true := by decide
  have h3 : tagOptions.Contains (bs "encoder") (bs "omitempty") = false := by decide
  have h4 : bs "v" ≠ [] := by decide
  simp only [envEncoder, shapeSegs, fieldSeg, valueSeg, hp, h1, h2, h3, h4, bind, Except.bind,
    pure, Except.pure, convInstr, GoType.Kind, Bool.false_and, Bool.false_eq_true, if_false,
    if_true, Option.toList, List.append_nil, reduceCtorEq]
  by_cases hb : m.hasEncodeJSON = true
  · simp only [hb, if_true]
    rfl
  · simp only [hb, if_false]
    rfl

/-- The output for the shape `struct { V T "v,encoder" }`. -/
theorem Marshal_envEncoder (m : Methods) (F M : Nat) (v : Value) (w t : Bytes)
    (ht : (if m.hasEncodeJSON = true then Conv.encoderWriter m.asJSONMarshaler
        else Conv.encoder m.asJSONEncoder).run v [] = some t) :
    ∃ e, NewStructEncoder (envEncoder m) (F + 1) (.struct 0) .zero = .ok e ∧
      Marshal (M + 1) e.instructions (.struct [v]) w
        = some (w ++ (bs "\x7b\"v\":" ++ t ++ bs "\x7d")) := by
  obtain ⟨e, he, hplan⟩ := NewStructEncoder_plan (envEncoder m) F (.struct 0) .zero
    (envEncoder m 0) _ rfl (envEncoder_segs m F _)
  refine ⟨e, he, ?_⟩
  have hconv : ∀ c : Conv,
      (c = Conv.encoderWriter m.asJSONMarshaler ∨ c = Conv.encoder m.asJSONEncoder) →
      c.run v [] = some t → ∀ w0, c.run v w0 = some (w0 ++ t) := by
    intro c hc h w0
    rcases hc with rfl | rfl
    · generalize m.asJSONMarshaler = o at h ⊢
      cases o <;> simp only [Conv.run, Option.some.injEq, List.nil_append] at h ⊢ <;> rw [h]
    · generalize m.asJSONEncoder = o at h ⊢
      cases o <;> simp only [Conv.run, Option.some.injEq, List.nil_append] at h ⊢ <;> rw [h]
  have hrun : ∀ w0, (if m.hasEncodeJSON = true then Conv.encoderWriter m.asJSONMarshaler
        else Conv.encoder m.asJSONEncoder).run v w0 = some (w0 ++ t) :=
    hconv _ (by split <;> simp) ht
  have hex : ∀ w0, execSub (Marshal M)
      (planOf [⟨false, .Struct, bs "\"v\":",
          .mk [] [] kindNormal 0
            (some (if m.hasEncodeJSON = true then Conv.encoderWriter m.asJSONMarshaler
              else Conv.encoder m.asJSONEncoder)) none none, []⟩]) (.struct [v]) w0
      (.mk [] [] kindNormal 0
        (some (if m.hasEncodeJSON = true then Conv.encoderWriter m.asJSONMarshaler
          else Conv.encoder m.asJSONEncoder)) none none) = some (w0 ++ t) := by
    intro w0
    simp only [execSub, instruction.kind_mk, instruction.leapFun_mk, instruction.offset_mk,
      kindNormal, kindStatic, kindStringField, kindInt, leap, List.getElem?_cons_zero,
      Option.bind_some]
    exact hrun w0
  have hentry := Seg.entry_eq (Marshal M)
    (planOf [⟨false, .Struct, bs "\"v\":",
        .mk [] [] kindNormal 0
          (some (if m.hasEncodeJSON = true then Conv.encoderWriter m.asJSONMarshaler
            else Conv.encoder m.asJSONEncoder)) none none, []⟩]) (.struct [v])
    ⟨false, .Struct, bs "\"v\":",
        .mk [] [] kindNormal 0
          (some (if m.hasEncodeJSON = true then Conv.encoderWriter m.asJSONMarshaler
            else Conv.encoder m.asJSONEncoder)) none none, []⟩ false rfl
  rw [hex []] at hentry
  rw [hplan, Marshal_planOf]
  · rw [List.filterMap_cons, hentry]
    simp only [Bool.false_eq_true, if_false, Option.map_some', List.filterMap_nil, object,
      List.intercalate, List.intersperse, List.flatten, List.append_assoc, List.append_nil,
      List.nil_append]
    rfl
  · intro s hs
    simp only [List.mem_singleton] at hs
    subst hs
    exact ⟨by simp [kindNormal, kindStatic], by simp [kindNormal, KindOmit], false, rfl,
      fun _ => ⟨t, hex⟩⟩

/-- C11 (counterexample): for the shape `struct { V T "v,encoder" }`, where `T` has
both `JSONEncode(*Buffer)`, writing `A`, and `EncodeJSON(io.Writer)`, writing `B`,
`Marshal` writes `B`: the compiled instruction invokes `EncodeJSON`. -/
theorem encoder_both_invokes_EncodeJSON :
    marshalShape (envEncoder bothMethods) 1 (.struct 0) (.struct [.struct []])
        = some (bs "\x7b\"v\":B\x7d") ∧
      marshalShape (envEncoder bothMethods) 1 (.struct 0) (.struct [.struct []])
        ≠ some (bs "\x7b\"v\":A\x7d") := by
  decide

/-- C11 (amended): for an encoder-directed field whose type has a method `EncodeJSON`,
also when it has `JSONEncode(*Buffer)` as well, the `switch` of `NewStructEncoder`
compiles the field with `optInstrEncoderWriter`: the converter of the instruction
asserts `JSONMarshaler` and writes what `EncodeJSON` writes, and so does `Marshal` for
the shape `struct { V T "v,encoder" }`. -/
theorem encoder_prefers_EncodeJSON (m : Methods) (g : Value → Bytes)
    (hb : m.hasEncodeJSON = true) (hg : m.asJSONMarshaler = some g) :
    (∀ (env : TypeEnv) (fuel : Nat) (newEnc : GoType → ShapeVal → Res (List instruction))
        (e : StructEncoder) (opts : tagOptions), e.f.methods = m →
        (opts.Contains (bs "stringer") && e.f.methods.hasString) = false →
        opts.Contains (bs "encoder") = true →
        e.fieldValue env fuel newEnc opts = .ok e.optInstrEncoderWriter ∧
        e.optInstrEncoderWriter
          = (if e.f.Typ.Kind = .Ptr then e.ptrval (.encoderWriter (some g))
              else e.val (.encoderWriter (some g)))) ∧
      (∀ (v : Value) (w : Bytes), (Conv.encoderWriter (some g)).run v w = some (w ++ g v)) ∧
      (∀ (F M : Nat) (v : Value) (w : Bytes),
        ∃ e, NewStructEncoder (envEncoder m) (F + 1) (.struct 0) .zero = .ok e ∧
          Marshal (M + 1) e.instructions (.struct [v]) w
            = some (w ++ (bs "\x7b\"v\":" ++ g v ++ bs "\x7d"))) := by
  refine ⟨?_, fun _ _ => rfl, ?_⟩
  · intro env fuel newEnc e opts hm hs he
    refine ⟨?_, ?_⟩
    · subst hm
      unfold StructEncoder.fieldValue
      simp [hs, he, hb, pure, Except.pure]
    · simp only [StructEncoder.optInstrEncoderWriter, hm, hg]
  · intro F M v w
    exact Marshal_envEncoder m F M v w (g v) (by simp [hb, hg, Conv.run])

theorem encoder_prefers_EncodeJSON_witness :
    (atEncoderField bothMethods).fieldValue (envEncoder bothMethods) 0
        (fun _ _ => .error .timeout) (bs "encoder")
      = .ok (atEncoderField bothMethods).optInstrEncoderWriter ∧
    (∃ e, NewStructEncoder (envEncoder bothMethods) 1 (.struct 0) .zero = .ok e ∧
      Marshal 1 e.instructions (.struct [.struct []]) []
        = some (bs "\x7b\"v\":B\x7d")) := by
  have h := encoder_prefers_EncodeJSON bothMethods (fun _ => bs "B") rfl rfl
  exact ⟨(h.1 (envEncoder bothMethods) 0 (fun _ _ => .error .timeout)
    (atEncoderField bothMethods) (bs "encoder") rfl (by decide) (by decide)).1,
    h.2.2 0 0 (.struct []) []⟩

/-- C12 (counterexample): for the shape `struct { V T "v,encoder" }`, where `T` has
neither `JSONEncode(*Buffer)` nor `EncodeJSON(io.Writer)`, `NewStructEncoder` returns
a plan and `Marshal` writes `null` for the field. -/
theorem encoder_neither_compiles :
    (NewStructEncoder (envEncoder Methods.none) 1 (.struct 0) .zero).isOk = true ∧
      marshalShape (envEncoder Methods.none) 1 (.struct 0) (.struct [.struct []])
        = some (bs "\x7b\"v\":null\x7d") := by
  decide

/-- C12 (amended): for an encoder-directed field whose type has neither
`EncodeJSON(io.Writer)` nor `JSONEncode(*Buffer)`, the `switch` of `NewStructEncoder`
does not fail: it compiles the field with `optInstrEncoder`, and the converter of the
instruction, whose assertion of `JSONEncoder` fails, writes `null` at every call; for
the shape `struct { V T "v,encoder" }` `NewStructEncoder` returns a plan and `Marshal`
writes `null` as the value of the field. -/
theorem encoder_neither_writes_null (m : Methods)
    (hb : m.hasEncodeJSON = false) (ha : m.asJSONEncoder = none) :
    (∀ (env : TypeEnv) (fuel : Nat) (newEnc : GoType → ShapeVal → Res (List instruction))
        (e : StructEncoder) (opts : tagOptions), e.f.methods = m →
        (opts.Contains (bs "stringer") && e.f.methods.hasString) = false →
        opts.Contains (bs "encoder") = true →
        e.fieldValue env fuel newEnc opts = .ok e.optInstrEncoder ∧
        e.optInstrEncoder
          = (if e.f.Typ.Kind = .Ptr then e.ptrval (.encoder none)
              else e.val (.encoder none))) ∧
      (∀ (v : Value) (w : Bytes), (Conv.encoder none).run v w = some (w ++ bs "null")) ∧
      (∀ (F M : Nat) (v : Value) (w : Bytes),
        ∃ e, NewStructEncoder (envEncoder m) (F + 1) (.struct 0) .zero = .ok e ∧
          Marshal (M + 1) e.instructions (.struct [v]) w
            = some (w ++ bs "\x7b\"v\":null\x7d")) := by
  refine ⟨?_, fun _ _ => rfl, ?_⟩
  · intro env fuel newEnc e opts hm hs he
    refine ⟨?_, ?_⟩
    · subst hm
      unfold StructEncoder.fieldValue
      simp [hs, he, hb, pure, Except.pure]
    · simp only [StructEncoder.optInstrEncoder, hm, ha]
  · intro F M v w
    exact Marshal_envEncoder m F M v w (bs "null") (by simp [hb, ha, Conv.run, null])

theorem encoder_neither_writes_null_witness :
    (atEncoderField Methods.none).fieldValue (envEncoder Methods.none) 0
        (fun _ _ => .error .timeout) (bs "encoder")
      = .ok (atEncoderField Methods.none).optInstrEncoder ∧
    (∃ e, NewStructEncoder (envEncoder Methods.none) 1 (.struct 0) .zero = .ok e ∧
      Marshal 1 e.instructions (.struct [.struct []]) []
        = some (bs "\x7b\"v\":null\x7d")) := by
  have h := encoder_neither_writes_null Methods.none rfl rfl
  exact ⟨(h.1 (envEncoder Methods.none) 0 (fun _ _ => .error .timeout)
    (atEncoderField Methods.none) (bs "encoder") rfl (by decide) (by decide)).1,
    h.2.2 0 0 (.struct []) []⟩

/-! ## Strings of fields without directive -/

theorem jsonUnescape_cons_plain (c : UInt8) (rest : Bytes) (h : c ≠ 92) :
    jsonUnescape (c :: rest)
      = if c.toNat < 32 ∨ c = 34 then none else (jsonUnescape rest).map (c :: ·) := by
  rw [jsonUnescape]
  · intro c' r' hh
    exact absurd hh h
  · intro hh
    exact absurd hh h

theorem jsonUnescape_pair (c : UInt8) (rest t : Bytes)
    (h : jsonUnescape (92 :: c :: rest) = some t) :
    ∃ x t', t = x :: t' ∧ jsonUnescape rest = some t' := by
  simp only [jsonUnescape] at h
  split_ifs at h <;>
    (obtain ⟨t', h1, h2⟩ := Option.map_eq_some'.mp h; exact ⟨_, t', h2.symm, h1⟩)

theorem jsonUnescape_length : ∀ (n : Nat) (s t : Bytes), s.length ≤ n →
    jsonUnescape s = some t → t.length ≤ s.length ∧ ((92 : UInt8) ∈ s → t.length < s.length) := by
  intro n
  induction n with
  | zero =>
    intro s t hn h
    have hs : s = [] := List.length_eq_zero.mp (Nat.le_zero.mp hn)
    subst hs
    simp only [jsonUnescape, Option.some.injEq] at h
    subst h
    simp
  | succ n ih =>
    intro s t hn h
    match s, hn, h with
    | [], _, h =>
      simp only [jsonUnescape, Option.some.injEq] at h
      subst h
      simp
    | [c], _, h =>
      by_cases hc : c = 92
      · subst hc
        simp [jsonUnescape] at h
      · rw [jsonUnescape_cons_plain c [] hc] at h
        split_ifs at h
        simp only [jsonUnescape, Option.map_some', Option.some.injEq] at h
        subst h
        simp [hc, Ne.symm hc]
    | c :: d :: rest, hn, h =>
      by_cases hc : c = 92
      · subst hc
        obtain ⟨x, t', rfl, h'⟩ := jsonUnescape_pair d rest t h
        have := (ih rest t' (by simp only [List.length_cons] at hn; omega) h').1
        simp only [List.length_cons]
        exact ⟨by omega, fun _ => by omega⟩
      · rw [jsonUnescape_cons_plain c _ hc] at h
        split_ifs at h
        obtain ⟨t', h1, h2⟩ := Option.map_eq_some'.mp h
        subst h2
        have := ih (d :: rest) t' (by simp only [List.length_cons] at hn ⊢; omega) h1
        simp only [List.length_cons] at this ⊢
        refine ⟨by omega, fun hm => ?_⟩
        have hm' : (92 : UInt8) ∈ d :: rest := by
          rcases List.mem_cons.mp hm with h92 | h92
          · exact absurd h92.symm hc
          · exact h92
        have := this.2 hm'
        omega

theorem jsonUnescape_plain (s : Bytes) (h92 : (92 : UInt8) ∉ s) (t : Bytes) :
    jsonUnescape s = some t ↔ t = s ∧ ∀ c ∈ s, 32 ≤ c.toNat ∧ c ≠ 34 := by
  induction s generalizing t with
  | nil => simp [jsonUnescape, eq_comm]
  | cons c rest ih =>
    have hc : c ≠ 92 := fun h => h92 (h ▸ List.mem_cons_self _ _)
    have hr : (92 : UInt8) ∉ rest := fun h => h92 (List.mem_cons_of_mem _ h)
    rw [jsonUnescape_cons_plain c rest hc]
    constructor
    · intro h
      split_ifs at h with hbad
      obtain ⟨t', h1, h2⟩ := Option.map_eq_some'.mp h
      obtain ⟨e1, e2⟩ := (ih hr t').mp h1
      subst e1
      refine ⟨h2.symm, ?_⟩
      intro x hx
      rcases List.mem_cons.mp hx with hx | hx
      · subst hx
        exact ⟨by omega, fun h34 => hbad (Or.inr h34)⟩
      · exact e2 x hx
    · rintro ⟨rfl, hall⟩
      have hcc := hall c (List.mem_cons_self _ _)
      have hbad : ¬ (c.toNat < 32 ∨ c = 34) := by
        rintro (h | h)
        · omega
        · exact hcc.2 h
      rw [if_neg hbad, (ih hr rest).mpr ⟨rfl, fun x hx => hall x (List.mem_cons_of_mem _ hx)⟩]
      rfl

theorem jsonUnescape_self (s : Bytes) :
    jsonUnescape s = some s ↔ ∀ c ∈ s, c ≠ 92 ∧ c ≠ 34 ∧ 32 ≤ c.toNat := by
  constructor
  · intro h
    have h92 : (92 : UInt8) ∉ s := fun hm => by
      have := (jsonUnescape_length s.length s s le_rfl h).2 hm
      omega
    have := ((jsonUnescape_plain s h92 s).mp h).2
    intro c hc
    exact ⟨fun e => h92 (e ▸ hc), (this c hc).2, (this c hc).1⟩
  · intro h
    have h92 : (92 : UInt8) ∉ s := fun hm => (h 92 hm).1 rfl
    exact (jsonUnescape_plain s h92 s).mpr ⟨rfl, fun c hc => ⟨(h c hc).2.2, (h c hc).2.1⟩⟩

theorem jsonParseString_quote (s : Bytes) :
    jsonParseString ([34] ++ s ++ [34]) = jsonUnescape s := by
  simp [jsonParseString]

/-- C15 (counterexample): the shape `struct { Name string "name" }` has no raw or
encoder field; for the string `a"b` `Marshal` writes the value `"a"b"`, which is not a
JSON string, and for the two bytes `\n` it writes `"\n"`, which parses to the line
feed: in neither case does the parse reconstruct the string. -/
theorem string_field_not_escaped :
    (marshalShape envName 1 (.struct 0) (.struct [.str (bs "a\"b")])
        = some (bs "\x7b\"name\":" ++ ([34] ++ bs "a\"b" ++ [34]) ++ bs "\x7d") ∧
      jsonParseString ([34] ++ bs "a\"b" ++ [34]) = none) ∧
    (marshalShape envName 1 (.struct 0) (.struct [.str (bs "\\n")])
        = some (bs "\x7b\"name\":" ++ ([34] ++ bs "\\n" ++ [34]) ++ bs "\x7d") ∧
      jsonParseString ([34] ++ bs "\\n" ++ [34]) = some [10] ∧
      jsonParseString ([34] ++ bs "\\n" ++ [34]) ≠ some (bs "\\n")) := by
  decide

/-- C15 (amended): in a compiled shape of supported fields, for a keyed field of kind
string without the directives `stringer`, `encoder`, `raw` and `escape` that holds the
string `s` and is not left out by `omitempty`, the value written after the key is the
bytes of `s` between two double quotes, unescaped; parsing this value as a JSON string
gives `s` exactly when `s` holds no double quote, no backslash and no byte below the
space. -/
theorem string_field_round_trip (env : TypeEnv)
    (hok : ∀ id, ∀ f ∈ env id, f.supported = true)
    (F M id : Nat) (e : StructEncoder)
    (hc : NewStructEncoder env F (.struct id) .zero = .ok e)
    (fs1 fs2 : List StructField) (f : StructField) (henv : env id = fs1 ++ f :: fs2)
    (vs1 vs2 : List Value) (s : Bytes) (ents1 ents2 : List Bytes)
    (hkey : f.key ≠ []) (hty : f.Typ = .basic .String)
    (hraw : f.opts.Contains (bs "raw") = false)
    (hnot : f.omitted (.str s) = false)
    (h1 : entriesText env fs1 vs1 = some ents1) (h2 : entriesText env fs2 vs2 = some ents2)
    (hd : (Value.struct (vs1 ++ .str s :: vs2)).depth ≤ M) (w : Bytes) :
    Marshal M e.instructions (.struct (vs1 ++ .str s :: vs2)) w
        = some (w ++ object (ents1
            ++ [[34] ++ f.key ++ [34, 58] ++ ([34] ++ s ++ [34])]
            ++ ents2)) ∧
      (jsonParseString ([34] ++ s ++ [34]) = some s
        ↔ ∀ c ∈ s, c ≠ 92 ∧ c ≠ 34 ∧ 32 ≤ c.toNat) := by
  refine ⟨?_, by rw [jsonParseString_quote]; exact jsonUnescape_self s⟩
  apply Marshal_at_field env hok F M id e hc fs1 fs2 f henv vs1 vs2 (.str s) ents1 ents2 _ hkey
    (by rw [hty]; rfl) h1 h2 _ hd w
  refine Or.inr ⟨hnot, _, ?_, rfl⟩
  simp only [fieldText, hraw, hty, valueText, primText]
  rfl

theorem envPlain_supported : ∀ id, ∀ f ∈ envPlain id, f.supported = true := by
  intro id
  simp only [envPlain]
  decide

theorem string_field_round_trip_witness :
    Marshal 1 (compiled (NewStructEncoder envPlain 1 (.struct 0) .zero)).instructions
        (.struct ([] ++ .str (bs "Ann Lee") :: [.int 42, .bool true, .uint 7, .str (bs "x")])) []
      = some (bs "\x7b\"name\":\"Ann Lee\",\"age\":42,\"ok\":true,\"n\":7\x7d") ∧
    jsonParseString ([34] ++ bs "Ann Lee" ++ [34]) = some (bs "Ann Lee") :=
  have h := string_field_round_trip envPlain envPlain_supported 1 1 0
    (compiled (NewStructEncoder envPlain 1 (.struct 0) .zero)) rfl
    [] [mkField "Age" (.basic .Int) "age", mkField "Ok" (.basic .Bool) "ok",
      mkField "N" (.basic .Uint8) "n", mkField "hidden" (.basic .String) ""]
    (mkField "Name" (.basic .String) "name") rfl
    [] [.int 42, .bool true, .uint 7, .str (bs "x")] (bs "Ann Lee")
    [] [bs "\"age\":42", bs "\"ok\":true", bs "\"n\":7"]
    (by decide) rfl (by decide) (by decide) (by decide) (by decide) (by decide) []
  ⟨h.1.trans (by decide), h.2.mpr (by decide)⟩

/-! ## Static instructions are coalesced -/

theorem modifyLast_cases {α : Type} (g : α → α) (l : List α) :
    (l = [] ∧ modifyLast g l = []) ∨
      ∃ init a, l = init ++ [a] ∧ modifyLast g l = init ++ [g a] := by
  rcases List.eq_nil_or_concat l with h | ⟨init, a, h⟩
  · exact Or.inl ⟨h, by rw [h]; rfl⟩
  · rw [List.concat_eq_append] at h
    exact Or.inr ⟨init, a, h, by rw [h, modifyLast_concat]⟩

theorem NoAdj_nil : NoAdj [] := List.chain'_nil

theorem NoAdj_concat (l : List instruction) (y : instruction) (h : NoAdj l)
    (hl : ∀ x ∈ l.getLast?, ¬(x.kind = kindStatic ∧ y.kind = kindStatic)) :
    NoAdj (l ++ [y]) := by
  unfold NoAdj at h ⊢
  refine List.Chain'.append h (List.chain'_singleton y) ?_
  intro x hx z hz
  simp only [List.head?_cons, Option.mem_def, Option.some.injEq] at hz
  subst hz
  exact hl x hx

theorem NoAdj_concat_dyn (l : List instruction) (y : instruction) (h : NoAdj l)
    (hy : y.kind ≠ kindStatic) : NoAdj (l ++ [y]) :=
  NoAdj_concat l y h (fun _ _ hh => hy hh.2)

theorem NoAdj_concat_last (l : List instruction) (y : instruction) (h : NoAdj l)
    (hl : LastDyn l) : NoAdj (l ++ [y]) :=
  NoAdj_concat l y h (fun x hx hh => hl x hx hh.1)

theorem NoAdj_init (l : List instruction) (y : instruction) (h : NoAdj (l ++ [y])) :
    NoAdj l := by
  unfold NoAdj at h ⊢
  exact (List.chain'_append.mp h).1

theorem NoAdj_congr_last (init : List instruction) (g g' : instruction)
    (h : NoAdj (init ++ [g])) (hk : g'.kind = g.kind) : NoAdj (init ++ [g']) := by
  unfold NoAdj at h ⊢
  rw [List.chain'_append] at h ⊢
  refine ⟨h.1, List.chain'_singleton g', ?_⟩
  intro x hx z hz
  simp only [List.head?_cons, Option.mem_def, Option.some.injEq] at hz
  subst hz
  rw [hk]
  exact h.2.2 x hx g (by simp)

theorem LastDyn_nil : LastDyn [] := by
  intro x hx
  simp at hx

theorem LastDyn_concat (l : List instruction) (y : instruction) (hy : y.kind ≠ kindStatic) :
    LastDyn (l ++ [y]) := by
  intro x hx
  simp only [List.getLast?_append, List.getLast?_singleton, Option.or_some, Option.mem_def,
    Option.some.injEq] at hx
  subst hx
  exact hy

theorem LastDyn_concat_iff (l : List instruction) (y : instruction) :
    LastDyn (l ++ [y]) ↔ y.kind ≠ kindStatic := by
  constructor
  · intro h
    exact h y (by simp)
  · exact LastDyn_concat l y

theorem NoAdj_modifyLast (G : instruction → instruction) (l : List instruction)
    (hG : ∀ x, (G x).kind = x.kind) (h : NoAdj l) : NoAdj (modifyLast G l) := by
  rcases modifyLast_cases G l with ⟨_, h2⟩ | ⟨init, a, h1, h2⟩
  · rw [h2]; exact NoAdj_nil
  · rw [h2]
    rw [h1] at h
    exact NoAdj_congr_last init a (G a) h (hG a)

theorem LastDyn_modifyLast (G : instruction → instruction) (l : List instruction)
    (hG : ∀ x, (G x).kind = x.kind) (h : LastDyn l) : LastDyn (modifyLast G l) := by
  rcases modifyLast_cases G l with ⟨_, h2⟩ | ⟨init, a, h1, h2⟩
  · rw [h2]; exact LastDyn_nil
  · rw [h2]
    rw [h1] at h
    refine LastDyn_concat init (G a) ?_
    rw [hG a]
    exact (LastDyn_concat_iff init a).mp h

theorem head_concat_of_ne_nil {α : Type} (l : List α) (y : α) (h : l ≠ []) :
    ∃ x t, l = x :: t ∧ l ++ [y] = x :: (t ++ [y]) := by
  cases l with
  | nil => exact absurd rfl h
  | cons x t => exact ⟨x, t, rfl, rfl⟩

theorem StructEncoder.flunk_empty (e : StructEncoder) (h : e.cb.drop e.cpos = []) :
    e.flunk = { e with cpos := e.cb.length } := by
  unfold StructEncoder.flunk
  simp only
  rw [if_pos (by rw [h]; rfl)]

theorem HeadOK_congr (P : Bytes → Nat → Option Conv → Prop) (e e' : StructEncoder)
    (hi : e'.instructions = e.instructions) (hc : e'.cpos = e.cpos)
    (hb : e.instructions = [] → ∃ b, e'.cb = e.cb ++ b) (h : HeadOK P e) : HeadOK P e' := by
  unfold HeadOK at h ⊢
  rw [hi]
  cases hl : e.instructions with
  | nil =>
    rw [hl] at h
    obtain ⟨b, hb⟩ := hb hl
    obtain ⟨h1, ⟨rest, h2⟩, h3⟩ := h
    exact ⟨hc.trans h1, ⟨rest ++ b, by rw [hb, h2]; rfl⟩, h3⟩
  | cons x t =>
    rw [hl] at h
    exact h

theorem Within_chunk (P : Bytes → Nat → Option Conv → Prop) (e : StructEncoder) (b : Bytes)
    (h : Within P e) : Within P (e.chunk b) := by
  obtain ⟨h1, h2, h3, h4, h5, h6⟩ := h
  refine ⟨h1, h2, h3, ?_, HeadOK_congr P e _ rfl rfl (fun _ => ⟨b, rfl⟩) h5, h6⟩
  simp only [StructEncoder.chunk_cpos, StructEncoder.chunk_cb, List.length_append]
  omega

theorem HeadOK_of_head (P : Bytes → Nat → Option Conv → Prop) (e : StructEncoder) (x : instruction)
    (t : List instruction) (h : e.instructions = x :: t) (hp : P x.static x.kind x.leapFun) :
    HeadOK P e := by
  unfold HeadOK
  rw [h]
  exact hp

theorem HeadOK_head (P : Bytes → Nat → Option Conv → Prop) (e : StructEncoder) (x : instruction)
    (t : List instruction) (h : e.instructions = x :: t) (hh : HeadOK P e) :
    P x.static x.kind x.leapFun := by
  unfold HeadOK at hh
  rw [h] at hh
  exact hh

theorem HeadOK_modify (P : Bytes → Nat → Option Conv → Prop) (e e' : StructEncoder)
    (init : List instruction) (g g' : instruction) (h : e.instructions = init ++ [g])
    (h' : e'.instructions = init ++ [g']) (hs : g'.static = g.static) (hk : g'.kind = g.kind)
    (hlf : g'.leapFun = g.leapFun) (hh : HeadOK P e) : HeadOK P e' := by
  cases init with
  | nil =>
    refine HeadOK_of_head P e' g' [] h' ?_
    rw [hs, hk, hlf]
    exact HeadOK_head P e g [] h hh
  | cons y t =>
    exact HeadOK_of_head P e' y (t ++ [g']) h' (HeadOK_head P e y (t ++ [g]) h hh)

theorem HeadOK_push (P : Bytes → Nat → Option Conv → Prop) (e e' : StructEncoder) (y : instruction)
    (hne : e.instructions ≠ []) (h' : e'.instructions = e.instructions ++ [y])
    (hh : HeadOK P e) : HeadOK P e' := by
  obtain ⟨x, t, h1, h2⟩ := head_concat_of_ne_nil e.instructions y hne
  exact HeadOK_of_head P e' x (t ++ [y]) (h'.trans h2) (HeadOK_head P e x t h1 hh)

theorem Within.flushed {P : Bytes → Nat → Option Conv → Prop} {e : StructEncoder} (h : Within P e) :
    Flushed P e := by
  obtain ⟨h1, h2, h3, h4, h5, h6⟩ := h
  refine ⟨h1, h2, h4, h5, ?_⟩
  intro ho
  obtain ⟨init, g, hi, _⟩ := h6 ho
  refine ⟨init, g, hi, ?_⟩
  rw [hi] at h3
  exact (LastDyn_concat_iff init g).mp h3

theorem mem_concat_cases {α : Type} (l : List α) (y x : α) (h : x ∈ l ++ [y]) :
    x ∈ l ∨ x = y := by
  simpa using h

theorem append_static (P : Bytes → Nat → Option Conv → Prop) (e : StructEncoder) (S : instruction)
    (h1 : NoAdj e.instructions) (h2 : ∀ g ∈ e.instructions, NoAdj g.sub)
    (h3 : LastDyn e.instructions) (h4 : e.cpos ≤ e.cb.length)
    (h5 : e.instructions ≠ [] → HeadOK P e)
    (h6 : e.o = true → ∃ init g, e.instructions = init ++ [g] ∧ LastDyn g.sub)
    (hs : S.sub = []) (hp : e.instructions = [] → P S.static S.kind S.leapFun) :
    Flushed P (e.appendInstruction S) ∧ (e.appendInstruction S).instructions ≠ [] := by
  by_cases ho : e.o = true
  · obtain ⟨init, g, hi, hg⟩ := h6 ho
    have hnew := StructEncoder.appendInstruction_omit e S g init ho hi
    refine ⟨⟨?_, ?_, ?_, ?_, ?_⟩, ?_⟩
    · rw [hnew]
      rw [hi] at h1
      exact NoAdj_congr_last init g _ h1 rfl
    · intro x hx
      rw [hnew] at hx
      rcases mem_concat_cases _ _ _ hx with hx | hx
      · exact h2 x (by rw [hi]; exact List.mem_append_left _ hx)
      · rw [hx]
        exact NoAdj_concat_last g.sub S (h2 g (by rw [hi]; simp)) hg
    · simpa using h4
    · exact HeadOK_modify P e _ init g _ hi hnew rfl rfl rfl (h5 (by rw [hi]; simp))
    · intro _
      refine ⟨init, _, hnew, ?_⟩
      rw [hi] at h3
      exact (LastDyn_concat_iff init g).mp h3
    · rw [hnew]; simp
  · have ho' : e.o = false := by simpa using ho
    have hnew := StructEncoder.appendInstruction_top e S ho'
    refine ⟨⟨?_, ?_, ?_, ?_, ?_⟩, ?_⟩
    · rw [hnew]
      exact NoAdj_concat_last _ S h1 h3
    · intro x hx
      rw [hnew] at hx
      rcases mem_concat_cases _ _ _ hx with hx | hx
      · exact h2 x hx
      · rw [hx, hs]; exact NoAdj_nil
    · simpa using h4
    · by_cases hn : e.instructions = []
      · refine HeadOK_of_head P _ S [] ?_ (hp hn)
        rw [hnew, hn]; rfl
      · exact HeadOK_push P e _ S hn hnew (h5 hn)
    · intro ho2
      rw [StructEncoder.appendInstruction_o] at ho2
      exact absurd ho2 ho
    · rw [hnew]; simp

theorem append_dyn (P : Bytes → Nat → Option Conv → Prop) (e : StructEncoder) (x : instruction)
    (h : Flushed P e) (hne : e.instructions ≠ []) (hk : x.kind ≠ kindStatic) (hs : x.sub = []) :
    Within P (e.appendInstruction x) := by
  obtain ⟨h1, h2, h4, h5, h6⟩ := h
  by_cases ho : e.o = true
  · obtain ⟨init, g, hi, hg⟩ := h6 ho
    have hnew := StructEncoder.appendInstruction_omit e x g init ho hi
    refine ⟨?_, ?_, ?_, ?_, ?_, ?_⟩
    · rw [hnew]
      rw [hi] at h1
      exact NoAdj_congr_last init g _ h1 rfl
    · intro y hy
      rw [hnew] at hy
      rcases mem_concat_cases _ _ _ hy with hy | hy
      · exact h2 y (by rw [hi]; exact List.mem_append_left _ hy)
      · rw [hy]
        exact NoAdj_concat_dyn g.sub x (h2 g (by rw [hi]; simp)) hk
    · rw [hnew]
      exact LastDyn_concat init _ hg
    · simpa using h4
    · exact HeadOK_modify P e _ init g _ hi hnew rfl rfl rfl h5
    · intro _
      exact ⟨init, _, hnew, LastDyn_concat g.sub x hk⟩
  · have ho' : e.o = false := by simpa using ho
    have hnew := StructEncoder.appendInstruction_top e x ho'
    refine ⟨?_, ?_, ?_, ?_, ?_, ?_⟩
    · rw [hnew]
      exact NoAdj_concat_dyn _ x h1 hk
    · intro y hy
      rw [hnew] at hy
      rcases mem_concat_cases _ _ _ hy with hy | hy
      · exact h2 y hy
      · rw [hy, hs]; exact NoAdj_nil
    · rw [hnew]
      exact LastDyn_concat _ x hk
    · simpa using h4
    · exact HeadOK_push P e _ x hne hnew h5
    · intro ho2
      rw [StructEncoder.appendInstruction_o] at ho2
      exact absurd ho2 ho

theorem StructEncoder.flunk_nonempty (e : StructEncoder) (h : e.cb.drop e.cpos ≠ []) :
    e.flunk = { e with cpos := e.cb.length }.appendInstruction (staticInstr (e.cb.drop e.cpos)) := by
  unfold StructEncoder.flunk
  simp only
  rw [if_neg]
  · rfl
  · intro h0; exact h (List.length_eq_zero.mp h0)

theorem Within.with_cpos {P : Bytes → Nat → Option Conv → Prop} {e : StructEncoder} (h : Within P e)
    (hne : e.instructions ≠ []) : Within P { e with cpos := e.cb.length } := by
  obtain ⟨h1, h2, h3, _, h5, h6⟩ := h
  refine ⟨h1, h2, h3, le_rfl, ?_, h6⟩
  obtain ⟨x, t, hx⟩ := List.exists_cons_of_ne_nil hne
  exact HeadOK_of_head P _ x t hx (HeadOK_head P e x t hx h5)

/-- A flush leaves a state in which the list the next instruction goes to is not
empty. -/
theorem flunk_flushed (P : Bytes → Nat → Option Conv → Prop) (e : StructEncoder) (h : Within P e) :
    Flushed P e.flunk ∧ e.flunk.instructions ≠ [] := by
  by_cases hp : e.cb.drop e.cpos = []
  · have hne : e.instructions ≠ [] := by
      intro hn
      obtain ⟨_, _, _, _, h5, _⟩ := h
      unfold HeadOK at h5
      rw [hn] at h5
      obtain ⟨h0, ⟨rest, hr⟩, _⟩ := h5
      rw [h0, hr] at hp
      simp at hp
    rw [StructEncoder.flunk_empty e hp]
    exact ⟨(h.with_cpos hne).flushed, hne⟩
  · rw [StructEncoder.flunk_nonempty e hp]
    obtain ⟨h1, h2, h3, _, h5, h6⟩ := h
    refine append_static P { e with cpos := e.cb.length } _ h1 h2 h3 le_rfl ?_ h6 rfl ?_
    · intro hne
      obtain ⟨x, t, hx⟩ := List.exists_cons_of_ne_nil hne
      exact HeadOK_of_head P _ x t hx (HeadOK_head P e x t hx h5)
    · intro hn
      have hn' : e.instructions = [] := hn
      unfold HeadOK at h5
      rw [hn'] at h5
      obtain ⟨h0, ⟨rest, hr⟩, hP⟩ := h5
      change P (e.cb.drop e.cpos) kindStatic none
      rw [h0, hr]
      exact hP rest kindStatic (Or.inl rfl)

/-- A flush followed by an instruction that is not static. -/
theorem Within_emit (P : Bytes → Nat → Option Conv → Prop) (e : StructEncoder) (x : instruction)
    (h : Within P e) (hk : x.kind ≠ kindStatic) (hs : x.sub = []) :
    Within P (e.flunk.appendInstruction x) :=
  append_dyn P e.flunk x (flunk_flushed P e h).1 (flunk_flushed P e h).2 hk hs

theorem Within_val (P : Bytes → Nat → Option Conv → Prop) (e : StructEncoder) (c : Conv) (h : Within P e) :
    Within P (e.val c) :=
  Within_emit P e _ h (by decide : kindNormal ≠ kindStatic) rfl

theorem Within_ptrval (P : Bytes → Nat → Option Conv → Prop) (e : StructEncoder) (c : Conv)
    (h : Within P e) : Within P (e.ptrval c) :=
  Within_emit P e _ h (by decide : kindNormal ≠ kindStatic) rfl

theorem Within_ptrstringval (P : Bytes → Nat → Option Conv → Prop) (e : StructEncoder) (c : Conv)
    (h : Within P e) : Within P (e.ptrstringval c) :=
  Within_emit P e _ h (by decide : kindNormal ≠ kindStatic) rfl

theorem Within_fun (P : Bytes → Nat → Option Conv → Prop) (e : StructEncoder) (fn : Fun instruction)
    (off : Nat) (h : Within P e) : Within P (e.flunk.appendInstructionFun fn off) :=
  Within_emit P e _ h (by decide : kindNormal ≠ kindStatic) rfl

theorem Within_arrayLoop (P : Bytes → Nat → Option Conv → Prop) (c : Conv) :
    ∀ (n i : Nat) (e : StructEncoder), Within P e →
      Within P (StructEncoder.arrayLoop c n i e) := by
  intro n
  induction n with
  | zero => intro i e h; exact h
  | succ n ih =>
    intro i e h
    unfold StructEncoder.arrayLoop
    apply ih
    apply Within_fun
    split
    · exact Within_chunk P e _ h
    · exact h

theorem Except.bind_eq_ok {ε α β : Type} (x : Except ε α) (f : α → Except ε β) (b : β)
    (h : x.bind f = .ok b) : ∃ a, x = .ok a ∧ f a = .ok b := by
  cases x with
  | error err => cases h
  | ok a => exact ⟨a, rfl, h⟩

theorem Within_valueInst (P : Bytes → Nat → Option Conv → Prop) (env : TypeEnv) (fuel : Nat)
    (newEnc : GoType → ShapeVal → Res (List instruction)) (e e' : StructEncoder) (k : Kind)
    (instr : StructEncoder → Conv → StructEncoder)
    (hinstr : ∀ e c, Within P e → Within P (instr e c)) (h : Within P e)
    (hv : e.valueInst env fuel newEnc k instr = .ok e') : Within P e' := by
  unfold StructEncoder.valueInst at hv
  cases k
  case Array =>
    simp only [bind] at hv
    obtain ⟨elem, _, hv⟩ := Except.bind_eq_ok _ _ _ hv
    cases hc : typeconv elem.Kind with
    | none =>
      rw [hc] at hv
      cases hv
      exact Within_chunk P e _ h
    | some c =>
      rw [hc] at hv
      simp only at hv
      split at hv
      · cases hv
        exact Within_chunk P _ _ (Within_arrayLoop P c _ 0 _ (Within_chunk P e _ h))
      · cases hv
  case Slice =>
    simp only [bind] at hv
    obtain ⟨_, _, hv⟩ := Except.bind_eq_ok _ _ _ hv
    obtain ⟨enc, _, hv⟩ := Except.bind_eq_ok _ _ _ hv
    cases hv
    exact Within_fun P e _ _ h
  case Struct =>
    simp only [bind] at hv
    split at hv
    · obtain ⟨elem, _, hv⟩ := Except.bind_eq_ok _ _ _ hv
      obtain ⟨same, _, hv⟩ := Except.bind_eq_ok _ _ _ hv
      split at hv
      · cases hv
        exact Within_fun P e _ _ h
      · obtain ⟨enc, _, hv⟩ := Except.bind_eq_ok _ _ _ hv
        cases hv
        exact Within_fun P e _ _ h
    · obtain ⟨inf, _, hv⟩ := Except.bind_eq_ok _ _ _ hv
      obtain ⟨enc, _, hv⟩ := Except.bind_eq_ok _ _ _ hv
      cases hv
      exact Within_fun P e _ _ h
  case Int =>
    simp only at hv
    split at hv
    · cases hv
      exact hinstr e _ h
    · cases hv
      exact Within_emit P e _ h (by decide : kindInt ≠ kindStatic) rfl
  case String =>
    simp only at hv
    split at hv
    · cases hv
      exact Within_ptrstringval P e _ h
    · cases hv
      exact Within_chunk P _ _
        (Within_emit P _ _ (Within_chunk P e _ h) (by decide : kindStringField ≠ kindStatic) rfl)
  case Ptr => simp only at hv; cases hv; exact h
  case Bool =>
    simp only [typeconv, pure, Except.pure, Except.ok.injEq] at hv
    subst hv
    exact hinstr e _ h
  case Int8 =>
    simp only [typeconv, pure, Except.pure, Except.ok.injEq] at hv
    subst hv
    exact hinstr e _ h
  case Int16 =>
    simp only [typeconv, pure, Except.pure, Except.ok.injEq] at hv
    subst hv
    exact hinstr e _ h
  case Int32 =>
    simp only [typeconv, pure, Except.pure, Except.ok.injEq] at hv
    subst hv
    exact hinstr e _ h
  case Int64 =>
    simp only [typeconv, pure, Except.pure, Except.ok.injEq] at hv
    subst hv
    exact hinstr e _ h
  case Uint =>
    simp only [typeconv, pure, Except.pure, Except.ok.injEq] at hv
    subst hv
    exact hinstr e _ h
  case Uint8 =>
    simp only [typeconv, pure, Except.pure, Except.ok.injEq] at hv
    subst hv
    exact hinstr e _ h
  case Uint16 =>
    simp only [typeconv, pure, Except.pure, Except.ok.injEq] at hv
    subst hv
    exact hinstr e _ h
  case Uint32 =>
    simp only [typeconv, pure, Except.pure, Except.ok.injEq] at hv
    subst hv
    exact hinstr e _ h
  case Uint64 =>
    simp only [typeconv, pure, Except.pure, Except.ok.injEq] at hv
    subst hv
    exact hinstr e _ h
  case Float32 =>
    simp only [typeconv, pure, Except.pure, Except.ok.injEq] at hv
    subst hv
    exact hinstr e _ h
  case Float64 =>
    simp only [typeconv, pure, Except.pure, Except.ok.injEq] at hv
    subst hv
    exact hinstr e _ h
  all_goals simp [throw, throwThe, MonadExceptOf.throw] at hv

theorem Within_fieldValue (P : Bytes → Nat → Option Conv → Prop) (env : TypeEnv) (fuel : Nat)
    (newEnc : GoType → ShapeVal → Res (List instruction)) (e e' : StructEncoder)
    (opts : tagOptions) (h : Within P e)
    (hv : e.fieldValue env fuel newEnc opts = .ok e') : Within P e' := by
  have hval : ∀ (x : StructEncoder) (c : Conv), Within P x →
      Within P (if x.f.Typ.Kind = .Ptr then x.ptrval c else x.val c) := by
    intro x c hx
    split
    · exact Within_ptrval P x c hx
    · exact Within_val P x c hx
  unfold StructEncoder.fieldValue at hv
  split at hv
  · cases hv
    exact Within_chunk P _ _ (hval _ _ (Within_chunk P e _ h))
  split at hv
  · split at hv
    · cases hv; exact hval e _ h
    · cases hv; exact hval e _ h
  split at hv
  · cases hv; exact hval e _ h
  split at hv
  · unfold StructEncoder.optInstrEscape at hv
    split at hv
    · simp only [bind] at hv
      obtain ⟨enc, _, hv⟩ := Except.bind_eq_ok _ _ _ hv
      cases hv
      exact Within_fun P e _ _ h
    split at hv
    · cases hv; exact Within_ptrstringval P e _ h
    · cases hv
      exact Within_chunk P _ _ (Within_val P _ _ (Within_chunk P e _ h))
  split at hv
  · cases hv
    exact Within_chunk P _ _ (Within_val P _ _ (Within_chunk P e _ h))
  split at hv
  · cases hv; exact Within_ptrstringval P e _ h
  split at hv
  · simp only [bind] at hv
    obtain ⟨elem, _, hv⟩ := Except.bind_eq_ok _ _ _ hv
    exact Within_valueInst P env fuel newEnc e e' _ _ (Within_ptrval P) h hv
  · exact Within_valueInst P env fuel newEnc e e' _ _ (Within_val P) h hv

/-- Entering a keyed field: the flag `o` is set and, for an omitempty field, the
omit group is opened. -/
theorem Between_enter (P : Bytes → Nat → Option Conv → Prop) (e : StructEncoder) (o' : Bool)
    (h : Between P e) :
    Within P (if ({ e with o := o' } : StructEncoder).o = true
      then ({ e with o := o' } : StructEncoder).omitFlunk else { e with o := o' }) := by
  obtain ⟨h1, h2, h3, h4, h5, _⟩ := h
  cases o' with
  | false =>
    simp only [Bool.false_eq_true, if_false]
    refine ⟨h1, h2, h3, h4, ?_, fun ho => by cases ho⟩
    exact HeadOK_congr P e _ rfl rfl (fun _ => ⟨[], (List.append_nil _).symm⟩) h5
  | true =>
    simp only [if_true]
    have hnew := StructEncoder.omitFlunk_instructions ({ e with o := true } : StructEncoder)
    have hk : (instruction.mk (e.cb.drop e.cpos) [] KindOmit 0 none none none).kind
        ≠ kindStatic := (by decide : KindOmit ≠ kindStatic)
    refine ⟨?_, ?_, ?_, ?_, ?_, ?_⟩
    · rw [hnew]
      exact NoAdj_concat_dyn _ _ h1 hk
    · intro y hy
      rw [hnew] at hy
      rcases mem_concat_cases _ _ _ hy with hy | hy
      · exact h2 y hy
      · rw [hy]; exact NoAdj_nil
    · rw [hnew]
      exact LastDyn_concat _ _ hk
    · simp
    · by_cases hn : e.instructions = []
      · refine HeadOK_of_head P _ _ [] (hnew.trans (by rw [show
          ({ e with o := true } : StructEncoder).instructions = [] from hn]; rfl)) ?_
        unfold HeadOK at h5
        rw [hn] at h5
        obtain ⟨h0, ⟨rest, hr⟩, hP⟩ := h5
        change P (e.cb.drop e.cpos) KindOmit none
        rw [h0, hr]
        exact hP rest KindOmit (Or.inr rfl)
      · exact HeadOK_push P e _ _ hn hnew h5
    · intro _
      exact ⟨_, _, hnew, LastDyn_nil⟩

/-- Leaving a keyed field: the separator is buffered and, for an omitempty field,
flushed into the omit group. -/
theorem Within_leave (P : Bytes → Nat → Option Conv → Prop) (e : StructEncoder) (h : Within P e) :
    Between P (if (e.chunk (bs ",")).o = true then (e.chunk (bs ",")).flunk
      else e.chunk (bs ",")) := by
  have hc := Within_chunk P e (bs ",") h
  split
  · rename_i ho
    obtain ⟨⟨f1, f2, f3, f4, f5⟩, _⟩ := flunk_flushed P _ hc
    refine ⟨f1, f2, ?_, f3, f4, ?_⟩
    · obtain ⟨init, g, hi, hg⟩ := f5 (by simpa using ho)
      rw [hi]
      exact LastDyn_concat init g hg
    · intro hf
      rw [StructEncoder.flunk_o] at hf
      rw [hf] at ho
      cases ho
  · obtain ⟨h1, h2, h3, h4, h5, _⟩ := h
    refine ⟨h1, h2, h3, ?_, HeadOK_congr P e _ rfl rfl (fun _ => ⟨bs ",", rfl⟩) h5, ?_⟩
    · exact hc.2.2.2.1
    · intro _
      have : (bs ",").length = 1 := rfl
      simp only [StructEncoder.chunk_cpos, StructEncoder.chunk_cb, List.length_append, this]
      omega

theorem Between_congr (P : Bytes → Nat → Option Conv → Prop) (e e' : StructEncoder)
    (hi : e'.instructions = e.instructions) (hb : e'.cb = e.cb) (hc : e'.cpos = e.cpos)
    (ho : e'.o = e.o) (h : Between P e) : Between P e' := by
  obtain ⟨h1, h2, h3, h4, h5, h6⟩ := h
  refine ⟨hi ▸ h1, hi ▸ h2, hi ▸ h3, by rw [hb, hc]; exact h4, ?_, by rw [hb, hc, ho]; exact h6⟩
  exact HeadOK_congr P e e' hi hc (fun _ => ⟨[], by rw [hb, List.append_nil]⟩) h5

theorem Between_field (P : Bytes → Nat → Option Conv → Prop) (env : TypeEnv) (fuel : Nat)
    (newEnc : GoType → ShapeVal → Res (List instruction)) (e e' : StructEncoder)
    (h : Between P e) (hf : StructEncoder.field env fuel newEnc e = .ok e') :
    Between P e' := by
  unfold StructEncoder.field at hf
  simp only at hf
  split at hf
  · cases hf
    exact h
  · simp only [bind] at hf
    obtain ⟨e3, h3, hf⟩ := Except.bind_eq_ok _ _ _ hf
    cases hf
    have hin := Between_enter P e ((parseTag e.f.Tag).2.Contains (bs "omitempty") &&
      e.f.Typ.Kind != .Struct) h
    exact Within_leave P e3 (Within_fieldValue P env fuel newEnc _ e3 _
      (Within_chunk P _ _ hin) h3)

theorem Between_fieldLoop (P : Bytes → Nat → Option Conv → Prop) (env : TypeEnv) (fuel : Nat)
    (newEnc : GoType → ShapeVal → Res (List instruction)) :
    ∀ (fs : List StructField) (i : Nat) (e e' : StructEncoder), Between P e →
      StructEncoder.fieldLoop env fuel newEnc fs i e = .ok e' → Between P e' := by
  intro fs
  induction fs with
  | nil =>
    intro i e e' h hf
    simp only [StructEncoder.fieldLoop, pure, Except.pure, Except.ok.injEq] at hf
    subst hf
    exact Between_congr P e _ rfl rfl rfl rfl h
  | cons f fs ih =>
    intro i e e' h hf
    rw [StructEncoder.fieldLoop] at hf
    simp only [bind] at hf
    obtain ⟨e1, h1, hf⟩ := Except.bind_eq_ok _ _ _ hf
    exact ih (i + 1) e1 e' (Between_field P env fuel newEnc { e with i := i, f := f } e1
      (Between_congr P e _ rfl rfl rfl rfl h) h1) hf

theorem Within_setupLastField (P : Bytes → Nat → Option Conv → Prop) (e e' : StructEncoder)
    (h : Between P e) (hs : e.setupLastField = .ok e') : Within P e' ∧ e'.o = false := by
  obtain ⟨h1, h2, h3, h4, h5, h6⟩ := h
  unfold StructEncoder.setupLastField at hs
  split at hs
  · split at hs
    · cases hs
    · split at hs
      · cases hs
      · split at hs
        · cases hs
        · simp only [pure, Except.pure, Except.ok.injEq] at hs
          subst hs
          refine ⟨⟨?_, ?_, ?_, h4, ?_, fun ho => by cases ho⟩, rfl⟩
          · exact NoAdj_modifyLast _ _ (fun _ => rfl) h1
          · intro y hy
            simp only at hy
            rcases modifyLast_cases (fun instr =>
              instruction.mk instr.static
                (modifyLast (fun subInstr =>
                  instruction.mk subInstr.static.dropLast subInstr.sub subInstr.kind
                    subInstr.offset subInstr.leapFun subInstr.fn subInstr.isZero) instr.sub)
                instr.kind instr.offset instr.leapFun (some .trimComma) instr.isZero)
              e.instructions with ⟨_, hm⟩ | ⟨init, a, hl, hm⟩
            · rw [hm] at hy
              cases hy
            · rw [hm] at hy
              rcases mem_concat_cases _ _ _ hy with hy | hy
              · exact h2 y (by rw [hl]; exact List.mem_append_left _ hy)
              · rw [hy]
                exact NoAdj_modifyLast _ _ (fun _ => rfl) (h2 a (by rw [hl]; simp))
          · exact LastDyn_modifyLast _ _ (fun _ => rfl) h3
          · rcases modifyLast_cases (fun instr =>
              instruction.mk instr.static
                (modifyLast (fun subInstr =>
                  instruction.mk subInstr.static.dropLast subInstr.sub subInstr.kind
                    subInstr.offset subInstr.leapFun subInstr.fn subInstr.isZero) instr.sub)
                instr.kind instr.offset instr.leapFun (some .trimComma) instr.isZero)
              e.instructions with ⟨hl, hm⟩ | ⟨init, a, hl, hm⟩
            · exact HeadOK_congr P e _ (hm.trans hl.symm) rfl
                (fun _ => ⟨[], (List.append_nil _).symm⟩) h5
            · exact HeadOK_modify P e _ init a _ hl hm rfl rfl rfl h5
  · rename_i ho
    have ho' : e.o = false := by simpa using ho
    have hlt := h6 ho'
    split at hs
    · cases hs
    · rename_i c hc
      split at hs
      · rename_i h44
        simp only [pure, Except.pure, Except.ok.injEq] at hs
        subst hs
        refine ⟨⟨h1, h2, h3, ?_, ?_, fun ho2 => absurd ho2 ho⟩, ho'⟩
        · simp only [List.length_dropLast]
          omega
        · unfold HeadOK at h5 ⊢
          simp only
          cases hl : e.instructions with
          | nil =>
            rw [hl] at h5
            obtain ⟨h0, ⟨rest, hr⟩, hP⟩ := h5
            refine ⟨h0, ?_, hP⟩
            cases rest with
            | nil =>
              rw [hr] at hc
              simp only [List.getLast?_singleton, Option.some.injEq] at hc
              rw [← hc] at h44
              exact absurd h44 (by decide)
            | cons r rs =>
              exact ⟨(r :: rs).dropLast, by rw [hr]; rfl⟩
          | cons x t =>
            rw [hl] at h5
            exact h5
      · simp only [pure, Except.pure, Except.ok.injEq] at hs
        subst hs
        exact ⟨⟨h1, h2, h3, h4, h5, fun ho2 => absurd ho2 ho⟩, ho'⟩

/-- The plan that `NewStructEncoder` returns from a state between two fields on. -/
theorem finish_shape (P : Bytes → Nat → Option Conv → Prop) (e e1 : StructEncoder) (h : Between P e)
    (hs : e.setupLastField = .ok e1) :
    NoAdj (e1.chunk (bs "\x7d")).flunk.instructions ∧
      (∀ g ∈ (e1.chunk (bs "\x7d")).flunk.instructions, NoAdj g.sub) ∧
      HeadOK P (e1.chunk (bs "\x7d")).flunk ∧
      ∃ init S, (e1.chunk (bs "\x7d")).flunk.instructions = init ++ [S] ∧
        S.kind = kindStatic ∧ S.static.getLast? = some 125 := by
  obtain ⟨hw, ho⟩ := Within_setupLastField P e e1 h hs
  have hc := Within_chunk P e1 (bs "\x7d") hw
  obtain ⟨⟨f1, f2, _, f4, _⟩, _⟩ := flunk_flushed P _ hc
  refine ⟨f1, f2, f4, ?_⟩
  have hlen := hw.2.2.2.1
  have hdrop : (e1.chunk (bs "\x7d")).cb.drop (e1.chunk (bs "\x7d")).cpos
      = e1.cb.drop e1.cpos ++ [125] := by
    simp only [StructEncoder.chunk_cb, StructEncoder.chunk_cpos]
    rw [List.drop_append_of_le_length hlen]
    rfl
  have hne : (e1.chunk (bs "\x7d")).cb.drop (e1.chunk (bs "\x7d")).cpos ≠ [] := by
    rw [hdrop]; simp
  rw [StructEncoder.flunk_instructions _ hne, StructEncoder.appendInstruction_top]
  swap
  · exact ho
  refine ⟨_, _, rfl, rfl, ?_⟩
  change ((e1.chunk (bs "\x7d")).cb.drop (e1.chunk (bs "\x7d")).cpos).getLast? = some 125
  rw [hdrop]
  simp

theorem Between_start (P : Bytes → Nat → Option Conv → Prop)
    (hP : ∀ b k, (k = kindStatic ∨ k = KindOmit) → P (123 :: b) k none) (tt : GoType)
    (tv : ShapeVal) : Between P (StructEncoder.start tt tv) := by
  refine ⟨NoAdj_nil, ?_, LastDyn_nil, ?_, ?_, ?_⟩
  · intro g hg
    simp [StructEncoder.start, StructEncoder.chunk] at hg
  · simp [StructEncoder.start, StructEncoder.chunk]
  · exact ⟨rfl, ⟨[], rfl⟩, hP⟩
  · intro _
    simp [StructEncoder.start, StructEncoder.chunk, bs]

/-- The plan of `NewStructEncoder`: static instructions are never adjacent, at the
top level and in the bodies of the omit groups; the first instruction carries static
bytes that begin with `{` and is static or an omit group; the last instruction is
static and its bytes end with `}`. -/
theorem NewStructEncoder_shape (env : TypeEnv) (F : Nat) (tt : GoType) (tv : ShapeVal)
    (e : StructEncoder) (h : NewStructEncoder env F tt tv = .ok e) :
    NoAdj e.instructions ∧ (∀ g ∈ e.instructions, NoAdj g.sub) ∧
      (∃ x t, e.instructions = x :: t ∧ OpensObject x.static x.kind x.leapFun) ∧
      ∃ init S, e.instructions = init ++ [S] ∧ S.kind = kindStatic ∧
        S.static.getLast? = some 125 := by
  cases F with
  | zero => cases h
  | succ F =>
    rw [NewStructEncoder] at h
    simp only [bind] at h
    obtain ⟨fields, _, h⟩ := Except.bind_eq_ok _ _ _ h
    obtain ⟨e1, hl, h⟩ := Except.bind_eq_ok _ _ _ h
    obtain ⟨e2, hs, h⟩ := Except.bind_eq_ok _ _ _ h
    cases h
    have hb := Between_fieldLoop OpensObject env F _ fields 0 _ e1
      (Between_start OpensObject (fun b k hk => ⟨rfl, hk, rfl⟩) tt tv) hl
    obtain ⟨g1, g2, g3, init, S, g4, g5, g6⟩ := finish_shape OpensObject e1 e2 hb hs
    refine ⟨g1, g2, ?_, init, S, g4, g5, g6⟩
    cases hi : (e2.chunk (bs "\x7d")).flunk.instructions with
    | nil => rw [hi] at g4; simp at g4
    | cons x t => exact ⟨x, t, rfl, HeadOK_head OpensObject _ x t hi g3⟩

/-! ## The form of a plan -/

theorem NoAdj_get (l : List instruction) (h : NoAdj l) :
    ∀ (i : Nat) (a b : instruction), l[i]? = some a → l[i + 1]? = some b →
      ¬(a.kind = kindStatic ∧ b.kind = kindStatic) := by
  induction l with
  | nil =>
    intro i a b ha
    simp at ha
  | cons x t ih =>
    intro i a b ha hb
    cases i with
    | zero =>
      simp only [List.getElem?_cons_zero, Option.some.injEq] at ha
      subst ha
      simp only [zero_add, List.getElem?_cons_succ] at hb
      cases t with
      | nil => simp at hb
      | cons y t' =>
        simp only [List.getElem?_cons_zero, Option.some.injEq] at hb
        subst hb
        unfold NoAdj at h
        exact (List.chain'_cons.mp h).1
    | succ j =>
      simp only [List.getElem?_cons_succ] at ha hb
      unfold NoAdj at h
      exact ih (List.Chain'.tail h) j a b ha hb

/-- C17: in every plan that `NewStructEncoder` returns, no two adjacent instructions
of the top-level sequence are both of kind `kindStatic`, and no two adjacent
instructions of the body `sub` of an instruction, an omit group in particular, are
both of kind `kindStatic`. -/
theorem statics_coalesced (env : TypeEnv) (F : Nat) (tt : GoType) (tv : ShapeVal)
    (e : StructEncoder) (h : NewStructEncoder env F tt tv = .ok e) :
    (∀ (i : Nat) (a b : instruction), e.instructions[i]? = some a →
        e.instructions[i + 1]? = some b → ¬(a.kind = kindStatic ∧ b.kind = kindStatic)) ∧
      ∀ g ∈ e.instructions, ∀ (i : Nat) (a b : instruction), g.sub[i]? = some a →
        g.sub[i + 1]? = some b → ¬(a.kind = kindStatic ∧ b.kind = kindStatic) := by
  obtain ⟨h1, h2, _⟩ := NewStructEncoder_shape env F tt tv e h
  exact ⟨NoAdj_get _ h1, fun g hg => NoAdj_get _ (h2 g hg)⟩

theorem statics_coalesced_witness :
    (planOutline (compiled (NewStructEncoder envOmitPtr 2 (.struct 0) .zero)).instructions
        = [(kindStatic, bs "\x7b\"a\":"), (kindInt, []), (KindOmit, bs ","), (KindOmit, []),
          (kindStatic, bs "\x7d")]) ∧
      (∀ (i : Nat) (a b : instruction),
        (compiled (NewStructEncoder envOmitPtr 2 (.struct 0) .zero)).instructions[i]? = some a →
        (compiled (NewStructEncoder envOmitPtr 2 (.struct 0) .zero)).instructions[i + 1]?
          = some b → ¬(a.kind = kindStatic ∧ b.kind = kindStatic)) :=
  ⟨by decide, (statics_coalesced envOmitPtr 2 (.struct 0) .zero
    (compiled (NewStructEncoder envOmitPtr 2 (.struct 0) .zero)) rfl).1⟩

theorem fieldLoop_unkeyed (env : TypeEnv) (fuel : Nat)
    (newEnc : GoType → ShapeVal → Res (List instruction)) :
    ∀ (fs : List StructField) (i : Nat) (e : StructEncoder), (∀ g ∈ fs, g.key = []) →
      ∃ e1, StructEncoder.fieldLoop env fuel newEnc fs i e = .ok e1 ∧
        e1.instructions = e.instructions ∧ e1.cb = e.cb ∧ e1.cpos = e.cpos ∧ e1.o = e.o := by
  intro fs
  induction fs with
  | nil =>
    intro i e _
    exact ⟨{ e with i := i }, rfl, rfl, rfl, rfl, rfl⟩
  | cons f fs ih =>
    intro i e hk
    have hf : StructEncoder.field env fuel newEnc { e with i := i, f := f }
        = .ok { e with i := i, f := f } := by
      unfold StructEncoder.field
      have : (parseTag f.Tag).1 = [] := hk f (List.mem_cons_self _ _)
      simp only [this, if_true]
      rfl
    obtain ⟨e1, h1, h2, h3, h4, h5⟩ := ih (i + 1) { e with i := i, f := f }
      (fun g hg => hk g (List.mem_cons_of_mem _ hg))
    refine ⟨e1, ?_, h2, h3, h4, h5⟩
    rw [StructEncoder.fieldLoop]
    simp only [bind, Except.bind, hf]
    exact h1

/-- C18 (counterexample): the plan of the shape `struct { A bool "a,omitempty" }`, whose
first serialized field is tagged omitempty, has two instructions: an omit group of kind
`KindOmit` with the static bytes `{`, and a static instruction with the bytes `}`. The
first instruction is not of kind `kindStatic`. -/
theorem first_instruction_is_omit_group :
    planOutline (compiled (NewStructEncoder envOmitFirst 1 (.struct 0) .zero)).instructions
        = [(KindOmit, bs "\x7b"), (kindStatic, bs "\x7d")] ∧
      (NewStructEncoder envOmitFirst 1 (.struct 0) .zero).isOk = true ∧
      ((compiled (NewStructEncoder envOmitFirst 1 (.struct 0) .zero)).instructions.head?.map
        (·.kind)) ≠ some kindStatic := by
  decide

/-- C18 (amended): in every plan that `NewStructEncoder` returns, the first instruction
carries static bytes that begin with `{` and is of kind `kindStatic` or `KindOmit`, and
the last instruction is of kind `kindStatic` with bytes that end with `}`. When the first
keyed field of a struct type is tagged omitempty and is not of struct kind, the first
instruction is the omit group of that field, of kind `KindOmit`, with the static bytes
`{`. -/
theorem plan_first_and_last (env : TypeEnv) (F : Nat) (tt : GoType) (tv : ShapeVal)
    (e : StructEncoder) (h : NewStructEncoder env F tt tv = .ok e) :
    (∃ x t, e.instructions = x :: t ∧ x.static.head? = some 123 ∧
        (x.kind = kindStatic ∨ x.kind = KindOmit)) ∧
      (∃ init S, e.instructions = init ++ [S] ∧ S.kind = kindStatic ∧
        S.static.getLast? = some 125) ∧
      (∀ (id : Nat) (fs1 fs2 : List StructField) (f : StructField), tt = .struct id →
        env id = fs1 ++ f :: fs2 → (∀ g ∈ fs1, g.key = []) → f.key ≠ [] →
        f.opts.Contains (bs "omitempty") = true → f.Typ.Kind ≠ .Struct →
        ∃ x t, e.instructions = x :: t ∧ x.kind = KindOmit ∧ x.static = bs "\x7b") := by
  obtain ⟨_, _, ⟨x0, t0, hx0, hp1, hp2, _⟩, h4⟩ := NewStructEncoder_shape env F tt tv e h
  refine ⟨⟨x0, t0, hx0, hp1, hp2⟩, h4, ?_⟩
  intro id fs1 fs2 f htt henv hun hkey hom hns
  subst htt
  cases F with
  | zero => cases h
  | succ F =>
    rw [NewStructEncoder] at h
    simp only [bind] at h
    obtain ⟨fields, hfs, h⟩ := Except.bind_eq_ok _ _ _ h
    obtain ⟨e1, hl, h⟩ := Except.bind_eq_ok _ _ _ h
    obtain ⟨e2, hs, h⟩ := Except.bind_eq_ok _ _ _ h
    cases h
    simp only [structFields, pure, Except.pure, Except.ok.injEq] at hfs
    subst hfs
    change StructEncoder.fieldLoop env F _ (env id) 0 (StructEncoder.start (.struct id) tv)
      = .ok e1 at hl
    rw [henv, fieldLoop_append] at hl
    obtain ⟨ea, ha, hi, hb, hc, ho⟩ := fieldLoop_unkeyed env F
      (fun t v => (NewStructEncoder env F t v).map (·.instructions)) fs1 0
      (StructEncoder.start (.struct id) tv) hun
    rw [ha] at hl
    change StructEncoder.fieldLoop env F _ (f :: fs2) (0 + fs1.length) ea = .ok e1 at hl
    rw [StructEncoder.fieldLoop] at hl
    simp only [bind] at hl
    obtain ⟨eb, hfield, hl⟩ := Except.bind_eq_ok _ _ _ hl
    have hbetween : Between (fun s k _ => k = KindOmit ∧ s = bs "\x7b") eb := by
      unfold StructEncoder.field at hfield
      have hkey' : ¬ (parseTag f.Tag).1 = [] := hkey
      have hom' : (parseTag f.Tag).2.Contains (bs "omitempty") = true := hom
      have hns' : (f.Typ.Kind != Kind.Struct) = true := by simpa using hns
      simp only [hkey', if_false, hom', hns', Bool.and_self, if_true, bind] at hfield
      obtain ⟨e3, h3, hfield⟩ := Except.bind_eq_ok _ _ _ hfield
      cases hfield
      refine Within_leave _ e3 (Within_fieldValue _ env F _ _ e3 _ (Within_chunk _ _ _ ?_) h3)
      have hnew := StructEncoder.omitFlunk_instructions
        ({ ea with i := 0 + fs1.length, f := f, o := true } : StructEncoder)
      have hinstr : ({ ea with i := 0 + fs1.length, f := f, o := true } :
          StructEncoder).omitFlunk.instructions
          = [] ++ [.mk (bs "\x7b") [] KindOmit 0 none none none] := by
        rw [hnew]
        change ea.instructions ++ [.mk (ea.cb.drop ea.cpos) [] KindOmit 0 none none none] = _
        rw [hi, hb, hc]
        rfl
      refine ⟨?_, ?_, ?_, ?_, ?_, ?_⟩
      · rw [hinstr]
        exact NoAdj_concat_dyn [] _ NoAdj_nil (by decide : KindOmit ≠ kindStatic)
      · intro y hy
        rw [hinstr] at hy
        rcases mem_concat_cases _ _ _ hy with hy | hy
        · cases hy
        · rw [hy]; exact NoAdj_nil
      · rw [hinstr]
        exact LastDyn_concat [] _ (by decide : KindOmit ≠ kindStatic)
      · simp
      · exact HeadOK_of_head _ _ _ [] hinstr ⟨rfl, rfl⟩
      · intro _
        exact ⟨[], _, hinstr, LastDyn_nil⟩
    have hb2 := Between_fieldLoop _ env F _ fs2 _ eb e1 hbetween hl
    obtain ⟨_, _, g3, init, S, g4, _, _⟩ := finish_shape _ e1 e2 hb2 hs
    cases hi2 : (e2.chunk (bs "\x7d")).flunk.instructions with
    | nil => rw [hi2] at g4; simp at g4
    | cons x t =>
      have := HeadOK_head _ _ x t hi2 g3
      exact ⟨x, t, rfl, this.1, this.2⟩

theorem plan_first_and_last_witness :
    (∃ x t, (compiled (NewStructEncoder envOmitPtr 2 (.struct 0) .zero)).instructions = x :: t ∧
        x.static.head? = some 123 ∧ (x.kind = kindStatic ∨ x.kind = KindOmit)) ∧
      (∃ init S, (compiled (NewStructEncoder envOmitPtr 2 (.struct 0) .zero)).instructions
          = init ++ [S] ∧ S.kind = kindStatic ∧ S.static.getLast? = some 125) :=
  have h := plan_first_and_last envOmitPtr 2 (.struct 0) .zero
    (compiled (NewStructEncoder envOmitPtr 2 (.struct 0) .zero)) rfl
  ⟨h.1, h.2.1⟩

/-! ## Fields without output key -/

theorem Value.maxDepth_append (xs ys : List Value) :
    Value.maxDepth (xs ++ ys) = max (Value.maxDepth xs) (Value.maxDepth ys) := by
  induction xs with
  | nil => simp [Value.maxDepth]
  | cons x t ih =>
    rw [List.cons_append, Value.maxDepth, Value.maxDepth, ih, max_assoc]

theorem entriesText_skip (env : TypeEnv) (f : StructField) (v : Value)
    (fs : List StructField) (vs : List Value) (hkey : f.key = []) :
    entriesText env (f :: fs) (v :: vs) = entriesText env fs vs := by
  rw [entriesText]
  simp only [hkey, if_true]

/-- C19: a field `f` with no output key, which is a field with no json tag or with a tag
whose first token is empty such as `,omitempty`, is excluded from the plan: the loop of
`NewStructEncoder` leaves the state of the compiler as it is at such a field, whatever
the type of the field; and for shapes of supported fields, the shape `id` with `f`
among its fields, first, in the middle or last, and the shape `id'` with the same
fields but `f`, `Marshal` appends the same bytes for an instance of `id` and for the
instance of `id'` with the same values but the value of `f`: the object of the entries
of the other fields. -/
theorem unkeyed_field_excluded (env : TypeEnv)
    (hok : ∀ id, ∀ f ∈ env id, f.supported = true)
    (F F' M id id' : Nat) (e e' : StructEncoder)
    (hc : NewStructEncoder env F (.struct id) .zero = .ok e)
    (hc' : NewStructEncoder env F' (.struct id') .zero = .ok e')
    (fs1 fs2 : List StructField) (f : StructField) (henv : env id = fs1 ++ f :: fs2)
    (henv' : env id' = fs1 ++ fs2) (hkey : f.key = [])
    (vs1 vs2 : List Value) (v : Value) (ents1 ents2 : List Bytes)
    (h1 : entriesText env fs1 vs1 = some ents1) (h2 : entriesText env fs2 vs2 = some ents2)
    (hd : (Value.struct (vs1 ++ v :: vs2)).depth ≤ M) (w : Bytes) :
    Marshal M e.instructions (.struct (vs1 ++ v :: vs2)) w
        = Marshal M e'.instructions (.struct (vs1 ++ vs2)) w ∧
      Marshal M e'.instructions (.struct (vs1 ++ vs2)) w
        = some (w ++ object (ents1 ++ ents2)) ∧
      (∀ (fuel : Nat) (newEnc : GoType → ShapeVal → Res (List instruction))
        (st : StructEncoder), st.f = f → StructEncoder.field env fuel newEnc st = .ok st) ∧
      (parseTag []).1 = [] ∧ (parseTag (bs ",omitempty")).1 = [] := by
  have hent := entriesText_append env fs1 vs1 (f :: fs2) (v :: vs2) ents1 ents2 h1
    ((entriesText_skip env f v fs2 vs2 hkey).trans h2)
  rw [← henv] at hent
  have hent' := entriesText_append env fs1 vs1 fs2 vs2 ents1 ents2 h1 h2
  rw [← henv'] at hent'
  have hd' : (Value.struct (vs1 ++ vs2)).depth ≤ M := by
    simp only [Value.depth, Value.maxDepth_append, Value.maxDepth] at hd ⊢
    omega
  have r1 := Marshal_text env hok M F id e hc (vs1 ++ v :: vs2) _ w hd hent
  have r2 := Marshal_text env hok M F' id' e' hc' (vs1 ++ vs2) _ w hd' hent'
  refine ⟨r1.trans r2.symm, r2, ?_, by decide, by decide⟩
  intro fuel newEnc st hst
  unfold StructEncoder.field
  have : (parseTag st.f.Tag).1 = [] := by rw [hst]; exact hkey
  simp only [this, if_true]
  rfl

theorem envUnkeyed_supported : ∀ id, ∀ f ∈ envUnkeyed id, f.supported = true := by
  intro id
  match id with
  | 0 => decide
  | 1 => decide
  | 2 => decide
  | n + 3 => intro f hf; simp [envUnkeyed] at hf

theorem unkeyed_field_excluded_witness :
    Marshal 1 (compiled (NewStructEncoder envUnkeyed 1 (.struct 0) .zero)).instructions
        (.struct ([.int 5, .int 7] ++ .str (bs "y") :: [.bool true, .slice [.int 1]])) []
      = Marshal 1 (compiled (NewStructEncoder envUnkeyed 1 (.struct 2) .zero)).instructions
        (.struct ([.int 5, .int 7] ++ [.bool true, .slice [.int 1]])) [] ∧
    Marshal 1 (compiled (NewStructEncoder envUnkeyed 1 (.struct 2) .zero)).instructions
        (.struct ([.int 5, .int 7] ++ [.bool true, .slice [.int 1]])) []
      = some (bs "\x7b\"a\":7,\"b\":true\x7d") :=
  have h := unkeyed_field_excluded envUnkeyed envUnkeyed_supported 1 1 1 0 2
    (compiled (NewStructEncoder envUnkeyed 1 (.struct 0) .zero))
    (compiled (NewStructEncoder envUnkeyed 1 (.struct 2) .zero)) rfl rfl
    [mkField "X" (.basic .Int) "", mkField "A" (.basic .Int) "a"]
    [mkField "B" (.basic .Bool) "b", mkField "Z" (.slice (.basic .Int)) ""]
    (mkField "Y" (.basic .String) ",omitempty") rfl rfl (by decide)
    [.int 5, .int 7] [.bool true, .slice [.int 1]] (.str (bs "y"))
    [bs "\"a\":7"] [bs "\"b\":true"] (by decide) (by decide) (by decide) []
  ⟨h.1, h.2.1.trans (by decide)⟩

/-! ## The bytes of an object -/

theorem Conv.run_append (c : Conv) (v : Value) (w w' : Bytes) (h : c.run v w = some w') :
    ∃ a, w' = w ++ a := by
  cases c
  case stringer m =>
    cases m <;> simp only [Conv.run, Option.some.injEq] at h <;> subst h
    · exact ⟨[], (List.append_nil _).symm⟩
    · exact ⟨_, rfl⟩
  case encoder m =>
    cases m <;> simp only [Conv.run, Option.some.injEq] at h <;> subst h <;> exact ⟨_, rfl⟩
  case encoderWriter m =>
    cases m <;> simp only [Conv.run, Option.some.injEq] at h <;> subst h <;> exact ⟨_, rfl⟩
  case raw =>
    simp only [Conv.run] at h
    split at h
    · cases h
    · split at h <;> simp only [Option.some.injEq] at h <;> subst h <;> exact ⟨_, rfl⟩
  all_goals
    cases v <;>
      first
      | (simp [Conv.run] at h; done)
      | (simp only [Conv.run, Option.some.injEq] at h; subst h
         first
         | exact ⟨_, AppendInt_eq _ _⟩
         | exact ⟨_, AppendUint_eq _ _⟩
         | exact ⟨_, rfl⟩
         | exact ⟨_, ptrEscapeStringToBuf_eq _ _⟩
         | (split <;> exact ⟨_, rfl⟩))

theorem keeps_dropLast (u w : Bytes) (hu : ∃ u0 c, u = u0 ++ [c] ∧ c ≠ 44) (hp : u <+: w)
    (hl : w.getLast? = some 44) : u <+: w.dropLast := by
  obtain ⟨u0, c, rfl, hc⟩ := hu
  obtain ⟨r, rfl⟩ := hp
  rcases List.eq_nil_or_concat r with h | ⟨r', x, h⟩
  · subst h
    simp only [List.append_nil, List.getLast?_append, List.getLast?_singleton, Option.or_some,
      Option.some.injEq] at hl
    exact absurd hl hc
  · subst h
    rw [List.concat_eq_append, ← List.append_assoc, List.dropLast_concat]
    exact List.prefix_append _ _

theorem keeps_append_right (u w a : Bytes) (hp : u <+: w) : u <+: w ++ a :=
  hp.trans (List.prefix_append w a)

theorem Conv_run_keeps (u : Bytes) (c : Conv) (v : Value) (w w' : Bytes)
    (h : c.run v w = some w') (hp : u <+: w) : u <+: w' := by
  obtain ⟨a, rfl⟩ := Conv.run_append c v w w' h
  exact keeps_append_right u w a hp

theorem runElems_keeps (u : Bytes) (f : Value → Bytes → Option Bytes) :
    ∀ (xs : List Value), (∀ x ∈ xs, ∀ w w', f x w = some w' → u <+: w → u <+: w') →
      ∀ (first : Bool) (w w' : Bytes), runElems f xs first w = some w' → u <+: w →
        u <+: w' := by
  intro xs
  induction xs with
  | nil =>
    intro _ first w w' h hp
    simp only [runElems, Option.some.injEq] at h
    subst h
    exact hp
  | cons x t ih =>
    intro hf first w w' h hp
    rw [runElems] at h
    split at h
    · cases h
    · rename_i w1 h1
      refine ih (fun y hy => hf y (List.mem_cons_of_mem _ hy)) false w1 w' h ?_
      refine hf x (List.mem_cons_self _ _) _ w1 h1 ?_
      split
      · exact hp
      · exact keeps_append_right u w _ hp

theorem ElemPlan_run_keeps (u : Bytes)
    (rec : List instruction → Value → Bytes → Option Bytes)
    (hrec : ∀ plan v w w', rec plan v w = some w' → u <+: w → u <+: w') :
    ∀ (ep : ElemPlan instruction) (v : Value) (w w' : Bytes),
      ep.run rec v w = some w' → u <+: w → u <+: w' := by
  intro ep
  induction ep with
  | conv c quoted =>
    intro v w w' h hp
    simp only [ElemPlan.run] at h
    split at h
    · obtain ⟨w1, h1, h2⟩ := Option.map_eq_some'.mp h
      subst h2
      exact keeps_append_right u w1 _
        (Conv_run_keeps u c v _ w1 h1 (keeps_append_right u w _ hp))
    · exact Conv_run_keeps u c v w w' h hp
  | ptr inner ih =>
    intro v w w' h hp
    cases v
    case ptr o =>
      cases o with
      | none =>
        simp only [ElemPlan.run, Option.some.injEq] at h
        subst h
        exact keeps_append_right u w _ hp
      | some x =>
        simp only [ElemPlan.run] at h
        exact ih x w w' h hp
    all_goals simp [ElemPlan.run] at h
  | struct plan =>
    intro v w w' h hp
    rw [ElemPlan.run] at h
    exact hrec plan v w w' h hp
  | slice elem ih =>
    intro v w w' h hp
    cases v
    case slice xs =>
      simp only [ElemPlan.run] at h
      obtain ⟨w1, h1, h2⟩ := Option.map_eq_some'.mp h
      subst h2
      exact keeps_append_right u w1 _
        (runElems_keeps u _ _ (fun x _ w2 w3 h3 hp3 => ih x w2 w3 h3 hp3) true _ w1 h1
          (keeps_append_right u w _ hp))
    all_goals simp [ElemPlan.run] at h

theorem Fun_run_keeps (u : Bytes) (hu : ∃ u0 c, u = u0 ++ [c] ∧ c ≠ 44)
    (rec : List instruction → Value → Bytes → Option Bytes)
    (hrec : ∀ plan v w w', rec plan v w = some w' → u <+: w → u <+: w')
    (self : List instruction) (f : Fun instruction) (v : Value) (w w' : Bytes)
    (h : f.run rec self v w = some w') (hp : u <+: w) : u <+: w' := by
  cases f with
  | ptrval conv offset =>
    simp only [Fun.run] at h
    split at h
    · simp only [Option.some.injEq] at h
      subst h
      exact keeps_append_right u w _ hp
    · exact Conv_run_keeps u conv _ w w' h hp
    · cases h
  | ptrstringval conv offset =>
    simp only [Fun.run] at h
    split at h
    · simp only [Option.some.injEq] at h
      subst h
      exact keeps_append_right u w _ hp
    · obtain ⟨w1, h1, h2⟩ := Option.map_eq_some'.mp h
      subst h2
      exact keeps_append_right u w1 _
        (Conv_run_keeps u conv _ _ w1 h1 (keeps_append_right u w _ hp))
    · cases h
  | escapeSlice enc offset =>
    simp only [Fun.run] at h
    split at h
    · exact ElemPlan_run_keeps u rec hrec enc _ w w' h hp
    · cases h
  | arrayElem conv offset i =>
    simp only [Fun.run] at h
    split at h
    · split at h
      · exact Conv_run_keeps u conv _ w w' h hp
      · cases h
    · cases h
  | sliceField enc offset =>
    simp only [Fun.run] at h
    split at h
    · exact ElemPlan_run_keeps u rec hrec enc _ w w' h hp
    · cases h
  | ptrStruct enc offset =>
    simp only [Fun.run] at h
    split at h
    · simp only [Option.some.injEq] at h
      subst h
      exact keeps_append_right u w _ hp
    · exact hrec _ _ w w' h hp
    · cases h
  | structField enc offset =>
    simp only [Fun.run] at h
    split at h
    · exact hrec _ _ w w' h hp
    · cases h
  | trimComma =>
    simp only [Fun.run] at h
    split at h
    · cases h
    · rename_i c hc
      split at h
      · rename_i h44
        simp only [Option.some.injEq] at h
        subst h
        exact keeps_dropLast u w hu hp (by rw [hc, h44])
      · simp only [Option.some.injEq] at h
        subst h
        exact hp

theorem leap_bind_keeps (u : Bytes) (c : Conv) (p : Value) (off : Nat) (w w' : Bytes)
    (h : (leap p off).bind (c.run · w) = some w') (hp : u <+: w) : u <+: w' := by
  obtain ⟨x, _, hx⟩ := Option.bind_eq_some.mp h
  exact Conv_run_keeps u c x w w' hx hp

theorem execSub_keeps (u : Bytes) (hu : ∃ u0 c, u = u0 ++ [c] ∧ c ≠ 44)
    (rec : List instruction → Value → Bytes → Option Bytes)
    (hrec : ∀ plan v w w', rec plan v w = some w' → u <+: w → u <+: w')
    (self : List instruction) (p : Value) (w : Bytes) (ins : instruction) (w' : Bytes)
    (h : execSub rec self p w ins = some w') (hp : u <+: w) : u <+: w' := by
  unfold execSub at h
  split at h
  · simp only [Option.some.injEq] at h
    subst h
    exact keeps_append_right u w _ hp
  split at h
  · exact leap_bind_keeps u _ p _ w w' h hp
  split at h
  · exact leap_bind_keeps u _ p _ w w' h hp
  split at h
  · exact leap_bind_keeps u _ p _ w w' h hp
  · split at h
    · exact Fun_run_keeps u hu rec hrec self _ p w w' h hp
    · cases h

theorem foldlM_keeps {α : Type} (u : Bytes) (f : Bytes → α → Option Bytes) :
    ∀ (l : List α), (∀ x ∈ l, ∀ w w', f w x = some w' → u <+: w → u <+: w') →
      ∀ (w w' : Bytes), l.foldlM f w = some w' → u <+: w → u <+: w' := by
  intro l
  induction l with
  | nil =>
    intro _ w w' h hp
    simp only [List.foldlM, pure, Option.some.injEq] at h
    subst h
    exact hp
  | cons x t ih =>
    intro hf w w' h hp
    simp only [List.foldlM, bind] at h
    obtain ⟨w1, h1, h2⟩ := Option.bind_eq_some.mp h
    exact ih (fun y hy => hf y (List.mem_cons_of_mem _ hy)) w1 w' h2
      (hf x (List.mem_cons_self _ _) w w1 h1 hp)

/-- After the static bytes of an omit group, the rest of the group keeps what the sink
holds up to a byte that is not a comma. -/
theorem omit_rest_keeps (u : Bytes) (hu : ∃ u0 c, u = u0 ++ [c] ∧ c ≠ 44)
    (rec : List instruction → Value → Bytes → Option Bytes)
    (hrec : ∀ plan v w w', rec plan v w = some w' → u <+: w → u <+: w')
    (self : List instruction) (p : Value) (ins : instruction) (w2 w' : Bytes)
    (h : (match ins.isZero with
      | none => none
      | some isZero =>
        match (leap p ins.offset).bind isZero with
        | none => none
        | some true =>
          match ins.fn with
          | some f => f.run rec self p w2
          | none => some w2
        | some false => ins.sub.foldlM (execSub rec self p) w2) = some w')
    (hp : u <+: w2) : u <+: w' := by
  split at h
  · cases h
  · split at h
    · cases h
    · split at h
      · exact Fun_run_keeps u hu rec hrec self _ p w2 w' h hp
      · simp only [Option.some.injEq] at h
        subst h
        exact hp
    · exact foldlM_keeps u _ _
        (fun x _ w3 w4 h4 hp4 => execSub_keeps u hu rec hrec self p w3 x w4 h4 hp4) w2 w' h hp

theorem exec_keeps (u : Bytes) (hu : ∃ u0 c, u = u0 ++ [c] ∧ c ≠ 44)
    (rec : List instruction → Value → Bytes → Option Bytes)
    (hrec : ∀ plan v w w', rec plan v w = some w' → u <+: w → u <+: w')
    (self : List instruction) (p : Value) (w : Bytes) (ins : instruction) (w' : Bytes)
    (h : exec rec self p w ins = some w') (hp : u <+: w) : u <+: w' := by
  unfold exec at h
  split at h
  · simp only [Option.some.injEq] at h
    subst h
    exact keeps_append_right u w _ hp
  split at h
  · exact leap_bind_keeps u _ p _ w w' h hp
  split at h
  · exact leap_bind_keeps u _ p _ w w' h hp
  split at h
  · exact leap_bind_keeps u _ p _ w w' h hp
  · split at h
    · exact omit_rest_keeps u hu rec hrec self p ins _ w' h (keeps_append_right u w _ hp)
    · split at h
      · exact Fun_run_keeps u hu rec hrec self _ p w w' h hp
      · cases h

/-- What the sink holds up to a byte that is not a comma stays in the sink when
`Marshal` runs a plan, whatever the plan. -/
theorem Marshal_keeps (u : Bytes) (hu : ∃ u0 c, u = u0 ++ [c] ∧ c ≠ 44) :
    ∀ (fuel : Nat) (plan : List instruction) (p : Value) (w w' : Bytes),
      Marshal fuel plan p w = some w' → u <+: w → u <+: w' := by
  intro fuel
  induction fuel with
  | zero =>
    intro plan p w w' h
    cases h
  | succ n ih =>
    intro plan p w w' h hp
    rw [Marshal] at h
    exact foldlM_keeps u _ plan
      (fun x _ w3 w4 h4 hp4 => exec_keeps u hu (Marshal n) ih plan p w3 x w4 h4 hp4) w w' h hp

/-- The first instruction of a plan writes `{` first, and what it writes after it
keeps the `{`. -/
theorem exec_head_keeps (rec : List instruction → Value → Bytes → Option Bytes)
    (hrec : ∀ u, (∃ u0 c, u = u0 ++ [c] ∧ c ≠ 44) → ∀ plan v w w',
      rec plan v w = some w' → u <+: w → u <+: w')
    (self : List instruction) (p : Value) (w : Bytes) (x : instruction) (w1 : Bytes)
    (hx : OpensObject x.static x.kind x.leapFun) (h : exec rec self p w x = some w1) :
    (w ++ [123]) <+: w1 := by
  obtain ⟨hs, hk, hl⟩ := hx
  obtain ⟨st, hst⟩ : ∃ st, x.static = 123 :: st := by
    cases hx : x.static with
    | nil => rw [hx] at hs; cases hs
    | cons c st =>
      rw [hx] at hs
      simp only [List.head?_cons, Option.some.injEq] at hs
      exact ⟨st, by rw [hs]⟩
  have hpre : (w ++ [123]) <+: (w ++ x.static) := ⟨st, by rw [hst]; simp⟩
  unfold exec at h
  rcases hk with hk | hk
  · rw [if_pos hk] at h
    simp only [Option.some.injEq] at h
    subst h
    exact hpre
  · have h1 : ¬ x.kind = kindStatic := by rw [hk]; decide
    have h2 : ¬ x.kind = kindStringField := by rw [hk]; decide
    have h3 : ¬ x.kind = kindInt := by rw [hk]; decide
    rw [if_neg h1, if_neg h2, if_neg h3, hl] at h
    simp only [hk, if_true] at h
    exact omit_rest_keeps (w ++ [123]) ⟨w, 123, rfl, by decide⟩ rec
      (hrec _ ⟨w, 123, rfl, by decide⟩) self p x _ w1 h hpre

theorem foldlM_concat {α : Type} (f : Bytes → α → Option Bytes) (l : List α) (x : α)
    (w out : Bytes) (h : (l ++ [x]).foldlM f w = some out) :
    ∃ w1, l.foldlM f w = some w1 ∧ f w1 x = some out := by
  rw [List.foldlM_append] at h
  obtain ⟨w1, h1, h2⟩ := Option.bind_eq_some.mp h
  refine ⟨w1, h1, ?_⟩
  simp only [List.foldlM, bind, pure] at h2
  obtain ⟨w2, h3, h4⟩ := Option.bind_eq_some.mp h2
  simp only [Option.some.injEq] at h4
  rw [← h4]
  exact h3

/-- C16: for every shape that `NewStructEncoder` accepts and every instance, the
bytes that `Marshal` appends to the sink, when it returns, are `{`, then some bytes,
then `}`: they begin with `{` and end with `}`, with nothing before or after; and for
a shape of supported fields and an instance of it, `Marshal` returns, given fuel for
the depth of the instance. -/
theorem marshal_writes_object (env : TypeEnv) (F : Nat) (tt : GoType) (tv : ShapeVal)
    (e : StructEncoder) (hc : NewStructEncoder env F tt tv = .ok e) :
    (∀ (M : Nat) (p : Value) (w out : Bytes), Marshal M e.instructions p w = some out →
        ∃ body, out = w ++ [123] ++ body ++ [125]) ∧
      (∀ (id M : Nat) (vs : List Value) (ents : List Bytes) (w : Bytes), tt = .struct id →
        tv = .zero → (∀ id, ∀ f ∈ env id, f.supported = true) →
        entriesText env (env id) vs = some ents → (Value.struct vs).depth ≤ M →
        ∃ body, Marshal M e.instructions (.struct vs) w
          = some (w ++ [123] ++ body ++ [125])) := by
  constructor
  · intro M p w out hm
    obtain ⟨_, _, ⟨x, t, hxt, hx⟩, init, S, hinit, hSk, hSl⟩ :=
      NewStructEncoder_shape env F tt tv e hc
    cases M with
    | zero => cases hm
    | succ M =>
      rw [Marshal] at hm
      have hpre : (w ++ [123]) <+: out := by
        have hm' : List.foldlM (exec (Marshal M) e.instructions p) w (x :: t) = some out := by
          rw [← hxt]; exact hm
        simp only [List.foldlM, bind] at hm'
        obtain ⟨w1, h1, h2⟩ := Option.bind_eq_some.mp hm'
        have hp1 := exec_head_keeps (Marshal M) (fun u hu => Marshal_keeps u hu M)
          e.instructions p w x w1 hx h1
        exact foldlM_keeps (w ++ [123]) _ t
          (fun y _ w3 w4 h4 hp4 => exec_keeps (w ++ [123]) ⟨w, 123, rfl, by decide⟩
            (Marshal M) (Marshal_keeps _ ⟨w, 123, rfl, by decide⟩ M) e.instructions p w3 y
            w4 h4 hp4) w1 out h2 hp1
      have hlast : out.getLast? = some 125 := by
        have hm' : List.foldlM (exec (Marshal M) e.instructions p) w (init ++ [S])
            = some out := by
          rw [← hinit]; exact hm
        obtain ⟨w1, _, h2⟩ := foldlM_concat _ init S w out hm'
        unfold exec at h2
        rw [if_pos hSk] at h2
        simp only [Option.some.injEq] at h2
        subst h2
        cases hS : S.static with
        | nil => rw [hS] at hSl; cases hSl
        | cons c st =>
          rw [← hS, List.getLast?_append, hSl]
          rfl
      obtain ⟨r, hr⟩ := hpre
      rcases List.eq_nil_or_concat r with h0 | ⟨body, y, h0⟩
      · subst h0
        rw [← hr] at hlast
        simp only [List.append_nil, List.getLast?_append, List.getLast?_singleton,
          Option.or_some, Option.some.injEq] at hlast
        exact absurd hlast (by decide)
      · subst h0
        rw [← hr, List.concat_eq_append, ← List.append_assoc] at hlast
        simp only [List.getLast?_append, List.getLast?_singleton, Option.or_some,
          Option.some.injEq] at hlast
        subst hlast
        exact ⟨body, by rw [← hr, List.concat_eq_append]; simp⟩
  · intro id M vs ents w htt htv hok hent hd
    subst htt
    subst htv
    refine ⟨List.intercalate [44] ents, ?_⟩
    rw [Marshal_text env hok M F id e hc vs ents w hd hent]
    simp [object]

theorem marshal_writes_object_witness :
    Marshal 2 (compiled (NewStructEncoder envOmitPtr 2 (.struct 0) .zero)).instructions
        (.struct [.int 7, .ptr (some (.struct [.int 1])), .bool false]) []
      = some (bs "\x7b\"a\":7,\"p\":\x7b\"x\":1\x7d\x7d") ∧
    ∃ body, bs "\x7b\"a\":7,\"p\":\x7b\"x\":1\x7d\x7d" = [] ++ [123] ++ body ++ [125] :=
  ⟨by decide, (marshal_writes_object envOmitPtr 2 (.struct 0) .zero
    (compiled (NewStructEncoder envOmitPtr 2 (.struct 0) .zero)) rfl).1 2
    (.struct [.int 7, .ptr (some (.struct [.int 1])), .bool false]) []
    (bs "\x7b\"a\":7,\"p\":\x7b\"x\":1\x7d\x7d") (by decide)⟩

/-! ## Tag options -/

theorem commaTokens_no_comma : ∀ s : Bytes, (44 : UInt8) ∉ s → commaTokens s = [s] := by
  intro s
  induction s with
  | nil => intro _; rfl
  | cons c rest ih =>
    intro h
    have hc : c ≠ 44 := fun e => h (e ▸ List.mem_cons_self _ _)
    have hr : (44 : UInt8) ∉ rest := fun e => h (List.mem_cons_of_mem _ e)
    rw [commaTokens, if_neg hc, ih hr]

theorem commaTokens_comma : ∀ s : Bytes, (44 : UInt8) ∈ s →
    commaTokens s = s.take (s.indexOf (44 : UInt8))
      :: commaTokens (s.drop (s.indexOf (44 : UInt8) + 1)) := by
  intro s
  induction s with
  | nil => intro h; cases h
  | cons c rest ih =>
    intro h
    by_cases hc : c = 44
    · subst hc
      rw [commaTokens, if_pos rfl]
      simp
    · have hr : (44 : UInt8) ∈ rest := by
        rcases List.mem_cons.mp h with h1 | h1
        · exact absurd h1.symm hc
        · exact h1
      rw [commaTokens, if_neg hc, ih hr, List.indexOf_cons_ne _ hc, List.take_succ_cons,
        List.drop_succ_cons]

theorem containsLoop_spec (n : Bytes) (hn : n ≠ []) :
    ∀ (fuel : Nat) (s : Bytes), s.length < fuel →
      containsLoop fuel s n = some (decide (n ∈ commaTokens s)) := by
  intro fuel
  induction fuel with
  | zero => intro s h; omega
  | succ fuel ih =>
    intro s hlen
    rw [containsLoop]
    by_cases hs : s = []
    · subst hs
      simp only [if_true, commaTokens, List.mem_singleton]
      simp [hn]
    · rw [if_neg hs]
      by_cases hc : (44 : UInt8) ∈ s
      · have hi : indexComma s = ((s.indexOf (44 : UInt8) : Nat) : Int) := by
          unfold indexComma; rw [if_pos hc]
        have hge : ((s.indexOf (44 : UInt8) : Nat) : Int) ≥ 0 := by omega
        simp only [hi, hge, if_true, Int.toNat_ofNat]
        rw [commaTokens_comma s hc]
        by_cases he : s.take (s.indexOf (44 : UInt8)) = n
        · rw [if_pos he]
          simp [he]
        · rw [if_neg he]
          have hlt : (s.drop (s.indexOf (44 : UInt8) + 1)).length < fuel := by
            rw [List.length_drop]
            have : 0 < s.length := List.length_pos.mpr hs
            omega
          rw [ih _ hlt]
          congr 1
          have he' : ¬ n = s.take (s.indexOf (44 : UInt8)) := fun e => he e.symm
          simp [he']
      · have hi : indexComma s = -1 := by
          unfold indexComma; rw [if_neg hc]
        have hge : ¬ (-1 : Int) ≥ 0 := by omega
        simp only [hi, hge, if_false]
        rw [commaTokens_no_comma s hc]
        by_cases he : s = n
        · rw [if_pos he]
          simp [he]
        · rw [if_neg he]
          cases fuel with
          | zero =>
            have : 0 < s.length := List.length_pos.mpr hs
            omega
          | succ f =>
            rw [containsLoop, if_pos rfl]
            have he' : ¬ n = s := fun e => he e.symm
            simp [he']

/-- C21: for every options string `o` and every non-empty option name `n`,
`o.Contains(n)` is true exactly when `n` equals one of the comma-separated tokens of
`o`; `Contains` on the empty options string is false; and the loop of `Contains`
returns for every `o`, within as many rounds as `o` has bytes plus one. A token that
has the name as a prefix, a suffix or a part only does not match. -/
theorem Contains_spec (o n : Bytes) (hn : n ≠ []) :
    (tagOptions.Contains o n = true ↔ n ∈ commaTokens o) ∧
      tagOptions.Contains [] n = false ∧
      (∃ b, containsLoop (o.length + 1) o n = some b) ∧
      tagOptions.Contains (bs "omitempty,rawdata,xraw,unescaped") (bs "raw") = false ∧
      tagOptions.Contains (bs "omitempty,raw,escape") (bs "raw") = true := by
  have h := containsLoop_spec n hn (o.length + 1) o (Nat.lt_succ_self _)
  refine ⟨?_, rfl, ⟨_, h⟩, by decide, by decide⟩
  unfold tagOptions.Contains
  by_cases h0 : o.length = 0
  · have : o = [] := List.length_eq_zero.mp h0
    subst this
    simp [commaTokens, hn]
  · rw [if_neg h0, h]
    simp

theorem Contains_spec_witness :
    (tagOptions.Contains (bs "stringer,omitempty") (bs "omitempty") = true
      ↔ bs "omitempty" ∈ commaTokens (bs "stringer,omitempty")) ∧
    commaTokens (bs "stringer,omitempty") = [bs "stringer", bs "omitempty"] :=
  ⟨(Contains_spec (bs "stringer,omitempty") (bs "omitempty") (by decide)).1, by decide⟩

/-! ## Priority of the directives -/

theorem Contains_self_stringer :
    tagOptions.Contains (bs "stringer") (bs "stringer") = true ∧
    tagOptions.Contains (bs "encoder") (bs "stringer") = false ∧
    tagOptions.Contains (bs "encoder") (bs "encoder") = true ∧
    tagOptions.Contains (bs "raw") (bs "stringer") = false ∧
    tagOptions.Contains (bs "raw") (bs "encoder") = false ∧
    tagOptions.Contains (bs "raw") (bs "raw") = true ∧
    tagOptions.Contains (bs "escape") (bs "stringer") = false ∧
    tagOptions.Contains (bs "escape") (bs "encoder") = false ∧
    tagOptions.Contains (bs "escape") (bs "raw") = false ∧
    tagOptions.Contains (bs "escape") (bs "escape") = true := by
  decide

/-- C22: the `switch` of `NewStructEncoder` resolves the directives in the order
stringer, encoder, raw, escape, default, and the first one that applies alone decides
how the value is compiled: with any options, the field is compiled as with that one
directive as its only option (a stringer directive applies when the type has a method
`String`). A string field tagged `raw,escape` is written verbatim, a field tagged
`encoder,raw` or `raw,encoder` is written by its encoder, and a field tagged
`encoder,stringer` whose type has both methods is written by `String`, in quotes. -/
theorem directive_priority (env : TypeEnv) (fuel : Nat)
    (newEnc : GoType → ShapeVal → Res (List instruction)) (e : StructEncoder)
    (opts : tagOptions) :
    ((opts.Contains (bs "stringer") && e.f.methods.hasString) = true →
        e.fieldValue env fuel newEnc opts = e.fieldValue env fuel newEnc (bs "stringer") ∧
        e.fieldValue env fuel newEnc opts = .ok e.optInstrStringer) ∧
      ((opts.Contains (bs "stringer") && e.f.methods.hasString) = false →
        opts.Contains (bs "encoder") = true →
        e.fieldValue env fuel newEnc opts = e.fieldValue env fuel newEnc (bs "encoder") ∧
        e.fieldValue env fuel newEnc opts
          = .ok (if e.f.methods.hasEncodeJSON = true then e.optInstrEncoderWriter
              else e.optInstrEncoder)) ∧
      ((opts.Contains (bs "stringer") && e.f.methods.hasString) = false →
        opts.Contains (bs "encoder") = false → opts.Contains (bs "raw") = true →
        e.fieldValue env fuel newEnc opts = e.fieldValue env fuel newEnc (bs "raw") ∧
        e.fieldValue env fuel newEnc opts = .ok e.optInstrRaw) ∧
      ((opts.Contains (bs "stringer") && e.f.methods.hasString) = false →
        opts.Contains (bs "encoder") = false → opts.Contains (bs "raw") = false →
        opts.Contains (bs "escape") = true →
        e.fieldValue env fuel newEnc opts = e.fieldValue env fuel newEnc (bs "escape") ∧
        e.fieldValue env fuel newEnc opts
          = e.optInstrEscape (fun t => newEnc t .zero)) ∧
      ((opts.Contains (bs "stringer") && e.f.methods.hasString) = false →
        opts.Contains (bs "encoder") = false → opts.Contains (bs "raw") = false →
        opts.Contains (bs "escape") = false →
        e.fieldValue env fuel newEnc opts = e.fieldValue env fuel newEnc []) ∧
      marshalShape (envTagged (.basic .String) "v,raw,escape" Methods.none) 1 (.struct 0)
          (.struct [.str (bs "a\"b\\c")]) = some (bs "\x7b\"v\":a\"b\\c\x7d") ∧
      marshalShape (envTagged (.basic .String) "v,escape,raw" Methods.none) 1 (.struct 0)
          (.struct [.str (bs "a\"b\\c")]) = some (bs "\x7b\"v\":a\"b\\c\x7d") ∧
      marshalShape (envTagged (.struct 1) "v,encoder,raw" encoderOnly) 1 (.struct 0)
          (.struct [.struct []]) = some (bs "\x7b\"v\":A\x7d") ∧
      marshalShape (envTagged (.struct 1) "v,raw,encoder" encoderOnly) 1 (.struct 0)
          (.struct [.struct []]) = some (bs "\x7b\"v\":A\x7d") ∧
      marshalShape (envTagged (.struct 1) "v,encoder,stringer" stringerEncoder) 1 (.struct 0)
          (.struct [.struct []]) = some (bs "\x7b\"v\":\"S\"\x7d") := by
  obtain ⟨c1, c2, c3, c4, c5, c6, c7, c8, c9, c10⟩ := Contains_self_stringer
  have cnil : ∀ n, tagOptions.Contains [] n = false := fun _ => rfl
  have hs : ∀ o : tagOptions, (o.Contains (bs "stringer") && e.f.methods.hasString) = true →
      e.fieldValue env fuel newEnc o = .ok e.optInstrStringer := by
    intro o h
    unfold StructEncoder.fieldValue
    rw [if_pos h]
    rfl
  have he : ∀ o : tagOptions, (o.Contains (bs "stringer") && e.f.methods.hasString) = false →
      o.Contains (bs "encoder") = true →
      e.fieldValue env fuel newEnc o
        = .ok (if e.f.methods.hasEncodeJSON = true then e.optInstrEncoderWriter
            else e.optInstrEncoder) := by
    intro o h1 h2
    unfold StructEncoder.fieldValue
    rw [if_neg (by rw [h1]; decide), if_pos h2]
    split <;> rfl
  have hr : ∀ o : tagOptions, (o.Contains (bs "stringer") && e.f.methods.hasString) = false →
      o.Contains (bs "encoder") = false → o.Contains (bs "raw") = true →
      e.fieldValue env fuel newEnc o = .ok e.optInstrRaw := by
    intro o h1 h2 h3
    unfold StructEncoder.fieldValue
    rw [if_neg (by rw [h1]; decide), if_neg (by rw [h2]; decide), if_pos h3]
    rfl
  have hx : ∀ o : tagOptions, (o.Contains (bs "stringer") && e.f.methods.hasString) = false →
      o.Contains (bs "encoder") = false → o.Contains (bs "raw") = false →
      o.Contains (bs "escape") = true →
      e.fieldValue env fuel newEnc o = e.optInstrEscape (fun t => newEnc t .zero) := by
    intro o h1 h2 h3 h4
    unfold StructEncoder.fieldValue
    rw [if_neg (by rw [h1]; decide), if_neg (by rw [h2]; decide), if_neg (by rw [h3]; decide),
      if_pos h4]
  have hd : ∀ o o' : tagOptions,
      (o.Contains (bs "stringer") && e.f.methods.hasString) = false →
      o.Contains (bs "encoder") = false → o.Contains (bs "raw") = false →
      o.Contains (bs "escape") = false →
      (o'.Contains (bs "stringer") && e.f.methods.hasString) = false →
      o'.Contains (bs "encoder") = false → o'.Contains (bs "raw") = false →
      o'.Contains (bs "escape") = false →
      e.fieldValue env fuel newEnc o = e.fieldValue env fuel newEnc o' := by
    intro o o' h1 h2 h3 h4 g1 g2 g3 g4
    unfold StructEncoder.fieldValue
    simp only [h1, h2, h3, h4, g1, g2, g3, g4, Bool.false_eq_true, if_false]
  refine ⟨?_, ?_, ?_, ?_, ?_, by decide, by decide, by decide, by decide, by decide⟩
  · intro h
    have h' : e.f.methods.hasString = true := by
      simp only [Bool.and_eq_true] at h
      exact h.2
    exact ⟨(hs opts h).trans (hs _ (by rw [c1, h']; rfl)).symm, hs opts h⟩
  · intro h1 h2
    exact ⟨(he opts h1 h2).trans (he _ (by rw [c2]; rfl) c3).symm, he opts h1 h2⟩
  · intro h1 h2 h3
    exact ⟨(hr opts h1 h2 h3).trans (hr _ (by rw [c4]; rfl) c5 c6).symm, hr opts h1 h2 h3⟩
  · intro h1 h2 h3 h4
    exact ⟨(hx opts h1 h2 h3 h4).trans (hx _ (by rw [c7]; rfl) c8 c9 c10).symm,
      hx opts h1 h2 h3 h4⟩
  · intro h1 h2 h3 h4
    exact hd opts [] h1 h2 h3 h4 (by rw [cnil]; rfl) (cnil _) (cnil _) (cnil _)

/-! ## Shapes without keyed fields -/

/-- C28: for a struct type none of whose fields has an output key, a type without
fields included, `NewStructEncoder` returns a plan of one instruction, the static
instruction `{}`, and `Marshal` appends exactly `{}` for every instance. -/
theorem no_keyed_fields_plan (env : TypeEnv) (F id : Nat) (tv : ShapeVal)
    (hun : ∀ f ∈ env id, f.key = []) :
    ∃ e, NewStructEncoder env (F + 1) (.struct id) tv = .ok e ∧
      e.instructions = [staticInstr (bs "\x7b\x7d")] ∧
      planOutline e.instructions = [(kindStatic, bs "\x7b\x7d")] ∧
      ∀ (M : Nat) (p : Value) (w : Bytes),
        Marshal (M + 1) e.instructions p w = some (w ++ bs "\x7b\x7d") := by
  obtain ⟨e1, hl, hi, hb, hc, ho⟩ := fieldLoop_unkeyed env F
    (fun t v => (NewStructEncoder env F t v).map (·.instructions)) (env id) 0
    (StructEncoder.start (.struct id) tv) hun
  have hb' : e1.cb = bs "\x7b" := hb
  have hc' : e1.cpos = 0 := hc
  have ho' : e1.o = false := ho
  have hi' : e1.instructions = [] := hi
  have hs : e1.setupLastField = .ok e1 := by
    unfold StructEncoder.setupLastField
    rw [if_neg (by rw [ho']; decide), hb']
    rfl
  have hdrop : (e1.chunk (bs "\x7d")).cb.drop (e1.chunk (bs "\x7d")).cpos = bs "\x7b\x7d" := by
    simp only [StructEncoder.chunk_cb, StructEncoder.chunk_cpos, hb', hc']
    rfl
  have hins : (e1.chunk (bs "\x7d")).flunk.instructions = [staticInstr (bs "\x7b\x7d")] := by
    rw [StructEncoder.flunk_instructions _ (by rw [hdrop]; decide),
      StructEncoder.appendInstruction_top, hdrop]
    · change e1.instructions ++ _ = _
      rw [hi']
      rfl
    · exact ho'
  refine ⟨(e1.chunk (bs "\x7d")).flunk, ?_, hins, ?_, ?_⟩
  · rw [NewStructEncoder_unfold, hl]
    simp only [Except.bind, hs]
  · rw [hins]
    rfl
  · intro M p w
    rw [hins, Marshal]
    rfl

theorem no_keyed_fields_plan_witness :
    (∃ e, NewStructEncoder envNoKeys 1 (.struct 0) .zero = .ok e ∧
      e.instructions = [staticInstr (bs "\x7b\x7d")] ∧
      planOutline e.instructions = [(kindStatic, bs "\x7b\x7d")] ∧
      ∀ (M : Nat) (p : Value) (w : Bytes),
        Marshal (M + 1) e.instructions p w = some (w ++ bs "\x7b\x7d")) ∧
    marshalShape envNoKeys 1 (.struct 0) (.struct [.int 3, .str (bs "x"), .slice [.int 1]])
      = some (bs "\x7b\x7d") ∧
    marshalShape envNoKeys 1 (.struct 1) (.struct []) = some (bs "\x7b\x7d") :=
  ⟨no_keyed_fields_plan envNoKeys 0 0 .zero (by decide), by decide, by decide⟩

/-! ## Sequences -/

theorem slice_field_value_aux (env : TypeEnv) (hok : ∀ id, ∀ f ∈ env id, f.supported = true)
    (F M id : Nat) (e : StructEncoder)
    (hc : NewStructEncoder env F (.struct id) .zero = .ok e)
    (fs1 fs2 : List StructField) (f : StructField) (henv : env id = fs1 ++ f :: fs2)
    (vs1 vs2 : List Value) (xs : List Value) (ts : List Bytes) (ents1 ents2 : List Bytes)
    (t : GoType) (hkey : f.key ≠ []) (hty : f.Typ = .slice t)
    (hraw : f.opts.Contains (bs "raw") = false) (hnot : f.omitted (.slice xs) = false)
    (hts : elemsText env t xs = some ts)
    (h1 : entriesText env fs1 vs1 = some ents1) (h2 : entriesText env fs2 vs2 = some ents2)
    (hd : (Value.struct (vs1 ++ .slice xs :: vs2)).depth ≤ M) (w : Bytes) :
    Marshal M e.instructions (.struct (vs1 ++ .slice xs :: vs2)) w
        = some (w ++ object (ents1
            ++ [[34] ++ f.key ++ [34, 58] ++ ([91] ++ List.intercalate [44] ts ++ [93])]
            ++ ents2)) := by
  apply Marshal_at_field env hok F M id e hc fs1 fs2 f henv vs1 vs2 (.slice xs) ents1 ents2 _
    hkey (by rw [hty]; rfl) h1 h2 _ hd w
  refine Or.inr ⟨hnot, _, ?_, rfl⟩
  simp only [fieldText, hraw, hty, valueText, hts, Option.map_some', Bool.false_eq_true,
    if_false]

/-- C25: in a compiled shape of supported fields, for a field of slice type without the
directive `raw` that holds the elements `xs` and is not left out by `omitempty`, the
value written after the key is `[`, the texts of the elements in order with one `,`
between two of them, and `]`; for a slice without elements it is exactly `[]`. -/
theorem slice_field_value (env : TypeEnv) (hok : ∀ id, ∀ f ∈ env id, f.supported = true)
    (F M id : Nat) (e : StructEncoder)
    (hc : NewStructEncoder env F (.struct id) .zero = .ok e)
    (fs1 fs2 : List StructField) (f : StructField) (henv : env id = fs1 ++ f :: fs2)
    (vs1 vs2 : List Value) (xs : List Value) (ts : List Bytes) (ents1 ents2 : List Bytes)
    (t : GoType) (hkey : f.key ≠ []) (hty : f.Typ = .slice t)
    (hraw : f.opts.Contains (bs "raw") = false) (hnot : f.omitted (.slice xs) = false)
    (hts : elemsText env t xs = some ts)
    (h1 : entriesText env fs1 vs1 = some ents1) (h2 : entriesText env fs2 vs2 = some ents2)
    (hd : (Value.struct (vs1 ++ .slice xs :: vs2)).depth ≤ M) (w : Bytes) :
    Marshal M e.instructions (.struct (vs1 ++ .slice xs :: vs2)) w
        = some (w ++ object (ents1
            ++ [[34] ++ f.key ++ [34, 58] ++ ([91] ++ List.intercalate [44] ts ++ [93])]
            ++ ents2)) ∧
      List.Forall₂ (fun x a => valueText env t x = some a) xs ts ∧
      (xs = [] → [91] ++ List.intercalate [44] ts ++ [93] = bs "[]") := by
  refine ⟨?_, elemsText_forall env t _ xs ts hts (fun _ _ _ h => h), ?_⟩
  · exact slice_field_value_aux env hok F M id e hc fs1 fs2 f henv vs1 vs2 xs ts ents1 ents2 t
      hkey hty hraw hnot hts h1 h2 hd w
  · intro hx
    subst hx
    simp only [elemsText, Option.some.injEq] at hts
    subst hts
    rfl

theorem envSlices_supported : ∀ id, ∀ f ∈ envSlices id, f.supported = true := by
  intro id
  match id with
  | 0 => decide
  | n + 1 => intro f hf; simp [envSlices] at hf

theorem slice_field_value_witness :
    Marshal 1 (compiled (NewStructEncoder envSlices 1 (.struct 0) .zero)).instructions
        (.struct ([] ++ .slice [.int 1, .int 2, .int 3] :: [.slice [], ptrStrings []])) []
      = some (bs "\x7b\"a\":[1,2,3],\"b\":[],\"p\":[]\x7d") :=
  ((slice_field_value envSlices envSlices_supported 1 1 0
    (compiled (NewStructEncoder envSlices 1 (.struct 0) .zero)) rfl
    [] [mkField "B" (.slice (.basic .String)) "b",
      mkField "P" (.slice (.ptr (.basic .String))) "p"]
    (mkField "A" (.slice (.basic .Int)) "a") rfl
    [] [.slice [], ptrStrings []] [.int 1, .int 2, .int 3] [bs "1", bs "2", bs "3"]
    [] [bs "\"b\":[]", bs "\"p\":[]"] (.basic .Int) (by decide) rfl (by decide) (by decide)
    (by decide) (by decide) (by decide) (by decide) []).1).trans (by decide)

theorem elemsText_ptrStrings (env : TypeEnv) : ∀ os : List (Option Bytes),
    elemsText env (.ptr (.basic .String)) (os.map (fun o => .ptr (o.map Value.str)))
      = some (os.map optStringText) := by
  intro os
  induction os with
  | nil => rfl
  | cons o rest ih =>
    rw [List.map_cons, elemsText, ih]
    cases o <;> rfl

/-- C26: in a compiled shape of supported fields, for a field of type `[]*string`
that is not left out by `omitempty`, the value written after the key is `[`, then for
each element in order the bare bytes `null` if the pointer is nil and the string
between double quotes if not, with one `,` between two elements, then `]`. The
pointers to `x`, nil and `x` give `["x",null,"x"]`. -/
theorem optional_reference_slice (env : TypeEnv)
    (hok : ∀ id, ∀ f ∈ env id, f.supported = true)
    (F M id : Nat) (e : StructEncoder)
    (hc : NewStructEncoder env F (.struct id) .zero = .ok e)
    (fs1 fs2 : List StructField) (f : StructField) (henv : env id = fs1 ++ f :: fs2)
    (vs1 vs2 : List Value) (os : List (Option Bytes)) (ents1 ents2 : List Bytes)
    (hkey : f.key ≠ []) (hty : f.Typ = .slice (.ptr (.basic .String)))
    (hraw : f.opts.Contains (bs "raw") = false) (hnot : f.omitted (ptrStrings os) = false)
    (h1 : entriesText env fs1 vs1 = some ents1) (h2 : entriesText env fs2 vs2 = some ents2)
    (hd : (Value.struct (vs1 ++ ptrStrings os :: vs2)).depth ≤ M) (w : Bytes) :
    Marshal M e.instructions (.struct (vs1 ++ ptrStrings os :: vs2)) w
        = some (w ++ object (ents1
            ++ [[34] ++ f.key ++ [34, 58]
              ++ ([91] ++ List.intercalate [44] (os.map optStringText) ++ [93])]
            ++ ents2)) ∧
      [91] ++ List.intercalate [44]
          ([some (bs "x"), none, some (bs "x")].map optStringText) ++ [93]
        = bs "[\"x\",null,\"x\"]" := by
  refine ⟨?_, by decide⟩
  exact (slice_field_value_aux env hok F M id e hc fs1 fs2 f henv vs1 vs2 _ _ ents1 ents2 _ hkey
    hty hraw hnot (elemsText_ptrStrings env os) h1 h2 hd w)

theorem optional_reference_slice_witness :
    Marshal 1 (compiled (NewStructEncoder envSlices 1 (.struct 0) .zero)).instructions
        (.struct ([.slice [], .slice [.str (bs "s")]]
          ++ ptrStrings [some (bs "x"), none, some (bs "x")] :: [])) []
      = some (bs "\x7b\"a\":[],\"b\":[\"s\"],\"p\":[\"x\",null,\"x\"]\x7d") :=
  ((optional_reference_slice envSlices envSlices_supported 1 1 0
    (compiled (NewStructEncoder envSlices 1 (.struct 0) .zero)) rfl
    [mkField "A" (.slice (.basic .Int)) "a", mkField "B" (.slice (.basic .String)) "b"] []
    (mkField "P" (.slice (.ptr (.basic .String))) "p") rfl
    [.slice [], .slice [.str (bs "s")]] [] [some (bs "x"), none, some (bs "x")]
    [bs "\"a\":[]", bs "\"b\":[\"s\"]"] [] (by decide) rfl (by decide) (by decide)
    (by decide) (by decide) (by decide) []).1).trans (by decide)

/-! ## Pointers to primitive kinds -/

theorem primText_hasKind (k : Kind) (x : Value) (a : Bytes) (h : primText k x = some a) :
    x.hasKind k = true := by
  cases k <;> cases x <;> first | rfl | (simp [primText] at h)

theorem Value.depth_at (vs1 vs2 : List Value) (v : Value) :
    (Value.struct (vs1 ++ v :: vs2)).depth
      = max (Value.maxDepth vs1) (max v.depth (Value.maxDepth vs2)) + 1 := by
  rw [Value.depth, Value.maxDepth_append, Value.maxDepth]

/-- C29: for a primitive kind `k` (boolean, integer, float, string), in compiled
shapes of supported fields, a keyed field of type pointer to `k` whose pointer is not
nil is written byte for byte like an inline field of type `k`, with the same tag, that
holds the pointee: the key, then the text of the pointee, bare for booleans and
numbers and between double quotes for strings. For a pointer to a string the `switch`
compiles `ptrstringval`, whose instruction writes the quotes when it runs, and `null`
without quotes for a nil pointer. -/
theorem present_pointer_like_inline (env : TypeEnv)
    (hok : ∀ id, ∀ f ∈ env id, f.supported = true)
    (F F' M id id' : Nat) (e e' : StructEncoder)
    (hc : NewStructEncoder env F (.struct id) .zero = .ok e)
    (hc' : NewStructEncoder env F' (.struct id') .zero = .ok e')
    (fs1 fs2 : List StructField) (f f' : StructField) (henv : env id = fs1 ++ f :: fs2)
    (henv' : env id' = fs1 ++ f' :: fs2) (k : Kind) (hk : isPrimKind k = true)
    (hty : f.Typ = .ptr (.basic k)) (hty' : f'.Typ = .basic k) (htag : f'.Tag = f.Tag)
    (hkey : f.key ≠ []) (hraw : f.opts.Contains (bs "raw") = false)
    (vs1 vs2 : List Value) (x : Value) (a : Bytes) (hx : primText k x = some a)
    (hnot : f'.omitted x = false) (ents1 ents2 : List Bytes)
    (h1 : entriesText env fs1 vs1 = some ents1) (h2 : entriesText env fs2 vs2 = some ents2)
    (hd : (Value.struct (vs1 ++ x :: vs2)).depth ≤ M) (w : Bytes) :
    Marshal M e.instructions (.struct (vs1 ++ .ptr (some x) :: vs2)) w
        = Marshal M e'.instructions (.struct (vs1 ++ x :: vs2)) w ∧
      Marshal M e'.instructions (.struct (vs1 ++ x :: vs2)) w
        = some (w ++ object (ents1 ++ [[34] ++ f.key ++ [34, 58] ++ a] ++ ents2)) ∧
      (∀ s, k = .String → x = .str s → a = [34] ++ s ++ [34]) ∧
      (∀ (fuel : Nat) (newEnc : GoType → ShapeVal → Res (List instruction))
        (st : StructEncoder), st.f = f → k = .String →
        (f.opts.Contains (bs "stringer") && f.methods.hasString) = false →
        f.opts.Contains (bs "encoder") = false → f.opts.Contains (bs "escape") = false →
        st.fieldValue env fuel newEnc f.opts = .ok (st.ptrstringval .ptrStringToBuf)) ∧
      (∀ (rec : List instruction → Value → Bytes → Option Bytes) (self : List instruction)
        (off : Nat) (p : Value) (s b : Bytes), leap p off = some (.ptr (some (.str s))) →
        (Fun.ptrstringval .ptrStringToBuf off).run rec self p b
          = some (b ++ [34] ++ s ++ [34])) ∧
      (∀ (rec : List instruction → Value → Bytes → Option Bytes) (self : List instruction)
        (off : Nat) (p : Value) (b : Bytes), leap p off = some (.ptr none) →
        (Fun.ptrstringval .ptrStringToBuf off).run rec self p b = some (b ++ bs "null")) := by
  have hkey' : f'.key ≠ [] := by
    unfold StructField.key at hkey ⊢
    rw [htag]; exact hkey
  have hkeyeq : f'.key = f.key := by
    unfold StructField.key
    rw [htag]
  have hraw' : f'.opts.Contains (bs "raw") = false := by
    unfold StructField.opts at hraw ⊢
    rw [htag]; exact hraw
  have hdp : (Value.struct (vs1 ++ .ptr (some x) :: vs2)).depth ≤ M := by
    rw [Value.depth_at] at hd ⊢
    simpa only [Value.depth] using hd
  have r1 := Marshal_at_field env hok F M id e hc fs1 fs2 f henv vs1 vs2 (.ptr (some x)) ents1
    ents2 [[34] ++ f.key ++ [34, 58] ++ a] hkey (by rw [hty]; rfl) h1 h2
    (Or.inr ⟨by simp [StructField.omitted, Value.isZeroValue], a, by
      simp only [fieldText, hraw, hty, valueText, Bool.false_eq_true, if_false]
      exact hx, rfl⟩) hdp w
  have r2 := Marshal_at_field env hok F' M id' e' hc' fs1 fs2 f' henv' vs1 vs2 x ents1
    ents2 [[34] ++ f.key ++ [34, 58] ++ a] hkey'
    (by rw [hty']; exact primText_hasKind k x a hx) h1 h2
    (Or.inr ⟨hnot, a, by
      simp only [fieldText, hraw', hty', valueText, Bool.false_eq_true, if_false]
      exact hx, by rw [hkeyeq]⟩) hd w
  refine ⟨r1.trans r2.symm, r2, ?_, ?_, ?_, ?_⟩
  · intro s hks hxs
    subst hks
    subst hxs
    simp only [primText, Option.some.injEq] at hx
    exact hx.symm
  · intro fuel newEnc st hst hks h3 h4 h5
    subst hks
    unfold StructEncoder.fieldValue
    rw [hst]
    simp only [h3, h4, hraw, h5, hty, Bool.false_eq_true, if_false, GoType.Kind, if_true,
      GoType.Elem, bind, Except.bind, pure, Except.pure, reduceCtorEq]
    simp only [StructEncoder.valueInst, hst, hty, GoType.Kind, if_true, pure, Except.pure]
    rw [if_neg (by decide)]
  · intro rec self off p s b hl
    simp only [Fun.run, hl, Conv.run, Option.map_some', List.append_assoc]
  · intro rec self off p b hl
    simp only [Fun.run, hl]
    rfl

theorem envPtrPrim_supported : ∀ id, ∀ f ∈ envPtrPrim id, f.supported = true := by
  intro id
  match id with
  | 0 => decide
  | 1 => decide
  | n + 2 => intro f hf; simp [envPtrPrim] at hf

theorem present_pointer_like_inline_witness :
    Marshal 1 (compiled (NewStructEncoder envPtrPrim 1 (.struct 0) .zero)).instructions
        (.struct ([.ptr (some (.int (-7)))] ++ .ptr (some (.str (bs "hi")))
          :: [.ptr (some (.bool false))])) []
      = Marshal 1 (compiled (NewStructEncoder envPtrPrim 1 (.struct 1) .zero)).instructions
        (.struct ([.ptr (some (.int (-7)))] ++ .str (bs "hi")
          :: [.ptr (some (.bool false))])) [] ∧
    Marshal 1 (compiled (NewStructEncoder envPtrPrim 1 (.struct 1) .zero)).instructions
        (.struct ([.ptr (some (.int (-7)))] ++ .str (bs "hi")
          :: [.ptr (some (.bool false))])) []
      = some (bs "\x7b\"a\":-7,\"s\":\"hi\",\"b\":false\x7d") :=
  have h := present_pointer_like_inline envPtrPrim envPtrPrim_supported 1 1 1 0 1
    (compiled (NewStructEncoder envPtrPrim 1 (.struct 0) .zero))
    (compiled (NewStructEncoder envPtrPrim 1 (.struct 1) .zero)) rfl rfl
    [mkField "A" (.ptr (.basic .Int)) "a"] [mkField "B" (.ptr (.basic .Bool)) "b,omitempty"]
    (mkField "S" (.ptr (.basic .String)) "s") (mkField "S" (.basic .String) "s") rfl rfl
    .String (by decide) rfl rfl rfl (by decide) (by decide)
    [.ptr (some (.int (-7)))] [.ptr (some (.bool false))] (.str (bs "hi")) (bs "\"hi\"") rfl
    (by decide) [bs "\"a\":-7"] [bs "\"b\":false"] (by decide) (by decide) (by decide) []
  ⟨h.1, h.2.1.trans (by decide)⟩

/-! ## Whitespace -/

theorem marshal_envArray (x y : Int) :
    marshalShape envArray 1 (.struct 0) (.struct [.array [.int x, .int y]])
      = some (bs "\x7b\"a\":[" ++ AppendInt [] x ++ bs ", " ++ AppendInt [] y
          ++ bs "]\x7d") := by
  have h : marshalShape envArray 1 (.struct 0) (.struct [.array [.int x, .int y]])
      = some (AppendInt (AppendInt (bs "\x7b\"a\":[") x ++ bs ", ") y ++ bs "]\x7d") := rfl
  rw [h, AppendInt_eq (AppendInt (bs "\x7b\"a\":[") x ++ bs ", ") y,
    AppendInt_eq (bs "\x7b\"a\":[") x]

theorem notBlank_of_gt (c : UInt8) (h : 32 < c.toNat) : notBlank c := by
  refine ⟨?_, ?_, ?_⟩ <;> (intro e; subst e; revert h; decide)

theorem AppendUint_notBlank (n : Nat) : ∀ c ∈ AppendUint [] n, notBlank c := by
  obtain ⟨ds, hds, _, hdig, _⟩ := AppendUint_decimal [] n
  intro c hc
  rw [hds] at hc
  simp only [List.nil_append] at hc
  exact notBlank_of_gt c (by have := (hdig c hc).1; omega)

theorem AppendInt_notBlank (i : Int) : ∀ c ∈ AppendInt [] i, notBlank c := by
  obtain ⟨ds, hds, _, hdig, _⟩ := AppendInt_decimal [] i
  intro c hc
  rw [hds] at hc
  simp only [List.nil_append] at hc
  rcases List.mem_append.mp hc with h | h
  · split at h
    · simp only [List.mem_singleton] at h
      subst h
      exact notBlank_of_gt _ (by decide)
    · cases h
  · exact notBlank_of_gt c (by have := (hdig c h).1; omega)

theorem mem_intercalate (sep : Bytes) : ∀ (l : List Bytes) (c : UInt8),
    c ∈ List.intercalate sep l → c ∈ sep ∨ ∃ x ∈ l, c ∈ x := by
  intro l
  induction l with
  | nil => intro c h; simp [List.intercalate] at h
  | cons a r ih =>
    intro c h
    cases r with
    | nil =>
      simp [List.intercalate] at h
      exact Or.inr ⟨a, List.mem_cons_self _ _, h⟩
    | cons b r' =>
      have hcons : List.intercalate sep (a :: b :: r')
          = a ++ sep ++ List.intercalate sep (b :: r') := by
        simp [List.intercalate, List.intersperse]
      rw [hcons] at h
      rcases List.mem_append.mp h with h1 | h1
      · rcases List.mem_append.mp h1 with h2 | h2
        · exact Or.inr ⟨a, List.mem_cons_self _ _, h2⟩
        · exact Or.inl h2
      · rcases ih c h1 with h3 | ⟨x, hx, hcx⟩
        · exact Or.inl h3
        · exact Or.inr ⟨x, List.mem_cons_of_mem _ hx, hcx⟩

theorem object_notBlank (ents : List Bytes) (h : ∀ x ∈ ents, ∀ c ∈ x, notBlank c) :
    ∀ c ∈ object ents, notBlank c := by
  intro c hc
  unfold object at hc
  rcases List.mem_append.mp hc with h1 | h1
  · rcases List.mem_append.mp h1 with h2 | h2
    · simp only [List.mem_singleton] at h2
      subst h2
      exact notBlank_of_gt _ (by decide)
    · rcases mem_intercalate [44] ents c h2 with h3 | ⟨x, hx, hcx⟩
      · simp only [List.mem_singleton] at h3
        subst h3
        exact notBlank_of_gt _ (by decide)
      · exact h x hx c hcx
  · simp only [List.mem_singleton] at h1
    subst h1
    exact notBlank_of_gt _ (by decide)

theorem emittedEntries_notBlank (fs : List StructField) (vs : List Value)
    (hshape : ∀ f ∈ fs, f.boolInt = true) (hinst : WellTyped fs vs)
    (hkeys : ∀ f ∈ fs, ∀ c ∈ f.key, notBlank c) :
    ∀ x ∈ emittedEntries fs vs, ∀ c ∈ x, notBlank c := by
  induction hinst with
  | nil => intro x hx; simp [emittedEntries] at hx
  | @cons f v fs vs hfv _ ih =>
    have ih' := ih (fun g hg => hshape g (List.mem_cons_of_mem _ hg))
      (fun g hg => hkeys g (List.mem_cons_of_mem _ hg))
    rw [emittedEntries]
    split
    · exact ih'
    · rename_i hcond
      have hk : f.key ≠ [] := fun e => hcond (Or.inl e)
      have hkind : v.hasKind f.Typ.Kind = true := by
        rcases hfv with h | h
        · exact absurd h hk
        · exact h
      have hp := hshape f (List.mem_cons_self _ _)
      unfold StructField.boolInt at hp
      have hk0 : (f.key == []) = false := by simpa using hk
      simp only [hk0, Bool.false_or, Bool.and_eq_true, Bool.not_eq_true'] at hp
      obtain ⟨_, hT⟩ := hp
      have hval : ∀ c ∈ plainValue v, notBlank c := by
        cases hTy : f.Typ with
        | basic k =>
          rw [hTy] at hT hkind
          cases k <;> simp [isBoolIntKind] at hT <;> cases v <;>
            simp [Value.hasKind, GoType.Kind] at hkind <;>
            simp only [plainValue] <;>
            first
              | exact AppendInt_notBlank _
              | exact AppendUint_notBlank _
              | (rename_i b; cases b <;> intro c hc <;>
                  first
                    | exact notBlank_of_gt c
                        ((by decide : ∀ c ∈ bs "true", 32 < c.toNat) c hc)
                    | exact notBlank_of_gt c
                        ((by decide : ∀ c ∈ bs "false", 32 < c.toNat) c hc))
        | _ => rw [hTy] at hT; simp at hT
      intro x hx
      rcases List.mem_cons.mp hx with h | h
      · subst h
        intro c hc
        rcases List.mem_append.mp hc with h1 | h1
        · rcases List.mem_append.mp h1 with h2 | h2
          · rcases List.mem_append.mp h2 with h3 | h3
            · simp only [List.mem_singleton] at h3
              subst h3
              exact notBlank_of_gt _ (by decide)
            · exact hkeys f (List.mem_cons_self _ _) c h3
          · exact notBlank_of_gt c
              ((by decide : ∀ c ∈ ([34, 58] : Bytes), 32 < c.toNat) c h2)
        · exact hval c h1
      · exact ih' x h

/-- C23 (failing input): for the shape `struct { A [2]int "a" }` and the instance
with the elements `x` and `y`, `Marshal` writes `{"a":[`, the digits of `x`, a comma
and a space, the digits of `y`, and `]}`: the loop of `valueInst` over the elements of
an array chunks `", "` between two elements, so the output holds a space. For shapes
whose keyed fields are of boolean or integer kind, with keys that hold no space, tab or
newline, the output holds none. -/
theorem array_separator_has_space :
    (∀ x y : Int,
      marshalShape envArray 1 (.struct 0) (.struct [.array [.int x, .int y]])
        = some (bs "\x7b\"a\":[" ++ AppendInt [] x ++ bs ", " ++ AppendInt [] y
            ++ bs "]\x7d") ∧
      (32 : UInt8) ∈ bs "\x7b\"a\":[" ++ AppendInt [] x ++ bs ", " ++ AppendInt [] y
            ++ bs "]\x7d") ∧
      marshalShape envArray 1 (.struct 0) (.struct [.array [.int 1, .int 2]])
        = some (bs "\x7b\"a\":[1, 2]\x7d") ∧
      (∀ (env : TypeEnv) (id F M : Nat) (vs : List Value),
        (∀ f ∈ env id, f.boolInt = true) → WellTyped (env id) vs →
        (∀ f ∈ env id, ∀ c ∈ f.key, notBlank c) →
        ∃ e out, NewStructEncoder env (F + 1) (.struct id) .zero = .ok e ∧
          Marshal (M + 1) e.instructions (.struct vs) [] = some out ∧
          ∀ c ∈ out, notBlank c) := by
  refine ⟨fun x y => ⟨marshal_envArray x y, ?_⟩, by decide, ?_⟩
  · refine List.mem_append_left _ (List.mem_append_left _ (List.mem_append_right _ ?_))
    decide
  · intro env id F M vs hshape hinst hkeys
    obtain ⟨e, he, hm⟩ := Marshal_flat env id F
      (fun f hf => (StructField.boolInt_supported f (hshape f hf)).1)
      (fun f hf => (StructField.boolInt_supported f (hshape f hf)).2)
    obtain ⟨hent, _⟩ := boolInt_entriesText env (env id) vs hshape hinst
    refine ⟨e, object (emittedEntries (env id) vs), he, ?_,
      object_notBlank _ (emittedEntries_notBlank _ _ hshape hinst hkeys)⟩
    simpa using hm M vs _ [] hent

/-! ## Omit groups without zero test -/

/-- C24 (failing input): `NewStructEncoder` accepts the shape
`struct { A [2]int "a,omitempty" }`: the plan is an omit group with the static bytes
`{` followed by the static instruction `}`. The map `getIsZeroFunc` has no entry for
the kind array, so `appendInstruction` leaves the omit group without zero test, and
`Marshal`, which calls the zero test of the group, fails for every instance and every
sink. -/
theorem omitempty_array_has_no_zero_test :
    (NewStructEncoder envArrayOmit 1 (.struct 0) .zero).isOk = true ∧
      planOutline (compiled (NewStructEncoder envArrayOmit 1 (.struct 0) .zero)).instructions
        = [(KindOmit, bs "\x7b"), (kindStatic, bs "\x7d")] ∧
      (getIsZeroFunc Kind.Array).isNone = true ∧
      (compiled (NewStructEncoder envArrayOmit 1 (.struct 0) .zero)).instructions.map
        (fun x => x.isZero.isNone) = [true, true] ∧
      (∀ (M : Nat) (p : Value) (w : Bytes),
        Marshal M (compiled (NewStructEncoder envArrayOmit 1 (.struct 0) .zero)).instructions
          p w = none) ∧
      marshalShape envArrayOmit 1 (.struct 0) (.struct [.array [.int 1, .int 2]]) = none ∧
      marshalShape envArray 1 (.struct 0) (.struct [.array [.int 1, .int 2]])
        = some (bs "\x7b\"a\":[1, 2]\x7d") := by
  refine ⟨by decide, by decide, by decide, by decide, ?_, by decide, by decide⟩
  intro M p w
  cases M <;> rfl

/-! ## More fuel, same bytes -/

theorem runElems_mono (f g : Value → Bytes → Option Bytes) :
    ∀ (xs : List Value), (∀ x ∈ xs, ∀ w out, f x w = some out → g x w = some out) →
      ∀ (first : Bool) (w out : Bytes), runElems f xs first w = some out →
        runElems g xs first w = some out := by
  intro xs
  induction xs with
  | nil =>
    intro _ first w out h
    simpa only [runElems] using h
  | cons x t ih =>
    intro hf first w out h
    rw [runElems] at h ⊢
    split at h
    · cases h
    · rename_i w1 h1
      rw [hf x (List.mem_cons_self _ _) _ w1 h1]
      exact ih (fun y hy => hf y (List.mem_cons_of_mem _ hy)) false w1 out h

theorem ElemPlan_run_mono (rec rec' : List instruction → Value → Bytes → Option Bytes)
    (hrec : ∀ plan v w out, rec plan v w = some out → rec' plan v w = some out) :
    ∀ (ep : ElemPlan instruction) (v : Value) (w out : Bytes),
      ep.run rec v w = some out → ep.run rec' v w = some out := by
  intro ep
  induction ep with
  | conv c quoted =>
    intro v w out h
    simpa only [ElemPlan.run] using h
  | ptr inner ih =>
    intro v w out h
    cases v
    case ptr o =>
      cases o with
      | none => simpa only [ElemPlan.run] using h
      | some x =>
        simp only [ElemPlan.run] at h ⊢
        exact ih x w out h
    all_goals simp [ElemPlan.run] at h
  | struct plan =>
    intro v w out h
    rw [ElemPlan.run] at h ⊢
    exact hrec plan v w out h
  | slice elem ih =>
    intro v w out h
    cases v
    case slice xs =>
      simp only [ElemPlan.run] at h ⊢
      obtain ⟨w1, h1, h2⟩ := Option.map_eq_some'.mp h
      rw [runElems_mono _ _ xs (fun x _ w2 o2 h3 => ih x w2 o2 h3) true _ w1 h1]
      simpa using h2
    all_goals simp [ElemPlan.run] at h

theorem Fun_run_mono (rec rec' : List instruction → Value → Bytes → Option Bytes)
    (hrec : ∀ plan v w out, rec plan v w = some out → rec' plan v w = some out)
    (self : List instruction) (f : Fun instruction) (v : Value) (w out : Bytes)
    (h : f.run rec self v w = some out) : f.run rec' self v w = some out := by
  cases f with
  | ptrval conv offset => simpa only [Fun.run] using h
  | ptrstringval conv offset => simpa only [Fun.run] using h
  | escapeSlice enc offset =>
    simp only [Fun.run] at h ⊢
    split at h
    · rename_i x hx
      exact ElemPlan_run_mono rec rec' hrec enc x w out h
    · cases h
  | arrayElem conv offset i => simpa only [Fun.run] using h
  | sliceField enc offset =>
    simp only [Fun.run] at h ⊢
    split at h
    · rename_i x hx
      exact ElemPlan_run_mono rec rec' hrec enc x w out h
    · cases h
  | ptrStruct enc offset =>
    simp only [Fun.run] at h ⊢
    split at h
    · exact h
    · rename_i x hx
      exact hrec _ x w out h
    · cases h
  | structField enc offset =>
    simp only [Fun.run] at h ⊢
    split at h
    · rename_i x hx
      exact hrec _ x w out h
    · cases h
  | trimComma => simpa only [Fun.run] using h

theorem foldlM_mono {α : Type} (f g : Bytes → α → Option Bytes) :
    ∀ (l : List α), (∀ x ∈ l, ∀ w out, f w x = some out → g w x = some out) →
      ∀ (w out : Bytes), l.foldlM f w = some out → l.foldlM g w = some out := by
  intro l
  induction l with
  | nil =>
    intro _ w out h
    simpa only [List.foldlM] using h
  | cons x t ih =>
    intro hf w out h
    simp only [List.foldlM, bind] at h ⊢
    obtain ⟨w1, h1, h2⟩ := Option.bind_eq_some.mp h
    rw [hf x (List.mem_cons_self _ _) w w1 h1]
    exact ih (fun y hy => hf y (List.mem_cons_of_mem _ hy)) w1 out h2

theorem execSub_mono (rec rec' : List instruction → Value → Bytes → Option Bytes)
    (hrec : ∀ plan v w out, rec plan v w = some out → rec' plan v w = some out)
    (self : List instruction) (p : Value) (w : Bytes) (ins : instruction) (out : Bytes)
    (h : execSub rec self p w ins = some out) : execSub rec' self p w ins = some out := by
  unfold execSub at h ⊢
  split
  · simpa only [*, if_true] using h
  · rename_i h1
    rw [if_neg h1] at h
    split
    · simpa only [*, if_true] using h
    · rename_i h2
      rw [if_neg h2] at h
      split
      · simpa only [*, if_true] using h
      · rename_i h3
        rw [if_neg h3] at h
        split
        · rename_i c hc
          simpa only [hc] using h
        · rename_i hc
          simp only [hc] at h
          split
          · rename_i f hf
            simp only [hf] at h
            exact Fun_run_mono rec rec' hrec self f p w out h
          · rename_i hf
            simp only [hf] at h
            cases h

theorem omit_rest_mono (rec rec' : List instruction → Value → Bytes → Option Bytes)
    (hrec : ∀ plan v w out, rec plan v w = some out → rec' plan v w = some out)
    (self : List instruction) (p : Value) (ins : instruction) (w2 out : Bytes)
    (h : (match ins.isZero with
      | none => none
      | some isZero =>
        match (leap p ins.offset).bind isZero with
        | none => none
        | some true =>
          match ins.fn with
          | some f => f.run rec self p w2
          | none => some w2
        | some false => ins.sub.foldlM (execSub rec self p) w2) = some out) :
    (match ins.isZero with
      | none => none
      | some isZero =>
        match (leap p ins.offset).bind isZero with
        | none => none
        | some true =>
          match ins.fn with
          | some f => f.run rec' self p w2
          | none => some w2
        | some false => ins.sub.foldlM (execSub rec' self p) w2) = some out := by
  split at h
  · cases h
  · split at h
    · cases h
    · split at h
      · exact Fun_run_mono rec rec' hrec self _ p w2 out h
      · exact h
    · exact foldlM_mono _ _ _
        (fun x _ w o hh => execSub_mono rec rec' hrec self p w x o hh) w2 out h

theorem exec_mono (rec rec' : List instruction → Value → Bytes → Option Bytes)
    (hrec : ∀ plan v w out, rec plan v w = some out → rec' plan v w = some out)
    (self : List instruction) (p : Value) (w : Bytes) (ins : instruction) (out : Bytes)
    (h : exec rec self p w ins = some out) : exec rec' self p w ins = some out := by
  unfold exec at h ⊢
  by_cases h1 : ins.kind = kindStatic
  · rw [if_pos h1] at h ⊢
    exact h
  rw [if_neg h1] at h ⊢
  by_cases h2 : ins.kind = kindStringField
  · rw [if_pos h2] at h ⊢
    exact h
  rw [if_neg h2] at h ⊢
  by_cases h3 : ins.kind = kindInt
  · rw [if_pos h3] at h ⊢
    exact h
  rw [if_neg h3] at h ⊢
  cases hl : ins.leapFun with
  | some c =>
    simp only [hl] at h ⊢
    exact h
  | none =>
    simp only [hl] at h ⊢
    by_cases h4 : ins.kind = KindOmit
    · rw [if_pos h4] at h ⊢
      exact omit_rest_mono rec rec' hrec self p ins _ out h
    · rw [if_neg h4] at h ⊢
      cases hf : ins.fn with
      | some f =>
        simp only [hf] at h ⊢
        exact Fun_run_mono rec rec' hrec self f p w out h
      | none =>
        simp only [hf] at h
        cases h

theorem Marshal_succ : ∀ (fuel : Nat) (plan : List instruction) (p : Value) (w out : Bytes),
    Marshal fuel plan p w = some out → Marshal (fuel + 1) plan p w = some out := by
  intro fuel
  induction fuel with
  | zero =>
    intro plan p w out h
    cases h
  | succ n ih =>
    intro plan p w out h
    rw [Marshal] at h ⊢
    exact foldlM_mono _ _ plan
      (fun x _ w1 o hh => exec_mono (Marshal n) (Marshal (n + 1)) ih plan p w1 x o hh) w out h

/-- More fuel gives the same bytes. -/
theorem Marshal_mono (fuel fuel' : Nat) (hle : fuel ≤ fuel') (plan : List instruction)
    (p : Value) (w out : Bytes) (h : Marshal fuel plan p w = some out) :
    Marshal fuel' plan p w = some out := by
  induction hle with
  | refl => exact h
  | step _ ih => exact Marshal_succ _ plan p w out ih

/-! ## Marshal leaves the plan as it is -/

theorem set_getElem?_same {α : Type} : ∀ (l : List α) (i : Nat) (a : α),
    l[i]? = some a → l.set i a = l := by
  intro l
  induction l with
  | nil => intro i a h; simp at h
  | cons x t ih =>
    intro i a h
    cases i with
    | zero =>
      simp only [List.getElem?_cons_zero, Option.some.injEq] at h
      rw [List.set_cons_zero, h]
    | succ i =>
      simp only [List.getElem?_cons_succ] at h
      rw [List.set_cons_succ, ih i a h]

theorem setFn_same (plan : List instruction) (i : Nat) (ins : instruction)
    (f : Fun instruction) (hi : plan[i]? = some ins) (hf : ins.fn = some f) :
    setFn plan i f = plan := by
  unfold setFn
  rw [hi]
  simp only
  rw [← hf, instruction.eta ins]
  exact set_getElem?_same plan i ins hi

theorem setSubFn_same (plan : List instruction) (i si : Nat) (g ins : instruction)
    (f : Fun instruction) (hi : plan[i]? = some g) (hs : g.sub[si]? = some ins)
    (hf : ins.fn = some f) : setSubFn plan i si f = plan := by
  unfold setSubFn
  rw [hi]
  simp only
  rw [setFn_same g.sub si ins f hs hf, instruction.eta g]
  exact set_getElem?_same plan i g hi

/-- The write-back is a write: with another closure than the one the instruction
holds, the instructions after it differ from the instructions before. -/
theorem setFn_writes (plan : List instruction) (i : Nat) (ins : instruction)
    (f : Fun instruction) (hi : plan[i]? = some ins) (hf : ins.fn ≠ some f) :
    setFn plan i f ≠ plan := by
  intro h
  unfold setFn at h
  rw [hi] at h
  simp only at h
  obtain ⟨hlt, _⟩ := List.getElem?_eq_some.mp hi
  have h2 : (plan.set i (.mk ins.static ins.sub ins.kind ins.offset ins.leapFun (some f)
      ins.isZero))[i]? = some ins := by rw [h]; exact hi
  rw [List.getElem?_set_self hlt] at h2
  simp only [Option.some.injEq] at h2
  exact hf (congrArg instruction.fn h2).symm

theorem Fun_run_stop (rec : List instruction → Value → Bytes → Option Bytes)
    (self : List instruction) (f : Fun instruction) (v : Value) (w out : Bytes)
    (h : f.run (fun _ _ _ => none) self v w = some out) : f.run rec self v w = some out :=
  Fun_run_mono _ rec (fun _ _ _ _ hh => by cases hh) self f v w out h

/-- A closure leaves the encoders it refers to as they are, when the calls of
`Marshal` it makes do. -/
theorem Fun_runState_sound
    (marshal : List instruction → Value → Bytes → Option (List instruction × Bytes))
    (elem : ElemPlan instruction → Value → Bytes → Option (ElemPlan instruction × Bytes))
    (rec : List instruction → Value → Bytes → Option Bytes)
    (hM : ∀ plan p w plan1 out, marshal plan p w = some (plan1, out) →
      plan1 = plan ∧ rec plan p w = some out)
    (hE : ∀ ep v w ep1 out, elem ep v w = some (ep1, out) →
      ep1 = ep ∧ ep.run rec v w = some out)
    (self : List instruction) (f : Fun instruction) (v : Value) (w : Bytes)
    (f1 : Fun instruction) (self1 : List instruction) (out : Bytes)
    (h : f.runState marshal elem self v w = some (f1, self1, out)) :
    f1 = f ∧ self1 = self ∧ f.run rec self v w = some out := by
  cases f with
  | ptrval conv offset =>
    simp only [Fun.runState] at h
    obtain ⟨o, ho, he⟩ := Option.map_eq_some'.mp h
    simp only [Prod.mk.injEq] at he
    obtain ⟨e1, e2, e3⟩ := he
    subst e1 e2 e3
    exact ⟨rfl, rfl, Fun_run_stop rec self _ v w o ho⟩
  | ptrstringval conv offset =>
    simp only [Fun.runState] at h
    obtain ⟨o, ho, he⟩ := Option.map_eq_some'.mp h
    simp only [Prod.mk.injEq] at he
    obtain ⟨e1, e2, e3⟩ := he
    subst e1 e2 e3
    exact ⟨rfl, rfl, Fun_run_stop rec self _ v w o ho⟩
  | arrayElem conv offset i =>
    simp only [Fun.runState] at h
    obtain ⟨o, ho, he⟩ := Option.map_eq_some'.mp h
    simp only [Prod.mk.injEq] at he
    obtain ⟨e1, e2, e3⟩ := he
    subst e1 e2 e3
    exact ⟨rfl, rfl, Fun_run_stop rec self _ v w o ho⟩
  | trimComma =>
    simp only [Fun.runState] at h
    obtain ⟨o, ho, he⟩ := Option.map_eq_some'.mp h
    simp only [Prod.mk.injEq] at he
    obtain ⟨e1, e2, e3⟩ := he
    subst e1 e2 e3
    exact ⟨rfl, rfl, Fun_run_stop rec self _ v w o ho⟩
  | escapeSlice enc offset =>
    simp only [Fun.runState] at h
    simp only [Fun.run]
    split at h
    · rename_i x hx
      obtain ⟨r, hr, he⟩ := Option.map_eq_some'.mp h
      obtain ⟨ep1, o⟩ := r
      simp only [Prod.mk.injEq] at he
      obtain ⟨e1, e2, e3⟩ := he
      obtain ⟨h1, h2⟩ := hE enc x w ep1 o hr
      subst h1 e1 e2 e3
      exact ⟨rfl, rfl, h2⟩
    · cases h
  | sliceField enc offset =>
    simp only [Fun.runState] at h
    simp only [Fun.run]
    split at h
    · rename_i x hx
      obtain ⟨r, hr, he⟩ := Option.map_eq_some'.mp h
      obtain ⟨ep1, o⟩ := r
      simp only [Prod.mk.injEq] at he
      obtain ⟨e1, e2, e3⟩ := he
      obtain ⟨h1, h2⟩ := hE enc x w ep1 o hr
      subst h1 e1 e2 e3
      exact ⟨rfl, rfl, h2⟩
    · cases h
  | structField enc offset =>
    simp only [Fun.runState] at h
    simp only [Fun.run]
    split at h
    · rename_i x hx
      obtain ⟨r, hr, he⟩ := Option.map_eq_some'.mp h
      obtain ⟨p1, o⟩ := r
      simp only [Prod.mk.injEq] at he
      obtain ⟨e1, e2, e3⟩ := he
      obtain ⟨h1, h2⟩ := hM enc x w p1 o hr
      subst h1 e1 e2 e3
      exact ⟨rfl, rfl, h2⟩
    · cases h
  | ptrStruct enc offset =>
    cases enc with
    | none =>
      simp only [Fun.runState] at h
      simp only [Fun.run]
      split at h
      · simp only [Option.some.injEq, Prod.mk.injEq] at h
        obtain ⟨e1, e2, e3⟩ := h
        subst e1 e2 e3
        exact ⟨rfl, rfl, rfl⟩
      · rename_i x hx
        obtain ⟨r, hr, he⟩ := Option.map_eq_some'.mp h
        obtain ⟨p1, o⟩ := r
        simp only [Prod.mk.injEq] at he
        obtain ⟨e1, e2, e3⟩ := he
        obtain ⟨h1, h2⟩ := hM self x w p1 o hr
        subst e1 e3
        rw [← e2]
        exact ⟨rfl, h1, by simpa using h2⟩
      · cases h
    | some plan =>
      simp only [Fun.runState] at h
      simp only [Fun.run]
      split at h
      · simp only [Option.some.injEq, Prod.mk.injEq] at h
        obtain ⟨e1, e2, e3⟩ := h
        subst e1 e2 e3
        exact ⟨rfl, rfl, rfl⟩
      · rename_i x hx
        obtain ⟨r, hr, he⟩ := Option.map_eq_some'.mp h
        obtain ⟨p1, o⟩ := r
        simp only [Prod.mk.injEq] at he
        obtain ⟨e1, e2, e3⟩ := he
        obtain ⟨h1, h2⟩ := hM plan x w p1 o hr
        subst h1 e1 e2 e3
        exact ⟨rfl, rfl, by simpa using h2⟩
      · cases h

/-- A round of the inner loop leaves the instructions as they are and writes what
`execSub` writes. -/
theorem Interp_subAt_sound (I : Interp)
    (rec : List instruction → Value → Bytes → Option Bytes)
    (hM : ∀ plan p w plan1 out, I.marshal plan p w = some (plan1, out) →
      plan1 = plan ∧ rec plan p w = some out)
    (hE : ∀ ep v w ep1 out, I.elem ep v w = some (ep1, out) →
      ep1 = ep ∧ ep.run rec v w = some out)
    (plan : List instruction) (i si : Nat) (g ins : instruction)
    (hi : plan[i]? = some g) (hs : g.sub[si]? = some ins) (p : Value) (w : Bytes)
    (plan1 : List instruction) (out : Bytes)
    (h : I.subAt plan i si p w = some (plan1, out)) :
    plan1 = plan ∧ execSub rec plan p w ins = some out := by
  unfold Interp.subAt at h
  simp only [hi, hs] at h
  unfold execSub
  by_cases h1 : ins.kind = kindStatic
  · rw [if_pos h1] at h ⊢
    simp only [Option.some.injEq, Prod.mk.injEq] at h
    exact ⟨h.1.symm, by rw [h.2]⟩
  rw [if_neg h1] at h ⊢
  by_cases h2 : ins.kind = kindStringField
  · rw [if_pos h2] at h ⊢
    obtain ⟨o, ho, he⟩ := Option.map_eq_some'.mp h
    simp only [Prod.mk.injEq] at he
    exact ⟨he.1.symm, by rw [← he.2]; exact ho⟩
  rw [if_neg h2] at h ⊢
  by_cases h3 : ins.kind = kindInt
  · rw [if_pos h3] at h ⊢
    obtain ⟨o, ho, he⟩ := Option.map_eq_some'.mp h
    simp only [Prod.mk.injEq] at he
    exact ⟨he.1.symm, by rw [← he.2]; exact ho⟩
  rw [if_neg h3] at h ⊢
  cases hl : ins.leapFun with
  | some c =>
    simp only [hl] at h ⊢
    obtain ⟨o, ho, he⟩ := Option.map_eq_some'.mp h
    simp only [Prod.mk.injEq] at he
    exact ⟨he.1.symm, by rw [← he.2]; exact ho⟩
  | none =>
    simp only [hl] at h ⊢
    cases hf : ins.fn with
    | none =>
      simp only [hf] at h
      cases h
    | some f =>
      simp only [hf] at h ⊢
      obtain ⟨r, hr, he⟩ := Option.map_eq_some'.mp h
      obtain ⟨f1, self1, o⟩ := r
      simp only [Prod.mk.injEq] at he
      obtain ⟨e1, e2, e3⟩ := Fun_runState_sound I.marshal I.elem rec hM hE plan f p w f1 self1 o hr
      rw [e1, e2, setSubFn_same plan i si g ins f hi hs hf] at he
      exact ⟨he.1.symm, by rw [← he.2]; exact e3⟩

/-- A round of the outer loop leaves the instructions as they are and writes what
`exec` writes. -/
theorem Interp_execAt_sound (I : Interp)
    (rec : List instruction → Value → Bytes → Option Bytes)
    (hM : ∀ plan p w plan1 out, I.marshal plan p w = some (plan1, out) →
      plan1 = plan ∧ rec plan p w = some out)
    (hE : ∀ ep v w ep1 out, I.elem ep v w = some (ep1, out) →
      ep1 = ep ∧ ep.run rec v w = some out)
    (hS : ∀ plan i si p w plan1 out, I.subLoop plan i si p w = some (plan1, out) →
      plan1 = plan ∧ ∃ g, plan[i]? = some g ∧
        (g.sub.drop si).foldlM (execSub rec plan p) w = some out)
    (plan : List instruction) (i : Nat) (ins : instruction)
    (hi : plan[i]? = some ins) (p : Value) (w : Bytes)
    (plan1 : List instruction) (out : Bytes)
    (h : I.execAt plan i p w = some (plan1, out)) :
    plan1 = plan ∧ exec rec plan p w ins = some out := by
  unfold Interp.execAt at h
  simp only [hi] at h
  unfold exec
  by_cases h1 : ins.kind = kindStatic
  · rw [if_pos h1] at h ⊢
    simp only [Option.some.injEq, Prod.mk.injEq] at h
    exact ⟨h.1.symm, by rw [h.2]⟩
  rw [if_neg h1] at h ⊢
  by_cases h2 : ins.kind = kindStringField
  · rw [if_pos h2] at h ⊢
    obtain ⟨o, ho, he⟩ := Option.map_eq_some'.mp h
    simp only [Prod.mk.injEq] at he
    exact ⟨he.1.symm, by rw [← he.2]; exact ho⟩
  rw [if_neg h2] at h ⊢
  by_cases h3 : ins.kind = kindInt
  · rw [if_pos h3] at h ⊢
    obtain ⟨o, ho, he⟩ := Option.map_eq_some'.mp h
    simp only [Prod.mk.injEq] at he
    exact ⟨he.1.symm, by rw [← he.2]; exact ho⟩
  rw [if_neg h3] at h ⊢
  cases hl : ins.leapFun with
  | some c =>
    simp only [hl] at h ⊢
    obtain ⟨o, ho, he⟩ := Option.map_eq_some'.mp h
    simp only [Prod.mk.injEq] at he
    exact ⟨he.1.symm, by rw [← he.2]; exact ho⟩
  | none =>
    simp only [hl] at h ⊢
    by_cases h4 : ins.kind = KindOmit
    · rw [if_pos h4] at h ⊢
      cases hz : ins.isZero with
      | none =>
        simp only [hz] at h
        cases h
      | some isZero =>
        simp only [hz] at h ⊢
        cases hb : (leap p ins.offset).bind isZero with
        | none =>
          simp only [hb] at h
          cases h
        | some b =>
          cases b with
          | true =>
            simp only [hb] at h ⊢
            cases hf : ins.fn with
            | none =>
              simp only [hf] at h ⊢
              simp only [Option.some.injEq, Prod.mk.injEq] at h
              exact ⟨h.1.symm, by rw [h.2]⟩
            | some f =>
              simp only [hf] at h ⊢
              obtain ⟨r, hr, he⟩ := Option.map_eq_some'.mp h
              obtain ⟨f1, self1, o⟩ := r
              simp only [Prod.mk.injEq] at he
              obtain ⟨e1, e2, e3⟩ :=
                Fun_runState_sound I.marshal I.elem rec hM hE plan f p _ f1 self1 o hr
              rw [e1, e2, setFn_same plan i ins f hi hf] at he
              exact ⟨he.1.symm, by rw [← he.2]; exact e3⟩
          | false =>
            simp only [hb] at h ⊢
            obtain ⟨e1, g, hg, e2⟩ := hS plan i 0 p _ plan1 out h
            rw [hi] at hg
            cases hg
            exact ⟨e1, by simpa using e2⟩
    · rw [if_neg h4] at h ⊢
      cases hf : ins.fn with
      | none =>
        simp only [hf] at h
        cases h
      | some f =>
        simp only [hf] at h ⊢
        obtain ⟨r, hr, he⟩ := Option.map_eq_some'.mp h
        obtain ⟨f1, self1, o⟩ := r
        simp only [Prod.mk.injEq] at he
        obtain ⟨e1, e2, e3⟩ :=
          Fun_runState_sound I.marshal I.elem rec hM hE plan f p w f1 self1 o hr
        rw [e1, e2, setFn_same plan i ins f hi hf] at he
        exact ⟨he.1.symm, by rw [← he.2]; exact e3⟩

theorem foldlM_drop_step {α : Type} (f : Bytes → α → Option Bytes) (l : List α) (i : Nat)
    (a : α) (hi : l[i]? = some a) (w w1 out : Bytes) (h1 : f w a = some w1)
    (h2 : (l.drop (i + 1)).foldlM f w1 = some out) : (l.drop i).foldlM f w = some out := by
  obtain ⟨hlt, ha⟩ := List.getElem?_eq_some.mp hi
  rw [List.drop_eq_getElem_cons hlt, ha]
  simp only [List.foldlM, bind, Option.bind_eq_bind]
  rw [h1]
  exact h2

/-- `SliceEncoder.Marshal` leaves the element plan as it is and writes what
`ElemPlan.run` writes. -/
theorem Interp_elemAt_sound (I : Interp)
    (rec : List instruction → Value → Bytes → Option Bytes)
    (hM : ∀ plan p w plan1 out, I.marshal plan p w = some (plan1, out) →
      plan1 = plan ∧ rec plan p w = some out)
    (hE : ∀ ep v w ep1 out, I.elem ep v w = some (ep1, out) →
      ep1 = ep ∧ ep.run rec v w = some out)
    (hL : ∀ el xs first w el1 out, I.elems el xs first w = some (el1, out) →
      el1 = el ∧ runElems (fun x w => el.run rec x w) xs first w = some out)
    (ep : ElemPlan instruction) (v : Value) (w : Bytes) (ep1 : ElemPlan instruction)
    (out : Bytes) (h : I.elemAt ep v w = some (ep1, out)) :
    ep1 = ep ∧ ep.run rec v w = some out := by
  cases ep with
  | conv c quoted =>
    simp only [Interp.elemAt] at h
    obtain ⟨o, ho, he⟩ := Option.map_eq_some'.mp h
    simp only [Prod.mk.injEq] at he
    refine ⟨he.1.symm, ?_⟩
    rw [← he.2]
    exact ElemPlan_run_mono _ rec (fun _ _ _ _ hh => by cases hh) _ v w o ho
  | ptr inner =>
    simp only [Interp.elemAt] at h
    simp only [ElemPlan.run]
    split at h
    · simp only [Option.some.injEq, Prod.mk.injEq] at h
      exact ⟨h.1.symm, by rw [h.2]⟩
    · rename_i x
      obtain ⟨r, hr, he⟩ := Option.map_eq_some'.mp h
      obtain ⟨i1, o⟩ := r
      simp only [Prod.mk.injEq] at he
      obtain ⟨e1, e2⟩ := hE inner x w i1 o hr
      rw [e1] at he
      exact ⟨he.1.symm, by rw [← he.2]; exact e2⟩
    · cases h
  | struct plan =>
    simp only [Interp.elemAt] at h
    simp only [ElemPlan.run]
    obtain ⟨r, hr, he⟩ := Option.map_eq_some'.mp h
    obtain ⟨p1, o⟩ := r
    simp only [Prod.mk.injEq] at he
    obtain ⟨e1, e2⟩ := hM plan v w p1 o hr
    rw [e1] at he
    exact ⟨he.1.symm, by rw [← he.2]; exact e2⟩
  | slice el =>
    simp only [Interp.elemAt] at h
    simp only [ElemPlan.run]
    split at h
    · rename_i xs
      obtain ⟨r, hr, he⟩ := Option.map_eq_some'.mp h
      obtain ⟨el1, o⟩ := r
      simp only [Prod.mk.injEq] at he
      obtain ⟨e1, e2⟩ := hL el xs true _ el1 o hr
      rw [e1] at he
      refine ⟨he.1.symm, ?_⟩
      rw [e2, ← he.2]
      rfl
    · cases h

/-- Soundness of the interpreter with the plan in the state: a call that returns
leaves the instructions as they were and writes the bytes of `Marshal`. -/
theorem runState_sound : ∀ (n : Nat),
    (∀ plan p w plan1 out, (runState n).marshal plan p w = some (plan1, out) →
      plan1 = plan ∧ Marshal n plan p w = some out) ∧
    (∀ plan i p w plan1 out, (runState n).loop plan i p w = some (plan1, out) →
      plan1 = plan ∧ (plan.drop i).foldlM (exec (Marshal n) plan p) w = some out) ∧
    (∀ plan i si p w plan1 out, (runState n).subLoop plan i si p w = some (plan1, out) →
      plan1 = plan ∧ ∃ g, plan[i]? = some g ∧
        (g.sub.drop si).foldlM (execSub (Marshal n) plan p) w = some out) ∧
    (∀ ep v w ep1 out, (runState n).elem ep v w = some (ep1, out) →
      ep1 = ep ∧ ep.run (Marshal n) v w = some out) ∧
    (∀ el xs first w el1 out, (runState n).elems el xs first w = some (el1, out) →
      el1 = el ∧ runElems (fun x w => el.run (Marshal n) x w) xs first w = some out) := by
  intro n
  induction n with
  | zero =>
    refine ⟨?_, ?_, ?_, ?_, ?_⟩ <;> intros <;> rename_i h <;> cases h
  | succ n ih =>
    obtain ⟨hM, hL, hS, hE, hEs⟩ := ih
    have upE : ∀ (ep : ElemPlan instruction) v w out, ep.run (Marshal n) v w = some out →
        ep.run (Marshal (n + 1)) v w = some out :=
      ElemPlan_run_mono (Marshal n) (Marshal (n + 1)) (Marshal_succ n)
    have upX : ∀ (plan : List instruction) p (l : List instruction) w out,
        l.foldlM (exec (Marshal n) plan p) w = some out →
        l.foldlM (exec (Marshal (n + 1)) plan p) w = some out := fun plan p l w out h =>
      foldlM_mono _ _ l (fun x _ w1 o hh =>
        exec_mono (Marshal n) (Marshal (n + 1)) (Marshal_succ n) plan p w1 x o hh) w out h
    have upS : ∀ (plan : List instruction) p (l : List instruction) w out,
        l.foldlM (execSub (Marshal n) plan p) w = some out →
        l.foldlM (execSub (Marshal (n + 1)) plan p) w = some out := fun plan p l w out h =>
      foldlM_mono _ _ l (fun x _ w1 o hh =>
        execSub_mono (Marshal n) (Marshal (n + 1)) (Marshal_succ n) plan p w1 x o hh) w out h
    refine ⟨?_, ?_, ?_, ?_, ?_⟩
    · intro plan p w plan1 out h
      obtain ⟨e1, e2⟩ := hL plan 0 p w plan1 out h
      refine ⟨e1, ?_⟩
      rw [Marshal]
      simpa using e2
    · intro plan i p w plan1 out h
      change (if i < plan.length then
          match (runState n).execAt plan i p w with
          | none => none
          | some (plan1, w1) => (runState n).loop plan1 (i + 1) p w1
        else some (plan, w)) = some (plan1, out) at h
      by_cases hlt : i < plan.length
      · rw [if_pos hlt] at h
        cases hx : (runState n).execAt plan i p w with
        | none =>
          rw [hx] at h
          cases h
        | some r =>
          obtain ⟨plan2, w1⟩ := r
          rw [hx] at h
          simp only at h
          have hi : plan[i]? = some plan[i] := List.getElem?_eq_getElem hlt
          obtain ⟨e1, e2⟩ :=
            Interp_execAt_sound (runState n) (Marshal n) hM hE hS plan i _ hi p w plan2 w1 hx
          rw [e1] at h
          obtain ⟨e3, e4⟩ := hL plan (i + 1) p w1 plan1 out h
          exact ⟨e3, upX plan p _ w out (foldlM_drop_step _ plan i _ hi w w1 out e2 e4)⟩
      · rw [if_neg hlt] at h
        simp only [Option.some.injEq, Prod.mk.injEq] at h
        refine ⟨h.1.symm, ?_⟩
        rw [List.drop_eq_nil_of_le (Nat.le_of_not_lt hlt), ← h.2]
        rfl
    · intro plan i si p w plan1 out h
      change (match plan[i]? with
        | none => none
        | some g =>
          if si < g.sub.length then
            match (runState n).subAt plan i si p w with
            | none => none
            | some (plan1, w1) => (runState n).subLoop plan1 i (si + 1) p w1
          else some (plan, w)) = some (plan1, out) at h
      cases hg : plan[i]? with
      | none =>
        simp only [hg] at h
        cases h
      | some g =>
        simp only [hg] at h
        by_cases hlt : si < g.sub.length
        · rw [if_pos hlt] at h
          cases hx : (runState n).subAt plan i si p w with
          | none =>
            rw [hx] at h
            cases h
          | some r =>
            obtain ⟨plan2, w1⟩ := r
            rw [hx] at h
            simp only at h
            have hs : g.sub[si]? = some g.sub[si] := List.getElem?_eq_getElem hlt
            obtain ⟨e1, e2⟩ :=
              Interp_subAt_sound (runState n) (Marshal n) hM hE plan i si g _ hg hs p w plan2 w1 hx
            rw [e1] at h
            obtain ⟨e3, g1, hg1, e4⟩ := hS plan i (si + 1) p w1 plan1 out h
            rw [hg] at hg1
            cases hg1
            exact ⟨e3, g, rfl, upS plan p _ w out (foldlM_drop_step _ g.sub si _ hs w w1 out e2 e4)⟩
        · rw [if_neg hlt] at h
          simp only [Option.some.injEq, Prod.mk.injEq] at h
          refine ⟨h.1.symm, g, rfl, ?_⟩
          rw [List.drop_eq_nil_of_le (Nat.le_of_not_lt hlt), ← h.2]
          rfl
    · intro ep v w ep1 out h
      obtain ⟨e1, e2⟩ :=
        Interp_elemAt_sound (runState n) (Marshal n) hM hE hEs ep v w ep1 out h
      exact ⟨e1, upE ep v w out e2⟩
    · intro el xs first w el1 out h
      cases xs with
      | nil =>
        change some (el, w) = some (el1, out) at h
        simp only [Option.some.injEq, Prod.mk.injEq] at h
        refine ⟨h.1.symm, ?_⟩
        rw [runElems, h.2]
      | cons x rest =>
        change (match (runState n).elem el x (if first then w else w ++ [44]) with
          | none => none
          | some (el1, w1) => (runState n).elems el1 rest false w1) = some (el1, out) at h
        cases hx : (runState n).elem el x (if first then w else w ++ [44]) with
        | none =>
          rw [hx] at h
          cases h
        | some r =>
          obtain ⟨el2, w1⟩ := r
          rw [hx] at h
          simp only at h
          obtain ⟨e1, e2⟩ := hE el x _ el2 w1 hx
          rw [e1] at h
          obtain ⟨e3, e4⟩ := hEs el rest false w1 el1 out h
          refine ⟨e3, ?_⟩
          rw [runElems, upE el x _ w1 e2]
          exact runElems_mono _ _ rest (fun y _ w2 o hh => upE el y w2 o hh) false w1 out e4

/-! ## Enough fuel gives the result -/

theorem runState_marshal_succ (n : Nat) (plan : List instruction) (p : Value) (w : Bytes) :
    (runState (n + 1)).marshal plan p w = (runState n).loop plan 0 p w := rfl

theorem runState_loop_lt (n : Nat) (plan : List instruction) (i : Nat) (p : Value) (w : Bytes)
    (plan1 : List instruction) (w1 : Bytes) (hlt : i < plan.length)
    (hx : (runState n).execAt plan i p w = some (plan1, w1)) :
    (runState (n + 1)).loop plan i p w = (runState n).loop plan1 (i + 1) p w1 := by
  change (if i < plan.length then
      match (runState n).execAt plan i p w with
      | none => none
      | some (plan1, w1) => (runState n).loop plan1 (i + 1) p w1
    else some (plan, w)) = _
  rw [if_pos hlt, hx]

theorem runState_loop_ge (n : Nat) (plan : List instruction) (i : Nat) (p : Value) (w : Bytes)
    (hge : ¬ i < plan.length) : (runState (n + 1)).loop plan i p w = some (plan, w) := by
  change (if i < plan.length then
      match (runState n).execAt plan i p w with
      | none => none
      | some (plan1, w1) => (runState n).loop plan1 (i + 1) p w1
    else some (plan, w)) = _
  rw [if_neg hge]

theorem runState_subLoop_lt (n : Nat) (plan : List instruction) (i si : Nat) (p : Value)
    (w : Bytes) (g : instruction) (plan1 : List instruction) (w1 : Bytes)
    (hg : plan[i]? = some g) (hlt : si < g.sub.length)
    (hx : (runState n).subAt plan i si p w = some (plan1, w1)) :
    (runState (n + 1)).subLoop plan i si p w = (runState n).subLoop plan1 i (si + 1) p w1 := by
  change (match plan[i]? with
    | none => none
    | some g =>
      if si < g.sub.length then
        match (runState n).subAt plan i si p w with
        | none => none
        | some (plan1, w1) => (runState n).subLoop plan1 i (si + 1) p w1
      else some (plan, w)) = _
  simp only [hg, if_pos hlt, hx]

theorem runState_subLoop_ge (n : Nat) (plan : List instruction) (i si : Nat) (p : Value)
    (w : Bytes) (g : instruction) (hg : plan[i]? = some g) (hge : ¬ si < g.sub.length) :
    (runState (n + 1)).subLoop plan i si p w = some (plan, w) := by
  change (match plan[i]? with
    | none => none
    | some g =>
      if si < g.sub.length then
        match (runState n).subAt plan i si p w with
        | none => none
        | some (plan1, w1) => (runState n).subLoop plan1 i (si + 1) p w1
      else some (plan, w)) = _
  simp only [hg, if_neg hge]

theorem runState_elem_succ (n : Nat) (ep : ElemPlan instruction) (v : Value) (w : Bytes) :
    (runState (n + 1)).elem ep v w = (runState n).elemAt ep v w := rfl

theorem runState_elems_nil (n : Nat) (el : ElemPlan instruction) (first : Bool) (w : Bytes) :
    (runState (n + 1)).elems el [] first w = some (el, w) := rfl

theorem runState_elems_cons (n : Nat) (el : ElemPlan instruction) (x : Value)
    (rest : List Value) (first : Bool) (w : Bytes) (el1 : ElemPlan instruction) (w1 : Bytes)
    (hx : (runState n).elem el x (if first then w else w ++ [44]) = some (el1, w1)) :
    (runState (n + 1)).elems el (x :: rest) first w = (runState n).elems el1 rest false w1 := by
  change (match (runState n).elem el x (if first then w else w ++ [44]) with
    | none => none
    | some (el1, w1) => (runState n).elems el1 rest false w1) = _
  rw [hx]

theorem succ_of_le (N n : Nat) (h : N + 1 ≤ n) : ∃ m, n = m + 1 ∧ N ≤ m :=
  ⟨n - 1, by omega, by omega⟩

/-- With enough fuel the loop over the elements returns the bytes of `runElems`. -/
theorem runState_elems_complete (rec : List instruction → Value → Bytes → Option Bytes)
    (el : ElemPlan instruction)
    (hel : ∀ v w out, el.run rec v w = some out →
      ∃ N, ∀ n, N ≤ n → (runState n).elem el v w = some (el, out)) :
    ∀ (xs : List Value) (first : Bool) (w out : Bytes),
      runElems (fun x w => el.run rec x w) xs first w = some out →
      ∃ N, ∀ n, N ≤ n → (runState n).elems el xs first w = some (el, out) := by
  intro xs
  induction xs with
  | nil =>
    intro first w out h
    rw [runElems] at h
    cases h
    refine ⟨1, fun n hn => ?_⟩
    obtain ⟨m, rfl, _⟩ := succ_of_le 0 n hn
    rfl
  | cons x rest ih =>
    intro first w out h
    rw [runElems] at h
    split at h
    · cases h
    · rename_i w1 h1
      obtain ⟨N1, hN1⟩ := hel x _ w1 h1
      obtain ⟨N2, hN2⟩ := ih false w1 out h
      refine ⟨max N1 N2 + 1, fun n hn => ?_⟩
      obtain ⟨m, rfl, hm⟩ := succ_of_le _ n hn
      rw [runState_elems_cons m el x rest first w el w1
        (hN1 m (le_trans (le_max_left _ _) hm))]
      exact hN2 m (le_trans (le_max_right _ _) hm)

/-- With enough fuel `SliceEncoder.Marshal` returns the bytes of `ElemPlan.run`. -/
theorem runState_elem_complete (rec : List instruction → Value → Bytes → Option Bytes)
    (hrec : ∀ plan p w out, rec plan p w = some out →
      ∃ N, ∀ n, N ≤ n → (runState n).marshal plan p w = some (plan, out)) :
    ∀ (ep : ElemPlan instruction) (v : Value) (w out : Bytes), ep.run rec v w = some out →
      ∃ N, ∀ n, N ≤ n → (runState n).elem ep v w = some (ep, out) := by
  intro ep
  induction ep with
  | conv c quoted =>
    intro v w out h
    refine ⟨1, fun n hn => ?_⟩
    obtain ⟨m, rfl, _⟩ := succ_of_le 0 n hn
    rw [runState_elem_succ]
    simp only [Interp.elemAt]
    simp only [ElemPlan.run] at h ⊢
    rw [h]
    rfl
  | ptr inner ih =>
    intro v w out h
    simp only [ElemPlan.run] at h
    split at h
    · cases h
      refine ⟨1, fun n hn => ?_⟩
      obtain ⟨m, rfl, _⟩ := succ_of_le 0 n hn
      rfl
    · rename_i x
      obtain ⟨N, hN⟩ := ih x w out h
      refine ⟨N + 1, fun n hn => ?_⟩
      obtain ⟨m, rfl, hm⟩ := succ_of_le _ n hn
      rw [runState_elem_succ]
      simp only [Interp.elemAt]
      rw [hN m hm]
      rfl
    · cases h
  | struct plan =>
    intro v w out h
    simp only [ElemPlan.run] at h
    obtain ⟨N, hN⟩ := hrec plan v w out h
    refine ⟨N + 1, fun n hn => ?_⟩
    obtain ⟨m, rfl, hm⟩ := succ_of_le _ n hn
    rw [runState_elem_succ]
    simp only [Interp.elemAt]
    rw [hN m hm]
    rfl
  | slice el ih =>
    intro v w out h
    simp only [ElemPlan.run] at h
    split at h
    · rename_i xs
      obtain ⟨o, ho, he⟩ := Option.map_eq_some'.mp h
      obtain ⟨N, hN⟩ := runState_elems_complete rec el ih xs true _ o ho
      refine ⟨N + 1, fun n hn => ?_⟩
      obtain ⟨m, rfl, hm⟩ := succ_of_le _ n hn
      rw [runState_elem_succ]
      simp only [Interp.elemAt]
      rw [hN m hm, ← he]
      rfl
    · cases h

/-- With enough fuel a closure returns the bytes of `Fun.run`, and itself and the
encoder it was built in as they were. -/
theorem Fun_runState_complete (rec : List instruction → Value → Bytes → Option Bytes)
    (hrec : ∀ plan p w out, rec plan p w = some out →
      ∃ N, ∀ n, N ≤ n → (runState n).marshal plan p w = some (plan, out))
    (self : List instruction) (f : Fun instruction) (v : Value) (w out : Bytes)
    (h : f.run rec self v w = some out) :
    ∃ N, ∀ n, N ≤ n →
      f.runState (runState n).marshal (runState n).elem self v w = some (f, self, out) := by
  cases f with
  | ptrval conv offset =>
    refine ⟨0, fun n _ => ?_⟩
    simp only [Fun.runState]
    simp only [Fun.run] at h ⊢
    rw [h]
    rfl
  | ptrstringval conv offset =>
    refine ⟨0, fun n _ => ?_⟩
    simp only [Fun.runState]
    simp only [Fun.run] at h ⊢
    rw [h]
    rfl
  | arrayElem conv offset i =>
    refine ⟨0, fun n _ => ?_⟩
    simp only [Fun.runState]
    simp only [Fun.run] at h ⊢
    rw [h]
    rfl
  | trimComma =>
    refine ⟨0, fun n _ => ?_⟩
    simp only [Fun.runState]
    simp only [Fun.run] at h ⊢
    rw [h]
    rfl
  | escapeSlice enc offset =>
    simp only [Fun.run] at h
    split at h
    · rename_i x hx
      obtain ⟨N, hN⟩ := runState_elem_complete rec hrec enc x w out h
      refine ⟨N, fun n hn => ?_⟩
      simp only [Fun.runState, hx]
      rw [hN n hn]
      rfl
    · cases h
  | sliceField enc offset =>
    simp only [Fun.run] at h
    split at h
    · rename_i x hx
      obtain ⟨N, hN⟩ := runState_elem_complete rec hrec enc x w out h
      refine ⟨N, fun n hn => ?_⟩
      simp only [Fun.runState, hx]
      rw [hN n hn]
      rfl
    · cases h
  | structField enc offset =>
    simp only [Fun.run] at h
    split at h
    · rename_i x hx
      obtain ⟨N, hN⟩ := hrec enc x w out h
      refine ⟨N, fun n hn => ?_⟩
      simp only [Fun.runState, hx]
      rw [hN n hn]
      rfl
    · cases h
  | ptrStruct enc offset =>
    cases enc with
    | none =>
      simp only [Fun.run] at h
      split at h
      · rename_i hx
        cases h
        refine ⟨0, fun n _ => ?_⟩
        simp only [Fun.runState, hx]
      · rename_i x hx
        obtain ⟨N, hN⟩ := hrec self x w out (by simpa using h)
        refine ⟨N, fun n hn => ?_⟩
        simp only [Fun.runState, hx]
        rw [hN n hn]
        rfl
      · cases h
    | some plan =>
      simp only [Fun.run] at h
      split at h
      · rename_i hx
        cases h
        refine ⟨0, fun n _ => ?_⟩
        simp only [Fun.runState, hx]
      · rename_i x hx
        obtain ⟨N, hN⟩ := hrec plan x w out (by simpa using h)
        refine ⟨N, fun n hn => ?_⟩
        simp only [Fun.runState, hx]
        rw [hN n hn]
        rfl
      · cases h

/-- With enough fuel a round of the inner loop returns the bytes of `execSub`. -/
theorem Interp_subAt_complete (rec : List instruction → Value → Bytes → Option Bytes)
    (hrec : ∀ plan p w out, rec plan p w = some out →
      ∃ N, ∀ n, N ≤ n → (runState n).marshal plan p w = some (plan, out))
    (plan : List instruction) (i si : Nat) (g ins : instruction)
    (hi : plan[i]? = some g) (hs : g.sub[si]? = some ins) (p : Value) (w out : Bytes)
    (h : execSub rec plan p w ins = some out) :
    ∃ N, ∀ n, N ≤ n → (runState n).subAt plan i si p w = some (plan, out) := by
  unfold execSub at h
  unfold Interp.subAt
  simp only [hi, hs]
  by_cases h1 : ins.kind = kindStatic
  · rw [if_pos h1] at h
    simp only [if_pos h1]
    cases h
    exact ⟨0, fun n _ => rfl⟩
  rw [if_neg h1] at h
  simp only [if_neg h1]
  by_cases h2 : ins.kind = kindStringField
  · rw [if_pos h2] at h
    simp only [if_pos h2, h]
    exact ⟨0, fun n _ => rfl⟩
  rw [if_neg h2] at h
  simp only [if_neg h2]
  by_cases h3 : ins.kind = kindInt
  · rw [if_pos h3] at h
    simp only [if_pos h3, h]
    exact ⟨0, fun n _ => rfl⟩
  rw [if_neg h3] at h
  simp only [if_neg h3]
  cases hl : ins.leapFun with
  | some c =>
    simp only [hl] at h ⊢
    simp only [h]
    exact ⟨0, fun n _ => rfl⟩
  | none =>
    simp only [hl] at h ⊢
    cases hf : ins.fn with
    | none =>
      simp only [hf] at h
      cases h
    | some f =>
      simp only [hf] at h ⊢
      obtain ⟨N, hN⟩ := Fun_runState_complete rec hrec plan f p w out h
      refine ⟨N, fun n hn => ?_⟩
      rw [hN n hn]
      simp only [Option.map_some', setSubFn_same plan i si g ins f hi hs hf]

/-- With enough fuel the inner loop returns the bytes of the fold of `execSub`. -/
theorem runState_subLoop_complete (rec : List instruction → Value → Bytes → Option Bytes)
    (hrec : ∀ plan p w out, rec plan p w = some out →
      ∃ N, ∀ n, N ≤ n → (runState n).marshal plan p w = some (plan, out))
    (plan : List instruction) (i : Nat) (g : instruction) (hi : plan[i]? = some g)
    (p : Value) :
    ∀ (k si : Nat), si + k = g.sub.length → ∀ (w out : Bytes),
      (g.sub.drop si).foldlM (execSub rec plan p) w = some out →
      ∃ N, ∀ n, N ≤ n → (runState n).subLoop plan i si p w = some (plan, out) := by
  intro k
  induction k with
  | zero =>
    intro si hk w out h
    rw [List.drop_eq_nil_of_le (by omega)] at h
    cases h
    refine ⟨1, fun n hn => ?_⟩
    obtain ⟨m, rfl, _⟩ := succ_of_le 0 n hn
    exact runState_subLoop_ge m plan i si p w g hi (by omega)
  | succ k ih =>
    intro si hk w out h
    have hlt : si < g.sub.length := by omega
    have hs : g.sub[si]? = some g.sub[si] := List.getElem?_eq_getElem hlt
    rw [List.drop_eq_getElem_cons hlt] at h
    simp only [List.foldlM, bind, Option.bind_eq_bind] at h
    obtain ⟨w1, h1, h2⟩ := Option.bind_eq_some.mp h
    obtain ⟨N1, hN1⟩ := Interp_subAt_complete rec hrec plan i si g _ hi hs p w w1 h1
    obtain ⟨N2, hN2⟩ := ih (si + 1) (by omega) w1 out h2
    refine ⟨max N1 N2 + 1, fun n hn => ?_⟩
    obtain ⟨m, rfl, hm⟩ := succ_of_le _ n hn
    rw [runState_subLoop_lt m plan i si p w g plan w1 hi hlt
      (hN1 m (le_trans (le_max_left _ _) hm))]
    exact hN2 m (le_trans (le_max_right _ _) hm)

/-- With enough fuel a round of the outer loop returns the bytes of `exec`. -/
theorem Interp_execAt_complete (rec : List instruction → Value → Bytes → Option Bytes)
    (hrec : ∀ plan p w out, rec plan p w = some out →
      ∃ N, ∀ n, N ≤ n → (runState n).marshal plan p w = some (plan, out))
    (plan : List instruction) (i : Nat) (ins : instruction)
    (hi : plan[i]? = some ins) (p : Value) (w out : Bytes)
    (h : exec rec plan p w ins = some out) :
    ∃ N, ∀ n, N ≤ n → (runState n).execAt plan i p w = some (plan, out) := by
  unfold exec at h
  unfold Interp.execAt
  simp only [hi]
  by_cases h1 : ins.kind = kindStatic
  · rw [if_pos h1] at h
    simp only [if_pos h1]
    cases h
    exact ⟨0, fun n _ => rfl⟩
  rw [if_neg h1] at h
  simp only [if_neg h1]
  by_cases h2 : ins.kind = kindStringField
  · rw [if_pos h2] at h
    simp only [if_pos h2, h]
    exact ⟨0, fun n _ => rfl⟩
  rw [if_neg h2] at h
  simp only [if_neg h2]
  by_cases h3 : ins.kind = kindInt
  · rw [if_pos h3] at h
    simp only [if_pos h3, h]
    exact ⟨0, fun n _ => rfl⟩
  rw [if_neg h3] at h
  simp only [if_neg h3]
  cases hl : ins.leapFun with
  | some c =>
    simp only [hl] at h ⊢
    simp only [h]
    exact ⟨0, fun n _ => rfl⟩
  | none =>
    simp only [hl] at h ⊢
    by_cases h4 : ins.kind = KindOmit
    · rw [if_pos h4] at h
      simp only [if_pos h4]
      cases hz : ins.isZero with
      | none =>
        simp only [hz] at h
        cases h
      | some isZero =>
        simp only [hz] at h ⊢
        cases hb : (leap p ins.offset).bind isZero with
        | none =>
          simp only [hb] at h
          cases h
        | some b =>
          cases b with
          | true =>
            simp only [hb] at h ⊢
            cases hf : ins.fn with
            | none =>
              simp only [hf] at h ⊢
              cases h
              exact ⟨0, fun n _ => rfl⟩
            | some f =>
              simp only [hf] at h ⊢
              obtain ⟨N, hN⟩ := Fun_runState_complete rec hrec plan f p _ out h
              refine ⟨N, fun n hn => ?_⟩
              rw [hN n hn]
              simp only [Option.map_some', setFn_same plan i ins f hi hf]
          | false =>
            simp only [hb] at h ⊢
            exact runState_subLoop_complete rec hrec plan i ins hi p ins.sub.length 0
              (by omega) _ out (by simpa using h)
    · rw [if_neg h4] at h
      simp only [if_neg h4]
      cases hf : ins.fn with
      | none =>
        simp only [hf] at h
        cases h
      | some f =>
        simp only [hf] at h ⊢
        obtain ⟨N, hN⟩ := Fun_runState_complete rec hrec plan f p w out h
        refine ⟨N, fun n hn => ?_⟩
        rw [hN n hn]
        simp only [Option.map_some', setFn_same plan i ins f hi hf]

/-- With enough fuel the outer loop returns the bytes of the fold of `exec`. -/
theorem runState_loop_complete (rec : List instruction → Value → Bytes → Option Bytes)
    (hrec : ∀ plan p w out, rec plan p w = some out →
      ∃ N, ∀ n, N ≤ n → (runState n).marshal plan p w = some (plan, out))
    (plan : List instruction) (p : Value) :
    ∀ (k i : Nat), i + k = plan.length → ∀ (w out : Bytes),
      (plan.drop i).foldlM (exec rec plan p) w = some out →
      ∃ N, ∀ n, N ≤ n → (runState n).loop plan i p w = some (plan, out) := by
  intro k
  induction k with
  | zero =>
    intro i hk w out h
    rw [List.drop_eq_nil_of_le (by omega)] at h
    cases h
    refine ⟨1, fun n hn => ?_⟩
    obtain ⟨m, rfl, _⟩ := succ_of_le 0 n hn
    exact runState_loop_ge m plan i p w (by omega)
  | succ k ih =>
    intro i hk w out h
    have hlt : i < plan.length := by omega
    have hi : plan[i]? = some plan[i] := List.getElem?_eq_getElem hlt
    rw [List.drop_eq_getElem_cons hlt] at h
    simp only [List.foldlM, bind, Option.bind_eq_bind] at h
    obtain ⟨w1, h1, h2⟩ := Option.bind_eq_some.mp h
    obtain ⟨N1, hN1⟩ := Interp_execAt_complete rec hrec plan i _ hi p w w1 h1
    obtain ⟨N2, hN2⟩ := ih (i + 1) (by omega) w1 out h2
    refine ⟨max N1 N2 + 1, fun n hn => ?_⟩
    obtain ⟨m, rfl, hm⟩ := succ_of_le _ n hn
    rw [runState_loop_lt m plan i p w plan w1 hlt (hN1 m (le_trans (le_max_left _ _) hm))]
    exact hN2 m (le_trans (le_max_right _ _) hm)

/-- Enough fuel gives the result: where `Marshal` returns bytes, the interpreter with
the plan in the state returns the same bytes and the plan as it was, from some fuel
on. -/
theorem runState_complete : ∀ (d : Nat) (plan : List instruction) (p : Value) (w out : Bytes),
    Marshal d plan p w = some out →
    ∃ N, ∀ n, N ≤ n → (runState n).marshal plan p w = some (plan, out) := by
  intro d
  induction d with
  | zero =>
    intro plan p w out h
    cases h
  | succ d ih =>
    intro plan p w out h
    rw [Marshal] at h
    obtain ⟨N, hN⟩ := runState_loop_complete (Marshal d) ih plan p plan.length 0 (by omega)
      w out (by simpa using h)
    refine ⟨N + 1, fun n hn => ?_⟩
    obtain ⟨m, rfl, hm⟩ := succ_of_le _ n hn
    rw [runState_marshal_succ]
    exact hN m hm

/-! ## Calls of Marshal on the same encoder -/

/-- A call of `Marshal` that returns leaves the encoder as it was and writes the bytes
of the plan. -/
theorem marshalCall_sound (e e1 : StructEncoder) (fuel : Nat) (p : Value) (w out : Bytes)
    (h : e.marshalCall fuel p w = some (e1, out)) :
    e1 = e ∧ Marshal fuel e.instructions p w = some out := by
  unfold StructEncoder.marshalCall at h
  obtain ⟨r, hr, he⟩ := Option.map_eq_some'.mp h
  obtain ⟨plan1, o⟩ := r
  simp only [Prod.mk.injEq] at he
  obtain ⟨e2, e3⟩ := (runState_sound fuel).1 e.instructions p w plan1 o hr
  rw [e2] at he
  exact ⟨he.1.symm, by rw [← he.2]; exact e3⟩

/-- With enough fuel a call of `Marshal` returns the bytes of the plan and the encoder
as it was. -/
theorem marshalCall_complete (e : StructEncoder) (d : Nat) (p : Value) (w out : Bytes)
    (h : Marshal d e.instructions p w = some out) :
    ∃ N, ∀ fuel, N ≤ fuel → e.marshalCall fuel p w = some (e, out) := by
  obtain ⟨N, hN⟩ := runState_complete d e.instructions p w out h
  refine ⟨N, fun fuel hf => ?_⟩
  unfold StructEncoder.marshalCall
  rw [hN fuel hf]
  rfl

theorem marshalTimes_of_call (fuel : Nat) (p : Value) (e : StructEncoder) (out : Bytes)
    (h : e.marshalCall fuel p [] = some (e, out)) :
    ∀ n, marshalTimes fuel p n e = some (e, List.replicate n out) := by
  intro n
  induction n with
  | zero => rfl
  | succ n ih =>
    rw [marshalTimes]
    simp only [h, ih, List.replicate_succ]

theorem marshalTimes_sound (fuel d : Nat) (p : Value) (e : StructEncoder) (out : Bytes)
    (h : Marshal d e.instructions p [] = some out) :
    ∀ (n : Nat) (r : StructEncoder × List Bytes), marshalTimes fuel p n e = some r →
      r = (e, List.replicate n out) := by
  intro n
  induction n with
  | zero =>
    intro r hr
    rw [marshalTimes] at hr
    cases hr
    rfl
  | succ n ih =>
    intro r hr
    rw [marshalTimes] at hr
    cases hc : e.marshalCall fuel p [] with
    | none =>
      simp only [hc] at hr
      cases hr
    | some c =>
      obtain ⟨e1, o⟩ := c
      simp only [hc] at hr
      obtain ⟨e2, e3⟩ := marshalCall_sound e e1 fuel p [] o hc
      have h1 := Marshal_mono fuel (max fuel d) (le_max_left _ _) _ p [] o e3
      have h2 := Marshal_mono d (max fuel d) (le_max_right _ _) _ p [] out h
      rw [h1] at h2
      cases h2
      rw [e2] at hr
      cases hm : marshalTimes fuel p n e with
      | none =>
        simp only [hm] at hr
        cases hr
      | some c2 =>
        obtain ⟨e4, outs⟩ := c2
        simp only [hm] at hr
        have := ih (e4, outs) hm
        simp only [Prod.mk.injEq] at this
        cases hr
        rw [this.1, this.2, List.replicate_succ]

/-- C27: `Marshal` executed with the instructions of the encoder, and of every encoder
its closures refer to, held in memory that each step reads from and hands on. Every
call that returns, into any sink and with any bound on the steps, returns the encoder
it was called on and the bytes of the plan. For an instance on which the plan runs to
the bytes `out` from an empty sink, any number of calls one after the other on the
same encoder, each into an empty sink, return from some bound on and give `out` each
time and the encoder as it was; and under any bound, calls that return give these. -/
theorem plan_is_immutable (e : StructEncoder) (d : Nat) (p : Value) (out : Bytes)
    (h : Marshal d e.instructions p [] = some out) :
    (∀ (fuel : Nat) (w : Bytes) (e1 : StructEncoder) (out1 : Bytes),
        e.marshalCall fuel p w = some (e1, out1) →
        e1 = e ∧ e1.instructions = e.instructions ∧
          Marshal fuel e.instructions p w = some out1) ∧
      (∃ N, ∀ fuel, N ≤ fuel → ∀ n,
        marshalTimes fuel p n e = some (e, List.replicate n out)) ∧
      (∀ (fuel n : Nat) (r : StructEncoder × List Bytes),
        marshalTimes fuel p n e = some r → r = (e, List.replicate n out)) := by
  refine ⟨?_, ?_, fun fuel n r hr => marshalTimes_sound fuel d p e out h n r hr⟩
  · intro fuel w e1 out1 hc
    obtain ⟨e2, e3⟩ := marshalCall_sound e e1 fuel p w out1 hc
    exact ⟨e2, by rw [e2], e3⟩
  · obtain ⟨N, hN⟩ := marshalCall_complete e d p [] out h
    exact ⟨N, fun fuel hf n => marshalTimes_of_call fuel p e out (hN fuel hf) n⟩

theorem plan_is_immutable_witness :
    Marshal 2 (compiled (NewStructEncoder envOmitPtr 2 (.struct 0) .zero)).instructions
        (.struct [.int 7, .ptr (some (.struct [.int 1])), .bool false]) []
      = some (bs "\x7b\"a\":7,\"p\":\x7b\"x\":1\x7d\x7d") ∧
    (marshalTimes 12 (.struct [.int 7, .ptr (some (.struct [.int 1])), .bool false]) 3
        (compiled (NewStructEncoder envOmitPtr 2 (.struct 0) .zero))).map (fun r => r.2)
      = some (List.replicate 3 (bs "\x7b\"a\":7,\"p\":\x7b\"x\":1\x7d\x7d")) ∧
    ∀ (r : StructEncoder × List Bytes),
      marshalTimes 12 (.struct [.int 7, .ptr (some (.struct [.int 1])), .bool false]) 3
        (compiled (NewStructEncoder envOmitPtr 2 (.struct 0) .zero)) = some r →
      r = (compiled (NewStructEncoder envOmitPtr 2 (.struct 0) .zero),
        List.replicate 3 (bs "\x7b\"a\":7,\"p\":\x7b\"x\":1\x7d\x7d")) :=
  ⟨by decide, by decide,
    (plan_is_immutable (compiled (NewStructEncoder envOmitPtr 2 (.struct 0) .zero)) 2
      (.struct [.int 7, .ptr (some (.struct [.int 1])), .bool false])
      (bs "\x7b\"a\":7,\"p\":\x7b\"x\":1\x7d\x7d") (by decide)).2.2 12 3⟩

/-! ## What the sink held before the call -/

theorem Conv.run_nil (c : Conv) (v : Value) (w : Bytes) :
    c.run v w = (c.run v []).map (w ++ ·) := by
  cases c
  case stringer m => cases m <;> simp [Conv.run]
  case encoder m => cases m <;> simp [Conv.run]
  case encoderWriter m => cases m <;> simp [Conv.run]
  case raw =>
    simp only [Conv.run]
    split
    · rfl
    · split <;> simp
  all_goals
    cases v <;>
      first
      | (simp [Conv.run]; done)
      | (simp only [Conv.run, Option.map_some', Option.some.injEq]
         first
         | exact AppendInt_eq _ _
         | exact AppendUint_eq _ _
         | (rw [ptrEscapeStringToBuf_eq, ptrEscapeStringToBuf_eq _ []]; simp)
         | (split <;> simp))

theorem Conv_run_frame (c : Conv) (v : Value) (b t : Bytes) :
    c.run v (b ++ t) = (c.run v t).map (b ++ ·) := by
  rw [Conv.run_nil c v (b ++ t), Conv.run_nil c v t]
  cases c.run v [] <;> simp

theorem Guarded.append {t : Bytes} (h : Guarded t) (a : Bytes) : Guarded (t ++ a) := by
  obtain ⟨c, t', rfl, hc⟩ := h
  exact ⟨c, t' ++ a, rfl, hc⟩

theorem Guarded.of_keeps {t t2 : Bytes} (h : Guarded t)
    (hk : ∀ u, (∃ u0 c, u = u0 ++ [c] ∧ c ≠ 44) → u <+: t → u <+: t2) : Guarded t2 := by
  obtain ⟨c, t', rfl, hc⟩ := h
  obtain ⟨r, hr⟩ := hk [c] ⟨[], c, rfl, hc⟩ ⟨t', rfl⟩
  exact ⟨c, r, hr.symm, hc⟩

theorem Guarded.ne_nil {t : Bytes} (h : Guarded t) : t ≠ [] := by
  obtain ⟨c, t', rfl, _⟩ := h
  simp

theorem Conv_run_guarded (c : Conv) (v : Value) (t t2 : Bytes) (h : c.run v t = some t2)
    (hg : Guarded t) : Guarded t2 := by
  obtain ⟨a, rfl⟩ := Conv.run_append c v t t2 h
  exact hg.append a

theorem runElems_frame (f : Value → Bytes → Option Bytes) :
    ∀ (xs : List Value),
      (∀ x ∈ xs, ∀ b t, Guarded t → f x (b ++ t) = (f x t).map (b ++ ·)) →
      (∀ x ∈ xs, ∀ t t2, f x t = some t2 → Guarded t → Guarded t2) →
      ∀ (first : Bool) (b t : Bytes), Guarded t →
        runElems f xs first (b ++ t) = (runElems f xs first t).map (b ++ ·) := by
  intro xs
  induction xs with
  | nil =>
    intro _ _ first b t _
    simp [runElems]
  | cons x r ih =>
    intro hf hk first b t hg
    have hg1 : Guarded (if first = true then t else t ++ [44]) := by
      split
      · exact hg
      · exact hg.append _
    have harg : (if first = true then b ++ t else b ++ t ++ [44])
        = b ++ (if first = true then t else t ++ [44]) := by
      split <;> simp
    rw [runElems, runElems, harg, hf x (List.mem_cons_self _ _) b _ hg1]
    cases hx : f x (if first = true then t else t ++ [44]) with
    | none => rfl
    | some t2 =>
      simp only [Option.map_some']
      exact ih (fun y hy => hf y (List.mem_cons_of_mem _ hy))
        (fun y hy => hk y (List.mem_cons_of_mem _ hy)) false b t2
        (hk x (List.mem_cons_self _ _) _ t2 hx hg1)

theorem ElemPlan_run_guarded
    (rec : List instruction → Value → Bytes → Option Bytes)
    (hkeep : ∀ u, (∃ u0 c, u = u0 ++ [c] ∧ c ≠ 44) → ∀ plan v w w',
      rec plan v w = some w' → u <+: w → u <+: w')
    (ep : ElemPlan instruction) (v : Value) (t t2 : Bytes) (h : ep.run rec v t = some t2)
    (hg : Guarded t) : Guarded t2 :=
  hg.of_keeps (fun u hu hp => ElemPlan_run_keeps u rec (hkeep u hu) ep v t t2 h hp)

theorem ElemPlan_run_frame (rec : List instruction → Value → Bytes → Option Bytes)
    (hrec : ∀ plan v b t, Guarded t → rec plan v (b ++ t) = (rec plan v t).map (b ++ ·))
    (hkeep : ∀ u, (∃ u0 c, u = u0 ++ [c] ∧ c ≠ 44) → ∀ plan v w w',
      rec plan v w = some w' → u <+: w → u <+: w') :
    ∀ (ep : ElemPlan instruction) (v : Value) (b t : Bytes), Guarded t →
      ep.run rec v (b ++ t) = (ep.run rec v t).map (b ++ ·) := by
  intro ep
  induction ep with
  | conv c quoted =>
    intro v b t _
    simp only [ElemPlan.run]
    split
    · rw [List.append_assoc, Conv_run_frame]
      cases c.run v (t ++ [34]) <;> simp
    · exact Conv_run_frame c v b t
  | ptr inner ih =>
    intro v b t hg
    cases v
    case ptr o =>
      cases o with
      | none => simp [ElemPlan.run]
      | some x =>
        simp only [ElemPlan.run]
        exact ih x b t hg
    all_goals simp [ElemPlan.run]
  | struct plan =>
    intro v b t hg
    rw [ElemPlan.run, ElemPlan.run]
    exact hrec plan v b t hg
  | slice elem ih =>
    intro v b t hg
    cases v
    case slice xs =>
      simp only [ElemPlan.run]
      rw [List.append_assoc, runElems_frame _ xs (fun x _ b1 t1 hg1 => ih x b1 t1 hg1)
        (fun x _ t1 t2 h1 hg1 => ElemPlan_run_guarded rec hkeep elem x t1 t2 h1 hg1) true b _
        (hg.append _)]
      cases runElems (fun x w => ElemPlan.run rec elem x w) xs true (t ++ [91]) <;> simp
    all_goals simp [ElemPlan.run]

theorem trimComma_frame (b t : Bytes) (hg : Guarded t) :
    (match (b ++ t).getLast? with
      | none => none
      | some c => if c = 44 then some (b ++ t).dropLast else some (b ++ t))
      = (match t.getLast? with
        | none => none
        | some c => if c = 44 then some t.dropLast else some t).map (b ++ ·) := by
  obtain ⟨c, t', rfl, hc⟩ := hg
  rcases List.eq_nil_or_concat t' with h0 | ⟨r, x, h0⟩
  · subst h0
    simp [hc]
  · subst h0
    rw [List.concat_eq_append]
    have e1 : b ++ c :: (r ++ [x]) = (b ++ c :: r) ++ [x] := by simp
    have e2 : c :: (r ++ [x]) = (c :: r) ++ [x] := by simp
    rw [e1, e2]
    simp only [List.getLast?_append, List.getLast?_singleton, Option.or_some,
      List.dropLast_concat]
    split <;> simp

theorem leap_bind_frame (c : Conv) (p : Value) (off : Nat) (b t : Bytes) :
    (leap p off).bind (c.run · (b ++ t)) = ((leap p off).bind (c.run · t)).map (b ++ ·) := by
  cases leap p off with
  | none => rfl
  | some x => exact Conv_run_frame c x b t

theorem Fun_run_frame (rec : List instruction → Value → Bytes → Option Bytes)
    (hrec : ∀ plan v b t, Guarded t → rec plan v (b ++ t) = (rec plan v t).map (b ++ ·))
    (hkeep : ∀ u, (∃ u0 c, u = u0 ++ [c] ∧ c ≠ 44) → ∀ plan v w w',
      rec plan v w = some w' → u <+: w → u <+: w')
    (self : List instruction) (f : Fun instruction) (v : Value) (b t : Bytes)
    (hg : Guarded t) : f.run rec self v (b ++ t) = (f.run rec self v t).map (b ++ ·) := by
  cases f with
  | ptrval conv offset =>
    simp only [Fun.run]
    split
    · simp
    · exact Conv_run_frame conv _ b t
    · rfl
  | ptrstringval conv offset =>
    simp only [Fun.run]
    split
    · simp
    · rename_i x _
      rw [List.append_assoc, Conv_run_frame]
      cases conv.run x (t ++ [34]) <;> simp
    · rfl
  | escapeSlice enc offset =>
    simp only [Fun.run]
    split
    · exact ElemPlan_run_frame rec hrec hkeep enc _ b t hg
    · rfl
  | arrayElem conv offset i =>
    simp only [Fun.run]
    split
    · split
      · exact Conv_run_frame conv _ b t
      · rfl
    · rfl
  | sliceField enc offset =>
    simp only [Fun.run]
    split
    · exact ElemPlan_run_frame rec hrec hkeep enc _ b t hg
    · rfl
  | ptrStruct enc offset =>
    simp only [Fun.run]
    split
    · simp
    · exact hrec _ _ b t hg
    · rfl
  | structField enc offset =>
    simp only [Fun.run]
    split
    · exact hrec _ _ b t hg
    · rfl
  | trimComma =>
    simp only [Fun.run]
    exact trimComma_frame b t hg

theorem execSub_frame (rec : List instruction → Value → Bytes → Option Bytes)
    (hrec : ∀ plan v b t, Guarded t → rec plan v (b ++ t) = (rec plan v t).map (b ++ ·))
    (hkeep : ∀ u, (∃ u0 c, u = u0 ++ [c] ∧ c ≠ 44) → ∀ plan v w w',
      rec plan v w = some w' → u <+: w → u <+: w')
    (self : List instruction) (p : Value) (ins : instruction) (b t : Bytes)
    (hg : Guarded t) :
    execSub rec self p (b ++ t) ins = (execSub rec self p t ins).map (b ++ ·) := by
  unfold execSub
  split
  · simp
  split
  · exact leap_bind_frame _ p _ b t
  split
  · exact leap_bind_frame _ p _ b t
  split
  · exact leap_bind_frame _ p _ b t
  · split
    · exact Fun_run_frame rec hrec hkeep self _ p b t hg
    · rfl

theorem foldlM_frame {α : Type} (f : Bytes → α → Option Bytes) :
    ∀ (l : List α),
      (∀ x ∈ l, ∀ b t, Guarded t → f (b ++ t) x = (f t x).map (b ++ ·)) →
      (∀ x ∈ l, ∀ t t2, f t x = some t2 → Guarded t → Guarded t2) →
      ∀ (b t : Bytes), Guarded t → l.foldlM f (b ++ t) = (l.foldlM f t).map (b ++ ·) := by
  intro l
  induction l with
  | nil =>
    intro _ _ b t _
    simp [List.foldlM]
  | cons x r ih =>
    intro hf hk b t hg
    simp only [List.foldlM, bind]
    rw [hf x (List.mem_cons_self _ _) b t hg]
    cases hx : f t x with
    | none => rfl
    | some t2 =>
      simp only [Option.map_some', Option.some_bind]
      exact ih (fun y hy => hf y (List.mem_cons_of_mem _ hy))
        (fun y hy => hk y (List.mem_cons_of_mem _ hy)) b t2
        (hk x (List.mem_cons_self _ _) t t2 hx hg)

theorem execSub_guarded (rec : List instruction → Value → Bytes → Option Bytes)
    (hkeep : ∀ u, (∃ u0 c, u = u0 ++ [c] ∧ c ≠ 44) → ∀ plan v w w',
      rec plan v w = some w' → u <+: w → u <+: w')
    (self : List instruction) (p : Value) (ins : instruction) (t t2 : Bytes)
    (h : execSub rec self p t ins = some t2) (hg : Guarded t) : Guarded t2 :=
  hg.of_keeps (fun u hu hp => execSub_keeps u hu rec (hkeep u hu) self p t ins t2 h hp)

theorem exec_guarded (rec : List instruction → Value → Bytes → Option Bytes)
    (hkeep : ∀ u, (∃ u0 c, u = u0 ++ [c] ∧ c ≠ 44) → ∀ plan v w w',
      rec plan v w = some w' → u <+: w → u <+: w')
    (self : List instruction) (p : Value) (ins : instruction) (t t2 : Bytes)
    (h : exec rec self p t ins = some t2) (hg : Guarded t) : Guarded t2 :=
  hg.of_keeps (fun u hu hp => exec_keeps u hu rec (hkeep u hu) self p t ins t2 h hp)

/-- After the static bytes of an omit group, the rest of the group does not depend on
what the sink held before a byte that is not a comma. -/
theorem omit_rest_frame (rec : List instruction → Value → Bytes → Option Bytes)
    (hrec : ∀ plan v b t, Guarded t → rec plan v (b ++ t) = (rec plan v t).map (b ++ ·))
    (hkeep : ∀ u, (∃ u0 c, u = u0 ++ [c] ∧ c ≠ 44) → ∀ plan v w w',
      rec plan v w = some w' → u <+: w → u <+: w')
    (self : List instruction) (p : Value) (ins : instruction) (b t : Bytes)
    (hg : Guarded t) :
    (match ins.isZero with
      | none => none
      | some isZero =>
        match (leap p ins.offset).bind isZero with
        | none => none
        | some true =>
          match ins.fn with
          | some f => f.run rec self p (b ++ t)
          | none => some (b ++ t)
        | some false => ins.sub.foldlM (execSub rec self p) (b ++ t))
      = (match ins.isZero with
        | none => none
        | some isZero =>
          match (leap p ins.offset).bind isZero with
          | none => none
          | some true =>
            match ins.fn with
            | some f => f.run rec self p t
            | none => some t
          | some false => ins.sub.foldlM (execSub rec self p) t).map (b ++ ·) := by
  split
  · rfl
  · split
    · rfl
    · split
      · exact Fun_run_frame rec hrec hkeep self _ p b t hg
      · rfl
    · exact foldlM_frame _ _
        (fun x _ b1 t1 hg1 => execSub_frame rec hrec hkeep self p x b1 t1 hg1)
        (fun x _ t1 t2 h1 hg1 => execSub_guarded rec hkeep self p x t1 t2 h1 hg1) b t hg

theorem exec_frame (rec : List instruction → Value → Bytes → Option Bytes)
    (hrec : ∀ plan v b t, Guarded t → rec plan v (b ++ t) = (rec plan v t).map (b ++ ·))
    (hkeep : ∀ u, (∃ u0 c, u = u0 ++ [c] ∧ c ≠ 44) → ∀ plan v w w',
      rec plan v w = some w' → u <+: w → u <+: w')
    (self : List instruction) (p : Value) (ins : instruction) (b t : Bytes)
    (hg : Guarded t) :
    exec rec self p (b ++ t) ins = (exec rec self p t ins).map (b ++ ·) := by
  unfold exec
  split
  · simp
  split
  · exact leap_bind_frame _ p _ b t
  split
  · exact leap_bind_frame _ p _ b t
  split
  · exact leap_bind_frame _ p _ b t
  · split
    · simp only [List.append_assoc]
      exact omit_rest_frame rec hrec hkeep self p ins b (t ++ ins.static) (hg.append _)
    · split
      · exact Fun_run_frame rec hrec hkeep self _ p b t hg
      · rfl

/-- Whatever the plan, what `Marshal` appends to a sink that ends in bytes beginning
with a byte other than a comma does not depend on what the sink held before them. -/
theorem Marshal_frame : ∀ (fuel : Nat) (plan : List instruction) (p : Value) (b t : Bytes),
    Guarded t → Marshal fuel plan p (b ++ t) = (Marshal fuel plan p t).map (b ++ ·) := by
  intro fuel
  induction fuel with
  | zero =>
    intro plan p b t _
    rfl
  | succ n ih =>
    intro plan p b t hg
    rw [Marshal, Marshal]
    exact foldlM_frame _ plan
      (fun x _ b1 t1 hg1 => exec_frame (Marshal n) ih
        (fun u hu => Marshal_keeps u hu n) plan p x b1 t1 hg1)
      (fun x _ t1 t2 h1 hg1 => exec_guarded (Marshal n)
        (fun u hu => Marshal_keeps u hu n) plan p x t1 t2 h1 hg1) b t hg

/-- The first instruction of a plan writes `{` first: what it appends does not depend
on what the sink held. -/
theorem exec_head_frame (rec : List instruction → Value → Bytes → Option Bytes)
    (hrec : ∀ plan v b t, Guarded t → rec plan v (b ++ t) = (rec plan v t).map (b ++ ·))
    (hkeep : ∀ u, (∃ u0 c, u = u0 ++ [c] ∧ c ≠ 44) → ∀ plan v w w',
      rec plan v w = some w' → u <+: w → u <+: w')
    (self : List instruction) (p : Value) (x : instruction)
    (hx : OpensObject x.static x.kind x.leapFun) (b : Bytes) :
    exec rec self p b x = (exec rec self p [] x).map (b ++ ·) := by
  obtain ⟨hs, hk, hl⟩ := hx
  have hg : Guarded x.static := by
    cases hst : x.static with
    | nil => rw [hst] at hs; cases hs
    | cons c st =>
      rw [hst] at hs
      simp only [List.head?_cons, Option.some.injEq] at hs
      exact ⟨c, st, rfl, by rw [hs]; decide⟩
  unfold exec
  rcases hk with hk | hk
  · rw [if_pos hk, if_pos hk]
    simp
  · have h1 : ¬ x.kind = kindStatic := by rw [hk]; decide
    have h2 : ¬ x.kind = kindStringField := by rw [hk]; decide
    have h3 : ¬ x.kind = kindInt := by rw [hk]; decide
    rw [if_neg h1, if_neg h2, if_neg h3, if_neg h1, if_neg h2, if_neg h3, hl]
    simp only [hk, if_true, List.nil_append]
    exact omit_rest_frame rec hrec hkeep self p x b x.static hg

theorem exec_head_guarded (rec : List instruction → Value → Bytes → Option Bytes)
    (hkeep : ∀ u, (∃ u0 c, u = u0 ++ [c] ∧ c ≠ 44) → ∀ plan v w w',
      rec plan v w = some w' → u <+: w → u <+: w')
    (self : List instruction) (p : Value) (x : instruction) (w1 : Bytes)
    (hx : OpensObject x.static x.kind x.leapFun) (h : exec rec self p [] x = some w1) :
    Guarded w1 := by
  obtain ⟨r, hr⟩ := exec_head_keeps rec hkeep self p [] x w1 hx h
  exact ⟨123, r, hr.symm, by decide⟩

theorem trimComma_run (rec : List instruction → Value → Bytes → Option Bytes)
    (self : List instruction) (p : Value) (w w' : Bytes)
    (h : (Fun.trimComma : Fun instruction).run rec self p w = some w') :
    w' = w ∨ w = w' ++ [44] := by
  simp only [Fun.run] at h
  split at h
  · cases h
  · rename_i c hc
    split at h
    · rename_i h44
      simp only [Option.some.injEq] at h
      subst h
      subst h44
      right
      rcases List.eq_nil_or_concat w with h0 | ⟨r, x, h0⟩
      · subst h0
        cases hc
      · subst h0
        rw [List.concat_eq_append] at hc ⊢
        simp only [List.getLast?_append, List.getLast?_singleton, Option.or_some,
          Option.some.injEq] at hc
        rw [List.dropLast_concat, hc]
    · simp only [Option.some.injEq] at h
      exact Or.inl h.symm

/-- C30: for every plan that `NewStructEncoder` returns, every instance and every
contents `b` of the sink, `Marshal` leaves in the sink `b` followed by the bytes it
appends to the empty sink: they do not depend on `b`, and no byte of `b` is removed.
The closing fixup of a final omitempty field, the only instruction that removes
anything, removes nothing or one trailing `,`. -/
theorem marshal_append_only (env : TypeEnv) (F : Nat) (tt : GoType) (tv : ShapeVal)
    (e : StructEncoder) (hc : NewStructEncoder env F tt tv = .ok e) :
    (∀ (M : Nat) (p : Value) (b : Bytes),
        Marshal M e.instructions p b = (Marshal M e.instructions p []).map (b ++ ·)) ∧
      (∀ (M : Nat) (p : Value) (b out : Bytes), Marshal M e.instructions p b = some out →
        ∃ app, out = b ++ app ∧ Marshal M e.instructions p [] = some app) ∧
      (∀ (rec : List instruction → Value → Bytes → Option Bytes) (self : List instruction)
        (p : Value) (w w' : Bytes),
        (Fun.trimComma : Fun instruction).run rec self p w = some w' →
        w' = w ∨ w = w' ++ [44]) := by
  have main : ∀ (M : Nat) (p : Value) (b : Bytes),
      Marshal M e.instructions p b = (Marshal M e.instructions p []).map (b ++ ·) := by
    intro M p b
    obtain ⟨_, _, ⟨x, t, hxt, hx⟩, _⟩ := NewStructEncoder_shape env F tt tv e hc
    cases M with
    | zero => rfl
    | succ M =>
      rw [Marshal, Marshal]
      have hfold : ∀ w, List.foldlM (exec (Marshal M) e.instructions p) w e.instructions
          = (exec (Marshal M) e.instructions p w x).bind
              (fun w1 => List.foldlM (exec (Marshal M) e.instructions p) w1 t) := by
        intro w
        generalize exec (Marshal M) e.instructions p = f
        rw [hxt]
        rfl
      rw [hfold b, hfold [],
        exec_head_frame (Marshal M) (Marshal_frame M) (fun u hu => Marshal_keeps u hu M)
          e.instructions p x hx b]
      cases h1 : exec (Marshal M) e.instructions p [] x with
      | none => rfl
      | some w1 =>
        simp only [Option.map_some', Option.some_bind]
        have hg := exec_head_guarded (Marshal M) (fun u hu => Marshal_keeps u hu M)
          e.instructions p x w1 hx h1
        exact foldlM_frame _ t
          (fun y _ b1 t1 hg1 => exec_frame (Marshal M) (Marshal_frame M)
            (fun u hu => Marshal_keeps u hu M) e.instructions p y b1 t1 hg1)
          (fun y _ t1 t2 h2 hg1 => exec_guarded (Marshal M)
            (fun u hu => Marshal_keeps u hu M) e.instructions p y t1 t2 h2 hg1) b w1 hg
  refine ⟨main, ?_, trimComma_run⟩
  intro M p b out h
  rw [main M p b] at h
  obtain ⟨app, h1, h2⟩ := Option.map_eq_some'.mp h
  exact ⟨app, h2.symm, h1⟩

theorem marshal_append_only_witness :
    Marshal 2 (compiled (NewStructEncoder envOmitPtr 2 (.struct 0) .zero)).instructions
        (.struct [.int 7, .ptr (some (.struct [.int 1])), .bool false]) (bs "log,")
      = (Marshal 2 (compiled (NewStructEncoder envOmitPtr 2 (.struct 0) .zero)).instructions
        (.struct [.int 7, .ptr (some (.struct [.int 1])), .bool false]) []).map
          (bs "log," ++ ·) ∧
    Marshal 2 (compiled (NewStructEncoder envOmitPtr 2 (.struct 0) .zero)).instructions
        (.struct [.int 7, .ptr (some (.struct [.int 1])), .bool false]) (bs "log,")
      = some (bs "log,\x7b\"a\":7,\"p\":\x7b\"x\":1\x7d\x7d") :=
  ⟨(marshal_append_only envOmitPtr 2 (.struct 0) .zero
    (compiled (NewStructEncoder envOmitPtr 2 (.struct 0) .zero)) rfl).1 2
    (.struct [.int 7, .ptr (some (.struct [.int 1])), .bool false]) (bs "log,"), by decide⟩

/-! ## The output of the escaper, unit by unit -/

theorem readUnits_cons_plain (c : UInt8) (rest : Bytes) (h : c ≠ 92) :
    readUnits (c :: rest) = .plain c :: readUnits rest := by
  rw [readUnits]
  · intro c' r' hh
    exact absurd hh h
  · intro hh
    exact absurd hh h

theorem readUnits_escapeByte (c : UInt8) (rest : Bytes) :
    readUnits (escapeByte c ++ rest) = escapeUnit c :: readUnits rest := by
  unfold escapeByte escapeUnit
  by_cases h1 : c = 92
  · simp only [h1, if_true, List.cons_append, List.nil_append, readUnits]
  by_cases h2 : c = 34
  · simp only [h2, if_true, List.cons_append, List.nil_append, readUnits]; rfl
  by_cases h3 : c = 10
  · simp only [h3, if_true, List.cons_append, List.nil_append, readUnits]; rfl
  by_cases h4 : c = 13
  · simp only [h4, if_true, List.cons_append, List.nil_append, readUnits]; rfl
  by_cases h5 : c = 9
  · simp only [h5, if_true, List.cons_append, List.nil_append, readUnits]; rfl
  simp only [h1, h2, h3, h4, h5, if_false, List.cons_append, List.nil_append]
  exact readUnits_cons_plain c rest h1

theorem readUnits_escape (s rest : Bytes) :
    readUnits (s.flatMap escapeByte ++ rest) = s.map escapeUnit ++ readUnits rest := by
  induction s with
  | nil => rfl
  | cons c s ih =>
    simp only [List.flatMap_cons, List.append_assoc, List.map_cons, List.cons_append]
    rw [readUnits_escapeByte, ih]

theorem readUnits_ptrEscapeStringToBuf (s : Bytes) :
    readUnits (ptrEscapeStringToBuf s []) = s.map escapeUnit := by
  rw [ptrEscapeStringToBuf_eq]
  have := readUnits_escape s []
  simpa [readUnits] using this

theorem escapeUnit_cases (c : UInt8) :
    (∃ d, escapeUnit c = .pair d ∧ d ∈ [(92 : UInt8), 34, 110, 114, 116]) ∨
      (escapeUnit c = .plain c ∧ c ≠ 92 ∧ c ≠ 34 ∧ c ≠ 10 ∧ c ≠ 13 ∧ c ≠ 9) := by
  unfold escapeUnit
  by_cases h1 : c = 92
  · exact Or.inl ⟨92, by simp [h1], by decide⟩
  by_cases h2 : c = 34
  · exact Or.inl ⟨34, by simp [h2], by decide⟩
  by_cases h3 : c = 10
  · exact Or.inl ⟨110, by simp [h3], by decide⟩
  by_cases h4 : c = 13
  · exact Or.inl ⟨114, by simp [h4], by decide⟩
  by_cases h5 : c = 9
  · exact Or.inl ⟨116, by simp [h5], by decide⟩
  exact Or.inr ⟨by simp [h1, h2, h3, h4, h5], h1, h2, h3, h4, h5⟩

theorem escapeByte_mem (c d : UInt8) (h : d ∈ escapeByte c) :
    d = c ∧ c ≠ 10 ∧ c ≠ 13 ∧ c ≠ 9 ∨ d ∈ [(92 : UInt8), 34, 110, 114, 116] := by
  unfold escapeByte at h
  by_cases h1 : c = 92
  · simp only [h1, if_true] at h; right; revert h; simp; tauto
  by_cases h2 : c = 34
  · simp only [h1, h2, if_true, if_false] at h
    right; revert h; simp; tauto
  by_cases h3 : c = 10
  · simp only [h1, h2, h3, if_true, if_false] at h
    right; revert h; simp; tauto
  by_cases h4 : c = 13
  · simp only [h1, h2, h3, h4, if_true, if_false] at h
    right; revert h; simp; tauto
  by_cases h5 : c = 9
  · simp only [h1, h2, h3, h4, h5, if_true, if_false] at h
    right; revert h; simp; tauto
  simp only [h1, h2, h3, h4, h5, if_false, List.mem_singleton] at h
  exact Or.inl ⟨h, h3, h4, h5⟩

theorem escape_no_raw (s : Bytes) (d : UInt8) (hd : d = 10 ∨ d = 13 ∨ d = 9) :
    d ∉ s.flatMap escapeByte := by
  intro h
  rw [List.mem_flatMap] at h
  obtain ⟨c, _, hc⟩ := h
  rcases escapeByte_mem c d hc with ⟨h1, h2, h3, h4⟩ | h1
  · subst h1
    rcases hd with h | h | h
    · exact h2 h
    · exact h3 h
    · exact h4 h
  · rcases hd with h | h | h <;> subst h <;> revert h1 <;> decide

theorem jsonUnescape_escapeByte_none (c : UInt8) (rest : Bytes)
    (h : jsonUnescape rest = none) : jsonUnescape (escapeByte c ++ rest) = none := by
  unfold escapeByte
  by_cases h1 : c = 92
  · simp [h1, jsonUnescape, h]
  by_cases h2 : c = 34
  · simp [h2, jsonUnescape, h]
  by_cases h3 : c = 10
  · simp [h3, jsonUnescape, h]
  by_cases h4 : c = 13
  · simp [h4, jsonUnescape, h]
  by_cases h5 : c = 9
  · simp [h5, jsonUnescape, h]
  simp only [h1, h2, h3, h4, h5, if_false, List.cons_append, List.nil_append]
  rw [jsonUnescape_cons_plain c rest h1, h]
  simp

theorem jsonUnescape_escape_none (s rest : Bytes) (h : jsonUnescape rest = none) :
    jsonUnescape (s.flatMap escapeByte ++ rest) = none := by
  induction s with
  | nil => simpa using h
  | cons c s ih =>
    simp only [List.flatMap_cons, List.append_assoc]
    exact jsonUnescape_escapeByte_none c _ ih

/-- C31: for every control byte `b` below 0x20 other than newline, carriage return
and tab, and every string `pre ++ [b] ++ post`, the escaper writes `b` itself between
the escape of `pre` and the escape of `post`: read from left to right the output holds
`b` as a unit of its own, with no backslash before it, and the strict un-escaping of
the output rejects it. -/
theorem control_byte_left_unescaped (b : UInt8) (hb : b.toNat < 32) (h10 : b ≠ 10)
    (h13 : b ≠ 13) (h9 : b ≠ 9) (pre post w : Bytes) :
    ptrEscapeStringToBuf (pre ++ b :: post) w
        = ptrEscapeStringToBuf pre w ++ b :: ptrEscapeStringToBuf post [] ∧
      readUnits (ptrEscapeStringToBuf (pre ++ b :: post) [])
        = readUnits (ptrEscapeStringToBuf pre []) ++
          .plain b :: readUnits (ptrEscapeStringToBuf post []) ∧
      jsonUnescape (ptrEscapeStringToBuf (pre ++ b :: post) []) = none := by
  have h92 : b ≠ 92 := by
    intro h; rw [h] at hb; revert hb; decide
  have h34 : b ≠ 34 := by
    intro h; rw [h] at hb; revert hb; decide
  have hu : escapeUnit b = .plain b := by
    simp [escapeUnit, h92, h34, h10, h13, h9]
  have he : escapeByte b = [b] := by
    simp [escapeByte, h92, h34, h10, h13, h9]
  refine ⟨?_, ?_, ?_⟩
  · simp only [ptrEscapeStringToBuf_eq, List.flatMap_append, List.flatMap_cons, he,
      List.nil_append, List.append_assoc, List.cons_append]
  · simp only [readUnits_ptrEscapeStringToBuf, List.map_append, List.map_cons, hu]
  · rw [ptrEscapeStringToBuf_eq, List.nil_append, List.flatMap_append, List.flatMap_cons, he]
    apply jsonUnescape_escape_none
    rw [List.singleton_append, jsonUnescape_cons_plain b _ h92]
    simp [hb]

theorem control_byte_left_unescaped_witness :
    ptrEscapeStringToBuf (bs "a\"" ++ 8 :: bs "\n") (bs "x")
        = ptrEscapeStringToBuf (bs "a\"") (bs "x") ++ 8 :: ptrEscapeStringToBuf (bs "\n") [] ∧
      readUnits (ptrEscapeStringToBuf (bs "a\"" ++ 8 :: bs "\n") [])
        = readUnits (ptrEscapeStringToBuf (bs "a\"") []) ++
          .plain 8 :: readUnits (ptrEscapeStringToBuf (bs "\n") []) ∧
      jsonUnescape (ptrEscapeStringToBuf (bs "a\"" ++ 8 :: bs "\n") []) = none :=
  control_byte_left_unescaped 8 (by decide) (by decide) (by decide) (by decide)
    (bs "a\"") (bs "\n") (bs "x")

/-- C32: for every string `s`, what `ptrEscapeStringToBuf` appends to the sink holds
no newline, carriage-return or tab byte and, read from left to right as backslash
pairs and single bytes, it is the sequence of the units of the bytes of `s`: no unit
is a backslash without a byte after it, no single byte is a double quote or a
backslash, and the second byte of every pair is one of `\`, `"`, `n`, `r`, `t`. -/
theorem escaped_output_units (s w : Bytes) :
    ptrEscapeStringToBuf s w = w ++ ptrEscapeStringToBuf s [] ∧
      (10 : UInt8) ∉ ptrEscapeStringToBuf s [] ∧ (13 : UInt8) ∉ ptrEscapeStringToBuf s [] ∧
      (9 : UInt8) ∉ ptrEscapeStringToBuf s [] ∧
      readUnits (ptrEscapeStringToBuf s []) = s.map escapeUnit ∧
      EscUnit.dangling ∉ readUnits (ptrEscapeStringToBuf s []) ∧
      EscUnit.plain 34 ∉ readUnits (ptrEscapeStringToBuf s []) ∧
      EscUnit.plain 92 ∉ readUnits (ptrEscapeStringToBuf s []) ∧
      ∀ c, EscUnit.pair c ∈ readUnits (ptrEscapeStringToBuf s []) →
        c ∈ [(92 : UInt8), 34, 110, 114, 116] := by
  have hu := readUnits_ptrEscapeStringToBuf s
  have hout : ptrEscapeStringToBuf s [] = s.flatMap escapeByte := by
    rw [ptrEscapeStringToBuf_eq]; rfl
  refine ⟨?_, ?_, ?_, ?_, hu, ?_, ?_, ?_, ?_⟩
  · rw [ptrEscapeStringToBuf_eq, hout]
  · rw [hout]; exact escape_no_raw s 10 (Or.inl rfl)
  · rw [hout]; exact escape_no_raw s 13 (Or.inr (Or.inl rfl))
  · rw [hout]; exact escape_no_raw s 9 (Or.inr (Or.inr rfl))
  · rw [hu]
    intro h
    obtain ⟨c, _, hc⟩ := List.mem_map.mp h
    rcases escapeUnit_cases c with ⟨d, hd, _⟩ | ⟨hp, _⟩
    · rw [hd] at hc; cases hc
    · rw [hp] at hc; cases hc
  · rw [hu]
    intro h
    obtain ⟨c, _, hc⟩ := List.mem_map.mp h
    rcases escapeUnit_cases c with ⟨d, hd, _⟩ | ⟨hp, _, h34, _⟩
    · rw [hd] at hc; cases hc
    · rw [hp] at hc
      simp only [EscUnit.plain.injEq] at hc
      exact h34 hc
  · rw [hu]
    intro h
    obtain ⟨c, _, hc⟩ := List.mem_map.mp h
    rcases escapeUnit_cases c with ⟨d, hd, _⟩ | ⟨hp, h92, _⟩
    · rw [hd] at hc; cases hc
    · rw [hp] at hc
      simp only [EscUnit.plain.injEq] at hc
      exact h92 hc
  · intro c h
    rw [hu] at h
    obtain ⟨x, _, hx⟩ := List.mem_map.mp h
    rcases escapeUnit_cases x with ⟨d, hd, hmem⟩ | ⟨hp, _⟩
    · rw [hd] at hx
      simp only [EscUnit.pair.injEq] at hx
      rw [← hx]; exact hmem
    · rw [hp] at hx; cases hx

/-! ## Arrays of strings -/

/-- C34 (failing input): for the shape `struct { A [2]string "a" }` and every instance,
`Marshal` writes the bytes of the two strings as they are, without double quotes,
between `[` and `]`: for the strings `x` and `y` the output is `{"a":[x, y]}`, which
is not JSON. A field of type string in the shape `struct { S string "s" }` is written
between double quotes. -/
theorem array_of_strings_is_unquoted :
    (∀ x y : Bytes,
      marshalShape envArrayStr 1 (.struct 0) (.struct [.array [.str x, .str y]])
        = some (bs "\x7b\"a\":[" ++ x ++ bs ", " ++ y ++ bs "]\x7d")) ∧
      marshalShape envArrayStr 1 (.struct 0) (.struct [.array [.str (bs "x"), .str (bs "y")]])
        = some (bs "\x7b\"a\":[x, y]\x7d") ∧
      typeconv Kind.String = some Conv.ptrStringToBuf ∧
      (∀ x : Bytes, marshalShape envArrayStr 1 (.struct 1) (.struct [.str x])
        = some (bs "\x7b\"s\":\"" ++ x ++ bs "\"\x7d")) := by
  refine ⟨fun x y => ?_, by decide, rfl, fun x => ?_⟩
  · have h : marshalShape envArrayStr 1 (.struct 0) (.struct [.array [.str x, .str y]])
        = some (((bs "\x7b\"a\":[" ++ x) ++ bs ", " ++ y) ++ bs "]\x7d") := rfl
    rw [h]
  · have h : marshalShape envArrayStr 1 (.struct 1) (.struct [.str x])
        = some ((bs "\x7b\"s\":\"" ++ x) ++ bs "\"\x7d") := rfl
    rw [h]

/-! ## Fields without value instruction -/

/-- C35 (failing input): `NewStructEncoder` accepts the shape
`struct { P **int "p"; B int "b" }`; `valueInst` has no case for the kind pointer, so
no instruction writes the value of `P`, and for every instance `Marshal` writes
`{"p":,"b":` followed by the digits of `B` and `}`: no byte stands between `"p":` and
the comma. It accepts the shape `struct { A [2]Inner "a" }` as well, for which only
the `[` of the array is compiled: every output is `{"a":[}`. -/
theorem pointer_to_pointer_has_no_value :
    (NewStructEncoder envPtrPtr 1 (.struct 0) .zero).isOk = true ∧
      planOutline (compiled (NewStructEncoder envPtrPtr 1 (.struct 0) .zero)).instructions
        = [(kindStatic, bs "\x7b\"p\":,\"b\":"), (kindInt, []), (kindStatic, bs "\x7d")] ∧
      (∀ (pp : Value) (b : Int),
        marshalShape envPtrPtr 1 (.struct 0) (.struct [pp, .int b])
          = some (bs "\x7b\"p\":,\"b\":" ++ AppendInt [] b ++ bs "\x7d")) ∧
      (NewStructEncoder envPtrPtr 1 (.struct 1) .zero).isOk = true ∧
      planOutline (compiled (NewStructEncoder envPtrPtr 1 (.struct 1) .zero)).instructions
        = [(kindStatic, bs "\x7b\"a\":[\x7d")] ∧
      (∀ (M : Nat) (p : Value) (w : Bytes),
        Marshal (M + 1) (compiled (NewStructEncoder envPtrPtr 1 (.struct 1) .zero)).instructions
          p w = some (w ++ bs "\x7b\"a\":[\x7d")) := by
  refine ⟨by decide, by decide, fun pp b => ?_, by decide, by decide, fun M p w => rfl⟩
  have h : marshalShape envPtrPtr 1 (.struct 0) (.struct [pp, .int b])
      = some (AppendInt (bs "\x7b\"p\":,\"b\":") b ++ bs "\x7d") := rfl
  rw [h, AppendInt_eq (bs "\x7b\"p\":,\"b\":") b]

/-! ## Shapes that refer to each other -/

theorem shapeSegs_envMutual (n a b : Nat) (hab : a ≠ b)
    (newEnc : GoType → ShapeVal → Res (List instruction)) (name tag : String)
    (hk : (parseTag (bs tag)).1 ≠ []) (ho : (parseTag (bs tag)).2 = [])
    (h : newEnc (.struct b) .zero = .error .timeout) :
    shapeSegs envMutual n newEnc (.struct a) .zero [mkField name (.ptr (.struct b)) tag] 0
      = .error .timeout := by
  have hne : (GoType.struct a ≠ GoType.struct b) := by
    intro hh; exact hab (GoType.struct.inj hh)
  have hc : ∀ d, tagOptions.Contains [] d = false := fun d => rfl
  simp [shapeSegs, fieldSeg, valueSeg, mkField, hk, ho, bind, Except.bind,
    ifaceEqZero, hne, pure, Except.pure, h, hc]

theorem NewStructEncoder_envMutual : ∀ (fuel : Nat),
    NewStructEncoder envMutual fuel (.struct 0) .zero = .error .timeout ∧
      NewStructEncoder envMutual fuel (.struct 1) .zero = .error .timeout := by
  intro fuel
  induction fuel with
  | zero => exact ⟨rfl, rfl⟩
  | succ n ih =>
    obtain ⟨h0, h1⟩ := ih
    constructor
    · apply NewStructEncoder_err envMutual n (.struct 0) .zero _ .timeout rfl
      exact shapeSegs_envMutual n 0 1 (by decide)
        (fun t v => (NewStructEncoder envMutual n t v).map (·.instructions)) "B" "b" (by decide)
        (by decide) (by simp only [h1]; rfl)
    · apply NewStructEncoder_err envMutual n (.struct 1) .zero _ .timeout rfl
      exact shapeSegs_envMutual n 1 0 (by decide)
        (fun t v => (NewStructEncoder envMutual n t v).map (·.instructions)) "A" "a" (by decide)
        (by decide) (by simp only [h0]; rfl)

/-- C36 (failing input): for the shapes `type A struct { B *B "b" }` and
`type B struct { A *A "a" }` no depth of nested calls is enough for `NewStructEncoder`
to return: compiling `A` calls `NewStructEncoder` on `B`, which calls it on `A`,
without end, because `e.t == inf` compares the element type with the shape of the
current call only. The shape `type N struct { Next *N "next" }`, which refers to
itself, is compiled without a nested call. -/
theorem mutual_reference_never_returns :
    (∀ fuel : Nat, NewStructEncoder envMutual fuel (.struct 0) .zero = .error .timeout) ∧
      (∀ fuel : Nat, NewStructEncoder envMutual fuel (.struct 1) .zero = .error .timeout) ∧
      (NewStructEncoder envMutual 3 (.struct 2) .zero).isOk = true := by
  exact ⟨fun fuel => (NewStructEncoder_envMutual fuel).1,
    fun fuel => (NewStructEncoder_envMutual fuel).2, by decide⟩

/-! ## The tag `-` -/

theorem field_dash (env : TypeEnv) (fuel : Nat)
    (newEnc : GoType → ShapeVal → Res (List instruction)) (x : StructEncoder)
    (htag : x.f.Tag = bs "-") :
    StructEncoder.field env fuel newEnc x
      = ((({ x with o := false } : StructEncoder).chunk (bs "\"-\":")).fieldValue env fuel
          newEnc []).bind
        (fun e1 => .ok (if (e1.chunk (bs ",")).o = true then (e1.chunk (bs ",")).flunk
          else e1.chunk (bs ","))) := by
  have hp : parseTag (bs "-") = (bs "-", []) := by decide
  have hc : tagOptions.Contains [] (bs "omitempty") = false := rfl
  have hne : ¬ (bs "-" = []) := by decide
  unfold StructEncoder.field
  simp only [htag, hp, hne, if_false, hc, Bool.false_and, Bool.false_eq_true, bind,
    pure, Except.pure]
  rfl

/-- C37: the tag `-` gives the output key `-` and no options, so the field is not
skipped: for a field of any type with the tag `-`, the body of the loop of
`NewStructEncoder` buffers the key `"-":`, compiles the value of the field and buffers
the comma; and in a compiled shape of supported fields, for a field with the tag `-`
and every instance, `Marshal` writes the entry `"-":value` of the field between the
entries of the fields before and after it. -/
theorem dash_tag_is_a_key (env : TypeEnv) (hok : ∀ id, ∀ f ∈ env id, f.supported = true)
    (F M id : Nat) (e : StructEncoder)
    (hc : NewStructEncoder env F (.struct id) .zero = .ok e)
    (fs1 fs2 : List StructField) (f : StructField) (henv : env id = fs1 ++ f :: fs2)
    (htag : f.Tag = bs "-")
    (vs1 vs2 : List Value) (v : Value) (ents1 ents2 : List Bytes) (a : Bytes)
    (hv : v.hasKind f.Typ.Kind = true)
    (h1 : entriesText env fs1 vs1 = some ents1) (h2 : entriesText env fs2 vs2 = some ents2)
    (ha : valueText env f.Typ v = some a)
    (hd : (Value.struct (vs1 ++ v :: vs2)).depth ≤ M) (w : Bytes) :
    parseTag (bs "-") = (bs "-", []) ∧ f.key ≠ [] ∧
      (∀ (env' : TypeEnv) (fuel : Nat) (newEnc : GoType → ShapeVal → Res (List instruction))
        (x : StructEncoder), x.f.Tag = bs "-" →
        StructEncoder.field env' fuel newEnc x
          = ((({ x with o := false } : StructEncoder).chunk (bs "\"-\":")).fieldValue env' fuel
              newEnc []).bind
            (fun e1 => .ok (if (e1.chunk (bs ",")).o = true then (e1.chunk (bs ",")).flunk
              else e1.chunk (bs ",")))) ∧
      Marshal M e.instructions (.struct (vs1 ++ v :: vs2)) w
        = some (w ++ object (ents1 ++ [bs "\"-\":" ++ a] ++ ents2)) := by
  have hkey : f.key = bs "-" := by
    simp only [StructField.key, htag]; decide
  have hopts : f.opts = [] := by
    simp only [StructField.opts, htag]; decide
  have hne : f.key ≠ [] := by rw [hkey]; decide
  refine ⟨by decide, hne, field_dash, ?_⟩
  have hcont : ∀ d, tagOptions.Contains [] d = false := fun d => rfl
  have h := Marshal_at_field env hok F M id e hc fs1 fs2 f henv vs1 vs2 v ents1 ents2
    [[34] ++ f.key ++ [34, 58] ++ a] hne hv h1 h2
    (Or.inr ⟨by simp [StructField.omitted, hopts, hcont], a,
      by simp [fieldText, hopts, hcont, ha], rfl⟩) hd w
  rw [h, hkey]
  rfl

theorem envDash_supported : ∀ id, ∀ f ∈ envDash id, f.supported = true := by
  intro id
  match id with
  | 0 => decide
  | n + 1 => intro f hf; simp [envDash] at hf

theorem dash_tag_is_a_key_witness :
    Marshal 1 (compiled (NewStructEncoder envDash 1 (.struct 0) .zero)).instructions
        (.struct ([.int 1] ++ .int 5 :: [])) []
      = some (bs "\x7b\"a\":1,\"-\":5\x7d") :=
  ((dash_tag_is_a_key envDash envDash_supported 1 1 0
    (compiled (NewStructEncoder envDash 1 (.struct 0) .zero)) rfl
    [mkField "A" (.basic .Int) "a"] [] (mkField "D" (.basic .Int) "-") rfl rfl
    [.int 1] [] (.int 5) [bs "\"a\":1"] [] (bs "5") (by decide) (by decide) (by decide)
    (by decide) (by decide) []).2.2.2).trans (by decide)

/-! ## Tags without omitempty -/

theorem commaTokens_ne_nil : ∀ s : Bytes, commaTokens s ≠ [] := by
  intro s
  cases s with
  | nil => simp [commaTokens]
  | cons c rest =>
    rw [commaTokens]
    split
    · simp
    · split <;> simp

theorem commaTokens_append_comma : ∀ (t s : Bytes), (44 : UInt8) ∉ t →
    commaTokens (t ++ 44 :: s) = t :: commaTokens s := by
  intro t
  induction t with
  | nil => intro s _; rw [List.nil_append, commaTokens, if_pos rfl]
  | cons c t ih =>
    intro s h
    have hc : c ≠ 44 := fun e => h (e ▸ List.mem_cons_self _ _)
    have ht : (44 : UInt8) ∉ t := fun e => h (List.mem_cons_of_mem _ e)
    rw [List.cons_append, commaTokens, if_neg hc, ih s ht]

theorem commaTokens_mem : ∀ (s : Bytes), ∀ t ∈ commaTokens s, (44 : UInt8) ∉ t := by
  intro s
  induction s with
  | nil => intro t ht; simp [commaTokens] at ht; subst ht; simp
  | cons c rest ih =>
    intro t ht
    rw [commaTokens] at ht
    by_cases hc : c = 44
    · rw [if_pos hc] at ht
      rcases List.mem_cons.mp ht with h | h
      · subst h; simp
      · exact ih t h
    · rw [if_neg hc] at ht
      cases hr : commaTokens rest with
      | nil => exact absurd hr (commaTokens_ne_nil rest)
      | cons a r =>
        rw [hr] at ht ih
        rcases List.mem_cons.mp ht with h | h
        · subst h
          intro hm
          rcases List.mem_cons.mp hm with h1 | h1
          · exact hc h1.symm
          · exact ih a (List.mem_cons_self _ _) h1
        · exact ih t (List.mem_cons_of_mem _ h)

theorem intercalate_cons_cons (a b : Bytes) (r : List Bytes) :
    List.intercalate [44] (a :: b :: r) = a ++ 44 :: List.intercalate [44] (b :: r) := by
  simp [List.intercalate, List.intersperse]

theorem commaTokens_intercalate : ∀ (ts : List Bytes), ts ≠ [] →
    (∀ t ∈ ts, (44 : UInt8) ∉ t) → commaTokens (List.intercalate [44] ts) = ts := by
  intro ts
  induction ts with
  | nil => intro h; exact absurd rfl h
  | cons a r ih =>
    intro _ hc
    cases r with
    | nil =>
      have : List.intercalate [44] [a] = a := by simp [List.intercalate]
      rw [this]
      exact commaTokens_no_comma a (hc a (List.mem_cons_self _ _))
    | cons b r' =>
      rw [intercalate_cons_cons, commaTokens_append_comma _ _ (hc a (List.mem_cons_self _ _)),
        ih (by simp) (fun t ht => hc t (List.mem_cons_of_mem _ ht))]

theorem indexOf_append_comma : ∀ (k r : Bytes), (44 : UInt8) ∉ k →
    (k ++ 44 :: r).indexOf (44 : UInt8) = k.length := by
  intro k
  induction k with
  | nil => intro r _; simp
  | cons c k ih =>
    intro r h
    have hc : c ≠ 44 := fun e => h (e ▸ List.mem_cons_self _ _)
    have hk : (44 : UInt8) ∉ k := fun e => h (List.mem_cons_of_mem _ e)
    rw [List.cons_append, List.indexOf_cons_ne _ hc, ih r hk, List.length_cons]

theorem parseTag_append_comma (k r : Bytes) (h : (44 : UInt8) ∉ k) :
    parseTag (k ++ 44 :: r) = (k, r) := by
  have hm : (44 : UInt8) ∈ k ++ 44 :: r := by simp
  have hi : indexComma (k ++ 44 :: r) = ((k.length : Nat) : Int) := by
    unfold indexComma
    rw [if_pos hm, indexOf_append_comma k r h]
  have hne : ((k.length : Nat) : Int) ≠ -1 := by omega
  unfold parseTag
  simp only [hi, hne, ne_eq, not_false_eq_true, if_true, Int.toNat_ofNat]
  simp

/-- The parts of a tag are its output key and the parts of its options. -/
theorem parseTag_tokens (tag : Bytes) :
    ((44 : UInt8) ∉ tag ∧ parseTag tag = (tag, []) ∧ commaTokens tag = [tag]) ∨
      ((44 : UInt8) ∈ tag ∧
        commaTokens tag = (parseTag tag).1 :: commaTokens (parseTag tag).2) := by
  by_cases h : (44 : UInt8) ∈ tag
  · right
    refine ⟨h, ?_⟩
    have hi : indexComma tag = ((tag.indexOf (44 : UInt8) : Nat) : Int) := by
      unfold indexComma; rw [if_pos h]
    have hne : ((tag.indexOf (44 : UInt8) : Nat) : Int) ≠ -1 := by omega
    rw [commaTokens_comma tag h]
    unfold parseTag
    simp only [hi, hne, ne_eq, not_false_eq_true, if_true, Int.toNat_ofNat]
  · exact Or.inl ⟨h, parseTag_no_comma tag h, commaTokens_no_comma tag h⟩

theorem Contains_eq_mem (o n : Bytes) (hn : n ≠ []) :
    tagOptions.Contains o n = decide (n ∈ commaTokens o) := by
  have h := containsLoop_spec n hn (o.length + 1) o (Nat.lt_succ_self _)
  unfold tagOptions.Contains
  by_cases h0 : o.length = 0
  · have : o = [] := List.length_eq_zero.mp h0
    subst this
    simp [commaTokens, hn]
  · rw [if_neg h0, h]
    simp

/-- The tag without `omitempty` has the same output key, no option `omitempty`, and
every other option of the tag. -/
theorem parseTag_dropOmitempty (tag : Bytes) :
    (parseTag (dropOmitempty tag)).1 = (parseTag tag).1 ∧
      ∀ d : Bytes, d ≠ [] →
        tagOptions.Contains (parseTag (dropOmitempty tag)).2 d
          = (decide (d ≠ bs "omitempty") && tagOptions.Contains (parseTag tag).2 d) := by
  rcases parseTag_tokens tag with ⟨hno, hp, ht⟩ | ⟨hc, ht⟩
  · have hd : dropOmitempty tag = tag := by
      unfold dropOmitempty
      rw [ht]
      simp [List.intercalate]
    rw [hd, hp]
    refine ⟨rfl, fun d hd' => ?_⟩
    have : tagOptions.Contains [] d = false := rfl
    simp [this]
  · have hk : (44 : UInt8) ∉ (parseTag tag).1 :=
      commaTokens_mem tag _ (by rw [ht]; exact List.mem_cons_self _ _)
    have hts : ∀ t ∈ commaTokens (parseTag tag).2, (44 : UInt8) ∉ t :=
      commaTokens_mem _
    have hd : dropOmitempty tag = List.intercalate [44] ((parseTag tag).1 ::
        (commaTokens (parseTag tag).2).filter (fun t => t ≠ bs "omitempty")) := by
      unfold dropOmitempty
      rw [ht]
    rw [hd]
    cases hf : (commaTokens (parseTag tag).2).filter (fun t => t ≠ bs "omitempty") with
    | nil =>
      have h1 : List.intercalate [44] [(parseTag tag).1] = (parseTag tag).1 := by
        simp [List.intercalate]
      rw [h1, parseTag_no_comma _ hk]
      refine ⟨rfl, fun d hd' => ?_⟩
      have h0 : tagOptions.Contains [] d = false := rfl
      rw [h0, Contains_eq_mem _ d hd']
      by_cases hdo : d = bs "omitempty"
      · simp [hdo]
      · have hnm : d ∉ commaTokens (parseTag tag).2 := by
          intro hm
          have : d ∈ (commaTokens (parseTag tag).2).filter (fun t => t ≠ bs "omitempty") := by
            rw [List.mem_filter]
            exact ⟨hm, by simpa using hdo⟩
          rw [hf] at this
          cases this
        simp [hnm]
    | cons b r =>
      have hbr : ∀ t ∈ b :: r, (44 : UInt8) ∉ t := by
        intro t htm
        rw [← hf] at htm
        exact hts t (List.mem_filter.mp htm).1
      rw [intercalate_cons_cons, parseTag_append_comma _ _ hk]
      refine ⟨rfl, fun d hd' => ?_⟩
      rw [Contains_eq_mem _ d hd', Contains_eq_mem _ d hd',
        commaTokens_intercalate (b :: r) (by simp) hbr, ← hf]
      by_cases hdo : d = bs "omitempty"
      · simp [hdo, List.mem_filter]
      · simp [hdo, List.mem_filter]

/-! ## Instances whose omitempty fields are set -/

theorem withoutOmitempty_key (f : StructField) : f.withoutOmitempty.key = f.key :=
  (parseTag_dropOmitempty f.Tag).1

theorem withoutOmitempty_Contains (f : StructField) (d : Bytes) (hd : d ≠ []) :
    f.withoutOmitempty.opts.Contains d
      = (decide (d ≠ bs "omitempty") && f.opts.Contains d) :=
  (parseTag_dropOmitempty f.Tag).2 d hd

theorem withoutOmitempty_omitted (f : StructField) (v : Value) :
    f.withoutOmitempty.omitted v = false := by
  unfold StructField.omitted
  rw [withoutOmitempty_Contains f _ (by decide)]
  simp

theorem withoutOmitempty_raw (f : StructField) :
    f.withoutOmitempty.opts.Contains (bs "raw") = f.opts.Contains (bs "raw") := by
  rw [withoutOmitempty_Contains f _ (by decide)]
  have : decide (bs "raw" ≠ bs "omitempty") = true := by decide
  rw [this, Bool.true_and]

theorem withoutOmitempty_supported (f : StructField) :
    f.withoutOmitempty.supported = f.supported := by
  have h1 : f.withoutOmitempty.opts.Contains (bs "stringer") = f.opts.Contains (bs "stringer") := by
    rw [withoutOmitempty_Contains f _ (by decide)]
    have : decide (bs "stringer" ≠ bs "omitempty") = true := by decide
    rw [this, Bool.true_and]
  have h2 : f.withoutOmitempty.opts.Contains (bs "encoder") = f.opts.Contains (bs "encoder") := by
    rw [withoutOmitempty_Contains f _ (by decide)]
    have : decide (bs "encoder" ≠ bs "omitempty") = true := by decide
    rw [this, Bool.true_and]
  have h4 : f.withoutOmitempty.opts.Contains (bs "escape") = f.opts.Contains (bs "escape") := by
    rw [withoutOmitempty_Contains f _ (by decide)]
    have : decide (bs "escape" ≠ bs "omitempty") = true := by decide
    rw [this, Bool.true_and]
  unfold StructField.supported
  rw [withoutOmitempty_key, h1, h2, withoutOmitempty_raw, h4]
  rfl

mutual
theorem valueText_withoutOmitempty (env : TypeEnv) : ∀ (v : Value) (t : GoType),
    omitemptySet env t v = true → valueText (withoutOmitempty env) t v = valueText env t v
  | .ptr (some x), t, h => by
    cases t with
    | ptr t =>
      simp only [valueText]
      exact valueText_withoutOmitempty env x t (by simpa only [omitemptySet] using h)
    | _ => simp only [valueText]
  | .slice xs, t, h => by
    cases t with
    | slice t =>
      simp only [valueText]
      rw [elemsText_withoutOmitempty env t xs (by simpa only [omitemptySet] using h)]
    | _ => simp only [valueText]
  | .struct vs, t, h => by
    cases t with
    | struct id =>
      simp only [valueText]
      have := entriesText_withoutOmitempty env (env id) vs
        (by simpa only [omitemptySet] using h)
      simp only [withoutOmitempty] at this ⊢
      rw [this]
    | _ => simp only [valueText]
  | .ptr none, t, _ => by cases t <;> simp only [valueText]
  | .bool _, t, _ => by cases t <;> simp only [valueText]
  | .int _, t, _ => by cases t <;> simp only [valueText]
  | .uint _, t, _ => by cases t <;> simp only [valueText]
  | .float _ _, t, _ => by cases t <;> simp only [valueText]
  | .str _, t, _ => by cases t <;> simp only [valueText]
  | .time _ _, t, _ => by cases t <;> simp only [valueText]
  | .array _, t, _ => by cases t <;> simp only [valueText]
  | .other _, t, _ => by cases t <;> simp only [valueText]
theorem elemsText_withoutOmitempty (env : TypeEnv) (t : GoType) : ∀ (xs : List Value),
    omitemptySetElems env t xs = true →
      elemsText (withoutOmitempty env) t xs = elemsText env t xs
  | [], _ => by simp only [elemsText]
  | x :: xs, h => by
    simp only [omitemptySetElems, Bool.and_eq_true] at h
    simp only [elemsText]
    rw [valueText_withoutOmitempty env x t h.1, elemsText_withoutOmitempty env t xs h.2]
theorem entriesText_withoutOmitempty (env : TypeEnv) : ∀ (fs : List StructField)
    (vs : List Value), omitemptySetFields env fs vs = true →
      entriesText (withoutOmitempty env) (fs.map StructField.withoutOmitempty) vs
        = entriesText env fs vs
  | [], [], _ => by simp only [List.map_nil, entriesText]
  | [], _ :: _, _ => by simp only [List.map_nil, entriesText]
  | _ :: _, [], _ => by simp only [List.map_cons, entriesText]
  | f :: fs, v :: vs, h => by
    simp only [omitemptySetFields, Bool.and_eq_true, Bool.or_eq_true, beq_iff_eq,
      Bool.not_eq_true'] at h
    have ih := entriesText_withoutOmitempty env fs vs h.2
    simp only [List.map_cons, entriesText, withoutOmitempty_key, withoutOmitempty_omitted,
      withoutOmitempty_raw, ih]
    by_cases hk : f.key = []
    · simp only [hk, if_true]
    · rcases h.1 with h1 | ⟨h1, h2⟩
      · exact absurd h1 hk
      · have hom : f.omitted v = false := by
          unfold StructField.omitted
          rcases h1 with h1 | h1
          · simp [h1]
          · simp [h1]
        have hT : f.withoutOmitempty.Typ = f.Typ := rfl
        simp only [hk, if_false, hom, hT, Bool.false_eq_true,
          valueText_withoutOmitempty env v f.Typ h2]
end

theorem withoutOmitempty_ok (env : TypeEnv) (hok : ∀ id, ∀ f ∈ env id, f.supported = true) :
    ∀ id, ∀ f ∈ withoutOmitempty env id, f.supported = true := by
  intro id f hf
  simp only [withoutOmitempty, List.mem_map] at hf
  obtain ⟨g, hg, rfl⟩ := hf
  rw [withoutOmitempty_supported]
  exact hok id g hg

/-- For a shape of supported fields, the shape with the directive `omitempty` removed
from every tag carries no option `omitempty`, and for every instance in which each
field tagged `omitempty`, at any depth, holds a value that is not the zero value of its
kind, `Marshal` on the plan of the shape and `Marshal` on the plan of the shape without
`omitempty` append the same bytes to the sink: the object of the entries of all keyed
fields. -/
theorem omitempty_removed_text (env : TypeEnv)
    (hok : ∀ id, ∀ f ∈ env id, f.supported = true)
    (F F' M id : Nat) (e e' : StructEncoder)
    (hc : NewStructEncoder env F (.struct id) .zero = .ok e)
    (hc' : NewStructEncoder (withoutOmitempty env) F' (.struct id) .zero = .ok e')
    (vs : List Value) (ents : List Bytes)
    (hen : entriesText env (env id) vs = some ents)
    (hset : omitemptySetFields env (env id) vs = true)
    (hd : (Value.struct vs).depth ≤ M) (w : Bytes) :
    (∀ i, ∀ f ∈ withoutOmitempty env i, f.opts.Contains (bs "omitempty") = false) ∧
      Marshal M e.instructions (.struct vs) w = some (w ++ object ents) ∧
      Marshal M e'.instructions (.struct vs) w = Marshal M e.instructions (.struct vs) w := by
  have h1 := Marshal_text env hok M F id e hc vs ents w hd hen
  have hen' : entriesText (withoutOmitempty env) (withoutOmitempty env id) vs = some ents := by
    have := entriesText_withoutOmitempty env (env id) vs hset
    simp only [withoutOmitempty] at this ⊢
    rw [this, hen]
  have h2 := Marshal_text (withoutOmitempty env) (withoutOmitempty_ok env hok) M F' id e' hc'
    vs ents w hd hen'
  refine ⟨?_, h1, by rw [h1, h2]⟩
  intro i f hf
  simp only [withoutOmitempty, List.mem_map] at hf
  obtain ⟨g, _, rfl⟩ := hf
  rw [withoutOmitempty_Contains g _ (by decide)]
  simp

theorem envOmitAll_supported : ∀ id, ∀ f ∈ envOmitAll id, f.supported = true := by
  intro id
  match id with
  | 0 => decide
  | 1 => decide
  | n + 2 => intro f hf; simp [envOmitAll] at hf

/-- C33 (failing input): `NewStructEncoder` accepts the shape
`struct { A [2]int "a,omitempty" }`, and in the instance with `A = [1, 2]` the field
tagged `omitempty` holds a value that is not zero. `Marshal` on the plan of the shape
fails, for this and for every instance, because the omit group has no zero test; on
the plan of the same shape with `omitempty` removed, `struct { A [2]int "a" }`, it
writes `{"a":[1, 2]}`. For shapes of supported fields the two plans append the same
bytes for every instance whose fields tagged `omitempty` hold no zero value, as for
the shape `struct { A int "a,omitempty"; S string "s,omitempty"; P *Inner
"p,omitempty"; N Inner "n,omitempty" }`. -/
theorem omitempty_array_output_differs :
    (withoutOmitempty envArrayOmit 0).map (fun f => (f.Name, f.Typ, f.Tag))
        = [(bs "A", .array 2 (.basic .Int), bs "a")] ∧
      (NewStructEncoder envArrayOmit 1 (.struct 0) .zero).isOk = true ∧
      omitemptySetFields envArrayOmit (envArrayOmit 0) [.array [.int 1, .int 2]] = true ∧
      (∀ (M : Nat) (p : Value) (w : Bytes),
        Marshal M (compiled (NewStructEncoder envArrayOmit 1 (.struct 0) .zero)).instructions
          p w = none) ∧
      marshalShape envArrayOmit 1 (.struct 0) (.struct [.array [.int 1, .int 2]]) = none ∧
      marshalShape (withoutOmitempty envArrayOmit) 1 (.struct 0)
          (.struct [.array [.int 1, .int 2]]) = some (bs "\x7b\"a\":[1, 2]\x7d") ∧
      (∀ (env : TypeEnv), (∀ id, ∀ f ∈ env id, f.supported = true) →
        ∀ (F F' M id : Nat) (e e' : StructEncoder) (vs : List Value) (ents : List Bytes)
          (w : Bytes),
          NewStructEncoder env F (.struct id) .zero = .ok e →
          NewStructEncoder (withoutOmitempty env) F' (.struct id) .zero = .ok e' →
          entriesText env (env id) vs = some ents →
          omitemptySetFields env (env id) vs = true →
          (Value.struct vs).depth ≤ M →
          Marshal M e.instructions (.struct vs) w = some (w ++ object ents) ∧
            Marshal M e'.instructions (.struct vs) w
              = Marshal M e.instructions (.struct vs) w) ∧
      (withoutOmitempty envOmitAll 0).map (fun f => f.Tag) = [bs "a", bs "s", bs "p", bs "n"] ∧
      Marshal 2 (compiled (NewStructEncoder envOmitAll 2 (.struct 0) .zero)).instructions
          (.struct [.int 1, .str (bs "x"), .ptr (some (.struct [.int 2])), .struct [.int 3]]) []
        = some (bs "\x7b\"a\":1,\"s\":\"x\",\"p\":\x7b\"x\":2\x7d,\"n\":\x7b\"x\":3\x7d\x7d") ∧
      Marshal 2 (compiled (NewStructEncoder (withoutOmitempty envOmitAll) 2 (.struct 0)
          .zero)).instructions
          (.struct [.int 1, .str (bs "x"), .ptr (some (.struct [.int 2])), .struct [.int 3]]) []
        = some (bs "\x7b\"a\":1,\"s\":\"x\",\"p\":\x7b\"x\":2\x7d,\"n\":\x7b\"x\":3\x7d\x7d") := by
  refine ⟨by decide, by decide, by decide, ?_, by decide, by decide, ?_, by decide, by decide,
    by decide⟩
  · intro M p w
    cases M <;> rfl
  · intro env hok F F' M id e e' vs ents w hc hc' hen hset hd
    exact (omitempty_removed_text env hok F F' M id e e' hc hc' vs ents hen hset hd w).2

/-! ## The structure of omit groups -/

theorem omitGroups_concat (l : List instruction) (x : instruction) :
    omitGroups (l ++ [x]) = omitGroups l ++ (if x.kind = KindOmit then [x] else []) := by
  unfold omitGroups
  rw [List.filter_append]
  by_cases h : x.kind = KindOmit
  · simp [h]
  · simp [h]

theorem forall₂_concat {α β : Type} (R : α → β → Prop) :
    ∀ (l : List α) (ks : List β) (g : α) (k : β),
      List.Forall₂ R (l ++ [g]) (ks ++ [k]) ↔ List.Forall₂ R l ks ∧ R g k := by
  intro l
  induction l with
  | nil =>
    intro ks g k
    cases ks with
    | nil => simp
    | cons a r =>
      constructor
      · intro h
        simp only [List.nil_append, List.cons_append] at h
        cases h with
        | cons _ h2 =>
          cases r <;> cases h2
      · intro h
        cases h.1
  | cons a l ih =>
    intro ks g k
    cases ks with
    | nil =>
      constructor
      · intro h
        simp only [List.nil_append, List.cons_append] at h
        cases h with
        | cons _ h2 =>
          cases l <;> cases h2
      · intro h
        cases h.1
    | cons b r =>
      simp only [List.cons_append, List.forall₂_cons, ih r g k, and_assoc]

theorem Leaf_static (s : Bytes) : Leaf (staticInstr s) :=
  ⟨(by decide : kindStatic ≠ KindOmit), rfl, Or.inl rfl⟩

theorem GroupOpen_chunk (e : StructEncoder) (ks : List Nat) (b : Bytes)
    (h : GroupOpen e ks) : GroupOpen (e.chunk b) ks := by
  obtain ⟨h1, h2, h3, h4⟩ := h
  refine ⟨?_, h2, h3, h4⟩
  simp only [StructEncoder.chunk_cpos, StructEncoder.chunk_cb, List.length_append]
  omega

theorem Guards_append (g : instruction) (S : instruction) (k : Nat) (z : Option (Value → Option Bool))
    (h : Guards g k) (hoff : S.kind ≠ kindStatic → S.offset = k) :
    Guards (instruction.mk g.static (g.sub ++ [S]) g.kind
      (if S.kind ≠ kindStatic then S.offset else g.offset) g.leapFun g.fn
      (if S.kind ≠ kindStatic then z else g.isZero)) k := by
  obtain ⟨h1, h2⟩ := h
  by_cases hs : S.kind = kindStatic
  · simp only [hs, ne_eq, not_true_eq_false, if_false]
    refine ⟨?_, ?_⟩
    · intro b hb hk
      simp only [instruction.sub_mk, List.mem_append, List.mem_singleton] at hb
      rcases hb with hb | hb
      · exact h1 b hb hk
      · subst hb; exact absurd hs hk
    · intro hall
      simp only [instruction.sub_mk] at hall
      exact h2 (fun b hb => hall b (List.mem_append_left _ hb))
  · have hk := hoff hs
    simp only [hs, ne_eq, not_false_eq_true, if_true]
    refine ⟨?_, ?_⟩
    · intro b hb hkb
      simp only [instruction.sub_mk, List.mem_append, List.mem_singleton] at hb
      simp only [instruction.offset_mk]
      rcases hb with hb | hb
      · exact ⟨(h1 b hb hkb).1, hk⟩
      · subst hb; exact ⟨hk, hk⟩
    · intro hall
      simp only [instruction.sub_mk] at hall
      exact absurd (hall S (by simp)) hs

/-- Appending an instruction that is no omit group keeps the groups in order. -/
theorem GroupOpen_append (e : StructEncoder) (ks : List Nat) (S : instruction)
    (h : GroupOpen e ks) (hl : Leaf S) (hoff : S.kind ≠ kindStatic → S.offset = e.i) :
    GroupOpen (e.appendInstruction S) ks := by
  obtain ⟨h1, ⟨h2a, h2b⟩, h3, h4⟩ := h
  by_cases ho : e.o = true
  · obtain ⟨init, g, ks0, hi, hg, hks, hf, hgu, hend⟩ := h3 ho
    have hnew := StructEncoder.appendInstruction_omit e S g init ho hi
    refine ⟨by simpa using h1, ⟨?_, ?_⟩, ?_, ?_⟩
    · intro x hx hk
      rw [hnew] at hx
      rcases mem_concat_cases _ _ _ hx with hx | hx
      · exact h2a x (by rw [hi]; exact List.mem_append_left _ hx) hk
      · rw [hx] at hk
        exact absurd hg hk
    · intro x hx hk b hb
      rw [hnew] at hx
      rcases mem_concat_cases _ _ _ hx with hx | hx
      · exact h2b x (by rw [hi]; exact List.mem_append_left _ hx) hk b hb
      · rw [hx] at hb
        simp only [instruction.sub_mk, List.mem_append, List.mem_singleton] at hb
        rcases hb with hb | hb
        · exact h2b g (by rw [hi]; simp) hg b hb
        · rw [hb]; exact hl
    · intro _
      refine ⟨init, _, ks0, hnew, hg, ?_, hf, ?_, hend⟩
      · rw [StructEncoder.appendInstruction_i]; exact hks
      · rw [StructEncoder.appendInstruction_i]
        exact Guards_append g S e.i _ hgu hoff
    · intro ho2
      rw [StructEncoder.appendInstruction_o] at ho2
      rw [ho2] at ho
      cases ho
  · have ho' : e.o = false := by simpa using ho
    have hnew := StructEncoder.appendInstruction_top e S ho'
    obtain ⟨hf, hend⟩ := h4 ho'
    refine ⟨by simpa using h1, ⟨?_, ?_⟩, ?_, ?_⟩
    · intro x hx hk
      rw [hnew] at hx
      rcases mem_concat_cases _ _ _ hx with hx | hx
      · exact h2a x hx hk
      · rw [hx]; exact hl
    · intro x hx hk b hb
      rw [hnew] at hx
      rcases mem_concat_cases _ _ _ hx with hx | hx
      · exact h2b x hx hk b hb
      · rw [hx] at hk
        exact absurd hk hl.1
    · intro ho2
      rw [StructEncoder.appendInstruction_o] at ho2
      exact absurd ho2 ho
    · intro _
      rw [hnew, omitGroups_concat, if_neg hl.1, List.append_nil]
      refine ⟨hf, ?_⟩
      intro x hx hk
      rcases mem_concat_cases _ _ _ hx with hx | hx
      · exact hend x hx hk
      · rw [hx] at hk
        exact absurd hk hl.1

theorem GroupOpen_cpos (e : StructEncoder) (ks : List Nat) (h : GroupOpen e ks) :
    GroupOpen { e with cpos := e.cb.length } ks := by
  obtain ⟨_, h2, h3, h4⟩ := h
  exact ⟨le_rfl, h2, h3, h4⟩

theorem GroupOpen_flunk (e : StructEncoder) (ks : List Nat) (h : GroupOpen e ks) :
    GroupOpen e.flunk ks := by
  by_cases hp : e.cb.drop e.cpos = []
  · rw [StructEncoder.flunk_empty e hp]
    exact GroupOpen_cpos e ks h
  · rw [StructEncoder.flunk_nonempty e hp]
    exact GroupOpen_append _ ks _ (GroupOpen_cpos e ks h) (Leaf_static _)
      (fun hk => absurd rfl hk)

/-- A flush followed by an instruction that reads the current field. -/
theorem GroupOpen_emit (e : StructEncoder) (ks : List Nat) (S : instruction)
    (h : GroupOpen e ks) (hl : Leaf S) (hoff : S.offset = e.i) :
    GroupOpen (e.flunk.appendInstruction S) ks :=
  GroupOpen_append e.flunk ks S (GroupOpen_flunk e ks h) hl
    (fun _ => by rw [StructEncoder.flunk_i]; exact hoff)

theorem GroupOpen_val (ks : List Nat) (e : StructEncoder) (c : Conv) (h : GroupOpen e ks) :
    GroupOpen (e.val c) ks :=
  GroupOpen_emit e ks _ h
    ⟨(by decide : kindNormal ≠ KindOmit), rfl, Or.inr (Or.inr (Or.inr (Or.inl (by simp))))⟩
    (by simp)

theorem GroupOpen_fun (ks : List Nat) (e : StructEncoder) (fn : Fun instruction)
    (h : GroupOpen e ks) : GroupOpen (e.flunk.appendInstructionFun fn e.flunk.i) ks :=
  GroupOpen_emit e ks _ h
    ⟨(by decide : kindNormal ≠ KindOmit), rfl, Or.inr (Or.inr (Or.inr (Or.inr (by simp))))⟩
    (by simp)

theorem GroupOpen_ptrval (ks : List Nat) (e : StructEncoder) (c : Conv) (h : GroupOpen e ks) :
    GroupOpen (e.ptrval c) ks :=
  GroupOpen_fun ks e _ h

theorem GroupOpen_ptrstringval (ks : List Nat) (e : StructEncoder) (c : Conv)
    (h : GroupOpen e ks) : GroupOpen (e.ptrstringval c) ks :=
  GroupOpen_fun ks e _ h

theorem arrayLoop_i (c : Conv) : ∀ (n i : Nat) (e : StructEncoder),
    (StructEncoder.arrayLoop c n i e).i = e.i := by
  intro n
  induction n with
  | zero => intro i e; rfl
  | succ n ih =>
    intro i e
    unfold StructEncoder.arrayLoop
    rw [ih]
    unfold StructEncoder.appendInstructionFun
    split <;> simp

theorem GroupOpen_arrayLoop (ks : List Nat) (c : Conv) :
    ∀ (n i : Nat) (e : StructEncoder), GroupOpen e ks →
      GroupOpen (StructEncoder.arrayLoop c n i e) ks := by
  intro n
  induction n with
  | zero => intro i e h; exact h
  | succ n ih =>
    intro i e h
    unfold StructEncoder.arrayLoop
    apply ih
    apply GroupOpen_fun
    split
    · exact GroupOpen_chunk e ks _ h
    · exact h

theorem GroupOpen_valueInst (ks : List Nat) (env : TypeEnv) (fuel : Nat)
    (newEnc : GoType → ShapeVal → Res (List instruction)) (e e' : StructEncoder) (k : Kind)
    (instr : StructEncoder → Conv → StructEncoder)
    (hinstr : ∀ e c, GroupOpen e ks → GroupOpen (instr e c) ks) (h : GroupOpen e ks)
    (hv : e.valueInst env fuel newEnc k instr = .ok e') : GroupOpen e' ks := by
  unfold StructEncoder.valueInst at hv
  cases k
  case Array =>
    simp only [bind] at hv
    obtain ⟨elem, _, hv⟩ := Except.bind_eq_ok _ _ _ hv
    cases hc : typeconv elem.Kind with
    | none =>
      rw [hc] at hv
      cases hv
      exact GroupOpen_chunk e ks _ h
    | some c =>
      rw [hc] at hv
      simp only at hv
      split at hv
      · cases hv
        exact GroupOpen_chunk _ ks _ (GroupOpen_arrayLoop ks c _ 0 _ (GroupOpen_chunk e ks _ h))
      · cases hv
  case Slice =>
    simp only [bind] at hv
    obtain ⟨_, _, hv⟩ := Except.bind_eq_ok _ _ _ hv
    obtain ⟨enc, _, hv⟩ := Except.bind_eq_ok _ _ _ hv
    cases hv
    exact GroupOpen_fun ks e _ h
  case Struct =>
    simp only [bind] at hv
    split at hv
    · obtain ⟨elem, _, hv⟩ := Except.bind_eq_ok _ _ _ hv
      obtain ⟨same, _, hv⟩ := Except.bind_eq_ok _ _ _ hv
      split at hv
      · cases hv
        exact GroupOpen_fun ks e _ h
      · obtain ⟨enc, _, hv⟩ := Except.bind_eq_ok _ _ _ hv
        cases hv
        exact GroupOpen_fun ks e _ h
    · obtain ⟨inf, _, hv⟩ := Except.bind_eq_ok _ _ _ hv
      obtain ⟨enc, _, hv⟩ := Except.bind_eq_ok _ _ _ hv
      cases hv
      exact GroupOpen_fun ks e _ h
  case Int =>
    simp only at hv
    split at hv
    · cases hv
      exact hinstr e _ h
    · cases hv
      exact GroupOpen_emit e ks _ h
        ⟨(by decide : kindInt ≠ KindOmit), rfl, Or.inr (Or.inr (Or.inl rfl))⟩ (by simp)
  case String =>
    simp only at hv
    split at hv
    · cases hv
      exact GroupOpen_ptrstringval ks e _ h
    · cases hv
      exact GroupOpen_chunk _ ks _
        (GroupOpen_emit _ ks _ (GroupOpen_chunk e ks _ h)
          ⟨(by decide : kindStringField ≠ KindOmit), rfl, Or.inr (Or.inl rfl)⟩ (by simp))
  case Ptr => simp only at hv; cases hv; exact h
  case Bool =>
    simp only [typeconv, pure, Except.pure, Except.ok.injEq] at hv
    subst hv
    exact hinstr e _ h
  case Int8 =>
    simp only [typeconv, pure, Except.pure, Except.ok.injEq] at hv
    subst hv
    exact hinstr e _ h
  case Int16 =>
    simp only [typeconv, pure, Except.pure, Except.ok.injEq] at hv
    subst hv
    exact hinstr e _ h
  case Int32 =>
    simp only [typeconv, pure, Except.pure, Except.ok.injEq] at hv
    subst hv
    exact hinstr e _ h
  case Int64 =>
    simp only [typeconv, pure, Except.pure, Except.ok.injEq] at hv
    subst hv
    exact hinstr e _ h
  case Uint =>
    simp only [typeconv, pure, Except.pure, Except.ok.injEq] at hv
    subst hv
    exact hinstr e _ h
  case Uint8 =>
    simp only [typeconv, pure, Except.pure, Except.ok.injEq] at hv
    subst hv
    exact hinstr e _ h
  case Uint16 =>
    simp only [typeconv, pure, Except.pure, Except.ok.injEq] at hv
    subst hv
    exact hinstr e _ h
  case Uint32 =>
    simp only [typeconv, pure, Except.pure, Except.ok.injEq] at hv
    subst hv
    exact hinstr e _ h
  case Uint64 =>
    simp only [typeconv, pure, Except.pure, Except.ok.injEq] at hv
    subst hv
    exact hinstr e _ h
  case Float32 =>
    simp only [typeconv, pure, Except.pure, Except.ok.injEq] at hv
    subst hv
    exact hinstr e _ h
  case Float64 =>
    simp only [typeconv, pure, Except.pure, Except.ok.injEq] at hv
    subst hv
    exact hinstr e _ h
  all_goals simp [throw, throwThe, MonadExceptOf.throw] at hv

theorem GroupOpen_fieldValue (ks : List Nat) (env : TypeEnv) (fuel : Nat)
    (newEnc : GoType → ShapeVal → Res (List instruction)) (e e' : StructEncoder)
    (opts : tagOptions) (h : GroupOpen e ks)
    (hv : e.fieldValue env fuel newEnc opts = .ok e') : GroupOpen e' ks := by
  have hval : ∀ (x : StructEncoder) (c : Conv), GroupOpen x ks →
      GroupOpen (if x.f.Typ.Kind = .Ptr then x.ptrval c else x.val c) ks := by
    intro x c hx
    split
    · exact GroupOpen_ptrval ks x c hx
    · exact GroupOpen_val ks x c hx
  unfold StructEncoder.fieldValue at hv
  split at hv
  · cases hv
    exact GroupOpen_chunk _ ks _ (hval _ _ (GroupOpen_chunk e ks _ h))
  split at hv
  · split at hv
    · cases hv; exact hval e _ h
    · cases hv; exact hval e _ h
  split at hv
  · cases hv; exact hval e _ h
  split at hv
  · unfold StructEncoder.optInstrEscape at hv
    split at hv
    · simp only [bind] at hv
      obtain ⟨enc, _, hv⟩ := Except.bind_eq_ok _ _ _ hv
      cases hv
      exact GroupOpen_fun ks e _ h
    split at hv
    · cases hv; exact GroupOpen_ptrstringval ks e _ h
    · cases hv
      exact GroupOpen_chunk _ ks _ (GroupOpen_val ks _ _ (GroupOpen_chunk e ks _ h))
  split at hv
  · cases hv
    exact GroupOpen_chunk _ ks _ (GroupOpen_val ks _ _ (GroupOpen_chunk e ks _ h))
  split at hv
  · cases hv; exact GroupOpen_ptrstringval ks e _ h
  split at hv
  · simp only [bind] at hv
    obtain ⟨elem, _, hv⟩ := Except.bind_eq_ok _ _ _ hv
    exact GroupOpen_valueInst ks env fuel newEnc e e' _ _ (GroupOpen_ptrval ks) h hv
  · exact GroupOpen_valueInst ks env fuel newEnc e e' _ _ (GroupOpen_val ks) h hv

theorem forall₂_concat_left {α β : Type} (R : α → β → Prop) (l : List α) (g : α)
    (ks : List β) (h : List.Forall₂ R (l ++ [g]) ks) :
    ∃ ks0 k, ks = ks0 ++ [k] ∧ List.Forall₂ R l ks0 ∧ R g k := by
  rcases List.eq_nil_or_concat ks with hk | ⟨ks0, k, hk⟩
  · have := h.length_eq
    rw [hk] at this
    simp at this
  · rw [List.concat_eq_append] at hk
    rw [hk] at h
    exact ⟨ks0, k, hk, (forall₂_concat R l ks0 g k).mp h⟩

/-- Entering a keyed field: for an omitempty field the omit group of the field is
opened. -/
theorem GroupClosed_enter (e : StructEncoder) (ks : List Nat) (o' : Bool)
    (h : GroupClosed e ks) :
    GroupOpen (if ({ e with o := o' } : StructEncoder).o = true
      then ({ e with o := o' } : StructEncoder).omitFlunk else { e with o := o' })
      (ks ++ (if o' = true then [e.i] else [])) := by
  obtain ⟨h1, ⟨h2a, h2b⟩, h3, h4, _⟩ := h
  cases o' with
  | false =>
    simp only [Bool.false_eq_true, if_false, List.append_nil]
    refine ⟨h1, ⟨h2a, h2b⟩, ?_, ?_⟩
    · intro ho
      cases ho
    · intro _
      exact ⟨h3, h4⟩
  | true =>
    simp only [if_true]
    have hnew := StructEncoder.omitFlunk_instructions ({ e with o := true } : StructEncoder)
    refine ⟨by simp, ⟨?_, ?_⟩, ?_, ?_⟩
    · intro x hx hk
      rw [hnew] at hx
      rcases mem_concat_cases _ _ _ hx with hx | hx
      · exact h2a x hx hk
      · rw [hx] at hk
        exact absurd rfl hk
    · intro x hx hk b hb
      rw [hnew] at hx
      rcases mem_concat_cases _ _ _ hx with hx | hx
      · exact h2b x hx hk b hb
      · rw [hx] at hb
        cases hb
    · intro _
      refine ⟨_, _, ks, hnew, rfl, ?_, h3, ?_, h4⟩
      · rw [StructEncoder.omitFlunk_i]
      · refine ⟨?_, fun _ => ⟨rfl, rfl⟩⟩
        intro b hb
        cases hb
    · intro ho
      rw [StructEncoder.omitFlunk_o] at ho
      cases ho

/-- Leaving a keyed field: for an omitempty field the separator is flushed into the
omit group, whose body then ends with a static instruction. -/
theorem GroupOpen_leave (e : StructEncoder) (ks : List Nat) (h : GroupOpen e ks) :
    GroupClosed (if (e.chunk (bs ",")).o = true then (e.chunk (bs ",")).flunk
      else e.chunk (bs ",")) ks := by
  have hc := GroupOpen_chunk e ks (bs ",") h
  split
  · rename_i ho
    have hlen := h.1
    have hne : (e.chunk (bs ",")).cb.drop (e.chunk (bs ",")).cpos ≠ [] := by
      simp only [StructEncoder.chunk_cb, StructEncoder.chunk_cpos]
      rw [List.drop_append_of_le_length hlen]
      simp [bs]
    rw [StructEncoder.flunk_nonempty _ hne]
    have h2 := GroupOpen_cpos _ ks hc
    have ho2 : ({ e.chunk (bs ",") with cpos := (e.chunk (bs ",")).cb.length }
        : StructEncoder).o = true := ho
    obtain ⟨init, g, ks0, hi, hg, hks, hf, hgu, hend⟩ := h2.2.2.1 ho2
    have hnew := StructEncoder.appendInstruction_omit _
      (staticInstr ((e.chunk (bs ",")).cb.drop (e.chunk (bs ",")).cpos)) g init ho2 hi
    have h3 := GroupOpen_append _ ks
      (staticInstr ((e.chunk (bs ",")).cb.drop (e.chunk (bs ",")).cpos)) h2 (Leaf_static _)
      (fun hk => absurd rfl hk)
    refine ⟨h3.1, h3.2.1, ?_, ?_, ?_⟩
    · rw [hnew, omitGroups_concat, if_pos (by exact hg), hks, forall₂_concat]
      exact ⟨hf, Guards_append g _ _ _ hgu (fun hk => absurd rfl hk)⟩
    · intro x hx hk
      rw [hnew] at hx
      rcases mem_concat_cases _ _ _ hx with hx | hx
      · exact hend x hx hk
      · rw [hx]
        exact ⟨g.sub, _, rfl, rfl⟩
    · intro _
      exact ⟨init, _, hnew, hg⟩
  · rename_i ho
    have ho' : (e.chunk (bs ",")).o = false := by simpa using ho
    obtain ⟨h1, h2, _, h4⟩ := hc
    obtain ⟨hf, hend⟩ := h4 ho'
    exact ⟨h1, h2, hf, hend, fun ho2 => absurd ho2 ho⟩

theorem GroupClosed_congr (e e' : StructEncoder) (ks : List Nat)
    (hi : e'.instructions = e.instructions) (hb : e'.cb = e.cb) (hc : e'.cpos = e.cpos)
    (ho : e'.o = e.o) (h : GroupClosed e ks) : GroupClosed e' ks := by
  obtain ⟨h1, h2, h3, h4, h5⟩ := h
  exact ⟨by rw [hb, hc]; exact h1, hi ▸ h2, hi ▸ h3, hi ▸ h4, by rw [hi, ho]; exact h5⟩

theorem GroupClosed_field (env : TypeEnv) (fuel : Nat)
    (newEnc : GoType → ShapeVal → Res (List instruction)) (e e' : StructEncoder)
    (ks : List Nat) (h : GroupClosed e ks)
    (hf : StructEncoder.field env fuel newEnc e = .ok e') :
    GroupClosed e' (ks ++ omitFields [e.f] e.i) := by
  unfold StructEncoder.field at hf
  simp only at hf
  split at hf
  · rename_i htag
    cases hf
    simp only [omitFields, htag, ne_eq, not_true_eq_false, false_and, if_false,
      List.append_nil]
    exact h
  · rename_i htag
    simp only [bind] at hf
    obtain ⟨e3, h3, hf⟩ := Except.bind_eq_ok _ _ _ hf
    cases hf
    have hin := GroupClosed_enter e ks ((parseTag e.f.Tag).2.Contains (bs "omitempty") &&
      e.f.Typ.Kind != .Struct) h
    have hks : omitFields [e.f] e.i
        = if ((parseTag e.f.Tag).2.Contains (bs "omitempty") && e.f.Typ.Kind != .Struct) = true
          then [e.i] else [] := by
      simp only [omitFields, htag, ne_eq, not_false_eq_true, true_and]
    rw [hks]
    exact GroupOpen_leave e3 _ (GroupOpen_fieldValue _ env fuel newEnc _ e3 _
      (GroupOpen_chunk _ _ _ hin) h3)

theorem omitFields_cons (f : StructField) (fs : List StructField) (i : Nat) :
    omitFields (f :: fs) i = omitFields [f] i ++ omitFields fs (i + 1) := by
  simp only [omitFields]
  split <;> simp

theorem GroupClosed_fieldLoop (env : TypeEnv) (fuel : Nat)
    (newEnc : GoType → ShapeVal → Res (List instruction)) :
    ∀ (fs : List StructField) (i : Nat) (e e' : StructEncoder) (ks : List Nat),
      GroupClosed e ks → StructEncoder.fieldLoop env fuel newEnc fs i e = .ok e' →
      GroupClosed e' (ks ++ omitFields fs i) := by
  intro fs
  induction fs with
  | nil =>
    intro i e e' ks h hf
    simp only [StructEncoder.fieldLoop, pure, Except.pure, Except.ok.injEq] at hf
    subst hf
    simp only [omitFields, List.append_nil]
    exact GroupClosed_congr e _ ks rfl rfl rfl rfl h
  | cons f fs ih =>
    intro i e e' ks h hf
    rw [StructEncoder.fieldLoop] at hf
    simp only [bind] at hf
    obtain ⟨e1, h1, hf⟩ := Except.bind_eq_ok _ _ _ hf
    have hfield := GroupClosed_field env fuel newEnc { e with i := i, f := f } e1 ks
      (GroupClosed_congr e _ ks rfl rfl rfl rfl h) h1
    have := ih (i + 1) e1 e' _ hfield hf
    rw [omitFields_cons, ← List.append_assoc]
    exact this

theorem Guards_trim (g : instruction) (body : List instruction) (x : instruction) (k : Nat)
    (fn : Option (Fun instruction)) (hsub : g.sub = body ++ [x]) (hx : x.kind = kindStatic)
    (h : Guards g k) :
    Guards (instruction.mk g.static
      (body ++ [instruction.mk x.static.dropLast x.sub x.kind x.offset x.leapFun x.fn x.isZero])
      g.kind g.offset g.leapFun fn g.isZero) k := by
  obtain ⟨h1, h2⟩ := h
  refine ⟨?_, ?_⟩
  · intro b hb hk
    simp only [instruction.sub_mk, List.mem_append, List.mem_singleton] at hb
    rcases hb with hb | hb
    · exact h1 b (by rw [hsub]; exact List.mem_append_left _ hb) hk
    · rw [hb] at hk
      exact absurd hx hk
  · intro hall
    simp only [instruction.sub_mk] at hall
    refine h2 ?_
    intro b hb
    rw [hsub] at hb
    rcases mem_concat_cases _ _ _ hb with hb | hb
    · exact hall b (List.mem_append_left _ hb)
    · rw [hb]; exact hx

/-- The plan after `setupLastField`: the last byte of the body of the last omit group
is removed, the groups stay as they are. -/
theorem GroupClosed_setupLastField (e e' : StructEncoder) (ks : List Nat)
    (h : GroupClosed e ks) (hs : e.setupLastField = .ok e') :
    e'.o = false ∧ LeafOK e'.instructions ∧
      List.Forall₂ Guards (omitGroups e'.instructions) ks ∧
      ∀ x ∈ e'.instructions, x.kind = KindOmit → EndsStatic x.sub := by
  obtain ⟨_, ⟨h2a, h2b⟩, h3, h4, h5⟩ := h
  unfold StructEncoder.setupLastField at hs
  split at hs
  · rename_i ho
    obtain ⟨init, g, hi, hg⟩ := h5 ho
    obtain ⟨body, x, hsub, hx⟩ := h4 g (by rw [hi]; simp) hg
    split at hs
    · cases hs
    · split at hs
      · cases hs
      · split at hs
        · cases hs
        · simp only [pure, Except.pure, Except.ok.injEq] at hs
          subst hs
          have hnew : modifyLast (fun instr =>
              instruction.mk instr.static
                (modifyLast (fun subInstr =>
                  instruction.mk subInstr.static.dropLast subInstr.sub subInstr.kind
                    subInstr.offset subInstr.leapFun subInstr.fn subInstr.isZero) instr.sub)
                instr.kind instr.offset instr.leapFun (some .trimComma) instr.isZero)
              e.instructions
              = init ++ [instruction.mk g.static
                  (body ++ [instruction.mk x.static.dropLast x.sub x.kind x.offset x.leapFun
                    x.fn x.isZero])
                  g.kind g.offset g.leapFun (some .trimComma) g.isZero] := by
            rw [hi, modifyLast_concat, hsub, modifyLast_concat]
          simp only
          rw [hnew]
          rw [hi, omitGroups_concat, if_pos hg] at h3
          obtain ⟨ks0, k, hks, hf, hgu⟩ := forall₂_concat_left Guards _ g ks h3
          refine ⟨trivial, ⟨?_, ?_⟩, ?_, ?_⟩
          · intro y hy hk
            rcases mem_concat_cases _ _ _ hy with hy | hy
            · exact h2a y (by rw [hi]; exact List.mem_append_left _ hy) hk
            · rw [hy] at hk
              exact absurd hg hk
          · intro y hy hk b hb
            rcases mem_concat_cases _ _ _ hy with hy | hy
            · exact h2b y (by rw [hi]; exact List.mem_append_left _ hy) hk b hb
            · rw [hy] at hb
              simp only [instruction.sub_mk] at hb
              rcases mem_concat_cases _ _ _ hb with hb | hb
              · exact h2b g (by rw [hi]; simp) hg b
                  (by rw [hsub]; exact List.mem_append_left _ hb)
              · have hl := h2b g (by rw [hi]; simp) hg x (by rw [hsub]; simp)
                rw [hb]
                exact ⟨hl.1, hl.2.1, Or.inl hx⟩
          · rw [omitGroups_concat, if_pos (by exact hg), hks, forall₂_concat]
            exact ⟨hf, Guards_trim g body x k _ hsub hx hgu⟩
          · intro y hy hk
            rcases mem_concat_cases _ _ _ hy with hy | hy
            · exact h4 y (by rw [hi]; exact List.mem_append_left _ hy) hk
            · rw [hy]
              exact ⟨body, _, rfl, hx⟩
  · rename_i ho
    have ho' : e.o = false := by simpa using ho
    split at hs
    · cases hs
    · split at hs
      · simp only [pure, Except.pure, Except.ok.injEq] at hs
        subst hs
        exact ⟨ho', ⟨h2a, h2b⟩, h3, h4⟩
      · simp only [pure, Except.pure, Except.ok.injEq] at hs
        subst hs
        exact ⟨ho', ⟨h2a, h2b⟩, h3, h4⟩

/-- The closing brace goes to a static instruction of the top level. -/
theorem flunk_top (e : StructEncoder) (ho : e.o = false) :
    e.flunk.instructions = e.instructions ∨
      ∃ s, e.flunk.instructions = e.instructions ++ [staticInstr s] := by
  by_cases hp : e.cb.drop e.cpos = []
  · left
    rw [StructEncoder.flunk_empty e hp]
  · right
    refine ⟨e.cb.drop e.cpos, ?_⟩
    rw [StructEncoder.flunk_instructions e hp, StructEncoder.appendInstruction_top]
    exact ho

theorem NewStructEncoder_groups (env : TypeEnv) (F : Nat) (tt : GoType) (tv : ShapeVal)
    (e : StructEncoder) (fields : List StructField)
    (hf : structFields env tt = .ok fields)
    (h : NewStructEncoder env F tt tv = .ok e) :
    LeafOK e.instructions ∧
      List.Forall₂ Guards (omitGroups e.instructions) (omitFields fields 0) ∧
      ∀ x ∈ e.instructions, x.kind = KindOmit → EndsStatic x.sub := by
  cases F with
  | zero => cases h
  | succ F =>
    rw [NewStructEncoder] at h
    simp only [bind] at h
    obtain ⟨fields', hf', h⟩ := Except.bind_eq_ok _ _ _ h
    rw [hf] at hf'
    cases hf'
    obtain ⟨e1, hl, h⟩ := Except.bind_eq_ok _ _ _ h
    obtain ⟨e2, hs, h⟩ := Except.bind_eq_ok _ _ _ h
    cases h
    have hstart : GroupClosed
        ((⟨[], default, tt, tv, 0, [], 0, false⟩ : StructEncoder).chunk (bs "\x7b")) [] := by
      refine ⟨by simp, ⟨?_, ?_⟩, ?_, ?_, ?_⟩
      · intro g hg; cases hg
      · intro g hg; cases hg
      · exact List.Forall₂.nil
      · intro g hg; cases hg
      · intro ho; cases ho
    have hb := GroupClosed_fieldLoop env F _ fields 0 _ e1 [] hstart hl
    rw [List.nil_append] at hb
    obtain ⟨ho, ⟨g2a, g2b⟩, g3, g4⟩ := GroupClosed_setupLastField e1 e2 _ hb hs
    have hoc : (e2.chunk (bs "\x7d")).o = false := ho
    rcases flunk_top (e2.chunk (bs "\x7d")) hoc with hi | ⟨s, hi⟩
    · rw [hi]
      exact ⟨⟨g2a, g2b⟩, g3, g4⟩
    · rw [hi]
      have hk : (staticInstr s).kind ≠ KindOmit := (by decide : kindStatic ≠ KindOmit)
      refine ⟨⟨?_, ?_⟩, ?_, ?_⟩
      · intro y hy hky
        rcases mem_concat_cases _ _ _ hy with hy | hy
        · exact g2a y hy hky
        · rw [hy]; exact Leaf_static s
      · intro y hy hky
        rcases mem_concat_cases _ _ _ hy with hy | hy
        · exact g2b y hy hky
        · rw [hy] at hky
          exact absurd hky hk
      · rw [omitGroups_concat, if_neg hk, List.append_nil]
        exact g3
      · intro y hy hky
        rcases mem_concat_cases _ _ _ hy with hy | hy
        · exact g4 y hy hky
        · rw [hy] at hky
          exact absurd hky hk

/-! ## Omit groups of supported fields -/

theorem shapeSegs_ins (env : TypeEnv) (fuel : Nat)
    (newEnc : GoType → ShapeVal → Res (List instruction)) (tt : GoType) (tv : ShapeVal) :
    ∀ (fs : List StructField) (i : Nat) (segs : List Seg),
      shapeSegs env fuel newEnc tt tv fs i = .ok (some segs) →
      ∀ s ∈ segs, s.ins.kind ≠ kindStatic ∧ s.ins.kind ≠ KindOmit := by
  intro fs
  induction fs with
  | nil =>
    intro i segs h s hs
    simp only [shapeSegs, pure, Except.pure, Except.ok.injEq, Option.some.injEq] at h
    subst h
    cases hs
  | cons f fs ih =>
    intro i segs h s hs
    rw [shapeSegs] at h
    simp only [bind] at h
    obtain ⟨r, hr, h⟩ := Except.bind_eq_ok _ _ _ h
    cases r with
    | none => simp [pure, Except.pure] at h
    | some r =>
      simp only at h
      obtain ⟨rest, hrest, h⟩ := Except.bind_eq_ok _ _ _ h
      cases rest with
      | none => simp [pure, Except.pure] at h
      | some rest =>
        simp only [pure, Except.pure, Except.ok.injEq, Option.some.injEq] at h
        subst h
        rcases List.mem_append.mp hs with h1 | h1
        · cases r with
          | none => cases h1
          | some sg =>
            simp only [Option.toList, List.mem_singleton] at h1
            subst h1
            unfold fieldSeg at hr
            simp only at hr
            split at hr
            · simp [pure, Except.pure] at hr
            · simp only [bind] at hr
              obtain ⟨v, hv, hr⟩ := Except.bind_eq_ok _ _ _ hr
              cases v with
              | none => simp [pure, Except.pure] at hr
              | some v =>
                obtain ⟨pre, ins, post⟩ := v
                simp only [pure, Except.pure, Except.ok.injEq, Option.some.injEq] at hr
                subst hr
                have := valueSeg_ins env fuel newEnc tt tv i f _ pre post ins hv
                exact ⟨this.1, this.2.1⟩
        · exact ih (i + 1) rest hrest s h1

theorem Core_step_groups (segs : List Seg)
    (hsegs : ∀ s ∈ segs, s.ins.kind ≠ kindStatic ∧ s.ins.kind ≠ KindOmit) :
    ∀ (c : Core),
      (∀ g ∈ c.instructions, g.kind = KindOmit → ∃ b ∈ g.sub, b.kind ≠ kindStatic) →
      ∀ g ∈ (segs.foldl Core.step c).instructions, g.kind = KindOmit →
        ∃ b ∈ g.sub, b.kind ≠ kindStatic := by
  induction segs with
  | nil => intro c hc; exact hc
  | cons s segs ih =>
    intro c hc
    rw [List.foldl_cons]
    apply ih (fun t ht => hsegs t (List.mem_cons_of_mem _ ht))
    have hs := hsegs s (List.mem_cons_self _ _)
    intro g hg hk
    unfold Core.step at hg
    split at hg
    · rcases mem_concat_cases _ _ _ hg with hg | hg
      · exact hc g hg hk
      · subst hg
        exact ⟨s.ins, by simp [Seg.group], hs.1⟩
    · simp only [List.mem_append, List.mem_cons, List.mem_singleton, List.not_mem_nil,
        or_false] at hg
      rcases hg with hg | hg | hg
      · exact hc g hg hk
      · subst hg; exact absurd hk (by decide : kindStatic ≠ KindOmit)
      · subst hg; exact absurd hk hs.2

theorem planOf_groups (segs : List Seg)
    (hsegs : ∀ s ∈ segs, s.ins.kind ≠ kindStatic ∧ s.ins.kind ≠ KindOmit) :
    ∀ g ∈ planOf segs, g.kind = KindOmit → ∃ b ∈ g.sub, b.kind ≠ kindStatic := by
  intro g hg hk
  unfold planOf at hg
  split at hg
  · simp only [List.mem_singleton] at hg
    subst hg
    exact absurd hk (by decide : kindStatic ≠ KindOmit)
  · rename_i s hlast
    have hs := hsegs s (List.mem_of_mem_getLast? hlast)
    have hc := Core_step_groups segs.dropLast
      (fun t ht => hsegs t (List.dropLast_subset _ ht)) Core.init
      (fun g hg => by cases hg)
    simp only at hg
    split at hg
    · simp only [List.mem_append, List.mem_cons, List.mem_singleton, List.not_mem_nil,
        or_false] at hg
      rcases hg with hg | hg | hg
      · exact hc g hg hk
      · subst hg
        exact ⟨s.ins, by simp [Seg.group], hs.1⟩
      · subst hg; exact absurd hk (by decide : kindStatic ≠ KindOmit)
    · simp only [List.mem_append, List.mem_cons, List.mem_singleton, List.not_mem_nil,
        or_false] at hg
      rcases hg with hg | hg | hg | hg
      · exact hc g hg hk
      · subst hg; exact absurd hk (by decide : kindStatic ≠ KindOmit)
      · subst hg; exact absurd hk hs.2
      · subst hg; exact absurd hk (by decide : kindStatic ≠ KindOmit)

theorem forall₂_imp_mem {α β : Type} (R S : α → β → Prop) :
    ∀ (l : List α) (ks : List β), List.Forall₂ R l ks →
      (∀ a ∈ l, ∀ k, R a k → S a k) → List.Forall₂ S l ks := by
  intro l ks h
  induction h with
  | nil => intro _; exact List.Forall₂.nil
  | @cons a k l ks hak _ ih =>
    intro himp
    exact List.Forall₂.cons (himp a (List.mem_cons_self _ _) k hak)
      (ih (fun x hx => himp x (List.mem_cons_of_mem _ hx)))

theorem mem_omitGroups (plan : List instruction) (g : instruction) (h : g ∈ omitGroups plan) :
    g ∈ plan ∧ g.kind = KindOmit := by
  unfold omitGroups at h
  rw [List.mem_filter] at h
  exact ⟨h.1, by simpa using h.2⟩

theorem forall₂_offset (l : List instruction) (ks : List Nat)
    (h : List.Forall₂ (fun g k => g.offset = k) l ks) : l.map (fun g => g.offset) = ks := by
  induction h with
  | nil => rfl
  | @cons a k l ks hak _ ih => simp only [List.map_cons, hak, ih]

theorem Guards_offset (g : instruction) (k : Nat) (h : Guards g k) (hz : g.isZero ≠ none) :
    g.offset = k := by
  by_cases hall : ∀ b ∈ g.sub, b.kind = kindStatic
  · exact absurd (h.2 hall).2 hz
  · simp only [not_forall] at hall
    obtain ⟨b, hb, hk⟩ := hall
    exact (h.1 b hb hk).2

/-- The structure of the plans of `NewStructEncoder`: an instruction that is no omit
group has no sub-instructions; the body of every omit group ends with a static
instruction and holds no omit group, only instructions without sub-instructions that are
static, a string or int fast path, or hold a `leapFun` or a `fun`, and on each of them
the inner loop of `Marshal` does what the outer loop does; the omit groups are, in
order, the groups of the keyed fields tagged `omitempty` that are not of the kind
struct: every instruction of the body that is not static reads at the offset of the
field, and the offset of the group is the offset of the field whenever the body holds
such an instruction, in particular whenever the group has a zero test, and for every
group of a shape of supported fields; a group whose body holds static instructions only
has the offset 0 and no zero test. -/
theorem omit_groups_structure (env : TypeEnv) (F : Nat) (tt : GoType) (tv : ShapeVal)
    (e : StructEncoder) (fields : List StructField)
    (hf : structFields env tt = .ok fields)
    (hc : NewStructEncoder env F tt tv = .ok e) :
    (∀ g ∈ e.instructions, g.kind ≠ KindOmit → g.sub = []) ∧
      (∀ g ∈ e.instructions, g.kind = KindOmit →
        EndsStatic g.sub ∧
        ∀ b ∈ g.sub, b.kind ≠ KindOmit ∧ b.sub = [] ∧
          (b.kind = kindStatic ∨ b.kind = kindStringField ∨ b.kind = kindInt ∨
            b.leapFun ≠ none ∨ b.fn ≠ none) ∧
          ∀ (rec : List instruction → Value → Bytes → Option Bytes) (self : List instruction)
            (p : Value) (w : Bytes), execSub rec self p w b = exec rec self p w b) ∧
      List.Forall₂ Guards (omitGroups e.instructions) (omitFields fields 0) ∧
      List.Forall₂ (fun g k => g.isZero ≠ none → g.offset = k)
        (omitGroups e.instructions) (omitFields fields 0) ∧
      ((∀ f ∈ fields, f.supported = true) →
        List.Forall₂ (fun g k => g.offset = k)
          (omitGroups e.instructions) (omitFields fields 0)) := by
  obtain ⟨⟨h1, h2⟩, h3, h4⟩ := NewStructEncoder_groups env F tt tv e fields hf hc
  refine ⟨fun g hg hk => (h1 g hg hk).2.1, ?_, h3, ?_, ?_⟩
  · intro g hg hk
    refine ⟨h4 g hg hk, ?_⟩
    intro b hb
    obtain ⟨l1, l2, l3⟩ := h2 g hg hk b hb
    exact ⟨l1, l2, l3, fun rec self p w => (exec_eq_execSub rec self p w b l1).symm⟩
  · exact forall₂_imp_mem _ _ _ _ h3 (fun g _ k hgk hz => Guards_offset g k hgk hz)
  · intro hsup
    have hgroups : ∀ g ∈ e.instructions, g.kind = KindOmit →
        ∃ b ∈ g.sub, b.kind ≠ kindStatic := by
      cases tt with
      | struct id =>
        simp only [structFields, pure, Except.pure, Except.ok.injEq] at hf
        subst hf
        cases F with
        | zero => cases hc
        | succ F =>
          obtain ⟨segs, hsegs, hplan⟩ := NewStructEncoder_segs env F id tv e hsup hc
          rw [hplan]
          exact planOf_groups segs (shapeSegs_ins env F _ _ _ _ 0 segs hsegs)
      | time =>
        simp only [structFields, pure, Except.pure, Except.ok.injEq] at hf
        subst hf
        have hnil : omitFields timeFields 0 = [] := by decide
        rw [hnil] at h3
        intro g hg hk
        have hmem : g ∈ omitGroups e.instructions := by
          unfold omitGroups
          rw [List.mem_filter]
          exact ⟨hg, by simpa using hk⟩
        cases h3' : omitGroups e.instructions with
        | nil => rw [h3'] at hmem; cases hmem
        | cons a r => rw [h3'] at h3; cases h3
      | basic k => simp [structFields, throw, throwThe, MonadExceptOf.throw] at hf
      | ptr t => simp [structFields, throw, throwThe, MonadExceptOf.throw] at hf
      | slice t => simp [structFields, throw, throwThe, MonadExceptOf.throw] at hf
      | array n t => simp [structFields, throw, throwThe, MonadExceptOf.throw] at hf
      | escapeString => simp [structFields, throw, throwThe, MonadExceptOf.throw] at hf
    refine forall₂_imp_mem _ _ _ _ h3 ?_
    intro g hg k hgk
    obtain ⟨hmem, hk⟩ := mem_omitGroups _ g hg
    obtain ⟨b, hb, hkb⟩ := hgroups g hmem hk
    exact (hgk.1 b hb hkb).2

theorem envGroups_supported : ∀ f ∈ envGroups 1, f.supported = true := by decide

/-- C38 (failing input): in the plan of `struct { A int "a"; P **int "p,omitempty" }` the
omit group guards the field `P`, at offset 1, and its body is the static instruction
`"p":` only: `valueInst` appends no instruction for a pointer to a pointer, so
`appendInstruction` never sets the offset of the group, which stays 0, nor its zero
test, and `Marshal` fails on the plan for every instance. In every plan the rest of the
invariant holds: omit groups stand at the top level only, the body of each ends with a
static instruction and holds only instructions that the inner loop handles as the outer
loop does, and the offset of a group is the offset of the field it guards whenever its
body holds an instruction that is not static, so whenever the group has a zero test,
and for every group of a shape of supported fields, as in the plan of
`struct { A int "a"; B bool "b,omitempty"; S string "s,omitempty" }`. -/
theorem omit_group_offset_unset :
    (NewStructEncoder envGroups 1 (.struct 0) .zero).isOk = true ∧
      omitFields (envGroups 0) 0 = [1] ∧
      (omitGroups (compiled (NewStructEncoder envGroups 1 (.struct 0) .zero)).instructions).map
          (fun g => (g.offset, g.isZero.isNone, planOutline g.sub))
        = [(0, true, [(kindStatic, bs "\"p\":")])] ∧
      ¬ List.Forall₂ (fun g k => g.offset = k)
        (omitGroups (compiled (NewStructEncoder envGroups 1 (.struct 0) .zero)).instructions)
        (omitFields (envGroups 0) 0) ∧
      (∀ (M : Nat) (p : Value) (w : Bytes),
        Marshal M (compiled (NewStructEncoder envGroups 1 (.struct 0) .zero)).instructions
          p w = none) ∧
      (∀ (env : TypeEnv) (F : Nat) (tt : GoType) (tv : ShapeVal) (e : StructEncoder)
        (fields : List StructField), structFields env tt = .ok fields →
        NewStructEncoder env F tt tv = .ok e →
        (∀ g ∈ e.instructions, g.kind ≠ KindOmit → g.sub = []) ∧
          (∀ g ∈ e.instructions, g.kind = KindOmit →
            EndsStatic g.sub ∧
            ∀ b ∈ g.sub, b.kind ≠ KindOmit ∧ b.sub = [] ∧
              (b.kind = kindStatic ∨ b.kind = kindStringField ∨ b.kind = kindInt ∨
                b.leapFun ≠ none ∨ b.fn ≠ none) ∧
              ∀ (rec : List instruction → Value → Bytes → Option Bytes)
                (self : List instruction) (p : Value) (w : Bytes),
                execSub rec self p w b = exec rec self p w b) ∧
          List.Forall₂ Guards (omitGroups e.instructions) (omitFields fields 0) ∧
          List.Forall₂ (fun g k => g.isZero ≠ none → g.offset = k)
            (omitGroups e.instructions) (omitFields fields 0) ∧
          ((∀ f ∈ fields, f.supported = true) →
            List.Forall₂ (fun g k => g.offset = k)
              (omitGroups e.instructions) (omitFields fields 0))) ∧
      omitFields (envGroups 1) 0 = [1, 2] ∧
      (omitGroups (compiled (NewStructEncoder envGroups 1 (.struct 1) .zero)).instructions).map
          (fun g => (g.offset, g.isZero.isSome, planOutline g.sub))
        = [(1, true, [(kindStatic, bs "\"b\":"), (kindNormal, []), (kindStatic, bs ",")]),
          (2, true, [(kindStatic, bs "\"s\":\""), (kindStringField, []),
            (kindStatic, bs "\"")])] := by
  refine ⟨by decide, by decide, by decide, ?_, ?_, ?_, by decide, by decide⟩
  · intro h
    have h1 := forall₂_offset _ _ h
    have h2 : (omitGroups (compiled (NewStructEncoder envGroups 1 (.struct 0)
        .zero)).instructions).map (fun g => g.offset) = [0] := by decide
    have h3 : omitFields (envGroups 0) 0 = [1] := by decide
    rw [h2, h3] at h1
    exact absurd h1 (by decide)
  · intro M p w
    cases M with
    | zero => rfl
    | succ M =>
      have hp : (compiled (NewStructEncoder envGroups 1 (.struct 0) .zero)).instructions
          = [staticInstr (bs "\x7b\"a\":"), .mk [] [] kindInt 0 none none none,
            .mk (bs ",") [staticInstr (bs "\"p\":")] KindOmit 0 none (some .trimComma) none,
            staticInstr (bs "\x7d")] := rfl
      rw [hp]
      simp only [Marshal, List.foldlM_cons, exec, staticInstr, instruction.kind_mk,
        instruction.static_mk, instruction.offset_mk, instruction.leapFun_mk,
        instruction.isZero_mk, if_true, Option.bind_eq_bind, Option.some_bind,
        (by decide : ¬ kindInt = kindStatic), (by decide : ¬ kindInt = kindStringField),
        (by decide : ¬ KindOmit = kindStatic), (by decide : ¬ KindOmit = kindStringField),
        (by decide : ¬ KindOmit = kindInt), if_false]
      cases (leap p 0).bind (Conv.ptrIntToBuf.run · (w ++ bs "\x7b\"a\":")) with
      | none => rfl
      | some w1 => rfl
  · intro env F tt tv e fields hf hc
    exact omit_groups_structure env F tt tv e fields hf hc

end Jingo
